import Mathlib

/-!
A shallow embedding of the Lua parser of package `ast`

The development follows the Go sources `ast.go`, `expr.go`, `stmt.go`,
`parse.go` and `parse_expr.go`.

* Go interface values of the `Node` family (`Stmt`, `Expr`) become the single
  inductive type `Node`; the nil interface value is the constructor `Node.nil`.
* Go slices become lists; a nil slice and an empty slice are both `[]`.
* The parser mutates a lexer; here every parsing function takes the lexer
  state and returns the new one.
* A Go `panic` becomes `Except.error`.  Recursion is bounded by a fuel
  argument: every call of a parsing function and every loop iteration uses
  one unit, and `Err.outOfFuel` is the only outcome that is not a behaviour
  of the Go program.
-/

set_option maxRecDepth 100000
set_option maxHeartbeats 4000000

namespace ast

/-! ## Token source -/

/-- Modelled from the spec: the token kinds named by the parser (`tknIf`,
`tknName`, ...). The constants are declared in the lexer source, which is not
part of the sources at hand; only their pairwise distinctness is used. -/
inductive tkn where
  | tknINVALID | tknUnnecessary | tknIf | tknThen | tknElse | tknElseif | tknEnd
  | tknComment | tknWhile | tknDo | tknFor | tknName | tknSet | tknSeperator
  | tknIn | tknRepeat | tknUntil | tknFunction | tknLocal | tknDblColon
  | tknReturn | tknBreak | tknContinue | tknGoto | tknOParen | tknCParen
  | tknOIndex | tknCIndex | tknDot | tknColon | tknOBracket | tknCBracket
  | tknString | tknVariadic | tknTrue | tknFalse | tknNil | tknInt | tknFloat
  | tknAnd | tknOr | tknAdd | tknSub | tknMul | tknDiv | tknIDiv | tknMod
  | tknPow | tknEQ | tknGT | tknGE | tknLT | tknLE | tknNE | tknShiftL
  | tknShiftR | tknBXOr | tknBOr | tknBAnd | tknConcat | tknNot | tknLen
  deriving DecidableEq, Repr

open tkn

/-- Modelled from the spec: a token as the parser reads it, with its kind
(`Type` in the Go source, a reserved word here), its lexeme and its line. -/
structure token where
  Lexeme : String
  Typ : tkn
  Line : Int
  deriving DecidableEq, Repr

/-- Modelled from the spec: the token the stream reports once it is exhausted
(the end marker `tknINVALID`). -/
def eofToken : token := ⟨"", tknINVALID, 0⟩

/-- Modelled from the spec: the token source of section 4.1, a current token
and the tokens still to come; `look` and `exlook` are the first and second
of these. -/
structure lexer where
  current : token
  toks : List token
  deriving DecidableEq, Repr

/-- Modelled from the spec: the one-token lookahead. -/
def lexer.look (l : lexer) : token := l.toks.headD eofToken

/-- Modelled from the spec: the second lookahead. -/
def lexer.exlook (l : lexer) : token := l.toks.tail.headD eofToken

/-- Modelled from the spec: "unconditionally advance"; the lookahead becomes
the current token. -/
def lexer.advance (l : lexer) : lexer := ⟨l.look, l.toks.tail⟩

/-- Modelled from the spec: "is lookahead one of {kinds}?" (non-consuming). -/
def lexer.checkLook (l : lexer) (tokenTypes : List tkn) : Bool :=
  tokenTypes.contains l.look.Typ

/-- The outcomes of a parsing function other than a result. -/
inductive Err where
  /-- the structured parse error raised when an expected token is not found -/
  | tokenExpected (got : token) (want : List tkn)
  /-- any other Go panic -/
  | panic (msg : String)
  /-- the fuel of the embedding ran out; not a behaviour of the Go code -/
  | outOfFuel
  deriving DecidableEq, Repr

/-- Modelled from the spec: "consume expecting one of {kinds}, else fail",
recording the consumed token as current. -/
def lexer.getCurrent (l : lexer) (tokenTypes : List tkn) : Except Err lexer :=
  let l1 := l.advance
  if tokenTypes.contains l1.current.Typ then .ok l1
  else .error (.tokenExpected l1.current tokenTypes)

/-- Modelled from the spec: the token source at the start of a parse. The
lexer proper turns source text into tokens; here the tokens are given. -/
def newLexer (toks : List token) (line : Int) : lexer := ⟨⟨"", tknINVALID, line⟩, toks⟩

/-! ## AST node model (`ast.go`, `expr.go`, `stmt.go`) -/

/-- The kind discriminants of `ast.go`, in `iota` order. -/
inductive NodeKind where
  | ErrNode | AssignNode | DoBlockNode | IfNode | WhileNode | RepeatNode
  | ForNumericNode | ForGenericNode | GotoNode | LabelNode | ReturnNode
  | OpNode | FuncCallNode | FuncDeclNode | TableConstructorNode
  | TableAccessorNode | ParensNode | ConstIntNode | ConstFloatNode
  | ConstStringNode | ConstIdentNode | ConstBoolNode | ConstNilNode
  | ConstVariadicNode
  deriving DecidableEq, Repr

open NodeKind

/-- The struct `nodeBase`; the defaults are Go's zero values. -/
structure nodeBase where
  Kind : NodeKind := ErrNode
  Line : Int := 0
  deriving DecidableEq, Repr

/-- The type `opTyp` is a Go `int`. -/
abbrev opTyp := Nat

abbrev OpAdd : opTyp := 0
abbrev OpSub : opTyp := 1
abbrev OpMul : opTyp := 2
abbrev OpMod : opTyp := 3
abbrev OpPow : opTyp := 4
abbrev OpDiv : opTyp := 5
abbrev OpIDiv : opTyp := 6
abbrev OpBinAND : opTyp := 7
abbrev OpBinOR : opTyp := 8
abbrev OpBinXOR : opTyp := 9
abbrev OpBinShiftL : opTyp := 10
abbrev OpBinShiftR : opTyp := 11
abbrev OpUMinus : opTyp := 12
abbrev OpBinNot : opTyp := 13
abbrev OpNot : opTyp := 14
abbrev OpLength : opTyp := 15
abbrev OpConcat : opTyp := 16
abbrev OpEqual : opTyp := 17
abbrev OpNotEqual : opTyp := 18
abbrev OpLessThan : opTyp := 19
abbrev OpGreaterThan : opTyp := 20
abbrev OpLessOrEqual : opTyp := 21
abbrev OpGreaterOrEqual : opTyp := 22
abbrev OpAnd : opTyp := 23
abbrev OpOr : opTyp := 24

/-- The operator constants of `expr.go`, in `iota` order. -/
def opTypConstants : List opTyp :=
  [OpAdd, OpSub, OpMul, OpMod, OpPow, OpDiv, OpIDiv, OpBinAND, OpBinOR, OpBinXOR,
   OpBinShiftL, OpBinShiftR, OpUMinus, OpBinNot, OpNot, OpLength, OpConcat,
   OpEqual, OpNotEqual, OpLessThan, OpGreaterThan, OpLessOrEqual, OpGreaterOrEqual,
   OpAnd, OpOr]

/-- The values of the interfaces `Node`, `Stmt` and `Expr`: the nil interface
or a pointer to one of the node structs of `stmt.go` and `expr.go`. -/
inductive Node where
  | nil
  | Assign (base : nodeBase) (LocalDecl LocalFunc : Bool) (Targets Values : List Node)
  | DoBlock (base : nodeBase) (Block : List Node)
  | If (base : nodeBase) (Cond : Node) (Then Else : List Node)
  | WhileLoop (base : nodeBase) (Cond : Node) (Block : List Node)
  | RepeatUntilLoop (base : nodeBase) (Cond : Node) (Block : List Node)
  | ForLoopNumeric (base : nodeBase) (Counter : String) (Init Limit Step : Node)
      (Block : List Node)
  | ForLoopGeneric (base : nodeBase) (Locals : List String) (Init : List Node)
      (Block : List Node)
  | Goto (base : nodeBase) (IsBreak IsContinue : Bool) (Label : String)
  | Label (base : nodeBase) (Label : String)
  | Return (base : nodeBase) (Items : List Node)
  | Comment (base : nodeBase) (Text : String)
  | Operator (base : nodeBase) (Op : opTyp) (Left Right : Node)
  | FuncCall (base : nodeBase) (Receiver Function : Node) (Args : List Node)
  | FuncDecl (base : nodeBase) (Params : List String) (IsVariadic : Bool)
      (Source : String) (Block : List Node)
  | TableConstructor (base : nodeBase) (Keys Vals : List Node)
  | TableAccessor (base : nodeBase) (Obj Key : Node)
  | Parens (base : nodeBase) (Inner : Node)
  | ConstInt (base : nodeBase) (Value : String)
  | ConstFloat (base : nodeBase) (Value : String)
  | ConstString (base : nodeBase) (Value : String)
  | ConstIdent (base : nodeBase) (Value : String)
  | ConstBool (base : nodeBase) (Value : Bool)
  | ConstNil (base : nodeBase)
  | ConstVariadic (base : nodeBase)
  deriving Repr, Inhabited

/-- The methods `setKind` and `setLine` of `nodeBase`, as one update of the
embedded base (a nil receiver is left alone). -/
def Node.setBase (b : nodeBase) : Node → Node
  | .nil => .nil
  | .Assign _ ld lf ts vs => .Assign b ld lf ts vs
  | .DoBlock _ blk => .DoBlock b blk
  | .If _ c t e => .If b c t e
  | .WhileLoop _ c blk => .WhileLoop b c blk
  | .RepeatUntilLoop _ c blk => .RepeatUntilLoop b c blk
  | .ForLoopNumeric _ cn i l s blk => .ForLoopNumeric b cn i l s blk
  | .ForLoopGeneric _ ls i blk => .ForLoopGeneric b ls i blk
  | .Goto _ ib ic lbl => .Goto b ib ic lbl
  | .Label _ lbl => .Label b lbl
  | .Return _ items => .Return b items
  | .Comment _ t => .Comment b t
  | .Operator _ op l r => .Operator b op l r
  | .FuncCall _ r f args => .FuncCall b r f args
  | .FuncDecl _ ps v src blk => .FuncDecl b ps v src blk
  | .TableConstructor _ ks vs => .TableConstructor b ks vs
  | .TableAccessor _ o k => .TableAccessor b o k
  | .Parens _ i => .Parens b i
  | .ConstInt _ v => .ConstInt b v
  | .ConstFloat _ v => .ConstFloat b v
  | .ConstString _ v => .ConstString b v
  | .ConstIdent _ v => .ConstIdent b v
  | .ConstBool _ v => .ConstBool b v
  | .ConstNil _ => .ConstNil b
  | .ConstVariadic _ => .ConstVariadic b

/-- The function `stmtInfo` of `ast.go`: the kind comes from the type
switch (no case matches a `Comment` or a `FuncCall`, which leaves the zero
kind), then kind and line are stored. `parse.go` also passes a column, for
which `nodeBase` has no field. -/
def stmtInfo (n : Node) (line : Int) : Node :=
  let k : NodeKind :=
    match n with
    | .Assign .. => AssignNode
    | .DoBlock .. => DoBlockNode
    | .If .. => IfNode
    | .WhileLoop .. => WhileNode
    | .RepeatUntilLoop .. => RepeatNode
    | .ForLoopGeneric .. => ForGenericNode
    | .ForLoopNumeric .. => ForNumericNode
    | .Goto .. => GotoNode
    | .Label .. => LabelNode
    | .Return .. => ReturnNode
    | _ => ErrNode
  n.setBase ⟨k, line⟩

/-- The function `exprInfo` of `ast.go`. -/
def exprInfo (n : Node) (line : Int) : Node :=
  let k : NodeKind :=
    match n with
    | .FuncDecl .. => FuncDeclNode
    | .FuncCall .. => FuncCallNode
    | .Operator .. => OpNode
    | .Parens .. => ParensNode
    | .TableConstructor .. => TableConstructorNode
    | .TableAccessor .. => TableAccessorNode
    | .ConstInt .. => ConstIntNode
    | .ConstFloat .. => ConstFloatNode
    | .ConstBool .. => ConstBoolNode
    | .ConstNil .. => ConstNilNode
    | .ConstString .. => ConstStringNode
    | .ConstVariadic .. => ConstVariadicNode
    | .ConstIdent .. => ConstIdentNode
    | _ => ErrNode
  n.setBase ⟨k, line⟩

/-! ## Operator tables (`parse_expr.go`) -/

/-- One entry of the table `priorities`. -/
structure priority where
  left : Nat
  right : Nat
  deriving DecidableEq, Repr

/-- The table `priorities`, indexed by `opTyp`. -/
def priorities : List priority :=
  [⟨10, 10⟩, -- OpAdd
   ⟨10, 10⟩, -- OpSub
   ⟨11, 11⟩, -- OpMul
   ⟨11, 11⟩, -- OpMod
   ⟨14, 13⟩, -- OpPow (right associative)
   ⟨11, 11⟩, -- OpDiv
   ⟨11, 11⟩, -- OpIDiv
   ⟨6, 6⟩, -- OpBinAND
   ⟨4, 4⟩, -- OpBinOR
   ⟨5, 5⟩, -- OpBinXOR
   ⟨7, 7⟩, -- OpBinShiftL
   ⟨7, 7⟩, -- OpBinShiftR
   ⟨12, 12⟩, -- OpUMinus
   ⟨12, 12⟩, -- OpBinNot
   ⟨12, 12⟩, -- OpNot
   ⟨12, 12⟩, -- OpLength
   ⟨9, 8⟩, -- OpConcat (right associative)
   ⟨3, 3⟩, -- OpEqual
   ⟨3, 3⟩, -- OpNotEqual
   ⟨3, 3⟩, -- OpLessThan
   ⟨3, 3⟩, -- OpGreaterThan
   ⟨3, 3⟩, -- OpLessOrEqual
   ⟨3, 3⟩, -- OpGreaterOrEqual
   ⟨2, 2⟩, -- OpAnd
   ⟨1, 1⟩] -- OpOr

/-- The map `tknToBinOp`; `none` is the "not present" result of the lookup. -/
def tknToBinOp : tkn → Option opTyp
  | tknAnd => some OpAnd
  | tknOr => some OpOr
  | tknAdd => some OpAdd
  | tknSub => some OpSub
  | tknMul => some OpMul
  | tknDiv => some OpDiv
  | tknIDiv => some OpIDiv
  | tknMod => some OpMod
  | tknPow => some OpPow
  | tknEQ => some OpEqual
  | tknGT => some OpGreaterThan
  | tknGE => some OpGreaterOrEqual
  | tknLT => some OpLessThan
  | tknLE => some OpLessOrEqual
  | tknNE => some OpNotEqual
  | tknShiftL => some OpBinShiftL
  | tknShiftR => some OpBinShiftR
  | tknBXOr => some OpBinXOR
  | tknBOr => some OpBinOR
  | tknBAnd => some OpBinAND
  | tknConcat => some OpConcat
  | _ => none

/-- The map `tknToUnOp`. -/
def tknToUnOp : tkn → Option opTyp
  | tknSub => some OpUMinus
  | tknBXOr => some OpBinNot
  | tknNot => some OpNot
  | tknLen => some OpLength
  | _ => none

/-! ## The parser (`parse.go`, `parse_expr.go`) -/

/-- A parsing function returns a result and the lexer state after it, or fails. -/
abbrev Parsed (α : Type) : Type := α × lexer

/-- The parameter loop of `funcDeclBody`; the flag is `variadic`. -/
def funcDeclParams : Nat → List String → lexer → Except Err (Parsed (List String × Bool))
  | 0, _, _ => .error .outOfFuel
  | n + 1, params, l =>
    if l.checkLook [tknName, tknVariadic] then
      if l.checkLook [tknVariadic] then do
        let l ← l.getCurrent [tknVariadic]
        pure ((params, true), l)
      else do
        let l ← l.getCurrent [tknName]
        let params := params ++ [l.current.Lexeme]
        if !l.checkLook [tknSeperator] then pure ((params, false), l)
        else do
          let l ← l.getCurrent [tknSeperator]
          let l ← (if !l.checkLook [tknName, tknVariadic] then
            l.getCurrent [tknName, tknVariadic] -- Error message
            else pure l)
          funcDeclParams n params l
    else pure ((params, false), l)

/-- The name loop of the generic `for` in `statement`. -/
def forLocals : Nat → List String → lexer → Except Err (Parsed (List String))
  | 0, _, _ => .error .outOfFuel
  | n + 1, locals, l =>
    let locals := locals ++ [l.current.Lexeme]
    if !l.checkLook [tknSeperator] then pure (locals, l)
    else do
      let l ← l.getCurrent [tknSeperator]
      let l ← l.getCurrent [tknName]
      forLocals n locals l

/-- The target loop of the `local` case of `statement`. -/
def localTargets : Nat → List Node → lexer → Except Err (Parsed (List Node))
  | 0, _, _ => .error .outOfFuel
  | n + 1, targets, l =>
    if !l.checkLook [tknSet] then do
      let l ← l.getCurrent [tknName]
      let targets := targets ++ [exprInfo (.ConstIdent {} l.current.Lexeme) l.current.Line]
      if !l.checkLook [tknSeperator] then pure (targets, l)
      else do
        let l ← l.getCurrent [tknSeperator]
        localTargets n targets l
    else pure (targets, l)

/-- Assignment `x.(*If).Then = then` on an If node. -/
def setThen : Node → List Node → Node
  | .If b c _ e, t => .If b c t e
  | n, _ => n

/-- Assignment `x.(*If).Else = els` on an If node. -/
def setElse : Node → List Node → Node
  | .If b c t _, els => .If b c t els
  | n, _ => n

/-- Assignment `node.(*If).Else = els` through the pointer `node` of the `if`
case of `statement`: `node` is the If reached from the root `rnode` by
following the single Else statement `depth` times. -/
def setElseAt : Nat → Node → List Node → Node
  | 0, n, els => setElse n els
  | d + 1, .If b c t [e], els => .If b c t [setElseAt d e els]
  | _ + 1, n, _ => n

mutual

/-- The method `ident`: a sequence of identifiers and indexing operations. -/
def ident : Nat → lexer → Except Err (Parsed Node)
  | 0, _ => .error .outOfFuel
  | n + 1, l => do
    let l ← l.getCurrent [tknName]
    identLoop n (exprInfo (.ConstIdent {} l.current.Lexeme) l.current.Line) l

/-- The loop of `ident`. -/
def identLoop : Nat → Node → lexer → Except Err (Parsed Node)
  | 0, _, _ => .error .outOfFuel
  | n + 1, id, l =>
    if l.checkLook [tknOIndex, tknDot] then
      match l.look.Typ with
      | tknOIndex => do -- [expr]
        let l ← l.getCurrent [tknOIndex]
        let line := l.current.Line
        let (key, l) ← expression n l
        let id := exprInfo (.TableAccessor {} id key) line
        let l ← l.getCurrent [tknCIndex]
        identLoop n id l
      | tknDot => do -- .ident
        let l ← l.getCurrent [tknDot]
        let line := l.current.Line
        let l ← l.getCurrent [tknName]
        let id := exprInfo (.TableAccessor {} id
          (exprInfo (.ConstString {} l.current.Lexeme) l.current.Line)) line
        identLoop n id l
      | _ => .error (.panic "IMPOSSIBLE")
    else pure (id, l)

/-- The method `funcCall`: the name must be already read. -/
def funcCall : Nat → Node → lexer → Except Err (Parsed Node)
  | 0, _, _ => .error .outOfFuel
  | n + 1, id, l => do
    let line := l.current.Line
    let ((r, f), l) ← (if l.checkLook [tknColon] then do
        let l ← l.getCurrent [tknColon]
        let l ← l.getCurrent [tknName]
        pure ((id, exprInfo (.ConstString {} l.current.Lexeme) l.current.Line), l)
      else pure ((Node.nil, id), l) : Except Err (Parsed (Node × Node)))
    let (args, l) ← (match l.look.Typ with
      | tknOBracket => do
        let (t, l) ← tblConstruct n l
        pure ([t], l)
      | tknString => do
        let l ← l.getCurrent [tknString]
        pure ([exprInfo (.ConstString {} l.current.Lexeme) l.current.Line], l)
      | tknOParen => do
        let l ← l.getCurrent [tknOParen]
        let (args, l) ← funcCallArgs n [] l
        let l ← l.getCurrent [tknCParen]
        pure (args, l)
      | _ => do
        let l ← l.getCurrent [tknOBracket, tknString, tknOParen] -- For the error message
        pure ([], l) : Except Err (Parsed (List Node)))
    pure (exprInfo (.FuncCall {} r f args) line, l)

/-- The argument loop of `funcCall`. -/
def funcCallArgs : Nat → List Node → lexer → Except Err (Parsed (List Node))
  | 0, _, _ => .error .outOfFuel
  | n + 1, args, l =>
    if !l.checkLook [tknCParen] then do
      let (e, l) ← expression n l
      let args := args ++ [e]
      if !l.checkLook [tknSeperator] then pure (args, l)
      else do
        let l ← l.getCurrent [tknSeperator]
        funcCallArgs n args l
    else pure (args, l)

/-- The method `funcDeclBody`: parameters and block of a function. -/
def funcDeclBody : Nat → Bool → lexer → Except Err (Parsed Node)
  | 0, _, _ => .error .outOfFuel
  | n + 1, hasSelf, l => do
    -- Read Parameters
    let l ← l.getCurrent [tknOParen]
    let line := l.current.Line
    let params : List String := if hasSelf then ["self"] else []
    let ((params, variadic), l) ← funcDeclParams n params l
    let l ← l.getCurrent [tknCParen]
    -- Read Block
    let (blk, l) ← block n [tknEnd] l
    pure (exprInfo (.FuncDecl {} params variadic "" blk) line, l)

/-- The method `tblConstruct`. -/
def tblConstruct : Nat → lexer → Except Err (Parsed Node)
  | 0, _ => .error .outOfFuel
  | n + 1, l => do
    let l ← l.getCurrent [tknOBracket]
    let line := l.current.Line
    let ((keys, vals), l) ← tblConstructLoop n [] [] l
    let l ← l.getCurrent [tknCBracket]
    pure (exprInfo (.TableConstructor {} keys vals) line, l)

/-- The entry loop of `tblConstruct`. -/
def tblConstructLoop : Nat → List Node → List Node → lexer → Except Err (Parsed (List Node × List Node))
  | 0, _, _, _ => .error .outOfFuel
  | n + 1, keys, vals, l =>
    if !l.checkLook [tknCBracket] then do
      let (keys, l) ← (match l.look.Typ with
        | tknName =>
          if l.exlook.Typ ≠ tknSet then pure (keys ++ [Node.nil], l)
          else do
            let l ← l.getCurrent [tknName]
            let keys := keys ++ [exprInfo (.ConstString {} l.current.Lexeme) l.current.Line]
            let l ← l.getCurrent [tknSet]
            pure (keys, l)
        | tknOIndex => do
          let l ← l.getCurrent [tknOIndex]
          let (k, l) ← expression n l
          let keys := keys ++ [k]
          let l ← l.getCurrent [tknCIndex]
          let l ← l.getCurrent [tknSet]
          pure (keys, l)
        | _ => pure (keys ++ [Node.nil], l) : Except Err (Parsed (List Node)))
      let (v, l) ← expression n l
      let vals := vals ++ [v]
      if !l.checkLook [tknSeperator, tknUnnecessary] then pure ((keys, vals), l)
      else do
        let l ← l.getCurrent [tknSeperator, tknUnnecessary]
        tblConstructLoop n keys vals l
    else pure ((keys, vals), l)

/-- The method `expression`. -/
def expression : Nat → lexer → Except Err (Parsed Node)
  | 0, _ => .error .outOfFuel
  | n + 1, l => subexpr n 0 l

/-- The method `subexpr`, up to its loop. -/
def subexpr : Nat → Nat → lexer → Except Err (Parsed Node)
  | 0, _, _ => .error .outOfFuel
  | n + 1, limit, l => do
    let l := if l.look.Typ = tknComment then l.advance else l
    -- Grab the starting left hand side of the expression
    let (e1, l) ← (match tknToUnOp l.look.Typ with
      | some op => do
        let l := l.advance
        let line := l.current.Line
        let (r, l) ← subexpr n 12 l
        pure (exprInfo (.Operator {} op .nil r) line, l)
      | none => value n l : Except Err (Parsed Node))
    let l := if l.look.Typ = tknComment then l.advance else l
    subexprLoop n limit e1 l

/-- The loop of `subexpr`: the old right becomes the new left until nothing
with a priority higher than the limit is found. -/
def subexprLoop : Nat → Nat → Node → lexer → Except Err (Parsed Node)
  | 0, _, _, _ => .error .outOfFuel
  | n + 1, limit, e1, l =>
    match tknToBinOp l.look.Typ with
    | some op =>
      match priorities[op]? with
      | none => .error (.panic "index out of range")
      | some pr =>
        if pr.left > limit then do
          let l := l.advance
          let line := l.current.Line
          let (r, l) ← subexpr n pr.right l
          subexprLoop n limit (exprInfo (.Operator {} op e1 r) line) l
        else pure (e1, l)
    | none => pure (e1, l)

/-- The method `value`. -/
def value : Nat → lexer → Except Err (Parsed Node)
  | 0, _ => .error .outOfFuel
  | n + 1, l =>
    match l.look.Typ with
    | tknOBracket => tblConstruct n l
    | tknFunction => do
      let l ← l.getCurrent [tknFunction]
      funcDeclBody n false l
    | tknTrue => do
      let l ← l.getCurrent [tknTrue]
      pure (exprInfo (.ConstBool {} true) l.current.Line, l)
    | tknFalse => do
      let l ← l.getCurrent [tknFalse]
      pure (exprInfo (.ConstBool {} false) l.current.Line, l)
    | tknNil => do
      let l ← l.getCurrent [tknNil]
      pure (exprInfo (.ConstNil {}) l.current.Line, l)
    | tknVariadic => do
      let l ← l.getCurrent [tknVariadic]
      pure (exprInfo (.ConstVariadic {}) l.current.Line, l)
    | tknInt => do
      let l ← l.getCurrent [tknInt]
      pure (exprInfo (.ConstInt {} l.current.Lexeme) l.current.Line, l)
    | tknFloat => do
      let l ← l.getCurrent [tknFloat]
      pure (exprInfo (.ConstFloat {} l.current.Lexeme) l.current.Line, l)
    | tknString => do
      let l ← l.getCurrent [tknString]
      pure (exprInfo (.ConstString {} l.current.Lexeme) l.current.Line, l)
    | tknComment => do
      let l ← l.getCurrent [tknComment]
      pure (exprInfo (.Comment {} l.current.Lexeme) l.current.Line, l)
    | _ => suffixedValue n l

/-- The method `suffixedValue`. -/
def suffixedValue : Nat → lexer → Except Err (Parsed Node)
  | 0, _ => .error .outOfFuel
  | n + 1, l => do
    let (v, l) ← primaryValue n l
    suffixedValueLoop n v l

/-- The suffix loop of `suffixedValue`. -/
def suffixedValueLoop : Nat → Node → lexer → Except Err (Parsed Node)
  | 0, _, _ => .error .outOfFuel
  | n + 1, v, l =>
    if l.checkLook [tknOIndex, tknDot, tknColon, tknOParen, tknString, tknOBracket] then
      match l.look.Typ with
      | tknOIndex => do -- [expr]
        let l ← l.getCurrent [tknOIndex]
        let line := l.current.Line
        let (key, l) ← expression n l
        let v := exprInfo (.TableAccessor {} v key) line
        let l ← l.getCurrent [tknCIndex]
        suffixedValueLoop n v l
      | tknDot => do -- .ident or .ident() or .ident:ident()
        let l ← l.getCurrent [tknDot]
        let line := l.current.Line
        let l ← l.getCurrent [tknName]
        let acc := exprInfo (.TableAccessor {} v
          (exprInfo (.ConstString {} l.current.Lexeme) l.current.Line)) line
        if l.checkLook [tknColon, tknOParen] then do
          let (v, l) ← funcCall n acc l
          suffixedValueLoop n v l
        else suffixedValueLoop n acc l
      | _ => do
        let (v, l) ← funcCall n v l
        suffixedValueLoop n v l
    else pure (v, l)

/-- The method `primaryValue`. -/
def primaryValue : Nat → lexer → Except Err (Parsed Node)
  | 0, _ => .error .outOfFuel
  | n + 1, l =>
    match l.look.Typ with
    | tknName => do
      let l ← l.getCurrent [tknName]
      pure (exprInfo (.ConstIdent {} l.current.Lexeme) l.current.Line, l)
    | tknOParen => do
      let l ← l.getCurrent [tknOParen]
      let line := l.current.Line
      let (inner, l) ← expression n l
      let v := exprInfo (.Parens {} inner) line
      let l ← l.getCurrent [tknCParen]
      pure (v, l)
    | _ => do
      let _ ← l.getCurrent [tknName, tknOParen]
      .error (.panic "UNREACHABLE")

/-- The method `funcDeclStat`: a function declaration is exploded into an
explicit assignment statement. -/
def funcDeclStat : Nat → Bool → lexer → Except Err (Parsed Node)
  | 0, _, _ => .error .outOfFuel
  | n + 1, isLocal, l => do
    let l ← l.getCurrent [tknFunction]
    let line := l.current.Line
    -- Read Name
    let ((id, hasSelf), l) ← (if isLocal then do
        let l ← l.getCurrent [tknName]
        pure ((exprInfo (.ConstIdent {} l.current.Lexeme) l.current.Line, false), l)
      else do
        let (id, l) ← ident n l
        if l.checkLook [tknColon] then do
          let l ← l.getCurrent [tknColon]
          let line := l.current.Line
          let l ← l.getCurrent [tknName]
          pure ((exprInfo (.TableAccessor {} id
            (exprInfo (.ConstString {} l.current.Lexeme) l.current.Line)) line, true), l)
        else pure ((id, false), l) : Except Err (Parsed (Node × Bool)))
    -- Read Parameters and Block
    let (fn, l) ← funcDeclBody n hasSelf l
    pure (stmtInfo (.Assign {} false isLocal [id] [fn]) line, l)

/-- The method `block`: the block opener must have already been read. -/
def block : Nat → List tkn → lexer → Except Err (Parsed (List Node))
  | 0, _, _ => .error .outOfFuel
  | n + 1, enders, l => do
    let (rtn, l) ← blockLoop n enders [] l
    let l ← l.getCurrent enders
    pure (rtn, l)

/-- The statement loop of `block`. -/
def blockLoop : Nat → List tkn → List Node → lexer → Except Err (Parsed (List Node))
  | 0, _, _, _ => .error .outOfFuel
  | n + 1, enders, rtn, l =>
    if !l.checkLook (enders ++ [tknINVALID]) then do
      let (s, l) ← statement n l
      blockLoop n enders (rtn ++ [s]) l
    else pure (rtn, l)

/-- The `elseif`/`else` loop of the `if` case of `statement`; `rnode` is the
first If built and the pointer `node` is the If at `depth` below it. -/
def ifLoop : Nat → Node → Nat → lexer → Except Err (Parsed Node)
  | 0, _, _, _ => .error .outOfFuel
  | n + 1, rnode, depth, l =>
    match l.current.Typ with
    | tknElse => do
      let (els, l) ← block n [tknEnd] l
      pure (setElseAt depth rnode els, l)
    | tknElseif => do
      let line := l.current.Line
      let (cond, l) ← expression n l
      let node := stmtInfo (.If {} cond [] []) line
      let l ← l.getCurrent [tknThen]
      let (thn, l) ← block n [tknElse, tknElseif, tknEnd] l
      let node := setThen node thn
      ifLoop n (setElseAt depth rnode [node]) (depth + 1) l
    | tknEnd => pure (rnode, l)
    | _ => .error (.panic "IMPOSSIBLE")

/-- The expression loop of the generic `for` in `statement`. -/
def forInit : Nat → List Node → lexer → Except Err (Parsed (List Node))
  | 0, _, _ => .error .outOfFuel
  | n + 1, init, l => do
    let (e, l) ← expression n l
    let init := init ++ [e]
    if !l.checkLook [tknSeperator] then pure (init, l)
    else do
      let l ← l.getCurrent [tknSeperator]
      forInit n init l

/-- The loop `for p.l.checkLook(tknSeperator)` that reads further values, in
the `local` and default cases of `statement`. -/
def valuesLoop : Nat → List Node → lexer → Except Err (Parsed (List Node))
  | 0, _, _ => .error .outOfFuel
  | n + 1, vals, l =>
    if l.checkLook [tknSeperator] then do
      let l ← l.getCurrent [tknSeperator]
      let (e, l) ← expression n l
      valuesLoop n (vals ++ [e]) l
    else pure (vals, l)

/-- The item loop of the `return` case of `statement`. -/
def returnItems : Nat → List Node → lexer → Except Err (Parsed (List Node))
  | 0, _, _ => .error .outOfFuel
  | n + 1, items, l =>
    if !l.checkLook [tknEnd, tknElse, tknElseif, tknUntil, tknUnnecessary, tknINVALID] then do
      let (e, l) ← expression n l
      let items := items ++ [e]
      if !l.checkLook [tknSeperator] then pure (items, l)
      else do
        let l ← l.getCurrent [tknSeperator]
        returnItems n items l
    else pure (items, l)

/-- The loop that reads further targets in the default case of `statement`. -/
def targetsLoop : Nat → List Node → lexer → Except Err (Parsed (List Node))
  | 0, _, _ => .error .outOfFuel
  | n + 1, targets, l =>
    if l.checkLook [tknSeperator] then do
      let l ← l.getCurrent [tknSeperator]
      let (t, l) ← suffixedValue n l
      targetsLoop n (targets ++ [t]) l
    else pure (targets, l)

/-- The method `statement`. -/
def statement : Nat → lexer → Except Err (Parsed Node)
  | 0, _ => .error .outOfFuel
  | n + 1, l =>
    match l.look.Typ with
    | tknUnnecessary => do -- ;
      let l ← l.getCurrent [tknUnnecessary]
      pure (stmtInfo (.DoBlock {} []) l.current.Line, l)
    | tknIf => do
      let l ← l.getCurrent [tknIf]
      let line := l.current.Line
      let (cond, l) ← expression n l
      let node := stmtInfo (.If {} cond [] []) line
      let l ← l.getCurrent [tknThen]
      let (thn, l) ← block n [tknElse, tknElseif, tknEnd] l
      let node := setThen node thn
      ifLoop n node 0 l
    | tknComment => do
      let l ← l.getCurrent [tknComment]
      pure (stmtInfo (.Comment {} l.current.Lexeme) l.current.Line, l)
    | tknWhile => do
      let l ← l.getCurrent [tknWhile]
      let line := l.current.Line
      let (cond, l) ← expression n l
      let l ← l.getCurrent [tknDo]
      let (blk, l) ← block n [tknEnd] l
      pure (stmtInfo (.WhileLoop {} cond blk) line, l)
    | tknDo => do
      let l ← l.getCurrent [tknDo]
      let line := l.current.Line
      let (rtn, l) ← block n [tknEnd] l
      pure (stmtInfo (.DoBlock {} rtn) line, l)
    | tknFor => do
      let l ← l.getCurrent [tknFor]
      let line := l.current.Line
      let l ← l.getCurrent [tknName]
      let numeric := l.checkLook [tknSet]
      if numeric then do
        -- Numeric: var = a, b, c
        let counter := l.current.Lexeme
        let l ← l.getCurrent [tknSet]
        let (i, l) ← expression n l
        let l ← l.getCurrent [tknSeperator]
        let (lim, l) ← expression n l
        let (s, l) ← (if l.checkLook [tknSeperator] then do
            let l ← l.getCurrent [tknSeperator]
            expression n l
          else pure (exprInfo (.ConstInt {} "1") l.current.Line, l) : Except Err (Parsed Node))
        let l ← l.getCurrent [tknDo]
        let (blk, l) ← block n [tknEnd] l
        pure (stmtInfo (.ForLoopNumeric {} counter i lim s blk) line, l)
      else do
        -- Generic: <vars...> in <expr | expr, expr, expr>
        let (locals, l) ← forLocals n [] l
        let l ← l.getCurrent [tknIn]
        let (init, l) ← forInit n [] l
        let l ← l.getCurrent [tknDo]
        let (blk, l) ← block n [tknEnd] l
        pure (stmtInfo (.ForLoopGeneric {} locals init blk) line, l)
    | tknRepeat => do
      let l ← l.getCurrent [tknRepeat]
      let line := l.current.Line
      let (blk, l) ← block n [tknUntil] l
      let (cond, l) ← expression n l
      pure (stmtInfo (.RepeatUntilLoop {} cond blk) line, l)
    | tknFunction => funcDeclStat n false l
    | tknLocal => do
      let l ← l.getCurrent [tknLocal]
      let line := l.current.Line
      if l.checkLook [tknFunction] then funcDeclStat n true l
      else do
        let (targets, l) ← localTargets n [] l
        let (vals, l) ← (if l.checkLook [tknSet] then do
            let l ← l.getCurrent [tknSet]
            let (e, l) ← expression n l
            valuesLoop n [e] l
          else pure ([], l) : Except Err (Parsed (List Node)))
        pure (stmtInfo (.Assign {} true false targets vals) line, l)
    | tknDblColon => do
      let l ← l.getCurrent [tknDblColon]
      let line := l.current.Line
      let l ← l.getCurrent [tknName]
      let lbl := l.current.Lexeme
      let l ← l.getCurrent [tknDblColon]
      pure (stmtInfo (.Label {} lbl) line, l)
    | tknReturn => do
      let l ← l.getCurrent [tknReturn]
      let line := l.current.Line
      let (items, l) ← returnItems n [] l
      pure (stmtInfo (.Return {} items) line, l)
    | tknBreak => do
      let l ← l.getCurrent [tknBreak]
      pure (stmtInfo (.Goto {} true false "break") l.current.Line, l)
    | tknContinue => do
      let l ← l.getCurrent [tknContinue]
      pure (stmtInfo (.Goto {} false true "continue") l.current.Line, l)
    | tknGoto => do
      let l ← l.getCurrent [tknGoto]
      let line := l.current.Line
      let l ← l.getCurrent [tknName]
      pure (stmtInfo (.Goto {} false false l.current.Lexeme) line, l)
    | tknOParen => do
      let l ← l.getCurrent [tknOParen]
      let (id, l) ← expression n l
      let l ← l.getCurrent [tknCParen]
      funcCall n id l
    | _ => do
      let (id, l) ← suffixedValue n l
      let line := l.current.Line
      match id with
      | .FuncCall .. => pure (id, l)
      | _ => do
        let (targets, l) ← targetsLoop n [id] l
        let l ← l.getCurrent [tknSet]
        let (e, l) ← expression n l
        let (vals, l) ← valuesLoop n [e] l
        pure (stmtInfo (.Assign {} false false targets vals) line, l)

end

/-- The statement loop of `Parse`: `block` is the named result, which holds
the statements appended so far when a panic is recovered. -/
def ParseLoop : Nat → List Node → lexer → List Node × Option Err
  | 0, block, _ => (block, some .outOfFuel)
  | n + 1, block, l =>
    if !l.checkLook [tknINVALID] then
      match statement n l with
      | .error e => (block, some e)
      | .ok (s, l) => ParseLoop n (block ++ [s]) l
    else (block, none)

/-- The function `Parse`, on the tokens of the source: the named results
`block` and `err`. The deferred function stores the recovered panic in `err`
and leaves `block` as it is. -/
def Parse (fuel : Nat) (toks : List token) (line : Int) : List Node × Option Err :=
  ParseLoop fuel [] (newLexer toks line)

/-! ## Traversal (`ast.go`) -/


/-- The interface `Visitor`. A visitor is a value of type `σ`; a call of its method `Visit`
may have effects, which are passed along as a world of type `γ`, and returns a visitor
or no visitor (`none`, the nil interface). -/
structure Visitor (σ γ : Type) where
  Visit : σ → Node → γ → Option σ × γ

/-- How a call of `Walk` ends: it returns, or it reaches `panic("IMPOSSIBLE")`; the world
reached by the calls of `Visit` made so far is kept in both cases. -/
inductive WalkRes (γ : Type) where
  | done (g : γ)
  | panic (g : γ)
  deriving Repr

/-- Sequencing of two parts of a walk: a panic ends the walk. -/
def WalkRes.bind {γ : Type} (r : WalkRes γ) (k : γ → WalkRes γ) : WalkRes γ :=
  match r with
  | .done g => k g
  | .panic g => .panic g

mutual

/-- `Walk(v, n)` of ast.go. -/
def Walk {σ γ : Type} (V : Visitor σ γ) (v : σ) (n : Node) (g : γ) : WalkRes γ :=
  match V.Visit v n g with
  | (none, g) => .done g
  | (some v, g) =>
    WalkRes.bind
      (match n with
        | .Assign _ _ _ ts vs => (WalkList V v ts g).bind (WalkList V v vs)
        | .DoBlock _ blk => WalkList V v blk g
        | .If _ c t e => ((Walk V v c g).bind (WalkList V v t)).bind (WalkList V v e)
        | .WhileLoop _ c blk => (Walk V v c g).bind (WalkList V v blk)
        | .RepeatUntilLoop _ c blk => (WalkList V v blk g).bind (Walk V v c)
        | .ForLoopNumeric _ _ i lim st blk =>
          (((Walk V v i g).bind (Walk V v lim)).bind (Walk V v st)).bind (WalkList V v blk)
        | .ForLoopGeneric _ _ i blk => (WalkList V v i g).bind (WalkList V v blk)
        | .Goto _ _ _ _ => .done g
        | .Label _ _ => .done g
        | .Return _ items => WalkList V v items g
        | .Operator _ _ l r => (Walk V v l g).bind (Walk V v r)
        | .FuncCall _ r f args =>
          ((match r with
            | .nil => WalkRes.done g
            | r => Walk V v r g).bind (Walk V v f)).bind (WalkList V v args)
        | .FuncDecl _ _ _ _ blk => WalkList V v blk g
        | .TableConstructor _ ks vs => (WalkList V v ks g).bind (WalkList V v vs)
        | .TableAccessor _ o k => (Walk V v o g).bind (Walk V v k)
        | .Parens _ i => Walk V v i g
        | .ConstInt _ _ => .done g
        | .ConstFloat _ _ => .done g
        | .ConstString _ _ => .done g
        | .ConstIdent _ _ => .done g
        | .ConstBool _ _ => .done g
        | .ConstNil _ => .done g
        | .ConstVariadic _ => .done g
        | _ => .panic g)
      (fun g => .done (V.Visit v .nil g).2)

/-- The loops `for _, nnn := range ... { Walk(v, nnn) }` of `Walk`. -/
def WalkList {σ γ : Type} (V : Visitor σ γ) (v : σ) (ns : List Node) (g : γ) : WalkRes γ :=
  match ns with
  | [] => .done g
  | n :: ns => (Walk V v n g).bind (WalkList V v ns)
end

/-- The type `inspector`: a function from nodes to booleans used as a visitor. -/
def inspector {γ : Type} (f : Node → γ → Bool × γ) : Visitor Unit γ where
  Visit := fun _ n g => match f n g with
    | (true, g) => (some (), g)
    | (false, g) => (none, g)

/-- `Inspect(node, f)` of ast.go. -/
def Inspect {γ : Type} (node : Node) (f : Node → γ → Bool × γ) (g : γ) : WalkRes γ :=
  Walk (inspector f) () node g

/-! ## Kind of a node (`ast.go`) -/

/-- The embedded `nodeBase` of a node; the nil interface has none. -/
def Node.base : Node → Option nodeBase
  | .nil => none
  | .Assign b _ _ _ _ => some b
  | .DoBlock b _ => some b
  | .If b _ _ _ => some b
  | .WhileLoop b _ _ => some b
  | .RepeatUntilLoop b _ _ => some b
  | .ForLoopNumeric b _ _ _ _ _ => some b
  | .ForLoopGeneric b _ _ _ => some b
  | .Goto b _ _ _ => some b
  | .Label b _ => some b
  | .Return b _ => some b
  | .Comment b _ => some b
  | .Operator b _ _ _ => some b
  | .FuncCall b _ _ _ => some b
  | .FuncDecl b _ _ _ _ => some b
  | .TableConstructor b _ _ => some b
  | .TableAccessor b _ _ => some b
  | .Parens b _ => some b
  | .ConstInt b _ => some b
  | .ConstFloat b _ => some b
  | .ConstString b _ => some b
  | .ConstIdent b _ => some b
  | .ConstBool b _ => some b
  | .ConstNil b => some b
  | .ConstVariadic b => some b

/-- The method `GetKind` of `nodeBase`; a call on the nil interface has no result. -/
def Node.GetKind (n : Node) : Option NodeKind := n.base.map (·.Kind)

/-- The method `GetLine` of `nodeBase`. -/
def Node.GetLine (n : Node) : Option Int := n.base.map (·.Line)

/-! ## Block helpers (`ast.go`) -/

/-- The built-in `copy(b[d:], b[s:])` between two parts of one slice: as many elements as
the shorter part holds are moved, as if through a buffer. -/
def copyWithin (b : List Node) (d s : Nat) : List Node :=
  let n := min (b.length - d) (b.length - s)
  b.take d ++ ((b.drop s).take n ++ b.drop (d + n))

/-- The helper `insert` of `ast.go`: invalid values for the index cause the statement to be
appended to the end. -/
def insert (b : List Node) (at_ : Int) (s : Node) : List Node :=
  if at_ < 0 ∨ at_ ≥ (b.length : Int) then b ++ [s]
  else
    let b := b ++ [Node.nil]
    let b := copyWithin b (at_.toNat + 1) at_.toNat
    b.set at_.toNat s

/-- The helper `remove` of `ast.go`: invalid values for the index cause the block to be
returned unchanged. -/
def remove (b : List Node) (at_ : Int) : List Node :=
  if at_ < 0 ∨ at_ ≥ (b.length : Int) then b
  else if at_ = (b.length : Int) - 1 then b.take at_.toNat
  else b.take at_.toNat ++ b.drop (at_.toNat + 1)

/-! ## Definitions used to state the properties -/

/-- The token kinds of the one-token operands: the literals and a name. -/
def isLeaf (t : tkn) : Bool :=
  [tknTrue, tknFalse, tknNil, tknVariadic, tknInt, tknFloat, tknString, tknName].contains t

/-- The leaf that `value` builds from a one-token operand. -/
def leafNode (t : token) : Node :=
  match t.Typ with
  | tknTrue => .ConstBool ⟨ConstBoolNode, t.Line⟩ true
  | tknFalse => .ConstBool ⟨ConstBoolNode, t.Line⟩ false
  | tknNil => .ConstNil ⟨ConstNilNode, t.Line⟩
  | tknVariadic => .ConstVariadic ⟨ConstVariadicNode, t.Line⟩
  | tknInt => .ConstInt ⟨ConstIntNode, t.Line⟩ t.Lexeme
  | tknFloat => .ConstFloat ⟨ConstFloatNode, t.Line⟩ t.Lexeme
  | tknString => .ConstString ⟨ConstStringNode, t.Line⟩ t.Lexeme
  | tknName => .ConstIdent ⟨ConstIdentNode, t.Line⟩ t.Lexeme
  | _ => .nil

/-- The token kinds that continue a suffixed value. -/
def isSuffix (t : tkn) : Bool :=
  [tknOIndex, tknDot, tknColon, tknOParen, tknString, tknOBracket].contains t

/-- The statements that `statement` reads one after another from `l`, none of
them at the end marker, and the lexer state after them. -/
inductive StatementsRead : lexer → List Node → lexer → Prop where
  | done (l : lexer) : StatementsRead l [] l
  | step (n : Nat) (l l1 l2 : lexer) (s : Node) (ss : List Node)
      (hlook : l.checkLook [tknINVALID] = false)
      (hs : statement n l = .ok (s, l1)) (hrest : StatementsRead l1 ss l2) :
      StatementsRead l (s :: ss) l2

/-- The written parameter list between `(` and `)`: names separated by
commas, optionally ending in `...`, as the names in source order and the
variadic flag; `none` for any other token sequence. -/
def paramList : List token → Option (List String × Bool)
  | [] => some ([], false)
  | [t] =>
    if t.Typ = tknName then some ([t.Lexeme], false)
    else if t.Typ = tknVariadic then some ([], true)
    else none
  | t :: s :: rest =>
    if t.Typ = tknName ∧ s.Typ = tknSeperator ∧ rest ≠ [] then
      (paramList rest).map fun r => (t.Lexeme :: r.1, r.2)
    else none

/-- The tokens of `function t:m(x) end`. -/
def methodDeclTokens : List token :=
  [⟨"t", tknName, 1⟩, ⟨":", tknColon, 1⟩, ⟨"m", tknName, 1⟩, ⟨"(", tknOParen, 1⟩,
   ⟨"x", tknName, 1⟩, ⟨")", tknCParen, 1⟩, ⟨"end", tknEnd, 1⟩]

/-- The tokens of `(x) end`. -/
def funcBodyTokens : List token :=
  [⟨"(", tknOParen, 1⟩, ⟨"x", tknName, 1⟩, ⟨")", tknCParen, 1⟩, ⟨"end", tknEnd, 1⟩]

/-- One `if` or `elseif` clause as written: the line of its keyword, its
condition and its then-block. -/
abbrev ifClause : Type := Int × Node × List Node

/-- The tree that the data model prescribes for an `elseif` chain: the If of
the first clause, where every If but the last has an Else holding exactly the
If of the next clause, and the last has the Else `els`. -/
def ifChain : ifClause → List ifClause → List Node → Node
  | c, [], els => .If ⟨IfNode, c.1⟩ c.2.1 c.2.2 els
  | c, c1 :: cs, els => .If ⟨IfNode, c.1⟩ c.2.1 c.2.2 [ifChain c1 cs els]

/-- The clauses that follow the first then-block, read in source order:
every `elseif c then B`, then either `else E end` or `end`; the result is
the list of the `elseif` clauses and the else-block (empty without `else`).
The current token is the terminator of the block before. -/
def elseifClauses : Nat → lexer → Except Err (Parsed (List ifClause × List Node))
  | 0, _ => .error .outOfFuel
  | n + 1, l =>
    match l.current.Typ with
    | tknElse => do
      let (els, l) ← block n [tknEnd] l
      pure (([], els), l)
    | tknElseif => do
      let line := l.current.Line
      let (cond, l) ← expression n l
      let l ← l.getCurrent [tknThen]
      let (thn, l) ← block n [tknElse, tknElseif, tknEnd] l
      let ((cs, els), l) ← elseifClauses n l
      pure (((line, cond, thn) :: cs, els), l)
    | tknEnd => pure (([], []), l)
    | _ => .error (.panic "IMPOSSIBLE")

/-- An `if` statement read clause by clause: the first clause, the `elseif`
clauses and the else-block. -/
def ifClauses (n : Nat) (l : lexer) : Except Err (Parsed (ifClause × List ifClause × List Node)) := do
  let l ← l.getCurrent [tknIf]
  let line := l.current.Line
  let (cond, l) ← expression n l
  let l ← l.getCurrent [tknThen]
  let (thn, l) ← block n [tknElse, tknElseif, tknEnd] l
  let ((cs, els), l) ← elseifClauses n l
  pure (((line, cond, thn), cs, els), l)

/-- The tokens of `if a then elseif b then break elseif c then else ; end`. -/
def ifChainTokens : List token :=
  [⟨"if", tknIf, 1⟩, ⟨"a", tknName, 1⟩, ⟨"then", tknThen, 1⟩,
   ⟨"elseif", tknElseif, 2⟩, ⟨"b", tknName, 2⟩, ⟨"then", tknThen, 2⟩, ⟨"break", tknBreak, 2⟩,
   ⟨"elseif", tknElseif, 3⟩, ⟨"c", tknName, 3⟩, ⟨"then", tknThen, 3⟩,
   ⟨"else", tknElse, 4⟩, ⟨";", tknUnnecessary, 4⟩, ⟨"end", tknEnd, 5⟩]

/-- The tokens of `(x) end` again, laid out on lines 3 and 4. -/
def funcBodyTokensLater : List token :=
  [⟨"(", tknOParen, 3⟩, ⟨"x", tknName, 3⟩, ⟨")", tknCParen, 3⟩, ⟨"end", tknEnd, 4⟩]

/-- A token without its line. -/
def token.noLine (t : token) : token := ⟨t.Lexeme, t.Typ, 0⟩

/-- A lexer state whose tokens have lost their lines. -/
def lexer.noLine (l : lexer) : lexer := ⟨l.current.noLine, l.toks.map token.noLine⟩

/-- A node base without its line. -/
def nodeBase.noLine (b : nodeBase) : nodeBase := ⟨b.Kind, 0⟩

mutual

/-- A tree in which every line is erased: two trees are equal ignoring
positions when their images are equal. -/
def Node.noLine : Node → Node
  | .nil => .nil
  | .Assign b ld lf ts vs => .Assign b.noLine ld lf (noLineList ts) (noLineList vs)
  | .DoBlock b blk => .DoBlock b.noLine (noLineList blk)
  | .If b c t e => .If b.noLine c.noLine (noLineList t) (noLineList e)
  | .WhileLoop b c blk => .WhileLoop b.noLine c.noLine (noLineList blk)
  | .RepeatUntilLoop b c blk => .RepeatUntilLoop b.noLine c.noLine (noLineList blk)
  | .ForLoopNumeric b cn i l s blk =>
    .ForLoopNumeric b.noLine cn i.noLine l.noLine s.noLine (noLineList blk)
  | .ForLoopGeneric b ls i blk => .ForLoopGeneric b.noLine ls (noLineList i) (noLineList blk)
  | .Goto b ib ic lbl => .Goto b.noLine ib ic lbl
  | .Label b lbl => .Label b.noLine lbl
  | .Return b items => .Return b.noLine (noLineList items)
  | .Comment b t => .Comment b.noLine t
  | .Operator b op l r => .Operator b.noLine op l.noLine r.noLine
  | .FuncCall b r f args => .FuncCall b.noLine r.noLine f.noLine (noLineList args)
  | .FuncDecl b ps v src blk => .FuncDecl b.noLine ps v src (noLineList blk)
  | .TableConstructor b ks vs => .TableConstructor b.noLine (noLineList ks) (noLineList vs)
  | .TableAccessor b o k => .TableAccessor b.noLine o.noLine k.noLine
  | .Parens b i => .Parens b.noLine i.noLine
  | .ConstInt b v => .ConstInt b.noLine v
  | .ConstFloat b v => .ConstFloat b.noLine v
  | .ConstString b v => .ConstString b.noLine v
  | .ConstIdent b v => .ConstIdent b.noLine v
  | .ConstBool b v => .ConstBool b.noLine v
  | .ConstNil b => .ConstNil b.noLine
  | .ConstVariadic b => .ConstVariadic b.noLine

/-- The statements or expressions of a list, each with its lines erased. -/
def noLineList : List Node → List Node
  | [] => []
  | x :: xs => x.noLine :: noLineList xs

end

/-- An error whose offending token has lost its line. -/
def Err.noLine : Err → Err
  | .tokenExpected got want => .tokenExpected got.noLine want
  | .panic msg => .panic msg
  | .outOfFuel => .outOfFuel

/-- The outcome of a parsing function with the lines erased from the result
(by `g`), from the lexer state and from the error. -/
def resNoLine {α : Type} (g : α → α) : Except Err (Parsed α) → Except Err (Parsed α)
  | .ok r => .ok (g r.1, r.2.noLine)
  | .error e => .error e.noLine

/-- The outcome of `getCurrent` with the lines erased. -/
def lexNoLine : Except Err lexer → Except Err lexer
  | .ok l => .ok l.noLine
  | .error e => .error e.noLine

/-- Every parsing function, run with fuel `n`, commutes with erasing the lines:
on a lexer state without lines it returns the result with its lines erased. -/
structure NoLineInv (n : Nat) : Prop where
  ident : ∀ l : lexer, ast.ident n l.noLine = resNoLine Node.noLine (ast.ident n l)
  identLoop : ∀ (id : Node) (l : lexer),
    ast.identLoop n id.noLine l.noLine = resNoLine Node.noLine (ast.identLoop n id l)
  funcCall : ∀ (id : Node) (l : lexer),
    ast.funcCall n id.noLine l.noLine = resNoLine Node.noLine (ast.funcCall n id l)
  funcCallArgs : ∀ (args : List Node) (l : lexer),
    ast.funcCallArgs n (noLineList args) l.noLine = resNoLine noLineList (ast.funcCallArgs n args l)
  funcDeclBody : ∀ (hasSelf : Bool) (l : lexer),
    ast.funcDeclBody n hasSelf l.noLine = resNoLine Node.noLine (ast.funcDeclBody n hasSelf l)
  tblConstruct : ∀ l : lexer,
    ast.tblConstruct n l.noLine = resNoLine Node.noLine (ast.tblConstruct n l)
  tblConstructLoop : ∀ (keys vals : List Node) (l : lexer),
    ast.tblConstructLoop n (noLineList keys) (noLineList vals) l.noLine =
      resNoLine (Prod.map noLineList noLineList) (ast.tblConstructLoop n keys vals l)
  expression : ∀ l : lexer,
    ast.expression n l.noLine = resNoLine Node.noLine (ast.expression n l)
  subexpr : ∀ (limit : Nat) (l : lexer),
    ast.subexpr n limit l.noLine = resNoLine Node.noLine (ast.subexpr n limit l)
  subexprLoop : ∀ (limit : Nat) (e1 : Node) (l : lexer),
    ast.subexprLoop n limit e1.noLine l.noLine =
      resNoLine Node.noLine (ast.subexprLoop n limit e1 l)
  value : ∀ l : lexer, ast.value n l.noLine = resNoLine Node.noLine (ast.value n l)
  suffixedValue : ∀ l : lexer,
    ast.suffixedValue n l.noLine = resNoLine Node.noLine (ast.suffixedValue n l)
  suffixedValueLoop : ∀ (v : Node) (l : lexer),
    ast.suffixedValueLoop n v.noLine l.noLine =
      resNoLine Node.noLine (ast.suffixedValueLoop n v l)
  primaryValue : ∀ l : lexer,
    ast.primaryValue n l.noLine = resNoLine Node.noLine (ast.primaryValue n l)
  funcDeclStat : ∀ (isLocal : Bool) (l : lexer),
    ast.funcDeclStat n isLocal l.noLine = resNoLine Node.noLine (ast.funcDeclStat n isLocal l)
  block : ∀ (enders : List tkn) (l : lexer),
    ast.block n enders l.noLine = resNoLine noLineList (ast.block n enders l)
  blockLoop : ∀ (enders : List tkn) (rtn : List Node) (l : lexer),
    ast.blockLoop n enders (noLineList rtn) l.noLine =
      resNoLine noLineList (ast.blockLoop n enders rtn l)
  ifLoop : ∀ (rnode : Node) (depth : Nat) (l : lexer),
    ast.ifLoop n rnode.noLine depth l.noLine = resNoLine Node.noLine (ast.ifLoop n rnode depth l)
  forInit : ∀ (init : List Node) (l : lexer),
    ast.forInit n (noLineList init) l.noLine = resNoLine noLineList (ast.forInit n init l)
  valuesLoop : ∀ (vals : List Node) (l : lexer),
    ast.valuesLoop n (noLineList vals) l.noLine = resNoLine noLineList (ast.valuesLoop n vals l)
  returnItems : ∀ (items : List Node) (l : lexer),
    ast.returnItems n (noLineList items) l.noLine =
      resNoLine noLineList (ast.returnItems n items l)
  targetsLoop : ∀ (targets : List Node) (l : lexer),
    ast.targetsLoop n (noLineList targets) l.noLine =
      resNoLine noLineList (ast.targetsLoop n targets l)
  statement : ∀ l : lexer,
    ast.statement n l.noLine = resNoLine Node.noLine (ast.statement n l)

/-- The outcome `y` keeps every result of `x`: used to compare one parsing
function at two amounts of fuel. -/
def ExLe {α : Type} (x y : Except Err α) : Prop := ∀ r : α, x = .ok r → y = .ok r

/-- An operand of an operator expression: a non-empty token sequence `toks`,
not starting with a comment or a unary operator, that `value` (with fuel `k`)
reads as the node `e`, ending at the token `last`, whatever precedes it and
whatever follows it that does not continue a suffixed value. -/
def IsOperand (k : Nat) (toks : List token) (e : Node) (last : token) : Prop :=
  toks ≠ [] ∧ (toks.headD eofToken).Typ ≠ tknComment ∧
  tknToUnOp (toks.headD eofToken).Typ = none ∧
  ∀ (cur : token) (rest : List token), isSuffix (rest.headD eofToken).Typ = false →
    value k ⟨cur, toks ++ rest⟩ = .ok (e, ⟨last, rest⟩)

/-- Every parsing function keeps its result when it is given one more unit of
fuel. -/
structure MonoInv (n : Nat) : Prop where
  ident : ∀ l : lexer, ExLe (ast.ident n l) (ast.ident (n + 1) l)
  identLoop : ∀ (id : Node) (l : lexer), ExLe (ast.identLoop n id l) (ast.identLoop (n + 1) id l)
  funcCall : ∀ (id : Node) (l : lexer), ExLe (ast.funcCall n id l) (ast.funcCall (n + 1) id l)
  funcCallArgs : ∀ (args : List Node) (l : lexer),
    ExLe (ast.funcCallArgs n args l) (ast.funcCallArgs (n + 1) args l)
  funcDeclBody : ∀ (hasSelf : Bool) (l : lexer),
    ExLe (ast.funcDeclBody n hasSelf l) (ast.funcDeclBody (n + 1) hasSelf l)
  tblConstruct : ∀ l : lexer, ExLe (ast.tblConstruct n l) (ast.tblConstruct (n + 1) l)
  tblConstructLoop : ∀ (keys vals : List Node) (l : lexer),
    ExLe (ast.tblConstructLoop n keys vals l) (ast.tblConstructLoop (n + 1) keys vals l)
  expression : ∀ l : lexer, ExLe (ast.expression n l) (ast.expression (n + 1) l)
  subexpr : ∀ (limit : Nat) (l : lexer),
    ExLe (ast.subexpr n limit l) (ast.subexpr (n + 1) limit l)
  subexprLoop : ∀ (limit : Nat) (e1 : Node) (l : lexer),
    ExLe (ast.subexprLoop n limit e1 l) (ast.subexprLoop (n + 1) limit e1 l)
  value : ∀ l : lexer, ExLe (ast.value n l) (ast.value (n + 1) l)
  suffixedValue : ∀ l : lexer, ExLe (ast.suffixedValue n l) (ast.suffixedValue (n + 1) l)
  suffixedValueLoop : ∀ (v : Node) (l : lexer),
    ExLe (ast.suffixedValueLoop n v l) (ast.suffixedValueLoop (n + 1) v l)
  primaryValue : ∀ l : lexer, ExLe (ast.primaryValue n l) (ast.primaryValue (n + 1) l)
  funcDeclStat : ∀ (isLocal : Bool) (l : lexer),
    ExLe (ast.funcDeclStat n isLocal l) (ast.funcDeclStat (n + 1) isLocal l)
  block : ∀ (enders : List tkn) (l : lexer),
    ExLe (ast.block n enders l) (ast.block (n + 1) enders l)
  blockLoop : ∀ (enders : List tkn) (rtn : List Node) (l : lexer),
    ExLe (ast.blockLoop n enders rtn l) (ast.blockLoop (n + 1) enders rtn l)
  ifLoop : ∀ (rnode : Node) (depth : Nat) (l : lexer),
    ExLe (ast.ifLoop n rnode depth l) (ast.ifLoop (n + 1) rnode depth l)
  forInit : ∀ (init : List Node) (l : lexer),
    ExLe (ast.forInit n init l) (ast.forInit (n + 1) init l)
  valuesLoop : ∀ (vals : List Node) (l : lexer),
    ExLe (ast.valuesLoop n vals l) (ast.valuesLoop (n + 1) vals l)
  returnItems : ∀ (items : List Node) (l : lexer),
    ExLe (ast.returnItems n items l) (ast.returnItems (n + 1) items l)
  targetsLoop : ∀ (targets : List Node) (l : lexer),
    ExLe (ast.targetsLoop n targets l) (ast.targetsLoop (n + 1) targets l)
  statement : ∀ l : lexer, ExLe (ast.statement n l) (ast.statement (n + 1) l)

/-! ### Traversal -/

/-- Is the node the nil interface? -/
def Node.isNil : Node → Bool
  | .nil => true
  | _ => false

/-- Does the type switch of `Walk` have a case for the node? It has none for a `Comment`
and none for the nil interface. -/
def Node.hasCase : Node → Bool
  | .nil => false
  | .Comment _ _ => false
  | _ => true

/-- The child fields of a node in the order of the specification: targets then values,
condition then statements, left then right, receiver (when there is one), function,
arguments, keys then values. An unset left operand or key is listed as `Node.nil`. -/
def Node.children : Node → List Node
  | .Assign _ _ _ ts vs => ts ++ vs
  | .DoBlock _ blk => blk
  | .If _ c t e => c :: (t ++ e)
  | .WhileLoop _ c blk => c :: blk
  | .RepeatUntilLoop _ c blk => blk ++ [c]
  | .ForLoopNumeric _ _ i lim st blk => i :: lim :: st :: blk
  | .ForLoopGeneric _ _ i blk => i ++ blk
  | .Return _ items => items
  | .Operator _ _ l r => [l, r]
  | .FuncCall _ .nil f args => f :: args
  | .FuncCall _ r f args => r :: f :: args
  | .FuncDecl _ _ _ _ blk => blk
  | .TableConstructor _ ks vs => ks ++ vs
  | .TableAccessor _ o k => [o, k]
  | .Parens _ i => [i]
  | _ => []

mutual

/-- The sequence of arguments of `Visit` that the specification gives for the walk of a
tree by a visitor that prunes nothing: the node, the sequences of its children in order,
then nil; an absent child is skipped. -/
def Node.visits : Node → List Node
  | .nil => []
  | .Assign b ld lf ts vs => .Assign b ld lf ts vs :: (visitsList ts ++ visitsList vs) ++ [.nil]
  | .DoBlock b blk => .DoBlock b blk :: visitsList blk ++ [.nil]
  | .If b c t e => .If b c t e :: (c.visits ++ visitsList t ++ visitsList e) ++ [.nil]
  | .WhileLoop b c blk => .WhileLoop b c blk :: (c.visits ++ visitsList blk) ++ [.nil]
  | .RepeatUntilLoop b c blk => .RepeatUntilLoop b c blk :: (visitsList blk ++ c.visits) ++ [.nil]
  | .ForLoopNumeric b x i lim st blk =>
    .ForLoopNumeric b x i lim st blk :: (i.visits ++ lim.visits ++ st.visits ++ visitsList blk)
      ++ [.nil]
  | .ForLoopGeneric b x i blk => .ForLoopGeneric b x i blk :: (visitsList i ++ visitsList blk) ++ [.nil]
  | .Goto b x y z => [.Goto b x y z, .nil]
  | .Label b x => [.Label b x, .nil]
  | .Return b items => .Return b items :: visitsList items ++ [.nil]
  | .Comment b x => [.Comment b x, .nil]
  | .Operator b op l r => .Operator b op l r :: (l.visits ++ r.visits) ++ [.nil]
  | .FuncCall b r f args => .FuncCall b r f args :: (r.visits ++ f.visits ++ visitsList args) ++ [.nil]
  | .FuncDecl b x y z blk => .FuncDecl b x y z blk :: visitsList blk ++ [.nil]
  | .TableConstructor b ks vs => .TableConstructor b ks vs :: (visitsList ks ++ visitsList vs) ++ [.nil]
  | .TableAccessor b o k => .TableAccessor b o k :: (o.visits ++ k.visits) ++ [.nil]
  | .Parens b i => .Parens b i :: i.visits ++ [.nil]
  | .ConstInt b x => [.ConstInt b x, .nil]
  | .ConstFloat b x => [.ConstFloat b x, .nil]
  | .ConstString b x => [.ConstString b x, .nil]
  | .ConstIdent b x => [.ConstIdent b x, .nil]
  | .ConstBool b x => [.ConstBool b x, .nil]
  | .ConstNil b => [.ConstNil b, .nil]
  | .ConstVariadic b => [.ConstVariadic b, .nil]

/-- The sequences of a list of children, one after the other. -/
def visitsList : List Node → List Node
  | [] => []
  | n :: ns => n.visits ++ visitsList ns
end

mutual

/-- The nodes of a tree in pre-order, kept when all their proper ancestors satisfy `p`:
the node itself, and below it only when `p` holds of it. Absent children are no nodes. -/
def Node.inspected (p : Node → Bool) : Node → List Node
  | .nil => []
  | .Assign b ld lf ts vs =>
    .Assign b ld lf ts vs ::
      (if p (.Assign b ld lf ts vs) then inspectedList p ts ++ inspectedList p vs else [])
  | .DoBlock b blk => .DoBlock b blk :: (if p (.DoBlock b blk) then inspectedList p blk else [])
  | .If b c t e =>
    .If b c t e ::
      (if p (.If b c t e) then c.inspected p ++ inspectedList p t ++ inspectedList p e else [])
  | .WhileLoop b c blk =>
    .WhileLoop b c blk :: (if p (.WhileLoop b c blk) then c.inspected p ++ inspectedList p blk else [])
  | .RepeatUntilLoop b c blk =>
    .RepeatUntilLoop b c blk ::
      (if p (.RepeatUntilLoop b c blk) then inspectedList p blk ++ c.inspected p else [])
  | .ForLoopNumeric b x i lim st blk =>
    .ForLoopNumeric b x i lim st blk ::
      (if p (.ForLoopNumeric b x i lim st blk) then
        i.inspected p ++ lim.inspected p ++ st.inspected p ++ inspectedList p blk else [])
  | .ForLoopGeneric b x i blk =>
    .ForLoopGeneric b x i blk ::
      (if p (.ForLoopGeneric b x i blk) then inspectedList p i ++ inspectedList p blk else [])
  | .Goto b x y z => [.Goto b x y z]
  | .Label b x => [.Label b x]
  | .Return b items => .Return b items :: (if p (.Return b items) then inspectedList p items else [])
  | .Comment b x => [.Comment b x]
  | .Operator b op l r =>
    .Operator b op l r :: (if p (.Operator b op l r) then l.inspected p ++ r.inspected p else [])
  | .FuncCall b r f args =>
    .FuncCall b r f args ::
      (if p (.FuncCall b r f args) then r.inspected p ++ f.inspected p ++ inspectedList p args
        else [])
  | .FuncDecl b x y z blk =>
    .FuncDecl b x y z blk :: (if p (.FuncDecl b x y z blk) then inspectedList p blk else [])
  | .TableConstructor b ks vs =>
    .TableConstructor b ks vs ::
      (if p (.TableConstructor b ks vs) then inspectedList p ks ++ inspectedList p vs else [])
  | .TableAccessor b o k =>
    .TableAccessor b o k :: (if p (.TableAccessor b o k) then o.inspected p ++ k.inspected p else [])
  | .Parens b i => .Parens b i :: (if p (.Parens b i) then i.inspected p else [])
  | .ConstInt b x => [.ConstInt b x]
  | .ConstFloat b x => [.ConstFloat b x]
  | .ConstString b x => [.ConstString b x]
  | .ConstIdent b x => [.ConstIdent b x]
  | .ConstBool b x => [.ConstBool b x]
  | .ConstNil b => [.ConstNil b]
  | .ConstVariadic b => [.ConstVariadic b]

/-- The kept nodes of a list of children, one child after the other. -/
def inspectedList (p : Node → Bool) : List Node → List Node
  | [] => []
  | n :: ns => n.inspected p ++ inspectedList p ns
end

mutual

/-- A tree that `Walk` covers: no `Comment` in it and no absent child other than the
receiver of a call. -/
def Node.covered : Node → Bool
  | .nil => false
  | .Comment _ _ => false
  | .Assign _ _ _ ts vs => coveredList ts && coveredList vs
  | .DoBlock _ blk => coveredList blk
  | .If _ c t e => c.covered && coveredList t && coveredList e
  | .WhileLoop _ c blk => c.covered && coveredList blk
  | .RepeatUntilLoop _ c blk => coveredList blk && c.covered
  | .ForLoopNumeric _ _ i lim st blk => i.covered && lim.covered && st.covered && coveredList blk
  | .ForLoopGeneric _ _ i blk => coveredList i && coveredList blk
  | .Goto _ _ _ _ => true
  | .Label _ _ => true
  | .Return _ items => coveredList items
  | .Operator _ _ l r => l.covered && r.covered
  | .FuncCall _ .nil f args => f.covered && coveredList args
  | .FuncCall _ r f args => r.covered && f.covered && coveredList args
  | .FuncDecl _ _ _ _ blk => coveredList blk
  | .TableConstructor _ ks vs => coveredList ks && coveredList vs
  | .TableAccessor _ o k => o.covered && k.covered
  | .Parens _ i => i.covered
  | .ConstInt _ _ => true
  | .ConstFloat _ _ => true
  | .ConstString _ _ => true
  | .ConstIdent _ _ => true
  | .ConstBool _ _ => true
  | .ConstNil _ => true
  | .ConstVariadic _ => true

/-- All trees of a list are covered. -/
def coveredList : List Node → Bool
  | [] => true
  | n :: ns => n.covered && coveredList ns
end

/-- The visitor that records the arguments of `Visit` in the world besides what `V` does. -/
def Visitor.traced {σ γ : Type} (V : Visitor σ γ) : Visitor σ (γ × List Node) where
  Visit := fun v n g => ((V.Visit v n g.1).1, ((V.Visit v n g.1).2, g.2 ++ [n]))

/-- The visitor that returns itself and only records the arguments of `Visit`. -/
def recorder : Visitor Unit (List Node) where
  Visit := fun _ n g => (some (), g ++ [n])

/-- The predicate `p` as a Go function that also records the nodes it is called on. -/
def recording (p : Node → Bool) : Node → List Node → Bool × List Node :=
  fun n g => (p n, g ++ [n])

/-- The visitor of level `d` records each call of `Visit` with its level and returns the
visitor of the next level: the record shows which visitor was called on which node. -/
def levelRecorder : Visitor Nat (List (Nat × Node)) where
  Visit := fun d n g => (some (d + 1), g ++ [(d, n)])

/-- The world a walk ends in. -/
def WalkRes.world {γ : Type} : WalkRes γ → γ
  | .done g => g
  | .panic g => g

/-! ### Kinds -/

/-- The kind constant named after the structural variant of a node. There is no constant
for a `Comment`. -/
def Node.variantKind : Node → Option NodeKind
  | .nil => none
  | .Assign .. => some AssignNode
  | .DoBlock .. => some DoBlockNode
  | .If .. => some IfNode
  | .WhileLoop .. => some WhileNode
  | .RepeatUntilLoop .. => some RepeatNode
  | .ForLoopNumeric .. => some ForNumericNode
  | .ForLoopGeneric .. => some ForGenericNode
  | .Goto .. => some GotoNode
  | .Label .. => some LabelNode
  | .Return .. => some ReturnNode
  | .Comment .. => none
  | .Operator .. => some OpNode
  | .FuncCall .. => some FuncCallNode
  | .FuncDecl .. => some FuncDeclNode
  | .TableConstructor .. => some TableConstructorNode
  | .TableAccessor .. => some TableAccessorNode
  | .Parens .. => some ParensNode
  | .ConstInt .. => some ConstIntNode
  | .ConstFloat .. => some ConstFloatNode
  | .ConstString .. => some ConstStringNode
  | .ConstIdent .. => some ConstIdentNode
  | .ConstBool .. => some ConstBoolNode
  | .ConstNil .. => some ConstNilNode
  | .ConstVariadic .. => some ConstVariadicNode

/-- The statement variants that have a case in the type switch of `stmtInfo`. -/
def Node.isStmtVariant : Node → Bool
  | .Assign .. | .DoBlock .. | .If .. | .WhileLoop .. | .RepeatUntilLoop ..
  | .ForLoopNumeric .. | .ForLoopGeneric .. | .Goto .. | .Label .. | .Return .. => true
  | _ => false

/-- The expression variants that have a case in the type switch of `exprInfo`. -/
def Node.isExprVariant : Node → Bool
  | .Operator .. | .FuncCall .. | .FuncDecl .. | .TableConstructor .. | .TableAccessor ..
  | .Parens .. | .ConstInt .. | .ConstFloat .. | .ConstString .. | .ConstIdent ..
  | .ConstBool .. | .ConstNil .. | .ConstVariadic .. => true
  | _ => false

/-! ### Termination -/

/-- The call `x` of a parsing function does not run out of fuel, and when it returns, the
tokens left, plus `d`, are at most `m`. -/
def Uses (d m : Nat) {α : Type} (x : Except Err (Parsed α)) : Prop :=
  x ≠ .error .outOfFuel ∧ ∀ r, x = .ok r → r.2.toks.length + d ≤ m

/-- The same for a call of the token source. -/
def UsesL (d m : Nat) (x : Except Err lexer) : Prop :=
  x ≠ .error .outOfFuel ∧ ∀ l1, x = .ok l1 → l1.toks.length + d ≤ m

/-- With twelve units of fuel for each token left and a few more, no parsing function runs
out of fuel; the functions that are the body of a loop consume at least one token when they
return, the loops none or more. -/
structure TermInv (n : Nat) : Prop where
  ident : ∀ l : lexer, 12 * l.toks.length + 1 ≤ n → Uses 1 l.toks.length (ast.ident n l)
  identLoop : ∀ (id : Node) (l : lexer), 12 * l.toks.length + 1 ≤ n →
    Uses 0 l.toks.length (ast.identLoop n id l)
  funcCall : ∀ (id : Node) (l : lexer), 12 * l.toks.length + 2 ≤ n →
    Uses 1 l.toks.length (ast.funcCall n id l)
  funcCallArgs : ∀ (args : List Node) (l : lexer), 12 * l.toks.length + 6 ≤ n →
    Uses 0 l.toks.length (ast.funcCallArgs n args l)
  funcDeclBody : ∀ (hasSelf : Bool) (l : lexer), 12 * l.toks.length + 1 ≤ n →
    Uses 1 l.toks.length (ast.funcDeclBody n hasSelf l)
  tblConstruct : ∀ l : lexer, 12 * l.toks.length + 1 ≤ n →
    Uses 1 l.toks.length (ast.tblConstruct n l)
  tblConstructLoop : ∀ (keys vals : List Node) (l : lexer), 12 * l.toks.length + 6 ≤ n →
    Uses 0 l.toks.length (ast.tblConstructLoop n keys vals l)
  expression : ∀ l : lexer, 12 * l.toks.length + 5 ≤ n →
    Uses 1 l.toks.length (ast.expression n l)
  subexpr : ∀ (limit : Nat) (l : lexer), 12 * l.toks.length + 4 ≤ n →
    Uses 1 l.toks.length (ast.subexpr n limit l)
  subexprLoop : ∀ (limit : Nat) (e1 : Node) (l : lexer), 12 * l.toks.length + 1 ≤ n →
    Uses 0 l.toks.length (ast.subexprLoop n limit e1 l)
  value : ∀ l : lexer, 12 * l.toks.length + 3 ≤ n → Uses 1 l.toks.length (ast.value n l)
  suffixedValue : ∀ l : lexer, 12 * l.toks.length + 2 ≤ n →
    Uses 1 l.toks.length (ast.suffixedValue n l)
  suffixedValueLoop : ∀ (v : Node) (l : lexer), 12 * l.toks.length + 3 ≤ n →
    Uses 0 l.toks.length (ast.suffixedValueLoop n v l)
  primaryValue : ∀ l : lexer, 12 * l.toks.length + 1 ≤ n →
    Uses 1 l.toks.length (ast.primaryValue n l)
  funcDeclStat : ∀ (isLocal : Bool) (l : lexer), 12 * l.toks.length + 1 ≤ n →
    Uses 1 l.toks.length (ast.funcDeclStat n isLocal l)
  block : ∀ (enders : List tkn) (l : lexer), 12 * l.toks.length + 9 ≤ n →
    Uses 0 l.toks.length (ast.block n enders l)
  blockLoop : ∀ (enders : List tkn) (rtn : List Node) (l : lexer),
    12 * l.toks.length + 8 ≤ n → Uses 0 l.toks.length (ast.blockLoop n enders rtn l)
  ifLoop : ∀ (rnode : Node) (depth : Nat) (l : lexer), 12 * l.toks.length + 10 ≤ n →
    Uses 0 l.toks.length (ast.ifLoop n rnode depth l)
  forInit : ∀ (init : List Node) (l : lexer), 12 * l.toks.length + 6 ≤ n →
    Uses 1 l.toks.length (ast.forInit n init l)
  valuesLoop : ∀ (vals : List Node) (l : lexer), 12 * l.toks.length + 1 ≤ n →
    Uses 0 l.toks.length (ast.valuesLoop n vals l)
  returnItems : ∀ (items : List Node) (l : lexer), 12 * l.toks.length + 6 ≤ n →
    Uses 0 l.toks.length (ast.returnItems n items l)
  targetsLoop : ∀ (targets : List Node) (l : lexer), 12 * l.toks.length + 1 ≤ n →
    Uses 0 l.toks.length (ast.targetsLoop n targets l)
  statement : ∀ l : lexer, 12 * l.toks.length + 7 ≤ n →
    Uses 1 l.toks.length (ast.statement n l)

/-! ### Blocks and their terminators -/

/-- A token that opens a block counts `1`: `if` (whose blocks follow `then`, `elseif ...
then` and `else`), `do` (alone, or of a `while` or `for`), `repeat`, and `function` (whose
block follows the parameter list); a token that terminates one, `end` or `until`, counts
`-1`; every other token counts `0`. -/
def weight : tkn → Int
  | tknIf | tknDo | tknRepeat | tknFunction => 1
  | tknEnd | tknUntil => -1
  | _ => 0

/-- The number of block openers less the number of block terminators in a token stream, up
to its end (a token of kind `tknINVALID`, or the end of the list). -/
def balance : List token → Int
  | [] => 0
  | t :: ts => if t.Typ = tknINVALID then 0 else weight t.Typ + balance ts

/-- Every result of the call `x` satisfies `Q`. -/
def Post {α : Type} (Q : Parsed α → Prop) (x : Except Err (Parsed α)) : Prop :=
  ∀ r, x = .ok r → Q r

/-- The same for a call of the token source. -/
def PostL (Q : lexer → Prop) (x : Except Err lexer) : Prop :=
  ∀ l1, x = .ok l1 → Q l1

/-- What a parsing function reads has as many block openers as terminators, but for: a
block, which also reads its terminator (or `else`, `elseif`); the body of a function, which
reads the `end` of its block; the rest of an `if` statement, which reads the `end` unless it
is the current token. -/
structure BalInv (n : Nat) : Prop where
  ident : ∀ l : lexer, Post (fun r => balance l.toks = balance r.2.toks) (ast.ident n l)
  identLoop : ∀ (id : Node) (l : lexer),
    Post (fun r => balance l.toks = balance r.2.toks) (ast.identLoop n id l)
  funcCall : ∀ (id : Node) (l : lexer),
    Post (fun r => balance l.toks = balance r.2.toks) (ast.funcCall n id l)
  funcCallArgs : ∀ (args : List Node) (l : lexer),
    Post (fun r => balance l.toks = balance r.2.toks) (ast.funcCallArgs n args l)
  funcDeclBody : ∀ (hasSelf : Bool) (l : lexer),
    Post (fun r => balance l.toks = balance r.2.toks - 1) (ast.funcDeclBody n hasSelf l)
  tblConstruct : ∀ l : lexer,
    Post (fun r => balance l.toks = balance r.2.toks) (ast.tblConstruct n l)
  tblConstructLoop : ∀ (keys vals : List Node) (l : lexer),
    Post (fun r => balance l.toks = balance r.2.toks) (ast.tblConstructLoop n keys vals l)
  expression : ∀ l : lexer,
    Post (fun r => balance l.toks = balance r.2.toks) (ast.expression n l)
  subexpr : ∀ (limit : Nat) (l : lexer),
    Post (fun r => balance l.toks = balance r.2.toks) (ast.subexpr n limit l)
  subexprLoop : ∀ (limit : Nat) (e1 : Node) (l : lexer),
    Post (fun r => balance l.toks = balance r.2.toks) (ast.subexprLoop n limit e1 l)
  value : ∀ l : lexer, Post (fun r => balance l.toks = balance r.2.toks) (ast.value n l)
  suffixedValue : ∀ l : lexer,
    Post (fun r => balance l.toks = balance r.2.toks) (ast.suffixedValue n l)
  suffixedValueLoop : ∀ (v : Node) (l : lexer),
    Post (fun r => balance l.toks = balance r.2.toks) (ast.suffixedValueLoop n v l)
  primaryValue : ∀ l : lexer,
    Post (fun r => balance l.toks = balance r.2.toks) (ast.primaryValue n l)
  funcDeclStat : ∀ (isLocal : Bool) (l : lexer),
    Post (fun r => balance l.toks = balance r.2.toks) (ast.funcDeclStat n isLocal l)
  block : ∀ (enders : List tkn) (l : lexer), enders.contains tknINVALID = false →
    Post (fun r => balance l.toks = balance r.2.toks + weight r.2.current.Typ ∧
      enders.contains r.2.current.Typ = true) (ast.block n enders l)
  blockLoop : ∀ (enders : List tkn) (rtn : List Node) (l : lexer),
    Post (fun r => balance l.toks = balance r.2.toks) (ast.blockLoop n enders rtn l)
  ifLoop : ∀ (rnode : Node) (depth : Nat) (l : lexer),
    Post (fun r => balance l.toks = balance r.2.toks - 1 - weight l.current.Typ)
      (ast.ifLoop n rnode depth l)
  forInit : ∀ (init : List Node) (l : lexer),
    Post (fun r => balance l.toks = balance r.2.toks) (ast.forInit n init l)
  valuesLoop : ∀ (vals : List Node) (l : lexer),
    Post (fun r => balance l.toks = balance r.2.toks) (ast.valuesLoop n vals l)
  returnItems : ∀ (items : List Node) (l : lexer),
    Post (fun r => balance l.toks = balance r.2.toks) (ast.returnItems n items l)
  targetsLoop : ∀ (targets : List Node) (l : lexer),
    Post (fun r => balance l.toks = balance r.2.toks) (ast.targetsLoop n targets l)
  statement : ∀ l : lexer,
    Post (fun r => balance l.toks = balance r.2.toks) (ast.statement n l)

/-! ### Argument lists and table entries -/

/-- The expressions of a parenthesised argument list, read one after the other in source
order with a comma after each but the last (a comma before `)` is let through), up to the
token before `)` or before whatever else follows. -/
inductive ArgsRead : lexer → List Node → lexer → Prop where
  | none (l : lexer) (h : l.look.Typ = tknCParen) : ArgsRead l [] l
  | last (n : Nat) (l l1 : lexer) (e : Node) (h : l.look.Typ ≠ tknCParen)
      (he : expression n l = .ok (e, l1)) (hs : l1.look.Typ ≠ tknSeperator) :
      ArgsRead l [e] l1
  | more (n : Nat) (l l1 l2 : lexer) (e : Node) (es : List Node) (h : l.look.Typ ≠ tknCParen)
      (he : expression n l = .ok (e, l1)) (hs : l1.look.Typ = tknSeperator)
      (hrest : ArgsRead l1.advance es l2) : ArgsRead l (e :: es) l2

/-- One entry of a table constructor, as its key and its value: `name = expr` has the
name as a `ConstString` key, `[expr] = expr` the bracketed expression, and a bare
expression has no key. -/
inductive EntryRead : lexer → Node → Node → lexer → Prop where
  | named (n : Nat) (l l1 : lexer) (v : Node) (h1 : l.look.Typ = tknName)
      (h2 : l.exlook.Typ = tknSet) (hv : expression n l.advance.advance = .ok (v, l1)) :
      EntryRead l (.ConstString ⟨ConstStringNode, l.look.Line⟩ l.look.Lexeme) v l1
  | bracket (n m : Nat) (l l1 l2 : lexer) (k v : Node) (h1 : l.look.Typ = tknOIndex)
      (hk : expression n l.advance = .ok (k, l1)) (h2 : l1.look.Typ = tknCIndex)
      (h3 : l1.advance.look.Typ = tknSet)
      (hv : expression m l1.advance.advance = .ok (v, l2)) : EntryRead l k v l2
  | bare (n : Nat) (l l1 : lexer) (v : Node) (h1 : l.look.Typ ≠ tknOIndex)
      (h2 : ¬ (l.look.Typ = tknName ∧ l.exlook.Typ = tknSet))
      (hv : expression n l = .ok (v, l1)) : EntryRead l .nil v l1

/-- The entries of a table constructor, read one after the other in source order with a
separator (`,` or `;`) after each but the last (a separator before `}` is let through). -/
inductive EntriesRead : lexer → List (Node × Node) → lexer → Prop where
  | none (l : lexer) (h : l.look.Typ = tknCBracket) : EntriesRead l [] l
  | last (l l1 : lexer) (k v : Node) (h : l.look.Typ ≠ tknCBracket)
      (he : EntryRead l k v l1)
      (hs : [tknSeperator, tknUnnecessary].contains l1.look.Typ = false) :
      EntriesRead l [(k, v)] l1
  | more (l l1 l2 : lexer) (k v : Node) (es : List (Node × Node))
      (h : l.look.Typ ≠ tknCBracket) (he : EntryRead l k v l1)
      (hs : [tknSeperator, tknUnnecessary].contains l1.look.Typ = true)
      (hrest : EntriesRead l1.advance es l2) : EntriesRead l ((k, v) :: es) l2

/-- The functions that read an expression return a node, never the nil interface. -/
structure NonNilInv (n : Nat) : Prop where
  expression : ∀ l : lexer, Post (fun r => r.1.isNil = false) (ast.expression n l)
  subexpr : ∀ (limit : Nat) (l : lexer),
    Post (fun r => r.1.isNil = false) (ast.subexpr n limit l)
  subexprLoop : ∀ (limit : Nat) (e1 : Node) (l : lexer), e1.isNil = false →
    Post (fun r => r.1.isNil = false) (ast.subexprLoop n limit e1 l)
  value : ∀ l : lexer, Post (fun r => r.1.isNil = false) (ast.value n l)
  suffixedValue : ∀ l : lexer, Post (fun r => r.1.isNil = false) (ast.suffixedValue n l)
  suffixedValueLoop : ∀ (v : Node) (l : lexer), v.isNil = false →
    Post (fun r => r.1.isNil = false) (ast.suffixedValueLoop n v l)

/-- The state after the name in `o:m(1, 2)`. -/
def callLexer : lexer :=
  ⟨⟨"o", tknName, 1⟩, [⟨":", tknColon, 1⟩, ⟨"m", tknName, 1⟩, ⟨"(", tknOParen, 1⟩,
    ⟨"1", tknInt, 1⟩, ⟨",", tknSeperator, 1⟩, ⟨"2", tknInt, 1⟩, ⟨")", tknCParen, 1⟩]⟩

/-- The call that `funcCall` reads from `callLexer` after the name `o`. -/
def callResult : Parsed Node :=
  (.FuncCall ⟨FuncCallNode, 1⟩ (.ConstIdent ⟨ConstIdentNode, 1⟩ "o")
    (.ConstString ⟨ConstStringNode, 1⟩ "m")
    [.ConstInt ⟨ConstIntNode, 1⟩ "1", .ConstInt ⟨ConstIntNode, 1⟩ "2"],
    ⟨⟨")", tknCParen, 1⟩, []⟩)

/-- The state before the table constructor `{1, x = 2; [3] = 4,}`, written on three
lines. -/
def tableLexer : lexer :=
  ⟨eofToken, [⟨"\x7b", tknOBracket, 1⟩, ⟨"1", tknInt, 1⟩, ⟨",", tknSeperator, 1⟩,
    ⟨"x", tknName, 1⟩, ⟨"=", tknSet, 1⟩, ⟨"2", tknInt, 1⟩, ⟨";", tknUnnecessary, 1⟩,
    ⟨"[", tknOIndex, 2⟩, ⟨"3", tknInt, 2⟩, ⟨"]", tknCIndex, 2⟩, ⟨"=", tknSet, 2⟩,
    ⟨"4", tknInt, 2⟩, ⟨",", tknSeperator, 2⟩, ⟨"\x7d", tknCBracket, 3⟩]⟩

/-- The table constructor that `tblConstruct` reads from `tableLexer`. -/
def tableResult : Parsed Node :=
  (.TableConstructor ⟨TableConstructorNode, 1⟩
    [.nil, .ConstString ⟨ConstStringNode, 1⟩ "x", .ConstInt ⟨ConstIntNode, 2⟩ "3"]
    [.ConstInt ⟨ConstIntNode, 1⟩ "1", .ConstInt ⟨ConstIntNode, 1⟩ "2",
      .ConstInt ⟨ConstIntNode, 2⟩ "4"],
    ⟨⟨"\x7d", tknCBracket, 3⟩, []⟩)

/-! ### Kinds of the parsed nodes -/

mutual

/-- Every node of the tree has the kind constant of its variant, and a `Comment`, for which
there is no constant, the zero kind `ErrNode`. An absent child is no node. -/
def Node.kinded : Node → Bool
  | .nil => true
  | .Assign b _ _ ts vs => decide (b.Kind = AssignNode) && kindedList ts && kindedList vs
  | .DoBlock b blk => decide (b.Kind = DoBlockNode) && kindedList blk
  | .If b c t e => decide (b.Kind = IfNode) && c.kinded && kindedList t && kindedList e
  | .WhileLoop b c blk => decide (b.Kind = WhileNode) && c.kinded && kindedList blk
  | .RepeatUntilLoop b c blk => decide (b.Kind = RepeatNode) && c.kinded && kindedList blk
  | .ForLoopNumeric b _ i lim st blk =>
    decide (b.Kind = ForNumericNode) && i.kinded && lim.kinded && st.kinded && kindedList blk
  | .ForLoopGeneric b _ i blk => decide (b.Kind = ForGenericNode) && kindedList i && kindedList blk
  | .Goto b _ _ _ => decide (b.Kind = GotoNode)
  | .Label b _ => decide (b.Kind = LabelNode)
  | .Return b items => decide (b.Kind = ReturnNode) && kindedList items
  | .Comment b _ => decide (b.Kind = ErrNode)
  | .Operator b _ l r => decide (b.Kind = OpNode) && l.kinded && r.kinded
  | .FuncCall b r f args =>
    decide (b.Kind = FuncCallNode) && r.kinded && f.kinded && kindedList args
  | .FuncDecl b _ _ _ blk => decide (b.Kind = FuncDeclNode) && kindedList blk
  | .TableConstructor b ks vs =>
    decide (b.Kind = TableConstructorNode) && kindedList ks && kindedList vs
  | .TableAccessor b o k => decide (b.Kind = TableAccessorNode) && o.kinded && k.kinded
  | .Parens b i => decide (b.Kind = ParensNode) && i.kinded
  | .ConstInt b _ => decide (b.Kind = ConstIntNode)
  | .ConstFloat b _ => decide (b.Kind = ConstFloatNode)
  | .ConstString b _ => decide (b.Kind = ConstStringNode)
  | .ConstIdent b _ => decide (b.Kind = ConstIdentNode)
  | .ConstBool b _ => decide (b.Kind = ConstBoolNode)
  | .ConstNil b => decide (b.Kind = ConstNilNode)
  | .ConstVariadic b => decide (b.Kind = ConstVariadicNode)

/-- Every tree of the list is kinded. -/
def kindedList : List Node → Bool
  | [] => true
  | n :: ns => n.kinded && kindedList ns
end

/-- Every node that a parsing function returns is kinded, when the nodes it is given
are. -/
structure KindInv (n : Nat) : Prop where
  ident : ∀ l : lexer, Post (fun r => r.1.kinded = true) (ast.ident n l)
  identLoop : ∀ (id : Node) (l : lexer), id.kinded = true →
    Post (fun r => r.1.kinded = true) (ast.identLoop n id l)
  funcCall : ∀ (id : Node) (l : lexer), id.kinded = true →
    Post (fun r => r.1.kinded = true) (ast.funcCall n id l)
  funcCallArgs : ∀ (args : List Node) (l : lexer), kindedList args = true →
    Post (fun r => kindedList r.1 = true) (ast.funcCallArgs n args l)
  funcDeclBody : ∀ (hasSelf : Bool) (l : lexer),
    Post (fun r => r.1.kinded = true) (ast.funcDeclBody n hasSelf l)
  tblConstruct : ∀ l : lexer, Post (fun r => r.1.kinded = true) (ast.tblConstruct n l)
  tblConstructLoop : ∀ (keys vals : List Node) (l : lexer), kindedList keys = true →
    kindedList vals = true →
    Post (fun r => kindedList r.1.1 = true ∧ kindedList r.1.2 = true)
      (ast.tblConstructLoop n keys vals l)
  expression : ∀ l : lexer, Post (fun r => r.1.kinded = true) (ast.expression n l)
  subexpr : ∀ (limit : Nat) (l : lexer),
    Post (fun r => r.1.kinded = true) (ast.subexpr n limit l)
  subexprLoop : ∀ (limit : Nat) (e1 : Node) (l : lexer), e1.kinded = true →
    Post (fun r => r.1.kinded = true) (ast.subexprLoop n limit e1 l)
  value : ∀ l : lexer, Post (fun r => r.1.kinded = true) (ast.value n l)
  suffixedValue : ∀ l : lexer, Post (fun r => r.1.kinded = true) (ast.suffixedValue n l)
  suffixedValueLoop : ∀ (v : Node) (l : lexer), v.kinded = true →
    Post (fun r => r.1.kinded = true) (ast.suffixedValueLoop n v l)
  primaryValue : ∀ l : lexer, Post (fun r => r.1.kinded = true) (ast.primaryValue n l)
  funcDeclStat : ∀ (isLocal : Bool) (l : lexer),
    Post (fun r => r.1.kinded = true) (ast.funcDeclStat n isLocal l)
  block : ∀ (enders : List tkn) (l : lexer),
    Post (fun r => kindedList r.1 = true) (ast.block n enders l)
  blockLoop : ∀ (enders : List tkn) (rtn : List Node) (l : lexer), kindedList rtn = true →
    Post (fun r => kindedList r.1 = true) (ast.blockLoop n enders rtn l)
  ifLoop : ∀ (rnode : Node) (depth : Nat) (l : lexer), rnode.kinded = true →
    Post (fun r => r.1.kinded = true) (ast.ifLoop n rnode depth l)
  forInit : ∀ (init : List Node) (l : lexer), kindedList init = true →
    Post (fun r => kindedList r.1 = true) (ast.forInit n init l)
  valuesLoop : ∀ (vals : List Node) (l : lexer), kindedList vals = true →
    Post (fun r => kindedList r.1 = true) (ast.valuesLoop n vals l)
  returnItems : ∀ (items : List Node) (l : lexer), kindedList items = true →
    Post (fun r => kindedList r.1 = true) (ast.returnItems n items l)
  targetsLoop : ∀ (targets : List Node) (l : lexer), kindedList targets = true →
    Post (fun r => kindedList r.1 = true) (ast.targetsLoop n targets l)
  statement : ∀ l : lexer, Post (fun r => r.1.kinded = true) (ast.statement n l)

/-! ### Outcomes and fuel -/

/-- The outcome `x`, unless the fuel ran out, is also the outcome `y`. -/
def Keeps {α : Type} (x y : Except Err α) : Prop := x ≠ .error .outOfFuel → y = x

/-- Every parsing function keeps its outcome, a result or an error of the parser, when it
is given one more unit of fuel. -/
structure KeepsInv (n : Nat) : Prop where
  ident : ∀ l : lexer, Keeps (ast.ident n l) (ast.ident (n + 1) l)
  identLoop : ∀ (id : Node) (l : lexer), Keeps (ast.identLoop n id l) (ast.identLoop (n + 1) id l)
  funcCall : ∀ (id : Node) (l : lexer), Keeps (ast.funcCall n id l) (ast.funcCall (n + 1) id l)
  funcCallArgs : ∀ (args : List Node) (l : lexer),
    Keeps (ast.funcCallArgs n args l) (ast.funcCallArgs (n + 1) args l)
  funcDeclBody : ∀ (hasSelf : Bool) (l : lexer),
    Keeps (ast.funcDeclBody n hasSelf l) (ast.funcDeclBody (n + 1) hasSelf l)
  tblConstruct : ∀ l : lexer, Keeps (ast.tblConstruct n l) (ast.tblConstruct (n + 1) l)
  tblConstructLoop : ∀ (keys vals : List Node) (l : lexer),
    Keeps (ast.tblConstructLoop n keys vals l) (ast.tblConstructLoop (n + 1) keys vals l)
  expression : ∀ l : lexer, Keeps (ast.expression n l) (ast.expression (n + 1) l)
  subexpr : ∀ (limit : Nat) (l : lexer),
    Keeps (ast.subexpr n limit l) (ast.subexpr (n + 1) limit l)
  subexprLoop : ∀ (limit : Nat) (e1 : Node) (l : lexer),
    Keeps (ast.subexprLoop n limit e1 l) (ast.subexprLoop (n + 1) limit e1 l)
  value : ∀ l : lexer, Keeps (ast.value n l) (ast.value (n + 1) l)
  suffixedValue : ∀ l : lexer, Keeps (ast.suffixedValue n l) (ast.suffixedValue (n + 1) l)
  suffixedValueLoop : ∀ (v : Node) (l : lexer),
    Keeps (ast.suffixedValueLoop n v l) (ast.suffixedValueLoop (n + 1) v l)
  primaryValue : ∀ l : lexer, Keeps (ast.primaryValue n l) (ast.primaryValue (n + 1) l)
  funcDeclStat : ∀ (isLocal : Bool) (l : lexer),
    Keeps (ast.funcDeclStat n isLocal l) (ast.funcDeclStat (n + 1) isLocal l)
  block : ∀ (enders : List tkn) (l : lexer),
    Keeps (ast.block n enders l) (ast.block (n + 1) enders l)
  blockLoop : ∀ (enders : List tkn) (rtn : List Node) (l : lexer),
    Keeps (ast.blockLoop n enders rtn l) (ast.blockLoop (n + 1) enders rtn l)
  ifLoop : ∀ (rnode : Node) (depth : Nat) (l : lexer),
    Keeps (ast.ifLoop n rnode depth l) (ast.ifLoop (n + 1) rnode depth l)
  forInit : ∀ (init : List Node) (l : lexer),
    Keeps (ast.forInit n init l) (ast.forInit (n + 1) init l)
  valuesLoop : ∀ (vals : List Node) (l : lexer),
    Keeps (ast.valuesLoop n vals l) (ast.valuesLoop (n + 1) vals l)
  returnItems : ∀ (items : List Node) (l : lexer),
    Keeps (ast.returnItems n items l) (ast.returnItems (n + 1) items l)
  targetsLoop : ∀ (targets : List Node) (l : lexer),
    Keeps (ast.targetsLoop n targets l) (ast.targetsLoop (n + 1) targets l)
  statement : ∀ l : lexer, Keeps (ast.statement n l) (ast.statement (n + 1) l)

/-! ### Parameter lists, items, targets and block helpers -/

/-- The tokens of `(a, ...) end`. -/
def variadicBodyTokens : List token :=
  [⟨"(", tknOParen, 1⟩, ⟨"a", tknName, 1⟩, ⟨",", tknSeperator, 1⟩, ⟨"...", tknVariadic, 1⟩,
   ⟨")", tknCParen, 1⟩, ⟨"end", tknEnd, 1⟩]

/-- The tokens that end the items of a `return`: `end`, `else`, `elseif`, `until`, `;` and
the end of the stream. -/
def returnEnders : List tkn :=
  [tknEnd, tknElse, tknElseif, tknUntil, tknUnnecessary, tknINVALID]

/-- The items of a `return`, read in source order from the token after `return`: none when
that token ends the items, otherwise the expressions separated by commas, one item for
each expression (a comma before a token that ends the items is let through). -/
inductive ItemsRead : lexer → List Node → lexer → Prop where
  | none (l : lexer) (h : returnEnders.contains l.look.Typ = true) : ItemsRead l [] l
  | last (n : Nat) (l l1 : lexer) (e : Node) (h : returnEnders.contains l.look.Typ = false)
      (he : expression n l = .ok (e, l1)) (hs : l1.look.Typ ≠ tknSeperator) :
      ItemsRead l [e] l1
  | more (n : Nat) (l l1 l2 : lexer) (e : Node) (es : List Node)
      (h : returnEnders.contains l.look.Typ = false)
      (he : expression n l = .ok (e, l1)) (hs : l1.look.Typ = tknSeperator)
      (hrest : ItemsRead l1.advance es l2) : ItemsRead l (e :: es) l2

/-- The tokens of `return 1, 2`. -/
def returnTokens : List token :=
  [⟨"return", tknReturn, 1⟩, ⟨"1", tknInt, 1⟩, ⟨",", tknSeperator, 1⟩, ⟨"2", tknInt, 1⟩]

/-- Is the node an assignable expression, a name or a table access? -/
def Node.isAssignable : Node → Bool
  | .ConstIdent _ _ => true
  | .TableAccessor _ _ _ => true
  | _ => false

/-- Is the node a call? -/
def Node.isCall : Node → Bool
  | .FuncCall _ _ _ _ => true
  | _ => false

/-- Does the walk end in the panic of the default branch? -/
def WalkRes.isPanic {γ : Type} : WalkRes γ → Bool
  | .done _ => false
  | .panic _ => true

/-- The index at which `insert` places the statement. -/
def insertedAt (b : List Node) (at_ : Int) : Int :=
  if 0 ≤ at_ ∧ at_ < (b.length : Int) then at_ else (b.length : Int)

/-! ### Inputs of the statements examined -/

/-- The tokens of `(f)()`. -/
def parenCallTokens : List token :=
  [⟨"(", tknOParen, 1⟩, ⟨"f", tknName, 1⟩, ⟨")", tknCParen, 1⟩, ⟨"(", tknOParen, 1⟩,
   ⟨")", tknCParen, 1⟩]

/-- The tokens of `(a):m()`. -/
def parenMethodTokens : List token :=
  [⟨"(", tknOParen, 1⟩, ⟨"a", tknName, 1⟩, ⟨")", tknCParen, 1⟩, ⟨":", tknColon, 1⟩,
   ⟨"m", tknName, 1⟩, ⟨"(", tknOParen, 1⟩, ⟨")", tknCParen, 1⟩]

/-- The tokens of `(a).m()`. -/
def parenFieldCallTokens : List token :=
  [⟨"(", tknOParen, 1⟩, ⟨"a", tknName, 1⟩, ⟨")", tknCParen, 1⟩, ⟨".", tknDot, 1⟩,
   ⟨"m", tknName, 1⟩, ⟨"(", tknOParen, 1⟩, ⟨")", tknCParen, 1⟩]

/-- The tokens of `local = 1`. -/
def localNoNameTokens : List token :=
  [⟨"local", tknLocal, 1⟩, ⟨"=", tknSet, 1⟩, ⟨"1", tknInt, 1⟩]

/-- The tokens of `a, f() = 1`. -/
def callTargetTokens : List token :=
  [⟨"a", tknName, 1⟩, ⟨",", tknSeperator, 1⟩, ⟨"f", tknName, 1⟩, ⟨"(", tknOParen, 1⟩,
   ⟨")", tknCParen, 1⟩, ⟨"=", tknSet, 1⟩, ⟨"1", tknInt, 1⟩]

/-- The tokens of `a, (b) = 1`. -/
def parenTargetTokens : List token :=
  [⟨"a", tknName, 1⟩, ⟨",", tknSeperator, 1⟩, ⟨"(", tknOParen, 1⟩, ⟨"b", tknName, 1⟩,
   ⟨")", tknCParen, 1⟩, ⟨"=", tknSet, 1⟩, ⟨"1", tknInt, 1⟩]

/-- The tokens of `f() = 1`. -/
def callFirstTargetTokens : List token :=
  [⟨"f", tknName, 1⟩, ⟨"(", tknOParen, 1⟩, ⟨")", tknCParen, 1⟩, ⟨"=", tknSet, 1⟩,
   ⟨"1", tknInt, 1⟩]

/-- The tokens of `(b) = 1`. -/
def parenFirstTargetTokens : List token :=
  [⟨"(", tknOParen, 1⟩, ⟨"b", tknName, 1⟩, ⟨")", tknCParen, 1⟩, ⟨"=", tknSet, 1⟩,
   ⟨"1", tknInt, 1⟩]

/-- The tokens of `x = - 2`. -/
def unaryAssignTokens : List token :=
  [⟨"x", tknName, 1⟩, ⟨"=", tknSet, 1⟩, ⟨"-", tknSub, 1⟩, ⟨"2", tknInt, 1⟩]

/-- The tokens of `x = \x7b 1 \x7d`, a table constructor with one positional entry. -/
def tableAssignTokens : List token :=
  [⟨"x", tknName, 1⟩, ⟨"=", tknSet, 1⟩, ⟨"\x7b", tknOBracket, 1⟩, ⟨"1", tknInt, 1⟩,
   ⟨"\x7d", tknCBracket, 1⟩]

/-- The tokens of `x = 1 + -- a` / `2`, the `2` on the third line. -/
def oneCommentTokens : List token :=
  [⟨"x", tknName, 1⟩, ⟨"=", tknSet, 1⟩, ⟨"1", tknInt, 1⟩, ⟨"+", tknAdd, 1⟩,
   ⟨"-- a", tknComment, 1⟩, ⟨"2", tknInt, 3⟩]

/-- The tokens of `x = 1 + -- a` / `-- b` / `2`. -/
def twoCommentTokens : List token :=
  [⟨"x", tknName, 1⟩, ⟨"=", tknSet, 1⟩, ⟨"1", tknInt, 1⟩, ⟨"+", tknAdd, 1⟩,
   ⟨"-- a", tknComment, 1⟩, ⟨"-- b", tknComment, 2⟩, ⟨"2", tknInt, 3⟩]

/-- The tokens of `x = 1 + 2`, the `2` on the third line. -/
def noCommentTokens : List token :=
  [⟨"x", tknName, 1⟩, ⟨"=", tknSet, 1⟩, ⟨"1", tknInt, 1⟩, ⟨"+", tknAdd, 1⟩,
   ⟨"2", tknInt, 3⟩]

/-! ## Lemmas and theorems -/

theorem bind_eq_ok {α β : Type} (x : Except Err α) (f : α → Except Err β) (r : β) :
    (x >>= f) = .ok r ↔ ∃ a, x = .ok a ∧ f a = .ok r := by
  cases x with
  | error e => simp [bind, Except.bind]
  | ok a => simp [bind, Except.bind]

theorem ok_bind {α β : Type} (a : α) (f : α → Except Err β) :
    ((Except.ok a : Except Err α) >>= f) = f a := rfl

theorem pure_eq_ok {α : Type} (a b : α) : (pure a : Except Err α) = .ok b ↔ a = b := by
  constructor
  · intro h; cases h; rfl
  · intro h; rw [h]; rfl

theorem checkLook_single (l : lexer) (t : tkn) : l.checkLook [t] = true ↔ l.look.Typ = t := by
  simp [lexer.checkLook, eq_comm]

theorem getCurrent_eq_ok (l l1 : lexer) (ts : List tkn) :
    l.getCurrent ts = .ok l1 ↔ ts.contains l.look.Typ = true ∧ l1 = l.advance := by
  simp only [lexer.getCurrent]
  have hc : l.advance.current = l.look := rfl
  rw [hc]
  by_cases h : ts.contains l.look.Typ = true
  · simp only [h, if_true, Except.ok.injEq, true_and]; exact eq_comm
  · rw [if_neg h]
    constructor
    · intro h1; cases h1
    · rintro ⟨h1, -⟩; exact absurd h1 h

theorem getCurrent_cons (c t : token) (rest : List token) (ts : List tkn)
    (h : ts.contains t.Typ = true) :
    (lexer.mk c (t :: rest)).getCurrent ts = .ok ⟨t, rest⟩ := by
  rw [getCurrent_eq_ok]; exact ⟨h, rfl⟩

theorem error_bind {α β : Type} (e : Err) (f : α → Except Err β) :
    ((Except.error e : Except Err α) >>= f) = .error e := rfl

/-- When no comment or unary operator is ahead, `subexpr` reads a value and
enters its loop. -/
theorem subexpr_value (n limit : Nat) (l : lexer) (h1 : l.look.Typ ≠ tknComment)
    (h2 : tknToUnOp l.look.Typ = none) :
    subexpr (n + 1) limit l =
      (value n l).bind fun r =>
        subexprLoop n limit r.1 (if r.2.look.Typ = tknComment then r.2.advance else r.2) := by
  simp only [subexpr, h1, if_false, h2, bind, Except.bind]

theorem ExLe.refl {α : Type} (x : Except Err α) : ExLe x x := fun _ h => h

theorem ExLe.error {α : Type} (e : Err) (y : Except Err α) : ExLe (.error e) y := by
  intro r h; cases h

theorem ExLe.bind {α β : Type} {x y : Except Err α} {k k1 : α → Except Err β}
    (hx : ExLe x y) (hk : ∀ a : α, ExLe (k a) (k1 a)) : ExLe (x >>= k) (y >>= k1) := by
  intro r h
  cases x with
  | error e => cases h
  | ok a =>
    rw [hx a rfl]
    exact hk a r h

theorem ExLe.ite {α : Type} {c : Prop} [Decidable c] {x y x1 y1 : Except Err α}
    (h1 : ExLe x x1) (h2 : ExLe y y1) :
    ExLe (if c then x else y) (if c then x1 else y1) := by
  split
  · exact h1
  · exact h2

/-- The parameter loop of `funcDeclBody` keeps its result with more fuel. -/
theorem funcDeclParams_mono : ∀ (n : Nat) (params : List String) (l : lexer),
    ExLe (funcDeclParams n params l) (funcDeclParams (n + 1) params l)
  | 0, _, _ => ExLe.error _ _
  | n + 1, params, l => by
    simp only [funcDeclParams]
    refine ExLe.ite (ExLe.ite (ExLe.refl _) ?_) (ExLe.refl _)
    refine ExLe.bind (ExLe.refl _) (fun l1 => ?_)
    refine ExLe.ite (ExLe.refl _) ?_
    refine ExLe.bind (ExLe.refl _) (fun l2 => ?_)
    exact ExLe.bind (ExLe.refl _) (fun l3 => funcDeclParams_mono n _ l3)

/-- The name loop of the generic `for` keeps its result with more fuel. -/
theorem forLocals_mono : ∀ (n : Nat) (locals : List String) (l : lexer),
    ExLe (forLocals n locals l) (forLocals (n + 1) locals l)
  | 0, _, _ => ExLe.error _ _
  | n + 1, locals, l => by
    simp only [forLocals]
    refine ExLe.ite (ExLe.refl _) ?_
    refine ExLe.bind (ExLe.refl _) (fun l1 => ?_)
    exact ExLe.bind (ExLe.refl _) (fun l2 => forLocals_mono n _ l2)

/-- The target loop of `local` keeps its result with more fuel. -/
theorem localTargets_mono : ∀ (n : Nat) (targets : List Node) (l : lexer),
    ExLe (localTargets n targets l) (localTargets (n + 1) targets l)
  | 0, _, _ => ExLe.error _ _
  | n + 1, targets, l => by
    simp only [localTargets]
    refine ExLe.ite ?_ (ExLe.refl _)
    refine ExLe.bind (ExLe.refl _) (fun l1 => ?_)
    refine ExLe.ite (ExLe.refl _) ?_
    exact ExLe.bind (ExLe.refl _) (fun l2 => localTargets_mono n _ l2)

theorem ident_mono_step (n : Nat) (ih : MonoInv n) (l : lexer) :
    ExLe (ident (n + 1) l) (ident (n + 2) l) := by
  simp only [ident]
  exact ExLe.bind (ExLe.refl _) (fun l1 => ih.identLoop _ l1)

theorem identLoop_mono_step (n : Nat) (ih : MonoInv n) (id : Node) (l : lexer) :
    ExLe (identLoop (n + 1) id l) (identLoop (n + 2) id l) := by
  simp only [identLoop]
  refine ExLe.ite ?_ (ExLe.refl _)
  cases hT : l.look.Typ <;> simp only []
  case tknOIndex =>
    refine ExLe.bind (ExLe.refl _) (fun l1 => ?_)
    refine ExLe.bind (ih.expression _) (fun r => ?_)
    exact ExLe.bind (ExLe.refl _) (fun l2 => ih.identLoop _ l2)
  case tknDot =>
    refine ExLe.bind (ExLe.refl _) (fun l1 => ?_)
    exact ExLe.bind (ExLe.refl _) (fun l2 => ih.identLoop _ l2)
  all_goals exact ExLe.refl _

theorem funcCallArgs_mono_step (n : Nat) (ih : MonoInv n) (args : List Node) (l : lexer) :
    ExLe (funcCallArgs (n + 1) args l) (funcCallArgs (n + 2) args l) := by
  simp only [funcCallArgs]
  refine ExLe.ite ?_ (ExLe.refl _)
  refine ExLe.bind (ih.expression _) (fun r => ?_)
  refine ExLe.ite (ExLe.refl _) ?_
  exact ExLe.bind (ExLe.refl _) (fun l2 => ih.funcCallArgs _ l2)

theorem funcCall_mono_step (n : Nat) (ih : MonoInv n) (id : Node) (l : lexer) :
    ExLe (funcCall (n + 1) id l) (funcCall (n + 2) id l) := by
  simp only [funcCall]
  refine ExLe.bind (ExLe.refl _) (fun rf => ?_)
  refine ExLe.bind ?_ (fun a => ExLe.refl _)
  cases hT : rf.2.look.Typ <;> simp only []
  case tknOBracket => exact ExLe.bind (ih.tblConstruct _) (fun r => ExLe.refl _)
  case tknOParen =>
    refine ExLe.bind (ExLe.refl _) (fun l1 => ?_)
    exact ExLe.bind (ih.funcCallArgs _ _) (fun r => ExLe.refl _)
  all_goals exact ExLe.refl _

theorem funcDeclBody_mono_step (n : Nat) (ih : MonoInv n) (hasSelf : Bool) (l : lexer) :
    ExLe (funcDeclBody (n + 1) hasSelf l) (funcDeclBody (n + 2) hasSelf l) := by
  simp only [funcDeclBody]
  refine ExLe.bind (ExLe.refl _) (fun l1 => ?_)
  refine ExLe.bind (funcDeclParams_mono n _ _) (fun r => ?_)
  refine ExLe.bind (ExLe.refl _) (fun l2 => ?_)
  exact ExLe.bind (ih.block _ _) (fun b => ExLe.refl _)

theorem tblConstruct_mono_step (n : Nat) (ih : MonoInv n) (l : lexer) :
    ExLe (tblConstruct (n + 1) l) (tblConstruct (n + 2) l) := by
  simp only [tblConstruct]
  refine ExLe.bind (ExLe.refl _) (fun l1 => ?_)
  exact ExLe.bind (ih.tblConstructLoop _ _ _) (fun r => ExLe.refl _)

theorem tblConstructLoop_mono_step (n : Nat) (ih : MonoInv n) (keys vals : List Node)
    (l : lexer) :
    ExLe (tblConstructLoop (n + 1) keys vals l) (tblConstructLoop (n + 2) keys vals l) := by
  simp only [tblConstructLoop]
  refine ExLe.ite ?_ (ExLe.refl _)
  refine ExLe.bind ?_ (fun ks => ?_)
  · cases hT : l.look.Typ <;> simp only []
    case tknOIndex =>
      refine ExLe.bind (ExLe.refl _) (fun l1 => ?_)
      exact ExLe.bind (ih.expression _) (fun r => ExLe.refl _)
    all_goals exact ExLe.refl _
  · refine ExLe.bind (ih.expression _) (fun r => ?_)
    refine ExLe.ite (ExLe.refl _) ?_
    exact ExLe.bind (ExLe.refl _) (fun l2 => ih.tblConstructLoop _ _ l2)

theorem expression_mono_step (n : Nat) (ih : MonoInv n) (l : lexer) :
    ExLe (expression (n + 1) l) (expression (n + 2) l) := by
  simp only [expression]
  exact ih.subexpr 0 l

theorem subexpr_mono_step (n : Nat) (ih : MonoInv n) (limit : Nat) (l : lexer) :
    ExLe (subexpr (n + 1) limit l) (subexpr (n + 2) limit l) := by
  simp only [subexpr]
  refine ExLe.bind ?_ (fun r => ih.subexprLoop _ _ _)
  cases tknToUnOp (if l.look.Typ = tknComment then l.advance else l).look.Typ with
  | none => exact ih.value _
  | some op => exact ExLe.bind (ih.subexpr _ _) (fun r => ExLe.refl _)

theorem subexprLoop_mono_step (n : Nat) (ih : MonoInv n) (limit : Nat) (e1 : Node)
    (l : lexer) :
    ExLe (subexprLoop (n + 1) limit e1 l) (subexprLoop (n + 2) limit e1 l) := by
  simp only [subexprLoop]
  cases tknToBinOp l.look.Typ with
  | none => exact ExLe.refl _
  | some op =>
    simp only []
    cases priorities[op]? with
    | none => exact ExLe.refl _
    | some pr =>
      simp only []
      refine ExLe.ite ?_ (ExLe.refl _)
      exact ExLe.bind (ih.subexpr _ _) (fun r => ih.subexprLoop _ _ _)

theorem value_mono_step (n : Nat) (ih : MonoInv n) (l : lexer) :
    ExLe (value (n + 1) l) (value (n + 2) l) := by
  cases hT : l.look.Typ <;> simp only [value, hT]
  case tknOBracket => exact ih.tblConstruct l
  case tknFunction => exact ExLe.bind (ExLe.refl _) (fun l1 => ih.funcDeclBody _ l1)
  case tknTrue => exact ExLe.refl _
  case tknFalse => exact ExLe.refl _
  case tknNil => exact ExLe.refl _
  case tknVariadic => exact ExLe.refl _
  case tknInt => exact ExLe.refl _
  case tknFloat => exact ExLe.refl _
  case tknString => exact ExLe.refl _
  case tknComment => exact ExLe.refl _
  all_goals exact ih.suffixedValue l

theorem suffixedValue_mono_step (n : Nat) (ih : MonoInv n) (l : lexer) :
    ExLe (suffixedValue (n + 1) l) (suffixedValue (n + 2) l) := by
  simp only [suffixedValue]
  exact ExLe.bind (ih.primaryValue _) (fun r => ih.suffixedValueLoop _ _)

theorem suffixedValueLoop_mono_step (n : Nat) (ih : MonoInv n) (v : Node) (l : lexer) :
    ExLe (suffixedValueLoop (n + 1) v l) (suffixedValueLoop (n + 2) v l) := by
  simp only [suffixedValueLoop]
  refine ExLe.ite ?_ (ExLe.refl _)
  cases hT : l.look.Typ <;> simp only []
  case tknOIndex =>
    refine ExLe.bind (ExLe.refl _) (fun l1 => ?_)
    refine ExLe.bind (ih.expression _) (fun r => ?_)
    exact ExLe.bind (ExLe.refl _) (fun l2 => ih.suffixedValueLoop _ l2)
  case tknDot =>
    refine ExLe.bind (ExLe.refl _) (fun l1 => ?_)
    refine ExLe.bind (ExLe.refl _) (fun l2 => ?_)
    refine ExLe.ite ?_ (ih.suffixedValueLoop _ _)
    exact ExLe.bind (ih.funcCall _ _) (fun r => ih.suffixedValueLoop _ _)
  all_goals exact ExLe.bind (ih.funcCall _ _) (fun r => ih.suffixedValueLoop _ _)

theorem primaryValue_mono_step (n : Nat) (ih : MonoInv n) (l : lexer) :
    ExLe (primaryValue (n + 1) l) (primaryValue (n + 2) l) := by
  cases hT : l.look.Typ <;> simp only [primaryValue, hT]
  case tknOParen =>
    refine ExLe.bind (ExLe.refl _) (fun l1 => ?_)
    exact ExLe.bind (ih.expression _) (fun r => ExLe.refl _)
  all_goals exact ExLe.refl _

theorem funcDeclStat_mono_step (n : Nat) (ih : MonoInv n) (isLocal : Bool) (l : lexer) :
    ExLe (funcDeclStat (n + 1) isLocal l) (funcDeclStat (n + 2) isLocal l) := by
  simp only [funcDeclStat]
  refine ExLe.bind (ExLe.refl _) (fun l1 => ?_)
  refine ExLe.bind ?_ (fun r => ExLe.bind (ih.funcDeclBody _ _) (fun b => ExLe.refl _))
  refine ExLe.ite (ExLe.refl _) ?_
  exact ExLe.bind (ih.ident _) (fun r => ExLe.refl _)

theorem block_mono_step (n : Nat) (ih : MonoInv n) (enders : List tkn) (l : lexer) :
    ExLe (block (n + 1) enders l) (block (n + 2) enders l) := by
  simp only [block]
  exact ExLe.bind (ih.blockLoop _ _ _) (fun r => ExLe.refl _)

theorem blockLoop_mono_step (n : Nat) (ih : MonoInv n) (enders : List tkn) (rtn : List Node)
    (l : lexer) :
    ExLe (blockLoop (n + 1) enders rtn l) (blockLoop (n + 2) enders rtn l) := by
  simp only [blockLoop]
  refine ExLe.ite ?_ (ExLe.refl _)
  exact ExLe.bind (ih.statement _) (fun r => ih.blockLoop _ _ _)

theorem ifLoop_mono_step (n : Nat) (ih : MonoInv n) (rnode : Node) (depth : Nat) (l : lexer) :
    ExLe (ifLoop (n + 1) rnode depth l) (ifLoop (n + 2) rnode depth l) := by
  cases hT : l.current.Typ <;> simp only [ifLoop, hT]
  case tknElse => exact ExLe.bind (ih.block _ _) (fun r => ExLe.refl _)
  case tknElseif =>
    refine ExLe.bind (ih.expression _) (fun r => ?_)
    refine ExLe.bind (ExLe.refl _) (fun l1 => ?_)
    exact ExLe.bind (ih.block _ _) (fun b => ih.ifLoop _ _ _)
  all_goals exact ExLe.refl _

theorem forInit_mono_step (n : Nat) (ih : MonoInv n) (init : List Node) (l : lexer) :
    ExLe (forInit (n + 1) init l) (forInit (n + 2) init l) := by
  simp only [forInit]
  refine ExLe.bind (ih.expression _) (fun r => ?_)
  refine ExLe.ite (ExLe.refl _) ?_
  exact ExLe.bind (ExLe.refl _) (fun l2 => ih.forInit _ l2)

theorem valuesLoop_mono_step (n : Nat) (ih : MonoInv n) (vals : List Node) (l : lexer) :
    ExLe (valuesLoop (n + 1) vals l) (valuesLoop (n + 2) vals l) := by
  simp only [valuesLoop]
  refine ExLe.ite ?_ (ExLe.refl _)
  refine ExLe.bind (ExLe.refl _) (fun l1 => ?_)
  exact ExLe.bind (ih.expression _) (fun r => ih.valuesLoop _ _)

theorem returnItems_mono_step (n : Nat) (ih : MonoInv n) (items : List Node) (l : lexer) :
    ExLe (returnItems (n + 1) items l) (returnItems (n + 2) items l) := by
  simp only [returnItems]
  refine ExLe.ite ?_ (ExLe.refl _)
  refine ExLe.bind (ih.expression _) (fun r => ?_)
  refine ExLe.ite (ExLe.refl _) ?_
  exact ExLe.bind (ExLe.refl _) (fun l2 => ih.returnItems _ l2)

theorem targetsLoop_mono_step (n : Nat) (ih : MonoInv n) (targets : List Node) (l : lexer) :
    ExLe (targetsLoop (n + 1) targets l) (targetsLoop (n + 2) targets l) := by
  simp only [targetsLoop]
  refine ExLe.ite ?_ (ExLe.refl _)
  refine ExLe.bind (ExLe.refl _) (fun l1 => ?_)
  exact ExLe.bind (ih.suffixedValue _) (fun r => ih.targetsLoop _ _)

theorem statement_mono_step (n : Nat) (ih : MonoInv n) (l : lexer) :
    ExLe (statement (n + 1) l) (statement (n + 2) l) := by
  cases hT : l.look.Typ <;> simp only [statement, hT]
  case tknUnnecessary => exact ExLe.refl _
  case tknIf =>
    refine ExLe.bind (ExLe.refl _) (fun l1 => ?_)
    refine ExLe.bind (ih.expression _) (fun r => ?_)
    refine ExLe.bind (ExLe.refl _) (fun l2 => ?_)
    exact ExLe.bind (ih.block _ _) (fun b => ih.ifLoop _ _ _)
  case tknComment => exact ExLe.refl _
  case tknWhile =>
    refine ExLe.bind (ExLe.refl _) (fun l1 => ?_)
    refine ExLe.bind (ih.expression _) (fun r => ?_)
    refine ExLe.bind (ExLe.refl _) (fun l2 => ?_)
    exact ExLe.bind (ih.block _ _) (fun b => ExLe.refl _)
  case tknDo =>
    refine ExLe.bind (ExLe.refl _) (fun l1 => ?_)
    exact ExLe.bind (ih.block _ _) (fun b => ExLe.refl _)
  case tknFor =>
    refine ExLe.bind (ExLe.refl _) (fun l1 => ?_)
    refine ExLe.bind (ExLe.refl _) (fun l2 => ?_)
    refine ExLe.ite ?_ ?_
    · refine ExLe.bind (ExLe.refl _) (fun l3 => ?_)
      refine ExLe.bind (ih.expression _) (fun i => ?_)
      refine ExLe.bind (ExLe.refl _) (fun l4 => ?_)
      refine ExLe.bind (ih.expression _) (fun lim => ?_)
      refine ExLe.bind ?_ (fun s => ?_)
      · refine ExLe.ite ?_ (ExLe.refl _)
        exact ExLe.bind (ExLe.refl _) (fun l5 => ih.expression _)
      · refine ExLe.bind (ExLe.refl _) (fun l6 => ?_)
        exact ExLe.bind (ih.block _ _) (fun b => ExLe.refl _)
    · refine ExLe.bind (forLocals_mono n _ _) (fun ls => ?_)
      refine ExLe.bind (ExLe.refl _) (fun l3 => ?_)
      refine ExLe.bind (ih.forInit _ _) (fun i => ?_)
      refine ExLe.bind (ExLe.refl _) (fun l4 => ?_)
      exact ExLe.bind (ih.block _ _) (fun b => ExLe.refl _)
  case tknRepeat =>
    refine ExLe.bind (ExLe.refl _) (fun l1 => ?_)
    refine ExLe.bind (ih.block _ _) (fun b => ?_)
    exact ExLe.bind (ih.expression _) (fun r => ExLe.refl _)
  case tknFunction => exact ih.funcDeclStat _ _
  case tknLocal =>
    refine ExLe.bind (ExLe.refl _) (fun l1 => ?_)
    refine ExLe.ite (ih.funcDeclStat _ _) ?_
    refine ExLe.bind (localTargets_mono n _ _) (fun ts => ?_)
    refine ExLe.bind ?_ (fun vs => ExLe.refl _)
    refine ExLe.ite ?_ (ExLe.refl _)
    refine ExLe.bind (ExLe.refl _) (fun l2 => ?_)
    exact ExLe.bind (ih.expression _) (fun e => ih.valuesLoop _ _)
  case tknDblColon => exact ExLe.refl _
  case tknReturn =>
    refine ExLe.bind (ExLe.refl _) (fun l1 => ?_)
    exact ExLe.bind (ih.returnItems _ _) (fun r => ExLe.refl _)
  case tknBreak => exact ExLe.refl _
  case tknContinue => exact ExLe.refl _
  case tknGoto => exact ExLe.refl _
  case tknOParen =>
    refine ExLe.bind (ExLe.refl _) (fun l1 => ?_)
    refine ExLe.bind (ih.expression _) (fun r => ?_)
    exact ExLe.bind (ExLe.refl _) (fun l2 => ih.funcCall _ _)
  all_goals
    refine ExLe.bind (ih.suffixedValue _) (fun id => ?_)
    cases id.1 <;> simp only []
    case FuncCall => exact ExLe.refl _
    all_goals
      refine ExLe.bind (ih.targetsLoop _ _) (fun ts => ?_)
      refine ExLe.bind (ExLe.refl _) (fun l1 => ?_)
      refine ExLe.bind (ih.expression _) (fun e => ?_)
      exact ExLe.bind (ih.valuesLoop _ _) (fun vs => ExLe.refl _)

/-- Every parsing function keeps its result when it is given more fuel. -/
theorem monoInv : ∀ n : Nat, MonoInv n
  | 0 =>
    { ident := fun _ => ExLe.error _ _, identLoop := fun _ _ => ExLe.error _ _,
      funcCall := fun _ _ => ExLe.error _ _, funcCallArgs := fun _ _ => ExLe.error _ _,
      funcDeclBody := fun _ _ => ExLe.error _ _, tblConstruct := fun _ => ExLe.error _ _,
      tblConstructLoop := fun _ _ _ => ExLe.error _ _, expression := fun _ => ExLe.error _ _,
      subexpr := fun _ _ => ExLe.error _ _, subexprLoop := fun _ _ _ => ExLe.error _ _,
      value := fun _ => ExLe.error _ _, suffixedValue := fun _ => ExLe.error _ _,
      suffixedValueLoop := fun _ _ => ExLe.error _ _, primaryValue := fun _ => ExLe.error _ _,
      funcDeclStat := fun _ _ => ExLe.error _ _, block := fun _ _ => ExLe.error _ _,
      blockLoop := fun _ _ _ => ExLe.error _ _, ifLoop := fun _ _ _ => ExLe.error _ _,
      forInit := fun _ _ => ExLe.error _ _, valuesLoop := fun _ _ => ExLe.error _ _,
      returnItems := fun _ _ => ExLe.error _ _, targetsLoop := fun _ _ => ExLe.error _ _,
      statement := fun _ => ExLe.error _ _ }
  | n + 1 =>
    have ih := monoInv n
    { ident := ident_mono_step n ih
      identLoop := identLoop_mono_step n ih
      funcCall := funcCall_mono_step n ih
      funcCallArgs := funcCallArgs_mono_step n ih
      funcDeclBody := funcDeclBody_mono_step n ih
      tblConstruct := tblConstruct_mono_step n ih
      tblConstructLoop := tblConstructLoop_mono_step n ih
      expression := expression_mono_step n ih
      subexpr := subexpr_mono_step n ih
      subexprLoop := subexprLoop_mono_step n ih
      value := value_mono_step n ih
      suffixedValue := suffixedValue_mono_step n ih
      suffixedValueLoop := suffixedValueLoop_mono_step n ih
      primaryValue := primaryValue_mono_step n ih
      funcDeclStat := funcDeclStat_mono_step n ih
      block := block_mono_step n ih
      blockLoop := blockLoop_mono_step n ih
      ifLoop := ifLoop_mono_step n ih
      forInit := forInit_mono_step n ih
      valuesLoop := valuesLoop_mono_step n ih
      returnItems := returnItems_mono_step n ih
      targetsLoop := targetsLoop_mono_step n ih
      statement := statement_mono_step n ih }

/-- A result obtained with some fuel is obtained with any larger fuel. -/
theorem ExLe.of_le {α : Type} (f : Nat → Except Err α) (h : ∀ n, ExLe (f n) (f (n + 1)))
    {n m : Nat} (hnm : n ≤ m) : ExLe (f n) (f m) := by
  induction hnm with
  | refl => exact ExLe.refl _
  | step _ ih => exact fun r hr => h _ r (ih r hr)

theorem value_mono {n m : Nat} (hnm : n ≤ m) (l : lexer) (r : Parsed Node)
    (h : value n l = .ok r) : value m l = .ok r :=
  ExLe.of_le (fun k => value k l) (fun k => (monoInv k).value l) hnm r h

theorem expression_mono {n m : Nat} (hnm : n ≤ m) (l : lexer) (r : Parsed Node)
    (h : expression n l = .ok r) : expression m l = .ok r :=
  ExLe.of_le (fun k => expression k l) (fun k => (monoInv k).expression l) hnm r h

theorem statement_mono {n m : Nat} (hnm : n ≤ m) (l : lexer) (r : Parsed Node)
    (h : statement n l = .ok r) : statement m l = .ok r :=
  ExLe.of_le (fun k => statement k l) (fun k => (monoInv k).statement l) hnm r h

theorem block_mono {n m : Nat} (hnm : n ≤ m) (enders : List tkn) (l : lexer)
    (r : Parsed (List Node)) (h : block n enders l = .ok r) : block m enders l = .ok r :=
  ExLe.of_le (fun k => block k enders l) (fun k => (monoInv k).block enders l) hnm r h

theorem funcDeclBody_mono {n m : Nat} (hnm : n ≤ m) (hasSelf : Bool) (l : lexer)
    (r : Parsed Node) (h : funcDeclBody n hasSelf l = .ok r) :
    funcDeclBody m hasSelf l = .ok r :=
  ExLe.of_le (fun k => funcDeclBody k hasSelf l) (fun k => (monoInv k).funcDeclBody hasSelf l)
    hnm r h

theorem suffixedValueLoop_stop (n : Nat) (v : Node) (l : lexer)
    (h : isSuffix l.look.Typ = false) : suffixedValueLoop (n + 1) v l = .ok (v, l) := by
  have h2 : l.checkLook [tknOIndex, tknDot, tknColon, tknOParen, tknString, tknOBracket] = false := h
  simp only [suffixedValueLoop, h2]
  rfl

/-- A literal or a name is read by `value` as its leaf. -/
theorem value_leaf (n : Nat) (c t : token) (rest : List token)
    (ht : isLeaf t.Typ = true) (hr : isSuffix (rest.headD eofToken).Typ = false) :
    value (n + 3) ⟨c, t :: rest⟩ = .ok (leafNode t, ⟨t, rest⟩) := by
  obtain ⟨lex, ty, line⟩ := t
  simp only [isLeaf, List.contains_cons, List.contains_nil, Bool.or_false, Bool.or_eq_true,
    beq_iff_eq] at ht
  have hs := suffixedValueLoop_stop n
  rcases ht with h | h | h | h | h | h | h | h <;> subst h <;>
    simp [value, suffixedValue, primaryValue, lexer.look, lexer.getCurrent,
      lexer.advance, leafNode, exprInfo, Node.setBase, bind, Except.bind,
      pure, Except.pure]
  exact hs _ _ hr

/-- Every literal and every name is a one-token operand. -/
theorem isOperand_leaf (t : token) (ht : isLeaf t.Typ = true) :
    IsOperand 3 [t] (leafNode t) t := by
  refine ⟨by simp, ?_, ?_, fun cur rest hr => value_leaf 0 cur t rest ht hr⟩
  · intro h
    simp only [List.headD_cons] at h
    rw [h] at ht
    simp [isLeaf] at ht
  · simp only [List.headD_cons]
    revert ht
    cases t.Typ <;> simp [isLeaf, tknToUnOp]

theorem tknToBinOp_not_suffix (t : tkn) (op : opTyp) (h : tknToBinOp t = some op) :
    isSuffix t = false ∧ t ≠ tknComment := by
  cases t <;> simp [tknToBinOp] at h <;> simp [isSuffix]

theorem priorities_of_binop (t : tkn) (op : opTyp) (h : tknToBinOp t = some op) :
    ∃ p, priorities[op]? = some p ∧ 0 < p.left ∧ (p.left ≤ 12 ↔ t ≠ tknPow) ∧
      (p.left = p.right ↔ (t ≠ tknPow ∧ t ≠ tknConcat)) := by
  cases t <;> simp [tknToBinOp] at h <;> subst h <;> simp [priorities]

theorem expression_eq (k : Nat) (l : lexer) (hk : 0 < k) :
    expression k l = subexpr (k - 1) 0 l := by
  obtain ⟨n, rfl⟩ : ∃ n, k = n + 1 := ⟨k - 1, by omega⟩
  simp only [expression, Nat.add_sub_cancel]

theorem subexprLoop_end (k limit : Nat) (e : Node) (c : token) (hk : 0 < k) :
    subexprLoop k limit e ⟨c, []⟩ = .ok (e, ⟨c, []⟩) := by
  obtain ⟨n, rfl⟩ : ∃ n, k = n + 1 := ⟨k - 1, by omega⟩
  simp only [subexprLoop]
  rfl

theorem subexprLoop_low_cons (k limit : Nat) (e : Node) (c t : token) (rest : List token)
    (op : opTyp) (pr : priority) (hk : 0 < k)
    (h : tknToBinOp t.Typ = some op) (hp : priorities[op]? = some pr)
    (hle : pr.left ≤ limit) :
    subexprLoop k limit e ⟨c, t :: rest⟩ = .ok (e, ⟨c, t :: rest⟩) := by
  obtain ⟨n, rfl⟩ : ∃ n, k = n + 1 := ⟨k - 1, by omega⟩
  have h1 : tknToBinOp (lexer.mk c (t :: rest)).look.Typ = some op := h
  have : ¬ pr.left > limit := by omega
  simp only [subexprLoop, h1, hp, this, if_false]
  rfl

theorem subexprLoop_step_cons (k limit : Nat) (e : Node) (c t : token) (rest : List token)
    (op : opTyp) (pr : priority) (hk : 0 < k)
    (h : tknToBinOp t.Typ = some op) (hp : priorities[op]? = some pr)
    (hlt : limit < pr.left) :
    subexprLoop k limit e ⟨c, t :: rest⟩ =
      (subexpr (k - 1) pr.right ⟨t, rest⟩).bind fun r =>
        subexprLoop (k - 1) limit (.Operator ⟨OpNode, t.Line⟩ op e r.1) r.2 := by
  obtain ⟨n, rfl⟩ : ∃ n, k = n + 1 := ⟨k - 1, by omega⟩
  have h1 : tknToBinOp (lexer.mk c (t :: rest)).look.Typ = some op := h
  have : pr.left > limit := hlt
  simp only [subexprLoop, h1, hp, this, if_true]
  rfl

theorem headD_append_of_ne_nil (ta rest : List token) (h : ta ≠ []) :
    (ta ++ rest).headD eofToken = ta.headD eofToken := by
  cases ta with
  | nil => exact absurd rfl h
  | cons t ts => rfl

/-- An operand followed by a token that neither continues it nor is a
comment: `subexpr` reads it and enters its loop. -/
theorem subexpr_operand (k m limit : Nat) (cur : token) (ta rest : List token) (ea : Node)
    (la : token) (ha : IsOperand k ta ea la) (hm : k + 1 ≤ m)
    (hr : isSuffix (rest.headD eofToken).Typ = false)
    (hc : (rest.headD eofToken).Typ ≠ tknComment) :
    subexpr m limit ⟨cur, ta ++ rest⟩ = subexprLoop (m - 1) limit ea ⟨la, rest⟩ := by
  obtain ⟨n, rfl⟩ : ∃ n, m = n + 1 := ⟨m - 1, by omega⟩
  obtain ⟨hne, hnc, hnu, hv⟩ := ha
  have hlook : (lexer.mk cur (ta ++ rest)).look = ta.headD eofToken :=
    headD_append_of_ne_nil ta rest hne
  have hval : value n ⟨cur, ta ++ rest⟩ = .ok (ea, ⟨la, rest⟩) :=
    value_mono (by omega) _ _ (hv cur rest hr)
  have h3 : (lexer.mk la rest).look.Typ ≠ tknComment := hc
  rw [subexpr_value n limit _ (by rw [hlook]; exact hnc) (by rw [hlook]; exact hnu), hval]
  simp only [Except.bind, h3, if_false, Nat.add_sub_cancel]

/-- An operand at the end of the stream. -/
theorem subexpr_operand_end (k m limit : Nat) (cur : token) (ta : List token) (ea : Node)
    (la : token) (ha : IsOperand k ta ea la) (hm : k + 2 ≤ m) :
    subexpr m limit ⟨cur, ta⟩ = .ok (ea, ⟨la, []⟩) := by
  have h := subexpr_operand k m limit cur ta [] ea la ha (by omega) rfl (by decide)
  rw [List.append_nil] at h
  rw [h, subexprLoop_end _ _ _ _ (by omega)]

/-- An operand followed by a binary operator. -/
theorem subexpr_operand_binop (k m limit : Nat) (cur : token) (ta : List token) (ea : Node)
    (la o : token) (rest : List token) (op : opTyp) (ha : IsOperand k ta ea la)
    (hm : k + 1 ≤ m) (ho : tknToBinOp o.Typ = some op) :
    subexpr m limit ⟨cur, ta ++ o :: rest⟩ = subexprLoop (m - 1) limit ea ⟨la, o :: rest⟩ :=
  subexpr_operand k m limit cur ta (o :: rest) ea la ha hm
    (tknToBinOp_not_suffix o.Typ op ho).1 (tknToBinOp_not_suffix o.Typ op ho).2

/-- An operand followed by a binary operator that does not bind above the limit. -/
theorem subexpr_operand_low (k m limit : Nat) (cur : token) (ta : List token) (ea : Node)
    (la o : token) (rest : List token) (op : opTyp) (p : priority)
    (ha : IsOperand k ta ea la) (hm : k + 2 ≤ m)
    (ho : tknToBinOp o.Typ = some op) (hp : priorities[op]? = some p) (hle : p.left ≤ limit) :
    subexpr m limit ⟨cur, ta ++ o :: rest⟩ = .ok (ea, ⟨la, o :: rest⟩) := by
  rw [subexpr_operand_binop k m limit cur ta ea la o rest op ha (by omega) ho,
    subexprLoop_low_cons (m - 1) limit _ la o rest op p (by omega) ho hp hle]

/-- The tokens `a o b` at the end of the stream. -/
theorem subexpr_binary (ka kb m limit : Nat) (cur : token) (ta tb : List token)
    (ea eb : Node) (la lb o : token) (op : opTyp) (p : priority)
    (ha : IsOperand ka ta ea la) (hb : IsOperand kb tb eb lb)
    (hma : ka + 2 ≤ m) (hmb : kb + 4 ≤ m)
    (ho : tknToBinOp o.Typ = some op) (hp : priorities[op]? = some p) (hl : limit < p.left) :
    subexpr m limit ⟨cur, ta ++ o :: tb⟩ =
      .ok (.Operator ⟨OpNode, o.Line⟩ op ea eb, ⟨lb, []⟩) := by
  rw [subexpr_operand_binop ka m limit cur ta ea la o tb op ha (by omega) ho,
    subexprLoop_step_cons (m - 1) limit _ la o _ op p (by omega) ho hp hl,
    subexpr_operand_end kb (m - 1 - 1) p.right o tb eb lb hb (by omega)]
  simp only [Except.bind]
  rw [subexprLoop_end _ _ _ _ (by omega)]

/-- The tokens `a o1 b o2 c`, where `o2` binds tighter on its left than `o1` on
its right, nest to the right. -/
theorem subexpr_right_nested (ka kb kc m limit : Nat) (cur : token) (ta tb tc : List token)
    (ea eb ec : Node) (la lb lc o1 o2 : token) (op1 op2 : opTyp) (p1 p2 : priority)
    (ha : IsOperand ka ta ea la) (hb : IsOperand kb tb eb lb) (hc : IsOperand kc tc ec lc)
    (hma : ka + 2 ≤ m) (hmb : kb + 4 ≤ m) (hmc : kc + 6 ≤ m)
    (h1 : tknToBinOp o1.Typ = some op1) (h2 : tknToBinOp o2.Typ = some op2)
    (hp1 : priorities[op1]? = some p1) (hp2 : priorities[op2]? = some p2)
    (hl : limit < p1.left) (hlt : p1.right < p2.left) :
    subexpr m limit ⟨cur, ta ++ o1 :: (tb ++ o2 :: tc)⟩ =
      .ok (.Operator ⟨OpNode, o1.Line⟩ op1 ea (.Operator ⟨OpNode, o2.Line⟩ op2 eb ec),
        ⟨lc, []⟩) := by
  rw [subexpr_operand_binop ka m limit cur ta ea la o1 _ op1 ha (by omega) h1,
    subexprLoop_step_cons (m - 1) limit _ la o1 _ op1 p1 (by omega) h1 hp1 hl,
    subexpr_binary kb kc (m - 1 - 1) p1.right o1 tb tc eb ec lb lc o2 op2 p2 hb hc
      (by omega) (by omega) h2 hp2 hlt]
  simp only [Except.bind]
  rw [subexprLoop_end _ _ _ _ (by omega)]

/-- The tokens `a o1 b o2 c`, where `o2` does not bind tighter on its left than
`o1` on its right, nest to the left. -/
theorem subexpr_left_nested (ka kb kc m limit : Nat) (cur : token) (ta tb tc : List token)
    (ea eb ec : Node) (la lb lc o1 o2 : token) (op1 op2 : opTyp) (p1 p2 : priority)
    (ha : IsOperand ka ta ea la) (hb : IsOperand kb tb eb lb) (hc : IsOperand kc tc ec lc)
    (hma : ka + 2 ≤ m) (hmb : kb + 4 ≤ m) (hmc : kc + 5 ≤ m)
    (h1 : tknToBinOp o1.Typ = some op1) (h2 : tknToBinOp o2.Typ = some op2)
    (hp1 : priorities[op1]? = some p1) (hp2 : priorities[op2]? = some p2)
    (hl1 : limit < p1.left) (hl2 : limit < p2.left) (hle : p2.left ≤ p1.right) :
    subexpr m limit ⟨cur, ta ++ o1 :: (tb ++ o2 :: tc)⟩ =
      .ok (.Operator ⟨OpNode, o2.Line⟩ op2 (.Operator ⟨OpNode, o1.Line⟩ op1 ea eb) ec,
        ⟨lc, []⟩) := by
  rw [subexpr_operand_binop ka m limit cur ta ea la o1 _ op1 ha (by omega) h1,
    subexprLoop_step_cons (m - 1) limit _ la o1 _ op1 p1 (by omega) h1 hp1 hl1,
    subexpr_operand_low kb (m - 1 - 1) p1.right o1 tb eb lb o2 tc op2 p2 hb (by omega)
      h2 hp2 hle]
  simp only [Except.bind]
  rw [subexprLoop_step_cons (m - 1 - 1) limit _ lb o2 _ op2 p2 (by omega) h2 hp2 hl2,
    subexpr_operand_end kc (m - 1 - 1 - 1) p2.right o2 tc ec lc hc (by omega)]
  simp only [Except.bind]
  rw [subexprLoop_end _ _ _ _ (by omega)]

/-- A unary operator: the operand is read at limit 12 and becomes `Right`. -/
theorem subexpr_unary (k limit : Nat) (cur u : token) (rest : List token) (uop : opTyp)
    (hk : 0 < k) (hu : tknToUnOp u.Typ = some uop) :
    subexpr k limit ⟨cur, u :: rest⟩ =
      (subexpr (k - 1) 12 ⟨u, rest⟩).bind fun r =>
        subexprLoop (k - 1) limit (.Operator ⟨OpNode, u.Line⟩ uop .nil r.1)
          (if r.2.look.Typ = tknComment then r.2.advance else r.2) := by
  obtain ⟨n, rfl⟩ : ∃ n, k = n + 1 := ⟨k - 1, by omega⟩
  have h1 : (lexer.mk cur (u :: rest)).look.Typ ≠ tknComment := by
    intro h; simp only [lexer.look, List.headD] at h; rw [h] at hu; simp [tknToUnOp] at hu
  have h2 : tknToUnOp (lexer.mk cur (u :: rest)).look.Typ = some uop := hu
  have hadv : (lexer.mk cur (u :: rest)).advance = ⟨u, rest⟩ := rfl
  simp only [subexpr, h1, if_false, h2, bind, Except.bind, Nat.add_sub_cancel, hadv]
  cases subexpr n 12 ⟨u, rest⟩ <;> rfl

theorem subexprLoop_stop (n limit : Nat) (e : Node) (l : lexer)
    (h : tknToBinOp l.look.Typ = none) : subexprLoop (n + 1) limit e l = .ok (e, l) := by
  simp only [subexprLoop, h]
  rfl

/-- A parenthesised literal or name is an operand. -/
theorem isOperand_parens_leaf (op t cp : token) (hop : op.Typ = tknOParen)
    (ht : isLeaf t.Typ = true) (hcp : cp.Typ = tknCParen) :
    IsOperand 9 [op, t, cp] (.Parens ⟨ParensNode, op.Line⟩ (leafNode t)) cp := by
  refine ⟨by simp, ?_, ?_, fun cur rest hr => ?_⟩
  · simp only [List.headD_cons, hop]; decide
  · simp only [List.headD_cons, hop]; rfl
  · have hlook : (lexer.mk cur ([op, t, cp] ++ rest)).look.Typ = tknOParen := hop
    have g1 : (lexer.mk cur ([op, t, cp] ++ rest)).getCurrent [tknOParen] =
        .ok ⟨op, t :: cp :: rest⟩ := getCurrent_cons _ _ _ _ (by rw [hop]; rfl)
    have hsub : subexpr 5 0 ⟨op, [t] ++ cp :: rest⟩ = .ok (leafNode t, ⟨t, cp :: rest⟩) := by
      rw [subexpr_operand 3 5 0 op [t] (cp :: rest) (leafNode t) t (isOperand_leaf t ht)
        (by omega) (by simp [isSuffix, hcp]) (by simp [hcp])]
      exact subexprLoop_stop 3 0 _ _ (by simp [lexer.look, hcp, tknToBinOp])
    have he : expression 6 ⟨op, t :: cp :: rest⟩ = .ok (leafNode t, ⟨t, cp :: rest⟩) := hsub
    have g2 : (lexer.mk t (cp :: rest)).getCurrent [tknCParen] = .ok ⟨cp, rest⟩ :=
      getCurrent_cons _ _ _ _ (by rw [hcp]; rfl)
    have hs := suffixedValueLoop_stop 6 (.Parens ⟨ParensNode, op.Line⟩ (leafNode t))
      ⟨cp, rest⟩ hr
    simp only [value, hlook, suffixedValue, primaryValue, g1, ok_bind, he, g2, pure_bind]
    exact hs

/-- C1: for operands a, b, c and binary operators op1, op2 where the left
binding power of op2 is greater than the right binding power of op1,
`expression` on the tokens `a op1 b op2 c` returns
Operator{op1, a, Operator{op2, b, c}}; every literal and every name is such
an operand. -/
theorem C1_expression_precedence (fuel ka kb kc : Nat) (cur : token) (ta tb tc : List token)
    (ea eb ec : Node) (la lb lc o1 o2 : token) (op1 op2 : opTyp) (p1 p2 : priority)
    (ha : IsOperand ka ta ea la) (hb : IsOperand kb tb eb lb) (hc : IsOperand kc tc ec lc)
    (hfa : ka + 7 ≤ fuel) (hfb : kb + 7 ≤ fuel) (hfc : kc + 7 ≤ fuel)
    (h1 : tknToBinOp o1.Typ = some op1) (h2 : tknToBinOp o2.Typ = some op2)
    (hp1 : priorities[op1]? = some p1) (hp2 : priorities[op2]? = some p2)
    (hlt : p1.right < p2.left) :
    expression fuel ⟨cur, ta ++ o1 :: (tb ++ o2 :: tc)⟩ =
      .ok (.Operator ⟨OpNode, o1.Line⟩ op1 ea (.Operator ⟨OpNode, o2.Line⟩ op2 eb ec),
        ⟨lc, []⟩) ∧
    (∀ t : token, isLeaf t.Typ = true → IsOperand 3 [t] (leafNode t) t) := by
  refine ⟨?_, isOperand_leaf⟩
  obtain ⟨q, hq, hpos, -⟩ := priorities_of_binop o1.Typ op1 h1
  have hqp : q = p1 := by rw [hq] at hp1; exact Option.some.inj hp1
  subst hqp
  rw [expression_eq fuel _ (by omega)]
  exact subexpr_right_nested ka kb kc (fuel - 1) 0 cur ta tb tc ea eb ec la lb lc o1 o2 op1 op2
    q p2 ha hb hc (by omega) (by omega) (by omega) h1 h2 hp1 hp2 hpos hlt

/-- C1 at `1+2*3`: the result is
Operator{OpAdd, ConstInt 1, Operator{OpMul, ConstInt 2, ConstInt 3}}; and at
`1+(2)*3`, with a parenthesised operand. -/
theorem C1_expression_precedence_witness :
    expression 10 ⟨eofToken, [⟨"1", tknInt, 1⟩, ⟨"+", tknAdd, 1⟩, ⟨"2", tknInt, 1⟩,
        ⟨"*", tknMul, 1⟩, ⟨"3", tknInt, 1⟩]⟩ =
      .ok (.Operator ⟨OpNode, 1⟩ OpAdd (.ConstInt ⟨ConstIntNode, 1⟩ "1")
            (.Operator ⟨OpNode, 1⟩ OpMul (.ConstInt ⟨ConstIntNode, 1⟩ "2")
              (.ConstInt ⟨ConstIntNode, 1⟩ "3")), ⟨⟨"3", tknInt, 1⟩, []⟩) ∧
    expression 16 ⟨eofToken, [⟨"1", tknInt, 1⟩, ⟨"+", tknAdd, 1⟩, ⟨"(", tknOParen, 1⟩,
        ⟨"2", tknInt, 1⟩, ⟨")", tknCParen, 1⟩, ⟨"*", tknMul, 1⟩, ⟨"3", tknInt, 1⟩]⟩ =
      .ok (.Operator ⟨OpNode, 1⟩ OpAdd (.ConstInt ⟨ConstIntNode, 1⟩ "1")
            (.Operator ⟨OpNode, 1⟩ OpMul
              (.Parens ⟨ParensNode, 1⟩ (.ConstInt ⟨ConstIntNode, 1⟩ "2"))
              (.ConstInt ⟨ConstIntNode, 1⟩ "3")), ⟨⟨"3", tknInt, 1⟩, []⟩) :=
  ⟨(C1_expression_precedence 10 3 3 3 eofToken [⟨"1", tknInt, 1⟩] [⟨"2", tknInt, 1⟩]
      [⟨"3", tknInt, 1⟩] _ _ _ _ _ _ ⟨"+", tknAdd, 1⟩ ⟨"*", tknMul, 1⟩ OpAdd OpMul ⟨10, 10⟩
      ⟨11, 11⟩ (isOperand_leaf ⟨"1", tknInt, 1⟩ (by decide))
      (isOperand_leaf ⟨"2", tknInt, 1⟩ (by decide)) (isOperand_leaf ⟨"3", tknInt, 1⟩ (by decide))
      (by decide) (by decide) (by decide) rfl rfl rfl rfl (by decide)).1,
   (C1_expression_precedence 16 3 9 3 eofToken [⟨"1", tknInt, 1⟩]
      [⟨"(", tknOParen, 1⟩, ⟨"2", tknInt, 1⟩, ⟨")", tknCParen, 1⟩]
      [⟨"3", tknInt, 1⟩] _ _ _ _ _ _ ⟨"+", tknAdd, 1⟩ ⟨"*", tknMul, 1⟩ OpAdd OpMul ⟨10, 10⟩
      ⟨11, 11⟩ (isOperand_leaf ⟨"1", tknInt, 1⟩ (by decide))
      (isOperand_parens_leaf ⟨"(", tknOParen, 1⟩ ⟨"2", tknInt, 1⟩ ⟨")", tknCParen, 1⟩ rfl
        (by decide) rfl)
      (isOperand_leaf ⟨"3", tknInt, 1⟩ (by decide))
      (by decide) (by decide) (by decide) rfl rfl rfl rfl (by decide)).1⟩

/-- C2: exponentiation and concatenation are right-associative: `expression`
on `a ^ b ^ c` returns Operator{OpPow, a, Operator{OpPow, b, c}} and on
`a .. b .. c` returns Operator{OpConcat, a, Operator{OpConcat, b, c}}. -/
theorem C2_pow_concat_right_assoc (fuel ka kb kc : Nat) (cur : token) (ta tb tc : List token)
    (ea eb ec : Node) (la lb lc o1 o2 : token)
    (ha : IsOperand ka ta ea la) (hb : IsOperand kb tb eb lb) (hc : IsOperand kc tc ec lc)
    (hfa : ka + 7 ≤ fuel) (hfb : kb + 7 ≤ fuel) (hfc : kc + 7 ≤ fuel) :
    (o1.Typ = tknPow → o2.Typ = tknPow →
      expression fuel ⟨cur, ta ++ o1 :: (tb ++ o2 :: tc)⟩ =
        .ok (.Operator ⟨OpNode, o1.Line⟩ OpPow ea (.Operator ⟨OpNode, o2.Line⟩ OpPow eb ec),
          ⟨lc, []⟩)) ∧
    (o1.Typ = tknConcat → o2.Typ = tknConcat →
      expression fuel ⟨cur, ta ++ o1 :: (tb ++ o2 :: tc)⟩ =
        .ok (.Operator ⟨OpNode, o1.Line⟩ OpConcat ea
              (.Operator ⟨OpNode, o2.Line⟩ OpConcat eb ec), ⟨lc, []⟩)) := by
  constructor
  · intro h1 h2
    rw [expression_eq fuel _ (by omega)]
    exact subexpr_right_nested ka kb kc (fuel - 1) 0 cur ta tb tc ea eb ec la lb lc o1 o2
      OpPow OpPow ⟨14, 13⟩ ⟨14, 13⟩ ha hb hc (by omega) (by omega) (by omega)
      (by rw [h1]; rfl) (by rw [h2]; rfl) rfl rfl (by decide) (by decide)
  · intro h1 h2
    rw [expression_eq fuel _ (by omega)]
    exact subexpr_right_nested ka kb kc (fuel - 1) 0 cur ta tb tc ea eb ec la lb lc o1 o2
      OpConcat OpConcat ⟨9, 8⟩ ⟨9, 8⟩ ha hb hc (by omega) (by omega) (by omega)
      (by rw [h1]; rfl) (by rw [h2]; rfl) rfl rfl (by decide) (by decide)

/-- C2 at `2^3^2` and at `"a".."b".."c"`. -/
theorem C2_pow_concat_right_assoc_witness :
    expression 10 ⟨eofToken, [⟨"2", tknInt, 1⟩, ⟨"^", tknPow, 1⟩, ⟨"3", tknInt, 1⟩,
        ⟨"^", tknPow, 1⟩, ⟨"2", tknInt, 1⟩]⟩ =
      .ok (.Operator ⟨OpNode, 1⟩ OpPow (.ConstInt ⟨ConstIntNode, 1⟩ "2")
            (.Operator ⟨OpNode, 1⟩ OpPow (.ConstInt ⟨ConstIntNode, 1⟩ "3")
              (.ConstInt ⟨ConstIntNode, 1⟩ "2")), ⟨⟨"2", tknInt, 1⟩, []⟩) ∧
    expression 10 ⟨eofToken, [⟨"a", tknString, 1⟩, ⟨"..", tknConcat, 1⟩, ⟨"b", tknString, 1⟩,
        ⟨"..", tknConcat, 1⟩, ⟨"c", tknString, 1⟩]⟩ =
      .ok (.Operator ⟨OpNode, 1⟩ OpConcat (.ConstString ⟨ConstStringNode, 1⟩ "a")
            (.Operator ⟨OpNode, 1⟩ OpConcat (.ConstString ⟨ConstStringNode, 1⟩ "b")
              (.ConstString ⟨ConstStringNode, 1⟩ "c")), ⟨⟨"c", tknString, 1⟩, []⟩) :=
  ⟨(C2_pow_concat_right_assoc 10 3 3 3 eofToken [⟨"2", tknInt, 1⟩] [⟨"3", tknInt, 1⟩]
      [⟨"2", tknInt, 1⟩] _ _ _ _ _ _ ⟨"^", tknPow, 1⟩ ⟨"^", tknPow, 1⟩
      (isOperand_leaf ⟨"2", tknInt, 1⟩ (by decide)) (isOperand_leaf ⟨"3", tknInt, 1⟩ (by decide))
      (isOperand_leaf ⟨"2", tknInt, 1⟩ (by decide)) (by decide) (by decide) (by decide)).1
      rfl rfl,
   (C2_pow_concat_right_assoc 10 3 3 3 eofToken [⟨"a", tknString, 1⟩] [⟨"b", tknString, 1⟩]
      [⟨"c", tknString, 1⟩] _ _ _ _ _ _ ⟨"..", tknConcat, 1⟩ ⟨"..", tknConcat, 1⟩
      (isOperand_leaf ⟨"a", tknString, 1⟩ (by decide))
      (isOperand_leaf ⟨"b", tknString, 1⟩ (by decide))
      (isOperand_leaf ⟨"c", tknString, 1⟩ (by decide)) (by decide) (by decide) (by decide)).2
      rfl rfl⟩

/-- C3: every binary operator other than exponentiation and concatenation has
equal left and right binding powers, and for binary operators op1, op2 with
equal left and right binding powers at the same level `expression` on
`a op1 b op2 c` returns Operator{op2, Operator{op1, a, b}, c}. -/
theorem C3_left_assoc (fuel ka kb kc : Nat) (cur : token) (ta tb tc : List token)
    (ea eb ec : Node) (la lb lc o1 o2 : token) (op1 op2 : opTyp) (p1 p2 : priority)
    (ha : IsOperand ka ta ea la) (hb : IsOperand kb tb eb lb) (hc : IsOperand kc tc ec lc)
    (hfa : ka + 7 ≤ fuel) (hfb : kb + 7 ≤ fuel) (hfc : kc + 7 ≤ fuel)
    (h1 : tknToBinOp o1.Typ = some op1) (h2 : tknToBinOp o2.Typ = some op2)
    (hp1 : priorities[op1]? = some p1) (hp2 : priorities[op2]? = some p2)
    (he1 : p1.left = p1.right) (he2 : p2.left = p2.right) (hlevel : p1.left = p2.left) :
    expression fuel ⟨cur, ta ++ o1 :: (tb ++ o2 :: tc)⟩ =
      .ok (.Operator ⟨OpNode, o2.Line⟩ op2 (.Operator ⟨OpNode, o1.Line⟩ op1 ea eb) ec,
        ⟨lc, []⟩) ∧
    (∀ (t : tkn) (op : opTyp) (p : priority), tknToBinOp t = some op →
      priorities[op]? = some p → t ≠ tknPow → t ≠ tknConcat → p.left = p.right) := by
  constructor
  · obtain ⟨q, hq, hpos, -⟩ := priorities_of_binop o1.Typ op1 h1
    have hqp : q = p1 := by rw [hq] at hp1; exact Option.some.inj hp1
    subst hqp
    rw [expression_eq fuel _ (by omega)]
    exact subexpr_left_nested ka kb kc (fuel - 1) 0 cur ta tb tc ea eb ec la lb lc o1 o2 op1 op2
      q p2 ha hb hc (by omega) (by omega) (by omega) h1 h2 hp1 hp2 hpos (by omega) (by omega)
  · intro t op p ht hp hn1 hn2
    obtain ⟨q, hq, -, -, hlr⟩ := priorities_of_binop t op ht
    have hqp : q = p := by rw [hq] at hp; exact Option.some.inj hp
    subst hqp
    exact hlr.2 ⟨hn1, hn2⟩

/-- C3 at `1+2-3`: the result is Operator{OpSub, Operator{OpAdd, 1, 2}, 3}. -/
theorem C3_left_assoc_witness :
    expression 10 ⟨eofToken, [⟨"1", tknInt, 1⟩, ⟨"+", tknAdd, 1⟩, ⟨"2", tknInt, 1⟩,
        ⟨"-", tknSub, 1⟩, ⟨"3", tknInt, 1⟩]⟩ =
      .ok (.Operator ⟨OpNode, 1⟩ OpSub
            (.Operator ⟨OpNode, 1⟩ OpAdd (.ConstInt ⟨ConstIntNode, 1⟩ "1")
              (.ConstInt ⟨ConstIntNode, 1⟩ "2"))
            (.ConstInt ⟨ConstIntNode, 1⟩ "3"), ⟨⟨"3", tknInt, 1⟩, []⟩) :=
  (C3_left_assoc 10 3 3 3 eofToken [⟨"1", tknInt, 1⟩] [⟨"2", tknInt, 1⟩] [⟨"3", tknInt, 1⟩]
    _ _ _ _ _ _ ⟨"+", tknAdd, 1⟩ ⟨"-", tknSub, 1⟩ OpAdd OpSub ⟨10, 10⟩ ⟨10, 10⟩
    (isOperand_leaf ⟨"1", tknInt, 1⟩ (by decide)) (isOperand_leaf ⟨"2", tknInt, 1⟩ (by decide))
    (isOperand_leaf ⟨"3", tknInt, 1⟩ (by decide)) (by decide) (by decide) (by decide)
    rfl rfl rfl rfl rfl rfl rfl).1

/-- C4: the table `priorities` has an entry for each of the 25 operator
constants, so the lookup is in range for every operator taken from
`tknToBinOp` or `tknToUnOp`, and its left/right values are the listed ones. -/
theorem C4_priorities_table :
    opTypConstants.length = 25 ∧ priorities.length = 25 ∧
    (∀ op ∈ opTypConstants, op < priorities.length) ∧
    (∀ (t : tkn) (op : opTyp), tknToBinOp t = some op ∨ tknToUnOp t = some op →
      op ∈ opTypConstants ∧ op < priorities.length) ∧
    priorities[OpAdd]? = some ⟨10, 10⟩ ∧ priorities[OpSub]? = some ⟨10, 10⟩ ∧
    priorities[OpMul]? = some ⟨11, 11⟩ ∧ priorities[OpMod]? = some ⟨11, 11⟩ ∧
    priorities[OpPow]? = some ⟨14, 13⟩ ∧ priorities[OpDiv]? = some ⟨11, 11⟩ ∧
    priorities[OpIDiv]? = some ⟨11, 11⟩ ∧ priorities[OpBinAND]? = some ⟨6, 6⟩ ∧
    priorities[OpBinOR]? = some ⟨4, 4⟩ ∧ priorities[OpBinXOR]? = some ⟨5, 5⟩ ∧
    priorities[OpBinShiftL]? = some ⟨7, 7⟩ ∧ priorities[OpBinShiftR]? = some ⟨7, 7⟩ ∧
    priorities[OpUMinus]? = some ⟨12, 12⟩ ∧ priorities[OpBinNot]? = some ⟨12, 12⟩ ∧
    priorities[OpNot]? = some ⟨12, 12⟩ ∧ priorities[OpLength]? = some ⟨12, 12⟩ ∧
    priorities[OpConcat]? = some ⟨9, 8⟩ ∧
    priorities[OpEqual]? = some ⟨3, 3⟩ ∧ priorities[OpNotEqual]? = some ⟨3, 3⟩ ∧
    priorities[OpLessThan]? = some ⟨3, 3⟩ ∧ priorities[OpGreaterThan]? = some ⟨3, 3⟩ ∧
    priorities[OpLessOrEqual]? = some ⟨3, 3⟩ ∧ priorities[OpGreaterOrEqual]? = some ⟨3, 3⟩ ∧
    priorities[OpAnd]? = some ⟨2, 2⟩ ∧ priorities[OpOr]? = some ⟨1, 1⟩ := by
  refine ⟨rfl, rfl, by decide, ?_, rfl, rfl, rfl, rfl, rfl, rfl, rfl, rfl, rfl, rfl, rfl, rfl,
    rfl, rfl, rfl, rfl, rfl, rfl, rfl, rfl, rfl, rfl, rfl, rfl, rfl⟩
  intro t op h
  cases t <;> simp [tknToBinOp, tknToUnOp] at h <;>
    (try rcases h with h | h) <;> (try subst h) <;> decide

/-- C5: a unary operator produces an Operator node with Left unset whose
Right operand is read at limit 12: `u a ^ b` gives
Operator{u, nil, Operator{OpPow, a, b}}, and for a binary operator op with
left binding power at most 12 (every binary operator except `^`), `u a op b`
gives Operator{op, Operator{u, nil, a}, b}. -/
theorem C5_unary_operand_limit (fuel ka kb : Nat) (cur u o : token) (ta tb : List token)
    (ea eb : Node) (la lb : token) (uop : opTyp)
    (ha : IsOperand ka ta ea la) (hb : IsOperand kb tb eb lb)
    (hfa : ka + 7 ≤ fuel) (hfb : kb + 7 ≤ fuel) (hu : tknToUnOp u.Typ = some uop) :
    (o.Typ = tknPow →
      expression fuel ⟨cur, u :: (ta ++ o :: tb)⟩ =
        .ok (.Operator ⟨OpNode, u.Line⟩ uop .nil (.Operator ⟨OpNode, o.Line⟩ OpPow ea eb),
          ⟨lb, []⟩)) ∧
    (∀ (op : opTyp) (p : priority), tknToBinOp o.Typ = some op → priorities[op]? = some p →
      p.left ≤ 12 →
      expression fuel ⟨cur, u :: (ta ++ o :: tb)⟩ =
        .ok (.Operator ⟨OpNode, o.Line⟩ op (.Operator ⟨OpNode, u.Line⟩ uop .nil ea) eb,
          ⟨lb, []⟩)) ∧
    (∀ (t : tkn) (op : opTyp) (p : priority), tknToBinOp t = some op →
      priorities[op]? = some p → (p.left ≤ 12 ↔ t ≠ tknPow)) := by
  refine ⟨?_, ?_, ?_⟩
  · intro ho
    have hop : tknToBinOp o.Typ = some OpPow := by rw [ho]; rfl
    rw [expression_eq fuel _ (by omega), subexpr_unary (fuel - 1) 0 cur u _ uop (by omega) hu,
      subexpr_binary ka kb (fuel - 1 - 1) 12 u ta tb ea eb la lb o OpPow ⟨14, 13⟩ ha hb
        (by omega) (by omega) hop rfl (by decide)]
    simp only [Except.bind]
    rw [if_neg (show ¬ (lexer.mk lb []).look.Typ = tknComment by intro h; cases h),
      subexprLoop_end _ _ _ _ (by omega)]
  · intro op p hop hp hle
    obtain ⟨q, hq, hpos, -⟩ := priorities_of_binop o.Typ op hop
    have hqp : q = p := by rw [hq] at hp; exact Option.some.inj hp
    subst hqp
    rw [expression_eq fuel _ (by omega), subexpr_unary (fuel - 1) 0 cur u _ uop (by omega) hu,
      subexpr_operand_low ka (fuel - 1 - 1) 12 u ta ea la o tb op q ha (by omega) hop hp hle]
    simp only [Except.bind]
    have hnc : (lexer.mk la (o :: tb)).look.Typ ≠ tknComment :=
      (tknToBinOp_not_suffix o.Typ op hop).2
    rw [if_neg hnc, subexprLoop_step_cons (fuel - 1 - 1) 0 _ la o tb op q (by omega) hop hp hpos,
      subexpr_operand_end kb (fuel - 1 - 1 - 1) q.right o tb eb lb hb (by omega)]
    simp only [Except.bind]
    rw [subexprLoop_end _ _ _ _ (by omega)]
  · intro t op p ht hp
    obtain ⟨q, hq, -, h12, -⟩ := priorities_of_binop t op ht
    have hqp : q = p := by rw [hq] at hp; exact Option.some.inj hp
    subst hqp
    exact h12

/-- C5 at `-2^3` and at `-2*3`. -/
theorem C5_unary_operand_limit_witness :
    expression 10 ⟨eofToken, [⟨"-", tknSub, 1⟩, ⟨"2", tknInt, 1⟩, ⟨"^", tknPow, 1⟩,
        ⟨"3", tknInt, 1⟩]⟩ =
      .ok (.Operator ⟨OpNode, 1⟩ OpUMinus .nil
            (.Operator ⟨OpNode, 1⟩ OpPow (.ConstInt ⟨ConstIntNode, 1⟩ "2")
              (.ConstInt ⟨ConstIntNode, 1⟩ "3")), ⟨⟨"3", tknInt, 1⟩, []⟩) ∧
    expression 10 ⟨eofToken, [⟨"-", tknSub, 1⟩, ⟨"2", tknInt, 1⟩, ⟨"*", tknMul, 1⟩,
        ⟨"3", tknInt, 1⟩]⟩ =
      .ok (.Operator ⟨OpNode, 1⟩ OpMul
            (.Operator ⟨OpNode, 1⟩ OpUMinus .nil (.ConstInt ⟨ConstIntNode, 1⟩ "2"))
            (.ConstInt ⟨ConstIntNode, 1⟩ "3"), ⟨⟨"3", tknInt, 1⟩, []⟩) :=
  ⟨(C5_unary_operand_limit 10 3 3 eofToken ⟨"-", tknSub, 1⟩ ⟨"^", tknPow, 1⟩
      [⟨"2", tknInt, 1⟩] [⟨"3", tknInt, 1⟩] _ _ _ _ OpUMinus
      (isOperand_leaf ⟨"2", tknInt, 1⟩ (by decide)) (isOperand_leaf ⟨"3", tknInt, 1⟩ (by decide))
      (by decide) (by decide) rfl).1 rfl,
   (C5_unary_operand_limit 10 3 3 eofToken ⟨"-", tknSub, 1⟩ ⟨"*", tknMul, 1⟩
      [⟨"2", tknInt, 1⟩] [⟨"3", tknInt, 1⟩] _ _ _ _ OpUMinus
      (isOperand_leaf ⟨"2", tknInt, 1⟩ (by decide)) (isOperand_leaf ⟨"3", tknInt, 1⟩ (by decide))
      (by decide) (by decide) rfl).2.1 OpMul ⟨11, 11⟩ rfl rfl (by decide)⟩

theorem StatementsRead.snoc {l l1 l2 : lexer} {ss : List Node} {s : Node} {n : Nat}
    (h : StatementsRead l ss l1) (hlook : l1.checkLook [tknINVALID] = false)
    (hs : statement n l1 = .ok (s, l2)) : StatementsRead l (ss ++ [s]) l2 := by
  induction h with
  | done l => exact .step n l l2 l2 s [] hlook hs (.done l2)
  | step m l l1' l2' s' ss' hl hs' _ ih => exact .step m l l1' l2 s' _ hl hs' (ih hlook hs)

/-- The loop of `Parse` returns, with an error, the statements read before the
failing one. -/
theorem ParseLoop_error (fuel : Nat) : ∀ (l0 l : lexer) (acc blk : List Node) (e : Err),
    StatementsRead l0 acc l → ParseLoop fuel acc l = (blk, some e) → e ≠ .outOfFuel →
    ∃ (l1 : lexer) (n : Nat), StatementsRead l0 blk l1 ∧ l1.checkLook [tknINVALID] = false ∧
      statement n l1 = .error e := by
  induction fuel with
  | zero =>
    intro l0 l acc blk e _ h hne
    simp only [ParseLoop, Prod.mk.injEq, Option.some.injEq] at h
    exact absurd h.2.symm hne
  | succ k ih =>
    intro l0 l acc blk e hacc h hne
    simp only [ParseLoop] at h
    by_cases hl : l.checkLook [tknINVALID] = true
    · simp [hl] at h
    · have hl2 : l.checkLook [tknINVALID] = false := by simpa using hl
      simp only [hl2, Bool.not_false, if_true] at h
      cases hs : statement k l with
      | error e1 =>
        rw [hs] at h
        simp only [Prod.mk.injEq, Option.some.injEq] at h
        obtain ⟨rfl, rfl⟩ := h
        exact ⟨l, k, hacc, hl2, hs⟩
      | ok r =>
        obtain ⟨s, l2⟩ := r
        rw [hs] at h
        exact ih l0 l2 (acc ++ [s]) blk e (hacc.snoc hl2 hs) h hne

/-- C6, as the code has it: when `Parse` returns an error, the returned block
is not emptied; it holds exactly the statements read before the failing one,
so it is empty when, and only when, the first statement is the failing one. -/
theorem C6_block_on_error (fuel : Nat) (toks : List token) (line : Int) (blk : List Node)
    (e : Err) (h : Parse fuel toks line = (blk, some e)) (hne : e ≠ .outOfFuel) :
    (∃ (l1 : lexer) (n : Nat), StatementsRead (newLexer toks line) blk l1 ∧
      l1.checkLook [tknINVALID] = false ∧ statement n l1 = .error e) ∧
    (∀ (k : Nat) (e1 : Err), (newLexer toks line).checkLook [tknINVALID] = false →
      statement k (newLexer toks line) = .error e1 →
      Parse (k + 1) toks line = ([], some e1)) ∧
    (blk = [] → ∃ n : Nat, statement n (newLexer toks line) = .error e) := by
  have hmain :=
    ParseLoop_error fuel (newLexer toks line) (newLexer toks line) [] blk e (.done _) h hne
  refine ⟨hmain, ?_, ?_⟩
  · intro k e1 hl hs
    simp only [Parse, ParseLoop, hl, Bool.not_false, if_true, hs]
  · intro hb
    obtain ⟨l1, n, hread, -, hs⟩ := hmain
    subst hb
    cases hread
    exact ⟨n, hs⟩

/-- C6 at `;)`: the block returned with the error holds the statement read
before the failing one. -/
theorem C6_block_on_error_witness :
    (∃ (l1 : lexer) (n : Nat),
      StatementsRead (newLexer [⟨";", tknUnnecessary, 1⟩, ⟨")", tknCParen, 1⟩] 1)
        [.DoBlock ⟨DoBlockNode, 1⟩ []] l1 ∧
      l1.checkLook [tknINVALID] = false ∧
      statement n l1 = .error (.tokenExpected ⟨")", tknCParen, 1⟩ [tknName, tknOParen])) ∧
    (∀ (k : Nat) (e1 : Err),
      (newLexer [⟨";", tknUnnecessary, 1⟩, ⟨")", tknCParen, 1⟩] 1).checkLook [tknINVALID] = false →
      statement k (newLexer [⟨";", tknUnnecessary, 1⟩, ⟨")", tknCParen, 1⟩] 1) = .error e1 →
      Parse (k + 1) [⟨";", tknUnnecessary, 1⟩, ⟨")", tknCParen, 1⟩] 1 = ([], some e1)) ∧
    (([.DoBlock ⟨DoBlockNode, 1⟩ []] : List Node) = [] →
      ∃ n : Nat, statement n (newLexer [⟨";", tknUnnecessary, 1⟩, ⟨")", tknCParen, 1⟩] 1) =
        .error (.tokenExpected ⟨")", tknCParen, 1⟩ [tknName, tknOParen])) :=
  C6_block_on_error 5 [⟨";", tknUnnecessary, 1⟩, ⟨")", tknCParen, 1⟩] 1
    [.DoBlock ⟨DoBlockNode, 1⟩ []] (.tokenExpected ⟨")", tknCParen, 1⟩ [tknName, tknOParen])
    rfl (by intro h; cases h)

/-- C6 fails at `;)`: the error is returned together with the statement read
before it. -/
theorem C6_counterexample :
    Parse 5 [⟨";", tknUnnecessary, 1⟩, ⟨")", tknCParen, 1⟩] 1 =
      ([.DoBlock ⟨DoBlockNode, 1⟩ []],
        some (.tokenExpected ⟨")", tknCParen, 1⟩ [tknName, tknOParen])) ∧
    (Parse 5 [⟨";", tknUnnecessary, 1⟩, ⟨")", tknCParen, 1⟩] 1).1 ≠ [] := by
  constructor
  · rfl
  · intro h; cases h

/-- C7: a successfully parsed numeric loop `for NAME = init, limit do ... end`
has Counter, Init and Limit from the source; without a third expression its
Step is the ConstInt "1", and with one its Step is that parsed expression. -/
theorem C7_numeric_for_step (n : Nat) (cur tfor name tset : token) (rest : List token)
    (s : Node) (l' : lexer)
    (hfor : tfor.Typ = tknFor) (hname : name.Typ = tknName) (hset : tset.Typ = tknSet)
    (h : statement (n + 1) ⟨cur, tfor :: name :: tset :: rest⟩ = .ok (s, l')) :
    ∃ (i : Node) (l1 : lexer) (lim : Node) (l2 : lexer) (step : Node) (blk : List Node),
      expression n ⟨tset, rest⟩ = .ok (i, l1) ∧ l1.look.Typ = tknSeperator ∧
      expression n l1.advance = .ok (lim, l2) ∧
      s = .ForLoopNumeric ⟨ForNumericNode, tfor.Line⟩ name.Lexeme i lim step blk ∧
      (l2.look.Typ ≠ tknSeperator →
        step = .ConstInt ⟨ConstIntNode, l2.current.Line⟩ "1" ∧ l2.look.Typ = tknDo ∧
        block n [tknEnd] l2.advance = .ok (blk, l')) ∧
      (l2.look.Typ = tknSeperator →
        ∃ l3 : lexer, expression n l2.advance = .ok (step, l3) ∧ l3.look.Typ = tknDo ∧
          block n [tknEnd] l3.advance = .ok (blk, l')) := by
  have hlook : (lexer.mk cur (tfor :: name :: tset :: rest)).look.Typ = tknFor := hfor
  have g1 : (lexer.mk cur (tfor :: name :: tset :: rest)).getCurrent [tknFor] =
      .ok ⟨tfor, name :: tset :: rest⟩ := getCurrent_cons _ _ _ _ (by rw [hfor]; rfl)
  have g2 : (lexer.mk tfor (name :: tset :: rest)).getCurrent [tknName] =
      .ok ⟨name, tset :: rest⟩ := getCurrent_cons _ _ _ _ (by rw [hname]; rfl)
  have g3 : (lexer.mk name (tset :: rest)).getCurrent [tknSet] =
      .ok ⟨tset, rest⟩ := getCurrent_cons _ _ _ _ (by rw [hset]; rfl)
  have hnum : (lexer.mk name (tset :: rest)).checkLook [tknSet] = true := by
    simp [lexer.checkLook, lexer.look, hset]
  simp only [statement, hlook] at h
  simp only [g1, g2, g3, hnum, if_true, ok_bind, bind_eq_ok, getCurrent_eq_ok, pure_eq_ok,
    Prod.mk.injEq] at h
  obtain ⟨⟨i, l1⟩, he1, l1a, ⟨hsep, rfl⟩, ⟨lim, l2⟩, he2, ⟨step, l3⟩, hstep, l3a, ⟨hdo, rfl⟩,
    ⟨blk, l4⟩, hblk, hs, rfl⟩ := h
  simp only at he2 hstep hdo hblk hs hsep
  have hsep1 : l1.look.Typ = tknSeperator := (checkLook_single l1 _).1 hsep
  have hdo1 : l3.look.Typ = tknDo := (checkLook_single l3 _).1 hdo
  refine ⟨i, l1, lim, l2, step, blk, he1, hsep1, he2, hs.symm, ?_, ?_⟩
  · intro hns
    have hc : ¬ l2.checkLook [tknSeperator] = true := fun hc => hns ((checkLook_single l2 _).1 hc)
    rw [if_neg hc, pure_eq_ok, Prod.mk.injEq] at hstep
    obtain ⟨rfl, rfl⟩ := hstep
    exact ⟨rfl, hdo1, hblk⟩
  · intro hsp
    have hc : l2.checkLook [tknSeperator] = true := (checkLook_single l2 _).2 hsp
    rw [if_pos hc] at hstep
    simp only [bind_eq_ok, getCurrent_eq_ok] at hstep
    obtain ⟨l2a, ⟨-, rfl⟩, hstep⟩ := hstep
    exact ⟨l3, hstep, hdo1, hblk⟩

/-- C7 at `for i=1,10 do end` and at `for i=1,10,2 do end`. -/
theorem C7_numeric_for_step_witness :
    statement 7 ⟨eofToken, [⟨"for", tknFor, 1⟩, ⟨"i", tknName, 1⟩, ⟨"=", tknSet, 1⟩,
        ⟨"1", tknInt, 1⟩, ⟨",", tknSeperator, 1⟩, ⟨"10", tknInt, 1⟩, ⟨"do", tknDo, 1⟩,
        ⟨"end", tknEnd, 1⟩]⟩ =
      .ok (.ForLoopNumeric ⟨ForNumericNode, 1⟩ "i" (.ConstInt ⟨ConstIntNode, 1⟩ "1")
            (.ConstInt ⟨ConstIntNode, 1⟩ "10") (.ConstInt ⟨ConstIntNode, 1⟩ "1") [],
          ⟨⟨"end", tknEnd, 1⟩, []⟩) ∧
    ∃ (i : Node) (l1 : lexer) (lim : Node) (l2 : lexer) (step : Node) (blk : List Node),
      expression 6 ⟨⟨"=", tknSet, 1⟩, [⟨"1", tknInt, 1⟩, ⟨",", tknSeperator, 1⟩,
        ⟨"10", tknInt, 1⟩, ⟨",", tknSeperator, 1⟩, ⟨"2", tknInt, 2⟩, ⟨"do", tknDo, 1⟩,
        ⟨"end", tknEnd, 1⟩]⟩ = .ok (i, l1) ∧ l1.look.Typ = tknSeperator ∧
      expression 6 l1.advance = .ok (lim, l2) ∧
      Node.ForLoopNumeric ⟨ForNumericNode, 1⟩ "i" (.ConstInt ⟨ConstIntNode, 1⟩ "1")
          (.ConstInt ⟨ConstIntNode, 1⟩ "10") (.ConstInt ⟨ConstIntNode, 2⟩ "2") [] =
        .ForLoopNumeric ⟨ForNumericNode, (⟨"for", tknFor, 1⟩ : token).Line⟩
          (⟨"i", tknName, 1⟩ : token).Lexeme i lim step blk ∧
      (l2.look.Typ ≠ tknSeperator →
        step = .ConstInt ⟨ConstIntNode, l2.current.Line⟩ "1" ∧ l2.look.Typ = tknDo ∧
        block 6 [tknEnd] l2.advance = .ok (blk, ⟨⟨"end", tknEnd, 1⟩, []⟩)) ∧
      (l2.look.Typ = tknSeperator →
        ∃ l3 : lexer, expression 6 l2.advance = .ok (step, l3) ∧ l3.look.Typ = tknDo ∧
          block 6 [tknEnd] l3.advance = .ok (blk, ⟨⟨"end", tknEnd, 1⟩, []⟩)) :=
  ⟨rfl, C7_numeric_for_step 6 eofToken ⟨"for", tknFor, 1⟩ ⟨"i", tknName, 1⟩ ⟨"=", tknSet, 1⟩
    [⟨"1", tknInt, 1⟩, ⟨",", tknSeperator, 1⟩, ⟨"10", tknInt, 1⟩, ⟨",", tknSeperator, 1⟩,
      ⟨"2", tknInt, 2⟩, ⟨"do", tknDo, 1⟩, ⟨"end", tknEnd, 1⟩] _ _ rfl rfl rfl rfl⟩

theorem paramList_head (ptoks : List token) (r : List String × Bool) (x : List token)
    (h : paramList ptoks = some r) (hne : ptoks ≠ []) :
    [tknName, tknVariadic].contains ((ptoks ++ x).headD eofToken).Typ = true := by
  match ptoks, h, hne with
  | [t], h, _ =>
    simp only [paramList] at h
    by_cases h1 : t.Typ = tknName
    · simp [h1]
    · by_cases h2 : t.Typ = tknVariadic
      · simp [h2]
      · simp [h1, h2] at h
  | t :: s :: rest, h, _ =>
    simp only [paramList] at h
    by_cases h1 : t.Typ = tknName ∧ s.Typ = tknSeperator ∧ rest ≠ []
    · simp [h1.1]
    · simp [h1] at h

/-- The parameter loop reads a well-formed parameter list up to `)`. -/
theorem funcDeclParams_paramList (cp : token) (rest : List token) (hcp : cp.Typ = tknCParen) :
    ∀ (ptoks : List token) (names : List String) (v : Bool) (n : Nat) (acc : List String)
      (c : token) (r : Parsed (List String × Bool)),
      paramList ptoks = some (names, v) →
      funcDeclParams n acc ⟨c, ptoks ++ cp :: rest⟩ = .ok r →
      ∃ c1 : token, r = ((acc ++ names, v), ⟨c1, cp :: rest⟩)
  | _, _, _, 0, _, _, _, _, h => by simp [funcDeclParams] at h
  | [], names, v, n + 1, acc, c, r, hp, h => by
    simp only [paramList, Option.some.injEq, Prod.mk.injEq] at hp
    obtain ⟨rfl, rfl⟩ := hp
    have h1 : (lexer.mk c ([] ++ cp :: rest)).checkLook [tknName, tknVariadic] = false := by
      simp [lexer.checkLook, lexer.look, hcp]
    simp only [funcDeclParams, h1, Bool.false_eq_true, if_false] at h
    exact ⟨c, by simpa using ((pure_eq_ok _ _).1 h).symm⟩
  | [t], names, v, n + 1, acc, c, r, hp, h => by
    simp only [paramList] at hp
    by_cases ht : t.Typ = tknName
    · simp only [ht, if_true, Option.some.injEq, Prod.mk.injEq] at hp
      obtain ⟨rfl, rfl⟩ := hp
      have h1 : (lexer.mk c ([t] ++ cp :: rest)).checkLook [tknName, tknVariadic] = true := by
        simp [lexer.checkLook, lexer.look, ht]
      have h2 : (lexer.mk c ([t] ++ cp :: rest)).checkLook [tknVariadic] = false := by
        simp [lexer.checkLook, lexer.look, ht]
      have g : (lexer.mk c ([t] ++ cp :: rest)).getCurrent [tknName] = .ok ⟨t, cp :: rest⟩ :=
        getCurrent_cons _ _ _ _ (by rw [ht]; rfl)
      have h3 : (lexer.mk t (cp :: rest)).checkLook [tknSeperator] = false := by
        simp [lexer.checkLook, lexer.look, hcp]
      simp only [funcDeclParams, h1, h2, g, ok_bind, h3, if_true, Bool.not_false, pure_eq_ok,
        Bool.false_eq_true, if_false] at h
      exact ⟨t, h.symm⟩
    · by_cases hv : t.Typ = tknVariadic
      · simp only [ht, hv, if_true, if_false, Option.some.injEq, Prod.mk.injEq] at hp
        obtain ⟨rfl, rfl⟩ := hp
        have h1 : (lexer.mk c ([t] ++ cp :: rest)).checkLook [tknName, tknVariadic] = true := by
          simp [lexer.checkLook, lexer.look, hv]
        have h2 : (lexer.mk c ([t] ++ cp :: rest)).checkLook [tknVariadic] = true := by
          simp [lexer.checkLook, lexer.look, hv]
        have g : (lexer.mk c ([t] ++ cp :: rest)).getCurrent [tknVariadic] =
            .ok ⟨t, cp :: rest⟩ := getCurrent_cons _ _ _ _ (by rw [hv]; rfl)
        simp only [funcDeclParams, h1, h2, g, ok_bind, if_true, pure_eq_ok] at h
        exact ⟨t, by simpa using h.symm⟩
      · simp [ht, hv] at hp
  | t :: s :: more, names, v, n + 1, acc, c, r, hp, h => by
    simp only [paramList] at hp
    by_cases hc : t.Typ = tknName ∧ s.Typ = tknSeperator ∧ more ≠ []
    · obtain ⟨ht, hs, hne⟩ := hc
      simp only [ht, hs, hne, ne_eq, not_false_eq_true, and_self, if_true, Option.map_eq_some',
        Prod.mk.injEq] at hp
      obtain ⟨⟨ns, v1⟩, hrec, rfl, rfl⟩ := hp
      have h1 : (lexer.mk c ((t :: s :: more) ++ cp :: rest)).checkLook [tknName, tknVariadic]
          = true := by simp [lexer.checkLook, lexer.look, ht]
      have h2 : (lexer.mk c ((t :: s :: more) ++ cp :: rest)).checkLook [tknVariadic] = false := by
        simp [lexer.checkLook, lexer.look, ht]
      have g : (lexer.mk c ((t :: s :: more) ++ cp :: rest)).getCurrent [tknName] =
          .ok ⟨t, s :: (more ++ cp :: rest)⟩ := getCurrent_cons _ _ _ _ (by rw [ht]; rfl)
      have h3 : (lexer.mk t (s :: (more ++ cp :: rest))).checkLook [tknSeperator] = true := by
        simp [lexer.checkLook, lexer.look, hs]
      have g2 : (lexer.mk t (s :: (more ++ cp :: rest))).getCurrent [tknSeperator] =
          .ok ⟨s, more ++ cp :: rest⟩ := getCurrent_cons _ _ _ _ (by rw [hs]; rfl)
      have h4 : (lexer.mk s (more ++ cp :: rest)).checkLook [tknName, tknVariadic] = true :=
        paramList_head more (ns, v1) (cp :: rest) hrec hne
      simp only [funcDeclParams, h1, h2, g, ok_bind, h3, if_true, Bool.not_true, g2, h4,
        Bool.false_eq_true, if_false] at h
      obtain ⟨c1, hr⟩ := funcDeclParams_paramList cp rest hcp more ns v1 n
        (acc ++ [t.Lexeme]) s r hrec h
      exact ⟨c1, by simpa using hr⟩
    · simp [hc] at hp

/-- The function literal read by `funcDeclBody` from `( params ) block end`. -/
theorem funcDeclBody_params (n : Nat) (hasSelf : Bool) (c op cp : token)
    (ptoks rest : List token) (names : List String) (v : Bool) (fd : Node) (l' : lexer)
    (hcp : cp.Typ = tknCParen) (hp : paramList ptoks = some (names, v))
    (h : funcDeclBody n hasSelf ⟨c, op :: (ptoks ++ cp :: rest)⟩ = .ok (fd, l')) :
    ∃ blk : List Node, block (n - 1) [tknEnd] ⟨cp, rest⟩ = .ok (blk, l') ∧
      fd = .FuncDecl ⟨FuncDeclNode, op.Line⟩ ((if hasSelf then ["self"] else []) ++ names) v ""
        blk := by
  cases n with
  | zero => simp [funcDeclBody] at h
  | succ n =>
    simp only [funcDeclBody, bind_eq_ok, getCurrent_eq_ok, pure_eq_ok, Prod.mk.injEq] at h
    obtain ⟨l1, ⟨-, rfl⟩, ⟨⟨ps, v1⟩, l2⟩, hparams, l3, ⟨-, rfl⟩, ⟨blk, l4⟩, hblk, hfd, rfl⟩ := h
    have hadv : (lexer.mk c (op :: (ptoks ++ cp :: rest))).advance = ⟨op, ptoks ++ cp :: rest⟩ :=
      rfl
    rw [hadv] at hparams hfd
    obtain ⟨c1, hr⟩ := funcDeclParams_paramList cp rest hcp ptoks names v n _ op _ hp hparams
    simp only [Prod.mk.injEq] at hr
    obtain ⟨⟨rfl, rfl⟩, rfl⟩ := hr
    exact ⟨blk, hblk, hfd.symm⟩

/-- C8: a successfully parsed declaration `function PATH:m(p1, ..., pn) BODY end`
is one Assign with one target, TableAccessor{Obj: PATH, Key: ConstString m},
and one value, a FuncDecl whose Params is "self" followed by p1, ..., pn;
without the `:m` part the target is PATH and Params is p1, ..., pn. -/
theorem C8_method_decl_self (n : Nat) (cur tfun : token) (rest : List token) (s : Node)
    (l' : lexer) (hfun : tfun.Typ = tknFunction)
    (h : statement (n + 2) ⟨cur, tfun :: rest⟩ = .ok (s, l')) :
    ∃ (path : Node) (l1 : lexer), ident n ⟨tfun, rest⟩ = .ok (path, l1) ∧
      (∀ (colon m op cp : token) (ptoks more : List token) (names : List String) (v : Bool),
        l1.toks = colon :: m :: op :: (ptoks ++ cp :: more) → colon.Typ = tknColon →
        cp.Typ = tknCParen → paramList ptoks = some (names, v) →
        ∃ blk : List Node,
          s = .Assign ⟨AssignNode, tfun.Line⟩ false false
            [.TableAccessor ⟨TableAccessorNode, colon.Line⟩ path
              (.ConstString ⟨ConstStringNode, m.Line⟩ m.Lexeme)]
            [.FuncDecl ⟨FuncDeclNode, op.Line⟩ ("self" :: names) v "" blk]) ∧
      (∀ (op cp : token) (ptoks more : List token) (names : List String) (v : Bool),
        l1.toks = op :: (ptoks ++ cp :: more) → op.Typ ≠ tknColon →
        cp.Typ = tknCParen → paramList ptoks = some (names, v) →
        ∃ blk : List Node,
          s = .Assign ⟨AssignNode, tfun.Line⟩ false false [path]
            [.FuncDecl ⟨FuncDeclNode, op.Line⟩ names v "" blk]) := by
  have g1 : (lexer.mk cur (tfun :: rest)).getCurrent [tknFunction] = .ok ⟨tfun, rest⟩ :=
    getCurrent_cons _ _ _ _ (by rw [hfun]; rfl)
  have hlook : (lexer.mk cur (tfun :: rest)).look.Typ = tknFunction := hfun
  simp only [statement, hlook] at h
  simp only [funcDeclStat, g1, ok_bind, Bool.false_eq_true, if_false, bind_eq_ok, pure_eq_ok,
    Prod.mk.injEq] at h
  obtain ⟨⟨⟨target, hasSelf⟩, l2⟩, ⟨⟨path, l1⟩, hid, htarget⟩, ⟨fn, l3⟩, hfn, hs, rfl⟩ := h
  simp only at htarget hfn hs
  refine ⟨path, l1, hid, ?_, ?_⟩
  · intro colon m op cp ptoks more names v htoks hcolon hcp hpl
    obtain ⟨c1, toks1⟩ := l1
    simp only at htoks
    subst htoks
    have hc : (lexer.mk c1 (colon :: m :: op :: (ptoks ++ cp :: more))).checkLook [tknColon]
        = true := by simp [lexer.checkLook, lexer.look, hcolon]
    simp only [hc, if_true, bind_eq_ok, getCurrent_eq_ok, pure_eq_ok, Prod.mk.injEq] at htarget
    obtain ⟨la, ⟨-, rfl⟩, lb, ⟨-, rfl⟩, ⟨rfl, rfl⟩, rfl⟩ := htarget
    obtain ⟨blk, -, rfl⟩ := funcDeclBody_params n true m op cp ptoks more names v fn l3 hcp hpl hfn
    exact ⟨blk, hs.symm⟩
  · intro op cp ptoks more names v htoks hop hcp hpl
    obtain ⟨c1, toks1⟩ := l1
    simp only at htoks
    subst htoks
    have hc : (lexer.mk c1 (op :: (ptoks ++ cp :: more))).checkLook [tknColon] = false := by
      simp [lexer.checkLook, lexer.look, hop, eq_comm]
    simp only [hc, Bool.false_eq_true, if_false, pure_eq_ok, Prod.mk.injEq] at htarget
    obtain ⟨⟨rfl, rfl⟩, rfl⟩ := htarget
    obtain ⟨blk, -, rfl⟩ := funcDeclBody_params n false c1 op cp ptoks more names v fn l3 hcp hpl hfn
    exact ⟨blk, hs.symm⟩

/-- C8 at `function t:m(x) end`: the parameter list is "self", "x". -/
theorem C8_method_decl_self_witness :
    statement 6 ⟨eofToken, ⟨"function", tknFunction, 1⟩ :: methodDeclTokens⟩ =
      .ok (.Assign ⟨AssignNode, 1⟩ false false
            [.TableAccessor ⟨TableAccessorNode, 1⟩ (.ConstIdent ⟨ConstIdentNode, 1⟩ "t")
              (.ConstString ⟨ConstStringNode, 1⟩ "m")]
            [.FuncDecl ⟨FuncDeclNode, 1⟩ ["self", "x"] false "" []],
          ⟨⟨"end", tknEnd, 1⟩, []⟩) ∧
    ∃ (path : Node) (l1 : lexer),
      ident 4 ⟨⟨"function", tknFunction, 1⟩, methodDeclTokens⟩ = .ok (path, l1) ∧
      (∀ (colon m op cp : token) (ptoks more : List token) (names : List String) (v : Bool),
        l1.toks = colon :: m :: op :: (ptoks ++ cp :: more) → colon.Typ = tknColon →
        cp.Typ = tknCParen → paramList ptoks = some (names, v) →
        ∃ blk : List Node,
          Node.Assign ⟨AssignNode, 1⟩ false false
            [.TableAccessor ⟨TableAccessorNode, 1⟩ (.ConstIdent ⟨ConstIdentNode, 1⟩ "t")
              (.ConstString ⟨ConstStringNode, 1⟩ "m")]
            [.FuncDecl ⟨FuncDeclNode, 1⟩ ["self", "x"] false "" []] =
          .Assign ⟨AssignNode, (⟨"function", tknFunction, 1⟩ : token).Line⟩ false false
            [.TableAccessor ⟨TableAccessorNode, colon.Line⟩ path
              (.ConstString ⟨ConstStringNode, m.Line⟩ m.Lexeme)]
            [.FuncDecl ⟨FuncDeclNode, op.Line⟩ ("self" :: names) v "" blk]) ∧
      (∀ (op cp : token) (ptoks more : List token) (names : List String) (v : Bool),
        l1.toks = op :: (ptoks ++ cp :: more) → op.Typ ≠ tknColon →
        cp.Typ = tknCParen → paramList ptoks = some (names, v) →
        ∃ blk : List Node,
          Node.Assign ⟨AssignNode, 1⟩ false false
            [.TableAccessor ⟨TableAccessorNode, 1⟩ (.ConstIdent ⟨ConstIdentNode, 1⟩ "t")
              (.ConstString ⟨ConstStringNode, 1⟩ "m")]
            [.FuncDecl ⟨FuncDeclNode, 1⟩ ["self", "x"] false "" []] =
          .Assign ⟨AssignNode, (⟨"function", tknFunction, 1⟩ : token).Line⟩ false false [path]
            [.FuncDecl ⟨FuncDeclNode, op.Line⟩ names v "" blk]) :=
  ⟨rfl, C8_method_decl_self 4 eofToken ⟨"function", tknFunction, 1⟩ methodDeclTokens _ _ rfl rfl⟩

/-- The result of `funcDeclBody` does not depend on the current token. -/
theorem funcDeclBody_current (n : Nat) (hasSelf : Bool) (c1 c2 : token) (toks : List token) :
    funcDeclBody n hasSelf ⟨c1, toks⟩ = funcDeclBody n hasSelf ⟨c2, toks⟩ := by
  cases n with
  | zero => rfl
  | succ n =>
    have hg : (lexer.mk c1 toks).getCurrent [tknOParen] = (lexer.mk c2 toks).getCurrent [tknOParen] :=
      rfl
    simp only [funcDeclBody, hg]

/-- An expression that is a function literal followed by no operator; a
comment right after the literal is skipped by `subexpr`. -/
theorem expression_function (n : Nat) (c tfn : token) (R : List token) (fd : Node) (l' : lexer)
    (htfn : tfn.Typ = tknFunction)
    (hbody : funcDeclBody n false ⟨tfn, R⟩ = .ok (fd, l'))
    (hnb : tknToBinOp (if l'.look.Typ = tknComment then l'.advance else l').look.Typ = none) :
    expression (n + 3) ⟨c, tfn :: R⟩ =
      .ok (fd, if l'.look.Typ = tknComment then l'.advance else l') := by
  have hl1 : (lexer.mk c (tfn :: R)).look.Typ = tknFunction := htfn
  have g4 : (lexer.mk c (tfn :: R)).getCurrent [tknFunction] = .ok ⟨tfn, R⟩ :=
    getCurrent_cons _ _ _ _ (by rw [htfn]; rfl)
  have hv : value (n + 1) ⟨c, tfn :: R⟩ = .ok (fd, l') := by
    simp only [value, hl1, g4, ok_bind, hbody]
  rw [expression, subexpr_value (n + 1) 0 _ (by rw [hl1]; decide) (by rw [hl1]; rfl), hv]
  simp only [Except.bind]
  exact subexprLoop_stop n 0 fd _ hnb

/-- The statement `local function f (P) B end`, read through `funcDeclStat`. -/
theorem statement_local_function (n : Nat) (cur tl tfn f : token) (R : List token)
    (fd : Node) (l' : lexer)
    (htl : tl.Typ = tknLocal) (htfn : tfn.Typ = tknFunction) (hf : f.Typ = tknName)
    (hbody : funcDeclBody n false ⟨tfn, R⟩ = .ok (fd, l')) :
    statement (n + 2) ⟨cur, tl :: tfn :: f :: R⟩ =
      .ok (.Assign ⟨AssignNode, tfn.Line⟩ false true
        [.ConstIdent ⟨ConstIdentNode, f.Line⟩ f.Lexeme] [fd], l') := by
  have hlook : (lexer.mk cur (tl :: tfn :: f :: R)).look.Typ = tknLocal := htl
  have g1 : (lexer.mk cur (tl :: tfn :: f :: R)).getCurrent [tknLocal] =
      .ok ⟨tl, tfn :: f :: R⟩ := getCurrent_cons _ _ _ _ (by rw [htl]; rfl)
  have hc : (lexer.mk tl (tfn :: f :: R)).checkLook [tknFunction] = true := by
    simp [lexer.checkLook, lexer.look, htfn]
  have g2 : (lexer.mk tl (tfn :: f :: R)).getCurrent [tknFunction] = .ok ⟨tfn, f :: R⟩ :=
    getCurrent_cons _ _ _ _ (by rw [htfn]; rfl)
  have g3 : (lexer.mk tfn (f :: R)).getCurrent [tknName] = .ok ⟨f, R⟩ :=
    getCurrent_cons _ _ _ _ (by rw [hf]; rfl)
  have hb : funcDeclBody n false ⟨f, R⟩ = .ok (fd, l') := by
    rw [funcDeclBody_current n false f tfn R]; exact hbody
  simp only [statement, hlook, g1, ok_bind, hc, if_true, funcDeclStat, g2, g3, hb, pure_bind]
  rfl

/-- The statement `local f = function (P) B end`, read through the `local`
case, when no binary operator or comma follows. -/
theorem statement_local_assign_function (n : Nat) (cur tl tfn f teq : token) (R : List token)
    (fd : Node) (l' : lexer)
    (htl : tl.Typ = tknLocal) (htfn : tfn.Typ = tknFunction) (hf : f.Typ = tknName)
    (hteq : teq.Typ = tknSet)
    (hbody : funcDeclBody n false ⟨tfn, R⟩ = .ok (fd, l'))
    (hnb : tknToBinOp (if l'.look.Typ = tknComment then l'.advance else l').look.Typ = none)
    (hns : (if l'.look.Typ = tknComment then l'.advance else l').look.Typ ≠ tknSeperator) :
    statement (n + 4) ⟨cur, tl :: f :: teq :: tfn :: R⟩ =
      .ok (.Assign ⟨AssignNode, tl.Line⟩ true false
        [.ConstIdent ⟨ConstIdentNode, f.Line⟩ f.Lexeme] [fd],
        if l'.look.Typ = tknComment then l'.advance else l') := by
  have hlook : (lexer.mk cur (tl :: f :: teq :: tfn :: R)).look.Typ = tknLocal := htl
  have g1 : (lexer.mk cur (tl :: f :: teq :: tfn :: R)).getCurrent [tknLocal] =
      .ok ⟨tl, f :: teq :: tfn :: R⟩ := getCurrent_cons _ _ _ _ (by rw [htl]; rfl)
  have hc : (lexer.mk tl (f :: teq :: tfn :: R)).checkLook [tknFunction] = false := by
    simp [lexer.checkLook, lexer.look, hf]
  have hc2 : (lexer.mk tl (f :: teq :: tfn :: R)).checkLook [tknSet] = false := by
    simp [lexer.checkLook, lexer.look, hf]
  have g2 : (lexer.mk tl (f :: teq :: tfn :: R)).getCurrent [tknName] =
      .ok ⟨f, teq :: tfn :: R⟩ := getCurrent_cons _ _ _ _ (by rw [hf]; rfl)
  have hc3 : (lexer.mk f (teq :: tfn :: R)).checkLook [tknSeperator] = false := by
    simp [lexer.checkLook, lexer.look, hteq]
  have hc4 : (lexer.mk f (teq :: tfn :: R)).checkLook [tknSet] = true := by
    simp [lexer.checkLook, lexer.look, hteq]
  have g3 : (lexer.mk f (teq :: tfn :: R)).getCurrent [tknSet] = .ok ⟨teq, tfn :: R⟩ :=
    getCurrent_cons _ _ _ _ (by rw [hteq]; rfl)
  have hc5 : (if l'.look.Typ = tknComment then l'.advance else l').checkLook [tknSeperator]
      = false := by
    cases hx : (if l'.look.Typ = tknComment then l'.advance else l').checkLook [tknSeperator] with
    | false => rfl
    | true => exact absurd ((checkLook_single _ _).1 hx) hns
  have he := expression_function n teq tfn R fd l' htfn hbody hnb
  simp only [statement, hlook, g1, ok_bind, hc, Bool.false_eq_true, if_false, localTargets,
    hc2, Bool.not_false, if_true, g2, hc3, he, valuesLoop, hc5, hc4, g3, pure_bind]
  rfl

@[simp]
theorem token.noLine_Typ (t : token) : t.noLine.Typ = t.Typ := rfl

@[simp]
theorem token.noLine_Lexeme (t : token) : t.noLine.Lexeme = t.Lexeme := rfl

@[simp]
theorem token.noLine_Line (t : token) : t.noLine.Line = 0 := rfl

@[simp]
theorem lexer.noLine_current (l : lexer) : l.noLine.current = l.current.noLine := rfl

@[simp]
theorem lexer.noLine_look (l : lexer) : l.noLine.look = l.look.noLine := by
  obtain ⟨c, toks⟩ := l
  cases toks <;> rfl

@[simp]
theorem lexer.noLine_exlook (l : lexer) : l.noLine.exlook = l.exlook.noLine := by
  obtain ⟨c, toks⟩ := l
  cases toks with
  | nil => rfl
  | cons t ts => cases ts <;> rfl

@[simp]
theorem lexer.noLine_advance (l : lexer) : l.noLine.advance = l.advance.noLine := by
  obtain ⟨c, toks⟩ := l
  cases toks <;> rfl

@[simp]
theorem lexer.noLine_checkLook (l : lexer) (ts : List tkn) :
    l.noLine.checkLook ts = l.checkLook ts := by
  simp only [lexer.checkLook, lexer.noLine_look, token.noLine_Typ]

@[simp]
theorem lexer.noLine_getCurrent (l : lexer) (ts : List tkn) :
    l.noLine.getCurrent ts = lexNoLine (l.getCurrent ts) := by
  simp only [lexer.getCurrent, lexer.noLine_advance, lexer.noLine_current, token.noLine_Typ]
  split <;> rfl

theorem noLineList_eq_map (xs : List Node) : noLineList xs = xs.map Node.noLine := by
  induction xs with
  | nil => rfl
  | cons x xs ih => simp only [noLineList, ih, List.map_cons]

theorem noLineList_append (xs ys : List Node) :
    noLineList (xs ++ ys) = noLineList xs ++ noLineList ys := by
  simp only [noLineList_eq_map, List.map_append]

/-- Stepping through a bind whose first part is a parsing function. -/
theorem bind_resNoLine {α β : Type} (g : α → α) (h : β → β) (x : Except Err (Parsed α))
    (k k1 : Parsed α → Except Err (Parsed β))
    (hk : ∀ (a : α) (l : lexer), k1 (g a, l.noLine) = resNoLine h (k (a, l))) :
    (resNoLine g x >>= k1) = resNoLine h (x >>= k) := by
  cases x with
  | error e => rfl
  | ok r => exact hk r.1 r.2

/-- Stepping through a bind whose first part is `getCurrent`. -/
theorem bind_lexNoLine {β : Type} (h : β → β) (x : Except Err lexer)
    (k k1 : lexer → Except Err (Parsed β))
    (hk : ∀ l : lexer, k1 l.noLine = resNoLine h (k l)) :
    (lexNoLine x >>= k1) = resNoLine h (x >>= k) := by
  cases x with
  | error e => rfl
  | ok r => exact hk r

theorem resNoLine_pure {α : Type} (g : α → α) (a : α) (l : lexer) :
    resNoLine g (pure (a, l)) = pure (g a, l.noLine) := rfl

theorem resNoLine_ite {α : Type} (g : α → α) (c : Prop) [Decidable c]
    (x y : Except Err (Parsed α)) :
    resNoLine g (if c then x else y) = if c then resNoLine g x else resNoLine g y := by
  split <;> rfl

/-- The parameter loop of `funcDeclBody` commutes with erasing the lines. -/
theorem funcDeclParams_noLine : ∀ (n : Nat) (params : List String) (l : lexer),
    funcDeclParams n params l.noLine = resNoLine id (funcDeclParams n params l)
  | 0, _, _ => rfl
  | n + 1, params, l => by
    simp only [funcDeclParams, lexer.noLine_checkLook, lexer.noLine_getCurrent, resNoLine_ite]
    split
    · split
      · exact bind_lexNoLine id _ _ _ (fun l1 => rfl)
      · refine bind_lexNoLine id _ _ _ (fun l1 => ?_)
        simp only [lexer.noLine_checkLook, lexer.noLine_getCurrent, resNoLine_ite,
          lexer.noLine_current, token.noLine_Lexeme]
        split
        · rfl
        · refine bind_lexNoLine id _ _ _ (fun l2 => ?_)
          simp only [lexer.noLine_checkLook, lexer.noLine_getCurrent]
          by_cases hc : l2.checkLook [tknName, tknVariadic] = true
          · simp only [hc, Bool.not_true, Bool.false_eq_true, if_false, pure_bind]
            exact funcDeclParams_noLine n _ l2
          · simp only [hc, Bool.not_false, Bool.not_eq_true, Bool.not_eq_true', if_true]
            exact bind_lexNoLine id _ _ _ (fun l3 => funcDeclParams_noLine n _ l3)
    · rfl

theorem exprInfo_noLine (x : Node) (line : Int) : (exprInfo x line).noLine = exprInfo x.noLine 0 := by
  cases x <;> rfl

theorem stmtInfo_noLine (x : Node) (line : Int) : (stmtInfo x line).noLine = stmtInfo x.noLine 0 := by
  cases x <;> rfl

/-- The name loop of the generic `for` commutes with erasing the lines. -/
theorem forLocals_noLine : ∀ (n : Nat) (locals : List String) (l : lexer),
    forLocals n locals l.noLine = resNoLine id (forLocals n locals l)
  | 0, _, _ => rfl
  | n + 1, locals, l => by
    simp only [forLocals, lexer.noLine_checkLook, lexer.noLine_getCurrent, resNoLine_ite,
      lexer.noLine_current, token.noLine_Lexeme]
    split
    · rfl
    · refine bind_lexNoLine id _ _ _ (fun l1 => ?_)
      simp only [lexer.noLine_getCurrent]
      exact bind_lexNoLine id _ _ _ (fun l2 => forLocals_noLine n _ l2)

/-- The target loop of `local` commutes with erasing the lines. -/
theorem localTargets_noLine : ∀ (n : Nat) (targets : List Node) (l : lexer),
    localTargets n (noLineList targets) l.noLine = resNoLine noLineList (localTargets n targets l)
  | 0, _, _ => rfl
  | n + 1, targets, l => by
    simp only [localTargets, lexer.noLine_checkLook, lexer.noLine_getCurrent, resNoLine_ite]
    split
    · refine bind_lexNoLine noLineList _ _ _ (fun l1 => ?_)
      simp only [lexer.noLine_checkLook, lexer.noLine_getCurrent, resNoLine_ite,
        lexer.noLine_current, token.noLine_Lexeme, token.noLine_Line]
      have e : noLineList targets ++ [exprInfo (.ConstIdent {} l1.current.Lexeme) 0] =
          noLineList (targets ++ [exprInfo (.ConstIdent {} l1.current.Lexeme) l1.current.Line]) := by
        rw [noLineList_append]; rfl
      rw [e]
      split
      · rfl
      · exact bind_lexNoLine noLineList _ _ _ (fun l2 => localTargets_noLine n _ l2)
    · rfl

theorem expression_noLine_step (n : Nat) (ih : NoLineInv n) (l : lexer) :
    expression (n + 1) l.noLine = resNoLine Node.noLine (expression (n + 1) l) := by
  simp only [expression]
  exact ih.subexpr 0 l

theorem primaryValue_noLine_step (n : Nat) (ih : NoLineInv n) (l : lexer) :
    primaryValue (n + 1) l.noLine = resNoLine Node.noLine (primaryValue (n + 1) l) := by
  cases hT : l.look.Typ <;>
    simp only [primaryValue, lexer.noLine_look, token.noLine_Typ, hT, lexer.noLine_getCurrent]
  case tknName => exact bind_lexNoLine _ _ _ _ (fun l1 => rfl)
  case tknOParen =>
    refine bind_lexNoLine _ _ _ _ (fun l1 => ?_)
    simp only [ih.expression]
    refine bind_resNoLine _ _ _ _ _ (fun a l2 => ?_)
    simp only [lexer.noLine_getCurrent]
    refine bind_lexNoLine _ _ _ _ (fun l3 => ?_)
    simp only [resNoLine_pure, exprInfo_noLine, lexer.noLine_current, token.noLine_Line]
    rfl
  all_goals exact bind_lexNoLine _ _ _ _ (fun l1 => rfl)

theorem suffixedValue_noLine_step (n : Nat) (ih : NoLineInv n) (l : lexer) :
    suffixedValue (n + 1) l.noLine = resNoLine Node.noLine (suffixedValue (n + 1) l) := by
  simp only [suffixedValue, ih.primaryValue]
  exact bind_resNoLine _ _ _ _ _ (fun a l1 => ih.suffixedValueLoop a l1)

theorem accessor_noLine (v key : Node) (line : Int) :
    exprInfo (.TableAccessor {} v.noLine key.noLine) 0 =
      (exprInfo (.TableAccessor {} v key) line).noLine := rfl

theorem accessorString_noLine (v : Node) (lex : String) (line1 line2 : Int) :
    exprInfo (.TableAccessor {} v.noLine (exprInfo (.ConstString {} lex) 0)) 0 =
      (exprInfo (.TableAccessor {} v (exprInfo (.ConstString {} lex) line1)) line2).noLine := rfl

theorem suffixedValueLoop_noLine_step (n : Nat) (ih : NoLineInv n) (v : Node) (l : lexer) :
    suffixedValueLoop (n + 1) v.noLine l.noLine =
      resNoLine Node.noLine (suffixedValueLoop (n + 1) v l) := by
  simp only [suffixedValueLoop, lexer.noLine_checkLook, resNoLine_ite]
  split
  · cases hT : l.look.Typ <;>
      simp only [lexer.noLine_look, token.noLine_Typ, hT, lexer.noLine_getCurrent]
    case tknOIndex =>
      refine bind_lexNoLine _ _ _ _ (fun l1 => ?_)
      simp only [ih.expression]
      refine bind_resNoLine _ _ _ _ _ (fun a l2 => ?_)
      simp only [lexer.noLine_getCurrent, lexer.noLine_current, token.noLine_Line]
      refine bind_lexNoLine _ _ _ _ (fun l3 => ?_)
      rw [accessor_noLine v a l1.current.Line]
      exact ih.suffixedValueLoop _ l3
    case tknDot =>
      refine bind_lexNoLine _ _ _ _ (fun l1 => ?_)
      simp only [lexer.noLine_getCurrent]
      refine bind_lexNoLine _ _ _ _ (fun l2 => ?_)
      simp only [lexer.noLine_checkLook, lexer.noLine_current, token.noLine_Line,
        token.noLine_Lexeme, resNoLine_ite]
      rw [accessorString_noLine v l2.current.Lexeme l2.current.Line l1.current.Line]
      split
      · simp only [ih.funcCall]
        exact bind_resNoLine _ _ _ _ _ (fun a l3 => ih.suffixedValueLoop a l3)
      · exact ih.suffixedValueLoop _ l2
    all_goals
      simp only [ih.funcCall]
      exact bind_resNoLine _ _ _ _ _ (fun a l3 => ih.suffixedValueLoop a l3)
  · rfl

theorem ident_noLine_step (n : Nat) (ih : NoLineInv n) (l : lexer) :
    ident (n + 1) l.noLine = resNoLine Node.noLine (ident (n + 1) l) := by
  simp only [ident, lexer.noLine_getCurrent]
  refine bind_lexNoLine _ _ _ _ (fun l1 => ?_)
  exact ih.identLoop (exprInfo (.ConstIdent {} l1.current.Lexeme) l1.current.Line) l1

theorem identLoop_noLine_step (n : Nat) (ih : NoLineInv n) (id : Node) (l : lexer) :
    identLoop (n + 1) id.noLine l.noLine = resNoLine Node.noLine (identLoop (n + 1) id l) := by
  simp only [identLoop, lexer.noLine_checkLook, resNoLine_ite]
  split
  · cases hT : l.look.Typ <;>
      simp only [lexer.noLine_look, token.noLine_Typ, hT, lexer.noLine_getCurrent]
    case tknOIndex =>
      refine bind_lexNoLine _ _ _ _ (fun l1 => ?_)
      simp only [ih.expression]
      refine bind_resNoLine _ _ _ _ _ (fun a l2 => ?_)
      simp only [lexer.noLine_getCurrent, lexer.noLine_current, token.noLine_Line]
      refine bind_lexNoLine _ _ _ _ (fun l3 => ?_)
      rw [accessor_noLine id a l1.current.Line]
      exact ih.identLoop _ l3
    case tknDot =>
      refine bind_lexNoLine _ _ _ _ (fun l1 => ?_)
      simp only [lexer.noLine_getCurrent]
      refine bind_lexNoLine _ _ _ _ (fun l2 => ?_)
      simp only [lexer.noLine_current, token.noLine_Line, token.noLine_Lexeme]
      rw [accessorString_noLine id l2.current.Lexeme l2.current.Line l1.current.Line]
      exact ih.identLoop _ l2
    all_goals rfl
  · rfl

theorem value_noLine_step (n : Nat) (ih : NoLineInv n) (l : lexer) :
    value (n + 1) l.noLine = resNoLine Node.noLine (value (n + 1) l) := by
  cases hT : l.look.Typ <;>
    simp only [value, lexer.noLine_look, token.noLine_Typ, hT, lexer.noLine_getCurrent]
  case tknOBracket => exact ih.tblConstruct l
  case tknFunction => exact bind_lexNoLine _ _ _ _ (fun l1 => ih.funcDeclBody false l1)
  case tknTrue => exact bind_lexNoLine _ _ _ _ (fun l1 => rfl)
  case tknFalse => exact bind_lexNoLine _ _ _ _ (fun l1 => rfl)
  case tknNil => exact bind_lexNoLine _ _ _ _ (fun l1 => rfl)
  case tknVariadic => exact bind_lexNoLine _ _ _ _ (fun l1 => rfl)
  case tknInt => exact bind_lexNoLine _ _ _ _ (fun l1 => rfl)
  case tknFloat => exact bind_lexNoLine _ _ _ _ (fun l1 => rfl)
  case tknString => exact bind_lexNoLine _ _ _ _ (fun l1 => rfl)
  case tknComment => exact bind_lexNoLine _ _ _ _ (fun l1 => rfl)
  all_goals exact ih.suffixedValue l

theorem subexprLoop_noLine_step (n : Nat) (ih : NoLineInv n) (limit : Nat) (e1 : Node)
    (l : lexer) :
    subexprLoop (n + 1) limit e1.noLine l.noLine =
      resNoLine Node.noLine (subexprLoop (n + 1) limit e1 l) := by
  simp only [subexprLoop, lexer.noLine_look, token.noLine_Typ]
  cases tknToBinOp l.look.Typ with
  | none => rfl
  | some op =>
    simp only
    cases priorities[op]? with
    | none => rfl
    | some pr =>
      simp only [resNoLine_ite, lexer.noLine_advance, ih.subexpr, lexer.noLine_current,
        token.noLine_Line]
      split
      · refine bind_resNoLine _ _ _ _ _ (fun a l1 => ?_)
        exact ih.subexprLoop limit (exprInfo (.Operator {} op e1 a) l.advance.current.Line) l1
      · rfl

theorem ite_noLine (c : Prop) [Decidable c] (l1 l2 : lexer) :
    (if c then l1.noLine else l2.noLine) = (if c then l1 else l2).noLine := by
  split <;> rfl

theorem subexpr_noLine_step (n : Nat) (ih : NoLineInv n) (limit : Nat) (l : lexer) :
    subexpr (n + 1) limit l.noLine = resNoLine Node.noLine (subexpr (n + 1) limit l) := by
  simp only [subexpr, lexer.noLine_look, token.noLine_Typ, lexer.noLine_advance, ite_noLine]
  generalize (if l.look.Typ = tknComment then l.advance else l) = l0
  cases tknToUnOp l0.look.Typ with
  | none =>
    simp only [ih.value]
    refine bind_resNoLine _ _ _ _ _ (fun a l1 => ?_)
    simp only [lexer.noLine_look, token.noLine_Typ, lexer.noLine_advance, ite_noLine]
    exact ih.subexprLoop limit a _
  | some op =>
    simp only [lexer.noLine_advance, ih.subexpr, bind_assoc]
    refine bind_resNoLine _ _ _ _ _ (fun a l1 => ?_)
    simp only [pure_bind, lexer.noLine_look, token.noLine_Typ, lexer.noLine_advance, ite_noLine,
      lexer.noLine_current, token.noLine_Line]
    exact ih.subexprLoop limit (exprInfo (.Operator {} op .nil a) l0.advance.current.Line) _

theorem append_singleton_noLine (xs : List Node) (x : Node) :
    noLineList xs ++ [x.noLine] = noLineList (xs ++ [x]) := by
  rw [noLineList_append]; rfl

theorem funcCallArgs_noLine_step (n : Nat) (ih : NoLineInv n) (args : List Node) (l : lexer) :
    funcCallArgs (n + 1) (noLineList args) l.noLine =
      resNoLine noLineList (funcCallArgs (n + 1) args l) := by
  simp only [funcCallArgs, lexer.noLine_checkLook, resNoLine_ite, ih.expression]
  split
  · refine bind_resNoLine _ _ _ _ _ (fun a l1 => ?_)
    simp only [lexer.noLine_checkLook, resNoLine_ite, lexer.noLine_getCurrent,
      append_singleton_noLine]
    split
    · rfl
    · exact bind_lexNoLine _ _ _ _ (fun l2 => ih.funcCallArgs _ l2)
  · rfl

theorem funcCall_noLine_step (n : Nat) (ih : NoLineInv n) (id : Node) (l : lexer) :
    funcCall (n + 1) id.noLine l.noLine = resNoLine Node.noLine (funcCall (n + 1) id l) := by
  simp only [funcCall, lexer.noLine_checkLook, lexer.noLine_current, token.noLine_Line]
  have hrf : (if l.checkLook [tknColon] = true then do
        let l1 ← l.noLine.getCurrent [tknColon]
        let l2 ← l1.getCurrent [tknName]
        pure ((id.noLine, exprInfo (.ConstString {} l2.current.Lexeme) l2.current.Line), l2)
      else pure ((Node.nil, id.noLine), l.noLine)) =
      resNoLine (Prod.map Node.noLine Node.noLine) (if l.checkLook [tknColon] = true then do
        let l1 ← l.getCurrent [tknColon]
        let l2 ← l1.getCurrent [tknName]
        pure ((id, exprInfo (.ConstString {} l2.current.Lexeme) l2.current.Line), l2)
      else pure ((Node.nil, id), l)) := by
    simp only [resNoLine_ite, lexer.noLine_getCurrent]
    split
    · refine bind_lexNoLine _ _ _ _ (fun l1 => ?_)
      simp only [lexer.noLine_getCurrent]
      exact bind_lexNoLine _ _ _ _ (fun l2 => rfl)
    · rfl
  rw [hrf]
  refine bind_resNoLine _ _ _ _ _ (fun rf l1 => ?_)
  obtain ⟨r, f⟩ := rf
  simp only [Prod.map_apply]
  cases hT : l1.look.Typ <;>
    simp only [lexer.noLine_look, token.noLine_Typ, hT, lexer.noLine_getCurrent, bind_assoc,
      pure_bind]
  case tknOBracket =>
    simp only [ih.tblConstruct]
    exact bind_resNoLine _ _ _ _ _ (fun a l2 => rfl)
  case tknString => exact bind_lexNoLine _ _ _ _ (fun l2 => rfl)
  case tknOParen =>
    refine bind_lexNoLine _ _ _ _ (fun l2 => ?_)
    have h0 := ih.funcCallArgs [] l2
    simp only [noLineList] at h0
    rw [h0]
    refine bind_resNoLine _ _ _ _ _ (fun a l3 => ?_)
    simp only [lexer.noLine_getCurrent]
    exact bind_lexNoLine _ _ _ _ (fun l4 => rfl)
  all_goals exact bind_lexNoLine _ _ _ _ (fun l2 => rfl)

theorem funcDeclBody_noLine_step (n : Nat) (ih : NoLineInv n) (hasSelf : Bool) (l : lexer) :
    funcDeclBody (n + 1) hasSelf l.noLine =
      resNoLine Node.noLine (funcDeclBody (n + 1) hasSelf l) := by
  simp only [funcDeclBody, lexer.noLine_getCurrent]
  refine bind_lexNoLine _ _ _ _ (fun l1 => ?_)
  simp only [funcDeclParams_noLine]
  refine bind_resNoLine _ _ _ _ _ (fun a l2 => ?_)
  simp only [lexer.noLine_getCurrent]
  refine bind_lexNoLine _ _ _ _ (fun l3 => ?_)
  simp only [ih.block]
  exact bind_resNoLine _ _ _ _ _ (fun b l4 => rfl)

theorem tblConstruct_noLine_step (n : Nat) (ih : NoLineInv n) (l : lexer) :
    tblConstruct (n + 1) l.noLine = resNoLine Node.noLine (tblConstruct (n + 1) l) := by
  simp only [tblConstruct, lexer.noLine_getCurrent]
  refine bind_lexNoLine _ _ _ _ (fun l1 => ?_)
  have h0 := ih.tblConstructLoop [] [] l1
  simp only [noLineList] at h0
  rw [h0]
  refine bind_resNoLine _ _ _ _ _ (fun a l2 => ?_)
  simp only [lexer.noLine_getCurrent]
  exact bind_lexNoLine _ _ _ _ (fun l3 => rfl)

theorem append_nil_noLine (xs : List Node) :
    noLineList xs ++ [Node.nil] = noLineList (xs ++ [Node.nil]) := by
  rw [noLineList_append]; rfl

theorem tblConstructLoop_tail (n : Nat) (ih : NoLineInv n) (keys vals : List Node) (l : lexer) :
    (do
      let r ← expression n l.noLine
      if (!r.2.checkLook [tknSeperator, tknUnnecessary]) = true then
        pure ((noLineList keys, noLineList vals ++ [r.1]), r.2)
      else do
        let l2 ← r.2.getCurrent [tknSeperator, tknUnnecessary]
        tblConstructLoop n (noLineList keys) (noLineList vals ++ [r.1]) l2) =
    resNoLine (Prod.map noLineList noLineList) (do
      let r ← expression n l
      if (!r.2.checkLook [tknSeperator, tknUnnecessary]) = true then
        pure ((keys, vals ++ [r.1]), r.2)
      else do
        let l2 ← r.2.getCurrent [tknSeperator, tknUnnecessary]
        tblConstructLoop n keys (vals ++ [r.1]) l2) := by
  simp only [ih.expression]
  refine bind_resNoLine _ _ _ _ _ (fun a l1 => ?_)
  simp only [lexer.noLine_checkLook, resNoLine_ite, lexer.noLine_getCurrent,
    append_singleton_noLine]
  split
  · rfl
  · exact bind_lexNoLine _ _ _ _ (fun l2 => ih.tblConstructLoop _ _ l2)

theorem tblConstructLoop_noLine_step (n : Nat) (ih : NoLineInv n) (keys vals : List Node)
    (l : lexer) :
    tblConstructLoop (n + 1) (noLineList keys) (noLineList vals) l.noLine =
      resNoLine (Prod.map noLineList noLineList) (tblConstructLoop (n + 1) keys vals l) := by
  simp only [tblConstructLoop, lexer.noLine_checkLook, resNoLine_ite]
  split
  · cases hT : l.look.Typ <;>
      simp only [lexer.noLine_look, token.noLine_Typ, hT, lexer.noLine_getCurrent, bind_assoc,
        pure_bind, lexer.noLine_exlook, append_nil_noLine]
    case tknName =>
      by_cases hx : l.exlook.Typ = tknSet
      · simp only [hx, ne_eq, not_true_eq_false, if_false, bind_assoc, pure_bind,
          lexer.noLine_getCurrent]
        refine bind_lexNoLine _ _ _ _ (fun l1 => ?_)
        simp only [lexer.noLine_getCurrent]
        refine bind_lexNoLine _ _ _ _ (fun l2 => ?_)
        have e : noLineList keys ++
            [exprInfo (.ConstString {} l1.noLine.current.Lexeme) l1.noLine.current.Line] =
            noLineList (keys ++ [exprInfo (.ConstString {} l1.current.Lexeme) l1.current.Line]) := by
          rw [noLineList_append]; rfl
        rw [e]
        exact tblConstructLoop_tail n ih _ vals l2
      · simp only [hx, ne_eq, not_false_eq_true, if_true, pure_bind, append_nil_noLine]
        exact tblConstructLoop_tail n ih _ vals l
    case tknOIndex =>
      refine bind_lexNoLine _ _ _ _ (fun l1 => ?_)
      simp only [ih.expression]
      refine bind_resNoLine _ _ _ _ _ (fun a l2 => ?_)
      simp only [lexer.noLine_getCurrent]
      refine bind_lexNoLine _ _ _ _ (fun l3 => ?_)
      simp only [lexer.noLine_getCurrent]
      refine bind_lexNoLine _ _ _ _ (fun l4 => ?_)
      rw [append_singleton_noLine]
      exact tblConstructLoop_tail n ih _ vals l4
    all_goals exact tblConstructLoop_tail n ih _ vals l
  · rfl

theorem funcDeclStat_noLine_step (n : Nat) (ih : NoLineInv n) (isLocal : Bool) (l : lexer) :
    funcDeclStat (n + 1) isLocal l.noLine =
      resNoLine Node.noLine (funcDeclStat (n + 1) isLocal l) := by
  simp only [funcDeclStat, lexer.noLine_getCurrent]
  refine bind_lexNoLine _ _ _ _ (fun l1 => ?_)
  cases isLocal with
  | true =>
    simp only [if_true, lexer.noLine_getCurrent, bind_assoc, pure_bind]
    refine bind_lexNoLine _ _ _ _ (fun l2 => ?_)
    simp only [ih.funcDeclBody]
    exact bind_resNoLine _ _ _ _ _ (fun a l3 => rfl)
  | false =>
    simp only [Bool.false_eq_true, if_false, ih.ident, bind_assoc]
    refine bind_resNoLine _ _ _ _ _ (fun id l2 => ?_)
    simp only [lexer.noLine_checkLook]
    by_cases hc : l2.checkLook [tknColon] = true
    · simp only [hc, if_true, lexer.noLine_getCurrent, bind_assoc, pure_bind]
      refine bind_lexNoLine _ _ _ _ (fun l3 => ?_)
      simp only [lexer.noLine_getCurrent]
      refine bind_lexNoLine _ _ _ _ (fun l4 => ?_)
      simp only [ih.funcDeclBody]
      exact bind_resNoLine _ _ _ _ _ (fun a l5 => rfl)
    · simp only [hc, Bool.false_eq_true, if_false, pure_bind, ih.funcDeclBody]
      refine bind_resNoLine _ _ _ _ _ (fun a l5 => ?_)
      rfl

theorem block_noLine_step (n : Nat) (ih : NoLineInv n) (enders : List tkn) (l : lexer) :
    block (n + 1) enders l.noLine = resNoLine noLineList (block (n + 1) enders l) := by
  simp only [block]
  have h0 := ih.blockLoop enders [] l
  simp only [noLineList] at h0
  rw [h0]
  refine bind_resNoLine _ _ _ _ _ (fun a l1 => ?_)
  simp only [lexer.noLine_getCurrent]
  exact bind_lexNoLine _ _ _ _ (fun l2 => rfl)

theorem blockLoop_noLine_step (n : Nat) (ih : NoLineInv n) (enders : List tkn)
    (rtn : List Node) (l : lexer) :
    blockLoop (n + 1) enders (noLineList rtn) l.noLine =
      resNoLine noLineList (blockLoop (n + 1) enders rtn l) := by
  simp only [blockLoop, lexer.noLine_checkLook, resNoLine_ite, ih.statement]
  split
  · refine bind_resNoLine _ _ _ _ _ (fun s l1 => ?_)
    simp only [append_singleton_noLine]
    exact ih.blockLoop enders _ l1
  · rfl

theorem setThen_noLine (x : Node) (t : List Node) :
    (setThen x t).noLine = setThen x.noLine (noLineList t) := by
  cases x <;> rfl

theorem setElse_noLine (x : Node) (e : List Node) :
    (setElse x e).noLine = setElse x.noLine (noLineList e) := by
  cases x <;> rfl

theorem setElseAt_noLine (els : List Node) : ∀ (d : Nat) (x : Node),
    (setElseAt d x els).noLine = setElseAt d x.noLine (noLineList els)
  | 0, x => setElse_noLine x els
  | d + 1, x => by
    cases x
    case If b c t e =>
      match e with
      | [] => rfl
      | [e1] =>
        simp only [setElseAt, Node.noLine, noLineList, setElseAt_noLine els d e1]
      | _ :: _ :: _ => rfl
    all_goals rfl

theorem ifNode_noLine (cond : Node) (thn : List Node) (line : Int) :
    setThen (stmtInfo (.If {} cond.noLine [] []) 0) (noLineList thn) =
      (setThen (stmtInfo (.If {} cond [] []) line) thn).noLine := rfl

theorem ifLoop_noLine_step (n : Nat) (ih : NoLineInv n) (rnode : Node) (depth : Nat)
    (l : lexer) :
    ifLoop (n + 1) rnode.noLine depth l.noLine =
      resNoLine Node.noLine (ifLoop (n + 1) rnode depth l) := by
  cases hT : l.current.Typ <;>
    simp only [ifLoop, lexer.noLine_current, token.noLine_Typ, hT, token.noLine_Line]
  case tknElse =>
    simp only [ih.block]
    refine bind_resNoLine _ _ _ _ _ (fun els l1 => ?_)
    simp only [resNoLine_pure, setElseAt_noLine]
  case tknElseif =>
    simp only [ih.expression]
    refine bind_resNoLine _ _ _ _ _ (fun cond l1 => ?_)
    simp only [lexer.noLine_getCurrent]
    refine bind_lexNoLine _ _ _ _ (fun l2 => ?_)
    simp only [ih.block]
    refine bind_resNoLine _ _ _ _ _ (fun thn l3 => ?_)
    rw [ifNode_noLine cond thn l.current.Line]
    have e : setElseAt depth rnode.noLine
        [(setThen (stmtInfo (.If {} cond [] []) l.current.Line) thn).noLine] =
        (setElseAt depth rnode [setThen (stmtInfo (.If {} cond [] []) l.current.Line) thn]).noLine := by
      rw [setElseAt_noLine]; rfl
    rw [e]
    exact ih.ifLoop _ _ l3
  all_goals rfl

theorem forInit_noLine_step (n : Nat) (ih : NoLineInv n) (init : List Node) (l : lexer) :
    forInit (n + 1) (noLineList init) l.noLine = resNoLine noLineList (forInit (n + 1) init l) := by
  simp only [forInit, ih.expression]
  refine bind_resNoLine _ _ _ _ _ (fun a l1 => ?_)
  simp only [lexer.noLine_checkLook, resNoLine_ite, lexer.noLine_getCurrent,
    append_singleton_noLine]
  split
  · rfl
  · exact bind_lexNoLine _ _ _ _ (fun l2 => ih.forInit _ l2)

theorem valuesLoop_noLine_step (n : Nat) (ih : NoLineInv n) (vals : List Node) (l : lexer) :
    valuesLoop (n + 1) (noLineList vals) l.noLine =
      resNoLine noLineList (valuesLoop (n + 1) vals l) := by
  simp only [valuesLoop, lexer.noLine_checkLook, resNoLine_ite, lexer.noLine_getCurrent]
  split
  · refine bind_lexNoLine _ _ _ _ (fun l1 => ?_)
    simp only [ih.expression]
    refine bind_resNoLine _ _ _ _ _ (fun a l2 => ?_)
    simp only [append_singleton_noLine]
    exact ih.valuesLoop _ l2
  · rfl

theorem returnItems_noLine_step (n : Nat) (ih : NoLineInv n) (items : List Node) (l : lexer) :
    returnItems (n + 1) (noLineList items) l.noLine =
      resNoLine noLineList (returnItems (n + 1) items l) := by
  simp only [returnItems, lexer.noLine_checkLook, resNoLine_ite, ih.expression]
  split
  · refine bind_resNoLine _ _ _ _ _ (fun a l1 => ?_)
    simp only [lexer.noLine_checkLook, resNoLine_ite, lexer.noLine_getCurrent,
      append_singleton_noLine]
    split
    · rfl
    · exact bind_lexNoLine _ _ _ _ (fun l2 => ih.returnItems _ l2)
  · rfl

theorem targetsLoop_noLine_step (n : Nat) (ih : NoLineInv n) (targets : List Node)
    (l : lexer) :
    targetsLoop (n + 1) (noLineList targets) l.noLine =
      resNoLine noLineList (targetsLoop (n + 1) targets l) := by
  simp only [targetsLoop, lexer.noLine_checkLook, resNoLine_ite, lexer.noLine_getCurrent]
  split
  · refine bind_lexNoLine _ _ _ _ (fun l1 => ?_)
    simp only [ih.suffixedValue]
    refine bind_resNoLine _ _ _ _ _ (fun a l2 => ?_)
    simp only [append_singleton_noLine]
    exact ih.targetsLoop _ l2
  · rfl

theorem statement_default_noLine (n : Nat) (ih : NoLineInv n) (l : lexer) :
    (do
      let r ← suffixedValue n l.noLine
      match r.1 with
        | .FuncCall .. => pure (r.1, r.2)
        | _ => do
          let t ← targetsLoop n [r.1] r.2
          let l1 ← t.2.getCurrent [tknSet]
          let e ← expression n l1
          let v ← valuesLoop n [e.1] e.2
          pure (stmtInfo (.Assign {} false false t.1 v.1) r.2.current.Line, v.2)) =
    resNoLine Node.noLine (do
      let r ← suffixedValue n l
      match r.1 with
        | .FuncCall .. => pure (r.1, r.2)
        | _ => do
          let t ← targetsLoop n [r.1] r.2
          let l1 ← t.2.getCurrent [tknSet]
          let e ← expression n l1
          let v ← valuesLoop n [e.1] e.2
          pure (stmtInfo (.Assign {} false false t.1 v.1) r.2.current.Line, v.2)) := by
  simp only [ih.suffixedValue]
  refine bind_resNoLine _ _ _ _ _ (fun id l1 => ?_)
  have htail : (do
          let t ← targetsLoop n [id.noLine] l1.noLine
          let l2 ← t.2.getCurrent [tknSet]
          let e ← expression n l2
          let v ← valuesLoop n [e.1] e.2
          pure (stmtInfo (.Assign {} false false t.1 v.1) l1.noLine.current.Line, v.2)) =
        resNoLine Node.noLine (do
          let t ← targetsLoop n [id] l1
          let l2 ← t.2.getCurrent [tknSet]
          let e ← expression n l2
          let v ← valuesLoop n [e.1] e.2
          pure (stmtInfo (.Assign {} false false t.1 v.1) l1.current.Line, v.2)) := by
    have h0 := ih.targetsLoop [id] l1
    simp only [noLineList] at h0
    rw [h0]
    refine bind_resNoLine _ _ _ _ _ (fun ts l2 => ?_)
    simp only [lexer.noLine_getCurrent]
    refine bind_lexNoLine _ _ _ _ (fun l3 => ?_)
    simp only [ih.expression]
    refine bind_resNoLine _ _ _ _ _ (fun e l4 => ?_)
    have h1 := ih.valuesLoop [e] l4
    simp only [noLineList] at h1
    rw [h1]
    refine bind_resNoLine _ _ _ _ _ (fun vs l5 => ?_)
    rfl
  cases id <;> first | rfl | exact htail

theorem statement_noLine_step (n : Nat) (ih : NoLineInv n) (l : lexer) :
    statement (n + 1) l.noLine = resNoLine Node.noLine (statement (n + 1) l) := by
  cases hT : l.look.Typ <;>
    simp only [statement, lexer.noLine_look, token.noLine_Typ, hT, lexer.noLine_getCurrent]
  case tknUnnecessary => exact bind_lexNoLine _ _ _ _ (fun l1 => rfl)
  case tknIf =>
    refine bind_lexNoLine _ _ _ _ (fun l1 => ?_)
    simp only [ih.expression]
    refine bind_resNoLine _ _ _ _ _ (fun cond l2 => ?_)
    simp only [lexer.noLine_getCurrent]
    refine bind_lexNoLine _ _ _ _ (fun l3 => ?_)
    simp only [ih.block]
    refine bind_resNoLine _ _ _ _ _ (fun thn l4 => ?_)
    simp only [lexer.noLine_current, token.noLine_Line]
    rw [ifNode_noLine cond thn l1.current.Line]
    exact ih.ifLoop _ 0 l4
  case tknComment => exact bind_lexNoLine _ _ _ _ (fun l1 => rfl)
  case tknWhile =>
    refine bind_lexNoLine _ _ _ _ (fun l1 => ?_)
    simp only [ih.expression]
    refine bind_resNoLine _ _ _ _ _ (fun cond l2 => ?_)
    simp only [lexer.noLine_getCurrent]
    refine bind_lexNoLine _ _ _ _ (fun l3 => ?_)
    simp only [ih.block]
    refine bind_resNoLine _ _ _ _ _ (fun blk l4 => ?_)
    rfl
  case tknDo =>
    refine bind_lexNoLine _ _ _ _ (fun l1 => ?_)
    simp only [ih.block]
    refine bind_resNoLine _ _ _ _ _ (fun blk l4 => ?_)
    rfl
  case tknFor =>
    refine bind_lexNoLine _ _ _ _ (fun l1 => ?_)
    simp only [lexer.noLine_getCurrent]
    refine bind_lexNoLine _ _ _ _ (fun l2 => ?_)
    simp only [lexer.noLine_checkLook, resNoLine_ite]
    split
    · simp only [lexer.noLine_getCurrent]
      refine bind_lexNoLine _ _ _ _ (fun l3 => ?_)
      simp only [ih.expression]
      refine bind_resNoLine _ _ _ _ _ (fun i l4 => ?_)
      simp only [lexer.noLine_getCurrent]
      refine bind_lexNoLine _ _ _ _ (fun l5 => ?_)
      simp only [ih.expression]
      refine bind_resNoLine _ _ _ _ _ (fun lim l6 => ?_)
      simp only [lexer.noLine_checkLook]
      by_cases hs : l6.checkLook [tknSeperator] = true
      · simp only [hs, if_true, lexer.noLine_getCurrent, bind_assoc]
        refine bind_lexNoLine _ _ _ _ (fun l7 => ?_)
        simp only [ih.expression]
        refine bind_resNoLine _ _ _ _ _ (fun s l8 => ?_)
        simp only [lexer.noLine_getCurrent]
        refine bind_lexNoLine _ _ _ _ (fun l9 => ?_)
        simp only [ih.block]
        refine bind_resNoLine _ _ _ _ _ (fun blk l10 => ?_)
        rfl
      · simp only [hs, Bool.false_eq_true, if_false, pure_bind, lexer.noLine_getCurrent]
        refine bind_lexNoLine _ _ _ _ (fun l9 => ?_)
        simp only [ih.block]
        refine bind_resNoLine _ _ _ _ _ (fun blk l10 => ?_)
        rfl
    · simp only [forLocals_noLine]
      refine bind_resNoLine _ _ _ _ _ (fun locals l3 => ?_)
      simp only [lexer.noLine_getCurrent]
      refine bind_lexNoLine _ _ _ _ (fun l4 => ?_)
      have h0 := ih.forInit [] l4
      simp only [noLineList] at h0
      rw [h0]
      refine bind_resNoLine _ _ _ _ _ (fun init l5 => ?_)
      simp only [lexer.noLine_getCurrent]
      refine bind_lexNoLine _ _ _ _ (fun l6 => ?_)
      simp only [ih.block]
      refine bind_resNoLine _ _ _ _ _ (fun blk l7 => ?_)
      rfl
  case tknRepeat =>
    refine bind_lexNoLine _ _ _ _ (fun l1 => ?_)
    simp only [ih.block]
    refine bind_resNoLine _ _ _ _ _ (fun blk l2 => ?_)
    simp only [ih.expression]
    refine bind_resNoLine _ _ _ _ _ (fun cond l3 => ?_)
    rfl
  case tknFunction => exact ih.funcDeclStat false l
  case tknLocal =>
    refine bind_lexNoLine _ _ _ _ (fun l1 => ?_)
    simp only [lexer.noLine_checkLook, resNoLine_ite]
    split
    · exact ih.funcDeclStat true l1
    · have h0 := localTargets_noLine n [] l1
      simp only [noLineList] at h0
      rw [h0]
      refine bind_resNoLine _ _ _ _ _ (fun targets l2 => ?_)
      simp only [lexer.noLine_checkLook]
      by_cases hs : l2.checkLook [tknSet] = true
      · simp only [hs, if_true, lexer.noLine_getCurrent, bind_assoc]
        refine bind_lexNoLine _ _ _ _ (fun l3 => ?_)
        simp only [ih.expression]
        refine bind_resNoLine _ _ _ _ _ (fun e l4 => ?_)
        have h1 := ih.valuesLoop [e] l4
        simp only [noLineList] at h1
        rw [h1]
        refine bind_resNoLine _ _ _ _ _ (fun vals l5 => ?_)
        rfl
      · simp only [hs, Bool.false_eq_true, if_false, pure_bind]
        rfl
  case tknDblColon =>
    refine bind_lexNoLine _ _ _ _ (fun l1 => ?_)
    simp only [lexer.noLine_getCurrent]
    refine bind_lexNoLine _ _ _ _ (fun l2 => ?_)
    simp only [lexer.noLine_getCurrent]
    exact bind_lexNoLine _ _ _ _ (fun l3 => rfl)
  case tknReturn =>
    refine bind_lexNoLine _ _ _ _ (fun l1 => ?_)
    have h0 := ih.returnItems [] l1
    simp only [noLineList] at h0
    rw [h0]
    refine bind_resNoLine _ _ _ _ _ (fun items l2 => ?_)
    rfl
  case tknBreak => exact bind_lexNoLine _ _ _ _ (fun l1 => rfl)
  case tknContinue => exact bind_lexNoLine _ _ _ _ (fun l1 => rfl)
  case tknGoto =>
    refine bind_lexNoLine _ _ _ _ (fun l1 => ?_)
    simp only [lexer.noLine_getCurrent]
    exact bind_lexNoLine _ _ _ _ (fun l2 => rfl)
  case tknOParen =>
    refine bind_lexNoLine _ _ _ _ (fun l1 => ?_)
    simp only [ih.expression]
    refine bind_resNoLine _ _ _ _ _ (fun id l2 => ?_)
    simp only [lexer.noLine_getCurrent]
    exact bind_lexNoLine _ _ _ _ (fun l3 => ih.funcCall id l3)
  all_goals exact statement_default_noLine n ih l

/-- Every parsing function commutes with erasing the lines of the tokens. -/
theorem noLineInv : ∀ n : Nat, NoLineInv n
  | 0 =>
    { ident := fun _ => rfl, identLoop := fun _ _ => rfl, funcCall := fun _ _ => rfl,
      funcCallArgs := fun _ _ => rfl, funcDeclBody := fun _ _ => rfl,
      tblConstruct := fun _ => rfl, tblConstructLoop := fun _ _ _ => rfl,
      expression := fun _ => rfl, subexpr := fun _ _ => rfl, subexprLoop := fun _ _ _ => rfl,
      value := fun _ => rfl, suffixedValue := fun _ => rfl,
      suffixedValueLoop := fun _ _ => rfl, primaryValue := fun _ => rfl,
      funcDeclStat := fun _ _ => rfl, block := fun _ _ => rfl, blockLoop := fun _ _ _ => rfl,
      ifLoop := fun _ _ _ => rfl, forInit := fun _ _ => rfl, valuesLoop := fun _ _ => rfl,
      returnItems := fun _ _ => rfl, targetsLoop := fun _ _ => rfl,
      statement := fun _ => rfl }
  | n + 1 =>
    have ih := noLineInv n
    { ident := ident_noLine_step n ih
      identLoop := identLoop_noLine_step n ih
      funcCall := funcCall_noLine_step n ih
      funcCallArgs := funcCallArgs_noLine_step n ih
      funcDeclBody := funcDeclBody_noLine_step n ih
      tblConstruct := tblConstruct_noLine_step n ih
      tblConstructLoop := tblConstructLoop_noLine_step n ih
      expression := expression_noLine_step n ih
      subexpr := subexpr_noLine_step n ih
      subexprLoop := subexprLoop_noLine_step n ih
      value := value_noLine_step n ih
      suffixedValue := suffixedValue_noLine_step n ih
      suffixedValueLoop := suffixedValueLoop_noLine_step n ih
      primaryValue := primaryValue_noLine_step n ih
      funcDeclStat := funcDeclStat_noLine_step n ih
      block := block_noLine_step n ih
      blockLoop := blockLoop_noLine_step n ih
      ifLoop := ifLoop_noLine_step n ih
      forInit := forInit_noLine_step n ih
      valuesLoop := valuesLoop_noLine_step n ih
      returnItems := returnItems_noLine_step n ih
      targetsLoop := targetsLoop_noLine_step n ih
      statement := statement_noLine_step n ih }

/-- Two lexer states with the same tokens up to lines: a parse that succeeds
on one succeeds on the other, with the same result up to lines. -/
theorem resNoLine_eq_ok {α : Type} (g : α → α) (x y : Except Err (Parsed α)) (a : α) (l : lexer)
    (h : resNoLine g x = resNoLine g y) (hy : y = .ok (a, l)) :
    ∃ (b : α) (l1 : lexer), x = .ok (b, l1) ∧ g b = g a ∧ l1.noLine = l.noLine := by
  subst hy
  cases x with
  | error e => cases h
  | ok r =>
    simp only [resNoLine, Except.ok.injEq, Prod.mk.injEq] at h
    exact ⟨r.1, r.2, rfl, h.1, h.2⟩

theorem noLine_look_Typ (l1 l2 : lexer) (h : l1.noLine = l2.noLine) :
    l1.look.Typ = l2.look.Typ := by
  have := congrArg (fun l => l.look.Typ) h
  simpa using this

theorem noLine_skipComment (l1 l2 : lexer) (h : l1.noLine = l2.noLine) :
    (if l1.look.Typ = tknComment then l1.advance else l1).noLine =
      (if l2.look.Typ = tknComment then l2.advance else l2).noLine := by
  rw [noLine_look_Typ l1 l2 h]
  split
  · rw [← lexer.noLine_advance, ← lexer.noLine_advance, h]
  · exact h

/-- C9: when the function literal `(P) B end` parses and the statement ends
there (no binary operator or comma follows), `local function f(P) B end`
yields one Assign with LocalFunc set whose Targets, the ConstIdent f, and
Values, the one FuncDecl with Params P and no injected self, are equal,
ignoring positions, to the Targets and Values of the Assign that
`local f = function(P) B end` yields. The two statements are any two token
streams with the same name f and the same tokens of `(P) B end` up to their
lines. -/
theorem C9_local_function_sugar (n fuel : Nat)
    (cur1 tl1 tfn1 f1 cur2 tl2 f2 teq tfn2 : token)
    (R1 R2 : List token) (fd1 : Node) (l1 : lexer)
    (htl1 : tl1.Typ = tknLocal) (htfn1 : tfn1.Typ = tknFunction) (hf1 : f1.Typ = tknName)
    (htl2 : tl2.Typ = tknLocal) (hf2 : f2.Typ = tknName) (hteq : teq.Typ = tknSet)
    (htfn2 : tfn2.Typ = tknFunction)
    (hname : f1.Lexeme = f2.Lexeme) (hR : R1.map token.noLine = R2.map token.noLine)
    (hbody : funcDeclBody n false ⟨tfn1, R1⟩ = .ok (fd1, l1))
    (hnb : tknToBinOp (if l1.look.Typ = tknComment then l1.advance else l1).look.Typ = none)
    (hns : (if l1.look.Typ = tknComment then l1.advance else l1).look.Typ ≠ tknSeperator)
    (hfuel : n + 4 ≤ fuel) :
    ∃ (fd2 : Node) (l2 : lexer),
      statement fuel ⟨cur1, tl1 :: tfn1 :: f1 :: R1⟩ =
        .ok (.Assign ⟨AssignNode, tfn1.Line⟩ false true
          [.ConstIdent ⟨ConstIdentNode, f1.Line⟩ f1.Lexeme] [fd1], l1) ∧
      statement fuel ⟨cur2, tl2 :: f2 :: teq :: tfn2 :: R2⟩ =
        .ok (.Assign ⟨AssignNode, tl2.Line⟩ true false
          [.ConstIdent ⟨ConstIdentNode, f2.Line⟩ f2.Lexeme] [fd2], l2) ∧
      noLineList [.ConstIdent ⟨ConstIdentNode, f1.Line⟩ f1.Lexeme] =
        noLineList [.ConstIdent ⟨ConstIdentNode, f2.Line⟩ f2.Lexeme] ∧
      noLineList [fd1] = noLineList [fd2] ∧
      (∀ (op cp : token) (ptoks more : List token) (names : List String) (v : Bool),
        R1 = op :: (ptoks ++ cp :: more) → cp.Typ = tknCParen →
        paramList ptoks = some (names, v) →
        ∃ blk : List Node, fd1 = .FuncDecl ⟨FuncDeclNode, op.Line⟩ names v "" blk) := by
  have hcomm1 := (noLineInv n).funcDeclBody false ⟨tfn1, R1⟩
  have hcomm2 := (noLineInv n).funcDeclBody false ⟨tfn2, R2⟩
  have hlex : (lexer.mk tfn2 R2).noLine = ⟨tfn2.noLine, R1.map token.noLine⟩ := by
    simp only [lexer.noLine, hR]
  have hsame : funcDeclBody n false (lexer.mk tfn2 R2).noLine =
      funcDeclBody n false (lexer.mk tfn1 R1).noLine := by
    rw [hlex]
    exact funcDeclBody_current n false _ _ _
  rw [hsame, hcomm1] at hcomm2
  obtain ⟨fd2, l2, hbody2, hfd, hl⟩ :=
    resNoLine_eq_ok Node.noLine _ _ fd1 l1 hcomm2.symm hbody
  have hskip := noLine_skipComment l2 l1 hl
  have hty := noLine_look_Typ _ _ hskip
  refine ⟨fd2, if l2.look.Typ = tknComment then l2.advance else l2,
    statement_mono (by omega) _ _
      (statement_local_function n cur1 tl1 tfn1 f1 R1 fd1 l1 htl1 htfn1 hf1 hbody),
    statement_mono hfuel _ _
      (statement_local_assign_function n cur2 tl2 tfn2 f2 teq R2 fd2 l2 htl2 htfn2 hf2 hteq
        hbody2 (by rw [hty]; exact hnb) (by rw [hty]; exact hns)), ?_, ?_, ?_⟩
  · simp only [noLineList, Node.noLine, nodeBase.noLine, hname]
  · simp only [noLineList, hfd]
  · intro op cp ptoks more names v hR1 hcp hpl
    subst hR1
    obtain ⟨blk, -, hfd1⟩ :=
      funcDeclBody_params n false tfn1 op cp ptoks more names v fd1 l1 hcp hpl hbody
    exact ⟨blk, hfd1⟩

/-- C9 at `local function f(x) end` on line 1 and `local f = function(x) end`
on lines 3 and 4. -/
theorem C9_local_function_sugar_witness :
    statement 7 ⟨eofToken, ⟨"local", tknLocal, 3⟩ :: ⟨"f", tknName, 3⟩ :: ⟨"=", tknSet, 3⟩ ::
        ⟨"function", tknFunction, 3⟩ :: funcBodyTokensLater⟩ =
      .ok (.Assign ⟨AssignNode, 3⟩ true false [.ConstIdent ⟨ConstIdentNode, 3⟩ "f"]
        [.FuncDecl ⟨FuncDeclNode, 3⟩ ["x"] false "" []], ⟨⟨"end", tknEnd, 4⟩, []⟩) ∧
    ∃ (fd2 : Node) (l2 : lexer),
      statement 7 ⟨eofToken, ⟨"local", tknLocal, 1⟩ :: ⟨"function", tknFunction, 1⟩ ::
          ⟨"f", tknName, 1⟩ :: funcBodyTokens⟩ =
        .ok (.Assign ⟨AssignNode, 1⟩ false true [.ConstIdent ⟨ConstIdentNode, 1⟩ "f"]
          [.FuncDecl ⟨FuncDeclNode, 1⟩ ["x"] false "" []], ⟨⟨"end", tknEnd, 1⟩, []⟩) ∧
      statement 7 ⟨eofToken, ⟨"local", tknLocal, 3⟩ :: ⟨"f", tknName, 3⟩ :: ⟨"=", tknSet, 3⟩ ::
          ⟨"function", tknFunction, 3⟩ :: funcBodyTokensLater⟩ =
        .ok (.Assign ⟨AssignNode, 3⟩ true false [.ConstIdent ⟨ConstIdentNode, 3⟩ "f"] [fd2],
          l2) ∧
      noLineList [.ConstIdent ⟨ConstIdentNode, 1⟩ "f"] =
        noLineList [.ConstIdent ⟨ConstIdentNode, 3⟩ "f"] ∧
      noLineList [.FuncDecl ⟨FuncDeclNode, 1⟩ ["x"] false "" []] = noLineList [fd2] ∧
      (∀ (op cp : token) (ptoks more : List token) (names : List String) (v : Bool),
        funcBodyTokens = op :: (ptoks ++ cp :: more) → cp.Typ = tknCParen →
        paramList ptoks = some (names, v) →
        ∃ blk : List Node, Node.FuncDecl ⟨FuncDeclNode, 1⟩ ["x"] false "" [] =
          .FuncDecl ⟨FuncDeclNode, op.Line⟩ names v "" blk) :=
  ⟨rfl, C9_local_function_sugar 3 7 eofToken ⟨"local", tknLocal, 1⟩ ⟨"function", tknFunction, 1⟩
    ⟨"f", tknName, 1⟩ eofToken ⟨"local", tknLocal, 3⟩ ⟨"f", tknName, 3⟩ ⟨"=", tknSet, 3⟩
    ⟨"function", tknFunction, 3⟩ funcBodyTokens funcBodyTokensLater
    (.FuncDecl ⟨FuncDeclNode, 1⟩ ["x"] false "" []) ⟨⟨"end", tknEnd, 1⟩, []⟩
    rfl rfl rfl rfl rfl rfl rfl rfl rfl rfl rfl (by decide) (by decide)⟩

theorem ifChain_snoc (c : ifClause) (els : List Node) :
    ∀ (cs0 : List ifClause) (c0 : ifClause),
      ifChain c0 (cs0 ++ [c]) els = ifChain c0 cs0 [ifChain c [] els]
  | [], c0 => rfl
  | c1 :: cs, c0 => by
    show Node.If _ _ _ [ifChain c1 (cs ++ [c]) els] = _
    rw [ifChain_snoc c els cs c1]
    rfl

theorem setElseAt_ifChain (els : List Node) :
    ∀ (cs0 : List ifClause) (c0 : ifClause),
      setElseAt cs0.length (ifChain c0 cs0 []) els = ifChain c0 cs0 els
  | [], c0 => rfl
  | c1 :: cs, c0 => by
    show Node.If _ _ _ [setElseAt cs.length (ifChain c1 cs []) els] = _
    rw [setElseAt_ifChain els cs c1]
    rfl

/-- The `elseif`/`else` loop, started on a chain whose last If has no Else
yet, returns the chain extended by the clauses that follow. -/
theorem ifLoop_eq_ifChain : ∀ (n : Nat) (c0 : ifClause) (cs0 : List ifClause) (l : lexer),
    ifLoop n (ifChain c0 cs0 []) cs0.length l =
      (elseifClauses n l >>= fun r => pure (ifChain c0 (cs0 ++ r.1.1) r.1.2, r.2))
  | 0, _, _, _ => rfl
  | n + 1, c0, cs0, l => by
    cases hT : l.current.Typ <;> simp only [ifLoop, elseifClauses, hT, error_bind]
    case tknElse =>
      cases block n [tknEnd] l with
      | error e => rfl
      | ok r => simp only [ok_bind, pure_bind, List.append_nil, setElseAt_ifChain]
    case tknElseif =>
      cases expression n l with
      | error e => rfl
      | ok r1 =>
        simp only [ok_bind]
        cases r1.2.getCurrent [tknThen] with
        | error e => rfl
        | ok l2 =>
          simp only [ok_bind]
          cases block n [tknElse, tknElseif, tknEnd] l2 with
          | error e => rfl
          | ok r3 =>
            simp only [ok_bind, setElseAt_ifChain]
            have hnode : setThen (stmtInfo (.If {} r1.1 [] []) l.current.Line) r3.1 =
                ifChain (l.current.Line, r1.1, r3.1) [] [] := rfl
            have hlen : cs0.length + 1 = (cs0 ++ [(l.current.Line, r1.1, r3.1)]).length := by
              simp
            rw [hnode, ← ifChain_snoc, hlen, ifLoop_eq_ifChain n c0 _ r3.2]
            cases elseifClauses n r3.2 with
            | error e => rfl
            | ok r4 => simp only [ok_bind, pure_bind, List.append_assoc, List.singleton_append]
    case tknEnd => simp only [pure_bind, List.append_nil]

/-- C10: the `if` case of `statement` returns the If of the first clause, in
which every `elseif` clause is the single statement of the Else of the clause
before it and the last clause has the parsed else-block, or an empty Else,
as its Else: the result is `ifChain` of the clauses read in source order. -/
theorem C10_elseif_chain (n : Nat) (cur tif : token) (rest : List token)
    (hif : tif.Typ = tknIf) :
    statement (n + 1) ⟨cur, tif :: rest⟩ =
      (ifClauses n ⟨cur, tif :: rest⟩ >>= fun r => pure (ifChain r.1.1 r.1.2.1 r.1.2.2, r.2)) := by
  have hlook : (lexer.mk cur (tif :: rest)).look.Typ = tknIf := hif
  simp only [statement, hlook, ifClauses]
  cases (lexer.mk cur (tif :: rest)).getCurrent [tknIf] with
  | error e => rfl
  | ok l1 =>
    simp only [ok_bind]
    cases expression n l1 with
    | error e => rfl
    | ok r1 =>
      simp only [ok_bind]
      cases r1.2.getCurrent [tknThen] with
      | error e => rfl
      | ok l2 =>
        simp only [ok_bind]
        cases block n [tknElse, tknElseif, tknEnd] l2 with
        | error e => rfl
        | ok r3 =>
          simp only [ok_bind]
          have hnode : setThen (stmtInfo (.If {} r1.1 [] []) l1.current.Line) r3.1 =
              ifChain (l1.current.Line, r1.1, r3.1) [] [] := rfl
          rw [hnode]
          have h := ifLoop_eq_ifChain n (l1.current.Line, r1.1, r3.1) [] r3.2
          simp only [List.length_nil, List.nil_append] at h
          rw [h]
          cases elseifClauses n r3.2 with
          | error e => rfl
          | ok r4 => rfl

/-- C10 at `if a then elseif b then break elseif c then else ; end`. -/
theorem C10_elseif_chain_witness :
    ifClauses 8 ⟨eofToken, ifChainTokens⟩ =
      .ok (((1, .ConstIdent ⟨ConstIdentNode, 1⟩ "a", []),
            [(2, .ConstIdent ⟨ConstIdentNode, 2⟩ "b", [.Goto ⟨GotoNode, 2⟩ true false "break"]),
             (3, .ConstIdent ⟨ConstIdentNode, 3⟩ "c", [])],
            [.DoBlock ⟨DoBlockNode, 4⟩ []]), ⟨⟨"end", tknEnd, 5⟩, []⟩) ∧
    statement 9 ⟨eofToken, ifChainTokens⟩ =
      .ok (.If ⟨IfNode, 1⟩ (.ConstIdent ⟨ConstIdentNode, 1⟩ "a") []
            [.If ⟨IfNode, 2⟩ (.ConstIdent ⟨ConstIdentNode, 2⟩ "b")
              [.Goto ⟨GotoNode, 2⟩ true false "break"]
              [.If ⟨IfNode, 3⟩ (.ConstIdent ⟨ConstIdentNode, 3⟩ "c") []
                [.DoBlock ⟨DoBlockNode, 4⟩ []]]],
          ⟨⟨"end", tknEnd, 5⟩, []⟩) ∧
    statement 9 ⟨eofToken, ⟨"if", tknIf, 1⟩ :: ifChainTokens.tail⟩ =
      (ifClauses 8 ⟨eofToken, ⟨"if", tknIf, 1⟩ :: ifChainTokens.tail⟩ >>=
        fun r => pure (ifChain r.1.1 r.1.2.1 r.1.2.2, r.2)) :=
  ⟨rfl, rfl, C10_elseif_chain 8 eofToken ⟨"if", tknIf, 1⟩ ifChainTokens.tail rfl⟩

/-! ### Traversal: lemmas -/

theorem WalkRes.done_bind {γ : Type} (g : γ) (k : γ → WalkRes γ) :
    (WalkRes.done g).bind k = k g := rfl

theorem WalkRes.panic_bind {γ : Type} (g : γ) (k : γ → WalkRes γ) :
    (WalkRes.panic g).bind k = .panic g := rfl

theorem WalkRes.bind_done {γ : Type} (r : WalkRes γ) : r.bind WalkRes.done = r := by
  cases r <;> rfl

theorem WalkRes.bind_assoc {γ : Type} (r : WalkRes γ) (k1 k2 : γ → WalkRes γ) :
    (r.bind k1).bind k2 = r.bind (fun g => (k1 g).bind k2) := by
  cases r <;> rfl

theorem WalkList_nil {σ γ : Type} (V : Visitor σ γ) (v : σ) :
    WalkList V v [] = WalkRes.done := by
  funext g; rfl

theorem WalkList_cons {σ γ : Type} (V : Visitor σ γ) (v : σ) (x : Node) (xs : List Node) (g : γ) :
    WalkList V v (x :: xs) g = (Walk V v x g).bind (WalkList V v xs) := by
  rw [WalkList]

theorem WalkList_append {σ γ : Type} (V : Visitor σ γ) (v : σ) (xs ys : List Node) (g : γ) :
    WalkList V v (xs ++ ys) g = (WalkList V v xs g).bind (WalkList V v ys) := by
  induction xs generalizing g with
  | nil => simp [WalkList_nil, WalkRes.done_bind]
  | cons x xs ih =>
    simp only [List.cons_append, WalkList_cons, WalkRes.bind_assoc]
    congr 1
    funext g1
    exact ih g1

theorem Walk_eq {σ γ : Type} (V : Visitor σ γ) (v : σ) (n : Node) (g : γ) :
    Walk V v n g =
      match V.Visit v n g with
      | (none, g1) => .done g1
      | (some w, g1) =>
        if n.hasCase then
          (WalkList V w n.children g1).bind (fun g2 => .done (V.Visit w .nil g2).2)
        else .panic g1 := by
  unfold Walk
  rcases h : V.Visit v n g with ⟨_ | w, g1⟩
  · rfl
  · cases n
    case FuncCall b r f args =>
      cases r <;>
        simp [Node.hasCase, Node.children, WalkList_cons, WalkList_nil, WalkList_append,
          WalkRes.bind_assoc, WalkRes.done_bind, WalkRes.bind_done]
    all_goals
      simp [Node.hasCase, Node.children, WalkList_cons, WalkList_nil, WalkList_append,
        WalkRes.bind_assoc, WalkRes.done_bind, WalkRes.bind_done, WalkRes.panic_bind]

theorem visitsList_append (xs ys : List Node) :
    visitsList (xs ++ ys) = visitsList xs ++ visitsList ys := by
  induction xs with
  | nil => simp [visitsList]
  | cons x xs ih => simp [visitsList, ih]

theorem inspectedList_append (p : Node → Bool) (xs ys : List Node) :
    inspectedList p (xs ++ ys) = inspectedList p xs ++ inspectedList p ys := by
  induction xs with
  | nil => simp [inspectedList]
  | cons x xs ih => simp [inspectedList, ih]

theorem coveredList_append (xs ys : List Node) :
    coveredList (xs ++ ys) = (coveredList xs && coveredList ys) := by
  induction xs with
  | nil => simp [coveredList]
  | cons x xs ih => simp [coveredList, ih, Bool.and_assoc]

theorem coveredList_mem {xs : List Node} (h : coveredList xs = true) {c : Node} (hc : c ∈ xs) :
    c.covered = true := by
  induction xs with
  | nil => cases hc
  | cons x xs ih =>
    simp only [coveredList, Bool.and_eq_true] at h
    rcases List.mem_cons.1 hc with rfl | hc
    · exact h.1
    · exact ih h.2 hc

theorem Node.visits_eq (n : Node) (h : n.isNil = false) :
    n.visits = n :: visitsList n.children ++ [.nil] := by
  cases n
  case nil => cases h
  case FuncCall b r f args =>
    cases r <;> simp [Node.visits, Node.children, visitsList, visitsList_append]
  all_goals simp [Node.visits, Node.children, visitsList, visitsList_append]

theorem Node.inspected_eq (p : Node → Bool) (n : Node) (h : n.isNil = false) :
    n.inspected p = n :: (if p n then inspectedList p n.children else []) := by
  cases n
  case nil => cases h
  case FuncCall b r f args =>
    cases r <;> simp [Node.inspected, Node.children, inspectedList, inspectedList_append]
  all_goals simp [Node.inspected, Node.children, inspectedList, inspectedList_append]

theorem Node.covered_children (n : Node) (h : n.covered = true) :
    n.hasCase = true ∧ n.isNil = false ∧ coveredList n.children = true := by
  cases n
  case FuncCall b r f args =>
    cases r <;>
      simp_all [Node.covered, Node.hasCase, Node.isNil, Node.children, coveredList,
        coveredList_append, Bool.and_assoc]
  all_goals
    simp_all [Node.covered, Node.hasCase, Node.isNil, Node.children, coveredList,
      coveredList_append, Bool.and_assoc]

theorem Node.sizeOf_children (n : Node) : ∀ c ∈ n.children, sizeOf c < sizeOf n := by
  have hl : ∀ (xs : List Node) (c : Node), c ∈ xs → sizeOf c < sizeOf xs :=
    fun xs c h => List.sizeOf_lt_of_mem h
  cases n
  case FuncCall b r f args =>
    cases r <;> intro c hc <;>
      simp only [Node.children, List.mem_cons, List.mem_append] at hc <;>
      simp only [Node.FuncCall.sizeOf_spec]
    all_goals
      first
        | (rcases hc with rfl | hc
           · omega
           · have := hl _ _ hc; omega)
        | (rcases hc with rfl | rfl | hc
           · simp; omega
           · omega
           · have := hl _ _ hc; omega)
  all_goals
    intro c hc
    simp only [Node.children, List.mem_cons, List.mem_append, List.mem_singleton,
      List.not_mem_nil, or_false] at hc
  case Assign b ld lf ts vs =>
    simp only [Node.Assign.sizeOf_spec]
    rcases hc with hc | hc <;> have := hl _ _ hc <;> omega
  case DoBlock b blk => simp only [Node.DoBlock.sizeOf_spec]; have := hl _ _ hc; omega
  case If b x t e =>
    simp only [Node.If.sizeOf_spec]
    rcases hc with rfl | hc | hc
    · omega
    · have := hl _ _ hc; omega
    · have := hl _ _ hc; omega
  case WhileLoop b x blk =>
    simp only [Node.WhileLoop.sizeOf_spec]
    rcases hc with rfl | hc
    · omega
    · have := hl _ _ hc; omega
  case RepeatUntilLoop b x blk =>
    simp only [Node.RepeatUntilLoop.sizeOf_spec]
    rcases hc with hc | rfl
    · have := hl _ _ hc; omega
    · omega
  case ForLoopNumeric b x i lim st blk =>
    simp only [Node.ForLoopNumeric.sizeOf_spec]
    rcases hc with rfl | rfl | rfl | hc
    · omega
    · omega
    · omega
    · have := hl _ _ hc; omega
  case ForLoopGeneric b x i blk =>
    simp only [Node.ForLoopGeneric.sizeOf_spec]
    rcases hc with hc | hc <;> have := hl _ _ hc <;> omega
  case Return b items => simp only [Node.Return.sizeOf_spec]; have := hl _ _ hc; omega
  case Operator b op l r =>
    simp only [Node.Operator.sizeOf_spec]
    rcases hc with rfl | rfl <;> omega
  case FuncDecl b x y z blk => simp only [Node.FuncDecl.sizeOf_spec]; have := hl _ _ hc; omega
  case TableConstructor b ks vs =>
    simp only [Node.TableConstructor.sizeOf_spec]
    rcases hc with hc | hc <;> have := hl _ _ hc <;> omega
  case TableAccessor b o k =>
    simp only [Node.TableAccessor.sizeOf_spec]
    rcases hc with rfl | rfl <;> omega
  case Parens b i => subst hc; simp only [Node.Parens.sizeOf_spec]; omega

theorem Visitor.traced_Visit {σ γ : Type} (V : Visitor σ γ) (v : σ) (n : Node)
    (g : γ × List Node) :
    V.traced.Visit v n g = ((V.Visit v n g.1).1, ((V.Visit v n g.1).2, g.2 ++ [n])) := rfl

theorem inspector_recording (p : Node → Bool) (u : Unit) (n : Node) (g : List Node) :
    (inspector (recording p)).Visit u n g = (if p n then some () else none, g ++ [n]) := by
  cases h : p n <;> simp [inspector, recording, h]

theorem WalkList_traced {σ γ : Type} (V : Visitor σ γ) (v : σ) (ns : List Node)
    (h : ∀ c ∈ ns, ∀ g tr, ∃ g1, Walk V.traced v c (g, tr) = .done (g1, tr ++ c.visits)) :
    ∀ g tr, ∃ g1, WalkList V.traced v ns (g, tr) = .done (g1, tr ++ visitsList ns) := by
  induction ns with
  | nil => intro g tr; exact ⟨g, by simp [WalkList_nil, visitsList]⟩
  | cons x xs ih =>
    intro g tr
    obtain ⟨g1, h1⟩ := h x (List.mem_cons_self _ _) g tr
    obtain ⟨g2, h2⟩ := ih (fun c hc => h c (List.mem_cons_of_mem _ hc)) g1 (tr ++ x.visits)
    exact ⟨g2, by simp [WalkList_cons, h1, WalkRes.done_bind, h2, visitsList]⟩

theorem Walk_traced_aux {σ γ : Type} (V : Visitor σ γ) (v : σ)
    (hV : ∀ n g, (V.Visit v n g).1 = some v) :
    ∀ (k : Nat) (n : Node), sizeOf n < k → n.covered = true →
      ∀ g tr, ∃ g1, Walk V.traced v n (g, tr) = .done (g1, tr ++ n.visits) := by
  intro k
  induction k with
  | zero => intro n h; omega
  | succ k ih =>
    intro n hk hc g tr
    obtain ⟨h1, h2, h3⟩ := n.covered_children hc
    have hch : ∀ c ∈ n.children, ∀ g tr,
        ∃ g1, Walk V.traced v c (g, tr) = .done (g1, tr ++ c.visits) := by
      intro c hcm
      have := n.sizeOf_children c hcm
      exact ih c (by omega) (coveredList_mem h3 hcm)
    obtain ⟨g1, hw⟩ := WalkList_traced V v n.children hch (V.Visit v n g).2 (tr ++ [n])
    refine ⟨(V.Visit v .nil g1).2, ?_⟩
    rw [Walk_eq]
    simp only [Visitor.traced_Visit, hV, h1, if_true, hw, WalkRes.done_bind, n.visits_eq h2]
    simp

/-- For a visitor that always returns itself and a tree that `Walk` covers, the arguments of
`Visit` are the sequence the specification gives, and the walk returns. -/
theorem Walk_traced_visits {σ γ : Type} (V : Visitor σ γ) (v : σ)
    (hV : ∀ n g, (V.Visit v n g).1 = some v) (n : Node) (hc : n.covered = true) (g : γ) :
    ∃ g1, Walk V.traced v n (g, []) = .done (g1, n.visits) := by
  obtain ⟨g1, h⟩ := Walk_traced_aux V v hV (sizeOf n + 1) n (by omega) hc g []
  exact ⟨g1, by simpa using h⟩

theorem WalkList_inspected (p : Node → Bool) (ns : List Node)
    (h : ∀ c ∈ ns, ∀ tr, ∃ tr1, Walk (inspector (recording p)) () c tr = .done (tr ++ tr1) ∧
      tr1.filter (fun c => !c.isNil) = c.inspected p) :
    ∀ tr, ∃ tr1, WalkList (inspector (recording p)) () ns tr = .done (tr ++ tr1) ∧
      tr1.filter (fun c => !c.isNil) = inspectedList p ns := by
  induction ns with
  | nil => intro tr; exact ⟨[], by simp [WalkList_nil, inspectedList]⟩
  | cons x xs ih =>
    intro tr
    obtain ⟨t1, h1, h1f⟩ := h x (List.mem_cons_self _ _) tr
    obtain ⟨t2, h2, h2f⟩ := ih (fun c hc => h c (List.mem_cons_of_mem _ hc)) (tr ++ t1)
    exact ⟨t1 ++ t2, by simp [WalkList_cons, h1, WalkRes.done_bind, h2],
      by simp [inspectedList, h1f, h2f]⟩

theorem Inspect_aux (p : Node → Bool) :
    ∀ (k : Nat) (n : Node), sizeOf n < k → n.covered = true →
      ∀ tr, ∃ tr1, Walk (inspector (recording p)) () n tr = .done (tr ++ tr1) ∧
        tr1.filter (fun c => !c.isNil) = n.inspected p := by
  intro k
  induction k with
  | zero => intro n h; omega
  | succ k ih =>
    intro n hk hc tr
    obtain ⟨h1, h2, h3⟩ := n.covered_children hc
    rw [Walk_eq, n.inspected_eq p h2]
    by_cases hp : p n = true
    · have hch : ∀ c ∈ n.children, ∀ tr, ∃ tr1,
          Walk (inspector (recording p)) () c tr = .done (tr ++ tr1) ∧
          tr1.filter (fun c => !c.isNil) = c.inspected p := by
        intro c hcm
        have := n.sizeOf_children c hcm
        exact ih c (by omega) (coveredList_mem h3 hcm)
      obtain ⟨t1, hw, hf⟩ := WalkList_inspected p n.children hch (tr ++ [n])
      refine ⟨[n] ++ t1 ++ [.nil], ?_, ?_⟩
      · simp [inspector_recording, hp, h1, hw, WalkRes.done_bind]
      · have hn : Node.nil.isNil = true := rfl
        simp [hp, h2, hf, hn, List.filter_cons]
    · refine ⟨[n], ?_, ?_⟩
      · simp [inspector_recording, hp]
      · simp [hp, h2]

/-- On a tree that `Walk` covers, the nodes on which `Inspect` calls the predicate are the
nodes in pre-order all of whose proper ancestors satisfy it. -/
theorem Inspect_inspected (p : Node → Bool) (n : Node) (hc : n.covered = true) :
    ∃ tr, Inspect n (recording p) [] = .done tr ∧
      tr.filter (fun c => !c.isNil) = n.inspected p := by
  obtain ⟨t1, h, hf⟩ := Inspect_aux p (sizeOf n + 1) n (by omega) hc []
  exact ⟨t1, by simpa [Inspect] using h, hf⟩

/-! ### C11: the first call of `Visit`, pruning, and the visitor used for the children -/

/-- The first call of `Walk(v, n)` is `v.Visit(n)`. When that call returns no visitor, the
walk returns in the world that call left, so no further call of `Visit` is made: no child
is visited and there is no exit call. When it returns a visitor `w`, what follows is the
walk of the children of `n`, in order and each with `w`, not with `v`, as far as the first
child on which the walk panics, and then the exit call, also on `w` (for a node the type
switch has no case for, the panic). -/
theorem Walk_first_call {σ γ : Type} (V : Visitor σ γ) (v : σ) (n : Node) (g : γ) :
    ((V.Visit v n g).1 = none → Walk V v n g = .done (V.Visit v n g).2) ∧
    (∀ w, (V.Visit v n g).1 = some w →
      Walk V v n g =
        if n.hasCase then
          (WalkList V w n.children (V.Visit v n g).2).bind
            (fun g2 => .done (V.Visit w .nil g2).2)
        else .panic (V.Visit v n g).2) := by
  rw [Walk_eq]
  rcases h : V.Visit v n g with ⟨_ | w, g1⟩
  · exact ⟨fun _ => rfl, fun w hw => by cases hw⟩
  · refine ⟨(fun hn => by cases hn), fun w1 hw => ?_⟩
    cases hw
    rfl

/-- The walk of a `while` loop: a predicate that is false prunes at the root, and the only
call recorded is the one on the root; a visitor that returns itself walks the condition. -/
theorem Walk_first_call_while :
    Walk (inspector (recording (fun _ => false))) ()
        (.WhileLoop ⟨WhileNode, 1⟩ (.ConstBool ⟨ConstBoolNode, 1⟩ true) []) [] =
      .done [.WhileLoop ⟨WhileNode, 1⟩ (.ConstBool ⟨ConstBoolNode, 1⟩ true) []] ∧
    Walk recorder () (.WhileLoop ⟨WhileNode, 1⟩ (.ConstBool ⟨ConstBoolNode, 1⟩ true) []) [] =
      .done [.WhileLoop ⟨WhileNode, 1⟩ (.ConstBool ⟨ConstBoolNode, 1⟩ true) [],
        .ConstBool ⟨ConstBoolNode, 1⟩ true, .nil, .nil] :=
  ⟨(Walk_first_call (inspector (recording (fun _ => false))) ()
      (.WhileLoop ⟨WhileNode, 1⟩ (.ConstBool ⟨ConstBoolNode, 1⟩ true) []) []).1 rfl,
   ((Walk_first_call recorder ()
      (.WhileLoop ⟨WhileNode, 1⟩ (.ConstBool ⟨ConstBoolNode, 1⟩ true) []) []).2 () rfl).trans
      rfl⟩

/-- C11, at a node whose first child is unset (the Operator of a unary operator, a table
constructor with a positional first entry): when `v.Visit(n)` returns a visitor `w` that
does not return nil on nil, the walk calls `w.Visit(nil)` for the unset child and panics
there; the world it ends in is the one left by these two calls, so the right operand, the
other keys and the values are not walked at all, with `w` or otherwise. -/
theorem C11_walk_unset_child_stops_walk {σ γ : Type} (V : Visitor σ γ) (v w : σ) (g g1 : γ)
    (hn : (V.Visit w .nil g1).1 ≠ none) :
    (∀ (b : nodeBase) (op : opTyp) (r : Node),
      V.Visit v (.Operator b op .nil r) g = (some w, g1) →
      Walk V v (.Operator b op .nil r) g = .panic (V.Visit w .nil g1).2) ∧
    (∀ (b : nodeBase) (ks vs : List Node),
      V.Visit v (.TableConstructor b (.nil :: ks) vs) g = (some w, g1) →
      Walk V v (.TableConstructor b (.nil :: ks) vs) g = .panic (V.Visit w .nil g1).2) := by
  have hnil : Walk V w .nil g1 = .panic (V.Visit w .nil g1).2 := by
    rw [Walk_eq]
    rcases h : V.Visit w .nil g1 with ⟨_ | w2, g2⟩
    · exact absurd (by rw [h]) hn
    · simp [Node.hasCase]
  constructor
  · intro b op r hv
    rw [Walk_eq, hv]
    simp only [Node.hasCase, if_true, Node.children, WalkList_cons, hnil, WalkRes.panic_bind]
  · intro b ks vs hv
    rw [Walk_eq, hv]
    simp only [Node.hasCase, if_true, Node.children, List.cons_append, WalkList_cons, hnil,
      WalkRes.panic_bind]

/-- C11 at the Operator that the parser builds for `- 2`, walked by the visitors that record
their level: the visitor of level 0 is called on the operator, the visitor of level 1 it
returns is called on nil, and the walk panics; the operand 2 is never visited. -/
theorem C11_walk_unset_child_stops_walk_witness :
    (levelRecorder.Visit 1 .nil
        [(0, .Operator ⟨OpNode, 1⟩ OpUMinus .nil (.ConstInt ⟨ConstIntNode, 1⟩ "2"))]).1 ≠ none ∧
    expression 6 ⟨eofToken, [⟨"-", tknSub, 1⟩, ⟨"2", tknInt, 1⟩]⟩ =
      .ok (.Operator ⟨OpNode, 1⟩ OpUMinus .nil (.ConstInt ⟨ConstIntNode, 1⟩ "2"),
        ⟨⟨"2", tknInt, 1⟩, []⟩) ∧
    Walk levelRecorder 0
        (.Operator ⟨OpNode, 1⟩ OpUMinus .nil (.ConstInt ⟨ConstIntNode, 1⟩ "2")) [] =
      .panic [(0, .Operator ⟨OpNode, 1⟩ OpUMinus .nil (.ConstInt ⟨ConstIntNode, 1⟩ "2")),
        (1, .nil)] :=
  ⟨(fun h => nomatch h), rfl,
    (C11_walk_unset_child_stops_walk levelRecorder 0 1 []
      [(0, .Operator ⟨OpNode, 1⟩ OpUMinus .nil (.ConstInt ⟨ConstIntNode, 1⟩ "2"))]
      (fun h => nomatch h)).1 _ _ _ rfl⟩

/-! ### C12: the order of the calls of `Visit` -/

/-- C12, at a comment: the source `-- c` parses to a `Comment` statement; the walk of that
node by a visitor that returns itself calls `Visit` on the node and then panics in the
default branch of the type switch, where the specification has the node followed by the
exit call with nil. -/
theorem C12_walk_comment_panics :
    Parse 5 [⟨"c", tknComment, 1⟩] 1 = ([.Comment ⟨ErrNode, 1⟩ "c"], none) ∧
    Walk recorder () (.Comment ⟨ErrNode, 1⟩ "c") [] = .panic [.Comment ⟨ErrNode, 1⟩ "c"] ∧
    (Node.Comment ⟨ErrNode, 1⟩ "c").visits = [.Comment ⟨ErrNode, 1⟩ "c", .nil] :=
  ⟨rfl, rfl, rfl⟩

/-! ### C13: the walk of a unary operator -/

/-- C13, at every unary operator: the walk by a visitor that returns itself calls `Visit` on
the operator, then on the absent left operand (nil), and panics there, before the right
operand is walked; the specification has the operator, the calls of the right operand and
one nil. The source `- 2` parses to such an operator. -/
theorem C13_walk_unary_operator_panics (b : nodeBase) (op : opTyp) (r : Node) :
    Walk recorder () (.Operator b op .nil r) [] = .panic [.Operator b op .nil r, .nil] ∧
    (Node.Operator b op .nil r).visits = .Operator b op .nil r :: r.visits ++ [.nil] ∧
    expression 6 ⟨eofToken, [⟨"-", tknSub, 1⟩, ⟨"2", tknInt, 1⟩]⟩ =
      .ok (.Operator ⟨OpNode, 1⟩ OpUMinus .nil (.ConstInt ⟨ConstIntNode, 1⟩ "2"),
        ⟨⟨"2", tknInt, 1⟩, []⟩) := by
  refine ⟨?_, ?_, rfl⟩
  · rw [Walk_eq]
    simp only [recorder, Node.hasCase, Node.children, if_true, WalkList_cons]
    rw [Walk_eq]
    simp [recorder, Node.hasCase, WalkRes.panic_bind]
  · simp [Node.visits]

/-! ### C14: the nodes on which `Inspect` calls the predicate -/

/-- C14, at the block `do -- c` / `break end` and the predicate that is true everywhere:
`Inspect` calls the predicate on the block and on the comment and then panics, so the
`break` is never reached, although all its ancestors satisfy the predicate. -/
theorem C14_inspect_comment_panics :
    Parse 10 [⟨"do", tknDo, 1⟩, ⟨"c", tknComment, 1⟩, ⟨"break", tknBreak, 2⟩,
        ⟨"end", tknEnd, 3⟩] 1 =
      ([.DoBlock ⟨DoBlockNode, 1⟩
          [.Comment ⟨ErrNode, 1⟩ "c", .Goto ⟨GotoNode, 2⟩ true false "break"]], none) ∧
    Inspect (.DoBlock ⟨DoBlockNode, 1⟩
        [.Comment ⟨ErrNode, 1⟩ "c", .Goto ⟨GotoNode, 2⟩ true false "break"])
        (recording (fun _ => true)) [] =
      .panic [.DoBlock ⟨DoBlockNode, 1⟩
          [.Comment ⟨ErrNode, 1⟩ "c", .Goto ⟨GotoNode, 2⟩ true false "break"],
        .Comment ⟨ErrNode, 1⟩ "c"] ∧
    (Node.DoBlock ⟨DoBlockNode, 1⟩
        [.Comment ⟨ErrNode, 1⟩ "c", .Goto ⟨GotoNode, 2⟩ true false "break"]).inspected
        (fun _ => true) =
      [.DoBlock ⟨DoBlockNode, 1⟩
          [.Comment ⟨ErrNode, 1⟩ "c", .Goto ⟨GotoNode, 2⟩ true false "break"],
        .Comment ⟨ErrNode, 1⟩ "c", .Goto ⟨GotoNode, 2⟩ true false "break"] :=
  ⟨rfl, rfl, rfl⟩

/-! ### Termination: every parsing function consumes tokens or fails -/

theorem Uses.ret {α : Type} {d m : Nat} (a : α) (l : lexer) (h : l.toks.length + d ≤ m) :
    Uses d m (pure (a, l) : Except Err (Parsed α)) :=
  ⟨(fun h1 => by cases h1), fun r h1 => by cases h1; exact h⟩

theorem UsesL.retL {d m : Nat} (l : lexer) (h : l.toks.length + d ≤ m) :
    UsesL d m (pure l : Except Err lexer) :=
  ⟨(fun h1 => by cases h1), fun r h1 => by cases h1; exact h⟩

theorem Uses.tokenExpected {α : Type} (d m : Nat) (got : token) (want : List tkn) :
    Uses d m (.error (.tokenExpected got want) : Except Err (Parsed α)) :=
  ⟨(fun h1 => by cases h1), fun r h1 => by cases h1⟩

theorem Uses.panic {α : Type} (d m : Nat) (msg : String) :
    Uses d m (.error (.panic msg) : Except Err (Parsed α)) :=
  ⟨(fun h1 => by cases h1), fun r h1 => by cases h1⟩

theorem Uses.weaken {α : Type} {d m d1 m1 : Nat} {x : Except Err (Parsed α)} (h : Uses d m x)
    (hm : m + d1 ≤ m1 + d) : Uses d1 m1 x :=
  ⟨h.1, fun r hr => by have := h.2 r hr; omega⟩

theorem UsesL.weakenL {d m d1 m1 : Nat} {x : Except Err lexer} (h : UsesL d m x)
    (hm : m + d1 ≤ m1 + d) : UsesL d1 m1 x :=
  ⟨h.1, fun r hr => by have := h.2 r hr; omega⟩

theorem Uses.seq {α β : Type} {d m d1 m1 : Nat} {x : Except Err (Parsed α)}
    {k : Parsed α → Except Err (Parsed β)} (hx : Uses d1 m1 x)
    (hk : ∀ r : Parsed α, r.2.toks.length + d1 ≤ m1 → Uses d m (k r)) : Uses d m (x >>= k) := by
  cases x with
  | error e =>
    refine ⟨fun h => hx.1 ?_, fun r h => by cases h⟩
    rw [error_bind] at h; cases h; rfl
  | ok a => exact hk a (hx.2 a rfl)

theorem UsesL.seqL {β : Type} {d m d1 m1 : Nat} {x : Except Err lexer}
    {k : lexer → Except Err (Parsed β)} (hx : UsesL d1 m1 x)
    (hk : ∀ l1 : lexer, l1.toks.length + d1 ≤ m1 → Uses d m (k l1)) : Uses d m (x >>= k) := by
  cases x with
  | error e =>
    refine ⟨fun h => hx.1 ?_, fun r h => by cases h⟩
    rw [error_bind] at h; cases h; rfl
  | ok a => exact hk a (hx.2 a rfl)

theorem UsesL.seqLL {d m d1 m1 : Nat} {x : Except Err lexer}
    {k : lexer → Except Err lexer} (hx : UsesL d1 m1 x)
    (hk : ∀ l1 : lexer, l1.toks.length + d1 ≤ m1 → UsesL d m (k l1)) : UsesL d m (x >>= k) := by
  cases x with
  | error e =>
    refine ⟨fun h => hx.1 ?_, fun r h => by cases h⟩
    rw [error_bind] at h; cases h; rfl
  | ok a => exact hk a (hx.2 a rfl)

theorem lexer.advance_length_le (l : lexer) : l.advance.toks.length ≤ l.toks.length := by
  simp [lexer.advance]

theorem lexer.advance_length (l : lexer) (h : l.look.Typ ≠ tknINVALID) :
    l.advance.toks.length + 1 = l.toks.length := by
  cases l with
  | mk c toks =>
    cases toks with
    | nil => exact absurd rfl h
    | cons t rest => simp [lexer.advance]

/-- A successful `getCurrent` leaves no more tokens than there were. -/
theorem getCurrent_uses0 (l : lexer) (ts : List tkn) :
    UsesL 0 l.toks.length (l.getCurrent ts) := by
  refine ⟨fun h => ?_, fun l1 h => ?_⟩
  · simp only [lexer.getCurrent] at h
    split at h <;> cases h
  · rw [getCurrent_eq_ok] at h
    rw [h.2]
    exact l.advance_length_le

/-- A successful `getCurrent` for token kinds other than the end of the stream consumes one
token. -/
theorem getCurrent_uses (l : lexer) (ts : List tkn) (hts : ts.contains tknINVALID = false) :
    UsesL 1 l.toks.length (l.getCurrent ts) := by
  refine ⟨(getCurrent_uses0 l ts).1, fun l1 h => ?_⟩
  rw [getCurrent_eq_ok] at h
  rw [h.2]
  have : l.look.Typ ≠ tknINVALID := by
    intro h1
    rw [h1, hts] at h
    exact absurd h.1 (by simp)
  have := l.advance_length this
  omega

theorem funcDeclParams_uses : ∀ (n : Nat) (params : List String) (l : lexer),
    12 * l.toks.length + 1 ≤ n → Uses 0 l.toks.length (funcDeclParams n params l)
  | 0, _, _, h => by omega
  | n + 1, params, l, h => by
    simp only [funcDeclParams]
    split
    · split
      · exact UsesL.seqL (getCurrent_uses l _ (by decide)) (fun l1 h1 => Uses.ret _ _ (by omega))
      · refine UsesL.seqL (getCurrent_uses l _ (by decide)) (fun l1 h1 => ?_)
        split
        · exact Uses.ret _ _ (by omega)
        · refine UsesL.seqL (getCurrent_uses l1 _ (by decide)) (fun l2 h2 => ?_)
          refine UsesL.seqL (?_ : UsesL 0 l2.toks.length _) (fun l3 h3 => ?_)
          · split
            · exact getCurrent_uses0 _ _
            · exact UsesL.retL _ (by omega)
          · exact (funcDeclParams_uses n _ l3 (by omega)).weaken (by omega)
    · exact Uses.ret _ _ (by omega)

theorem forLocals_uses : ∀ (n : Nat) (locals : List String) (l : lexer),
    12 * l.toks.length + 1 ≤ n → Uses 0 l.toks.length (forLocals n locals l)
  | 0, _, _, h => by omega
  | n + 1, locals, l, h => by
    simp only [forLocals]
    split
    · exact Uses.ret _ _ (by omega)
    · refine UsesL.seqL (getCurrent_uses l _ (by decide)) (fun l1 h1 => ?_)
      refine UsesL.seqL (getCurrent_uses l1 _ (by decide)) (fun l2 h2 => ?_)
      exact (forLocals_uses n _ l2 (by omega)).weaken (by omega)

theorem localTargets_uses : ∀ (n : Nat) (targets : List Node) (l : lexer),
    12 * l.toks.length + 1 ≤ n → Uses 0 l.toks.length (localTargets n targets l)
  | 0, _, _, h => by omega
  | n + 1, targets, l, h => by
    simp only [localTargets]
    split
    · refine UsesL.seqL (getCurrent_uses l _ (by decide)) (fun l1 h1 => ?_)
      split
      · exact Uses.ret _ _ (by omega)
      · refine UsesL.seqL (getCurrent_uses l1 _ (by decide)) (fun l2 h2 => ?_)
        exact (localTargets_uses n _ l2 (by omega)).weaken (by omega)
    · exact Uses.ret _ _ (by omega)

theorem ident_term_step (n : Nat) (ih : TermInv n) (l : lexer)
    (hn : 12 * l.toks.length + 1 ≤ n + 1) : Uses 1 l.toks.length (ident (n + 1) l) := by
  simp only [ident]
  refine UsesL.seqL (getCurrent_uses l _ (by decide)) (fun l1 h1 => ?_)
  exact (ih.identLoop _ l1 (by omega)).weaken (by omega)

theorem identLoop_term_step (n : Nat) (ih : TermInv n) (id : Node) (l : lexer)
    (hn : 12 * l.toks.length + 1 ≤ n + 1) : Uses 0 l.toks.length (identLoop (n + 1) id l) := by
  simp only [identLoop]
  split
  · cases hT : l.look.Typ <;> simp only []
    case tknOIndex =>
      refine UsesL.seqL (getCurrent_uses l _ (by decide)) (fun l1 h1 => ?_)
      refine Uses.seq (ih.expression l1 (by omega)) (fun r h2 => ?_)
      refine UsesL.seqL (getCurrent_uses r.2 _ (by decide)) (fun l3 h3 => ?_)
      exact (ih.identLoop _ l3 (by omega)).weaken (by omega)
    case tknDot =>
      refine UsesL.seqL (getCurrent_uses l _ (by decide)) (fun l1 h1 => ?_)
      refine UsesL.seqL (getCurrent_uses l1 _ (by decide)) (fun l2 h2 => ?_)
      exact (ih.identLoop _ l2 (by omega)).weaken (by omega)
    all_goals exact Uses.panic _ _ _
  · exact Uses.ret _ _ (by omega)

theorem funcCallArgs_term_step (n : Nat) (ih : TermInv n) (args : List Node) (l : lexer)
    (hn : 12 * l.toks.length + 6 ≤ n + 1) :
    Uses 0 l.toks.length (funcCallArgs (n + 1) args l) := by
  simp only [funcCallArgs]
  split
  · refine Uses.seq (ih.expression l (by omega)) (fun r h1 => ?_)
    split
    · exact Uses.ret _ _ (by omega)
    · refine UsesL.seqL (getCurrent_uses r.2 _ (by decide)) (fun l2 h2 => ?_)
      exact (ih.funcCallArgs _ l2 (by omega)).weaken (by omega)
  · exact Uses.ret _ _ (by omega)

theorem funcCall_term_step (n : Nat) (ih : TermInv n) (id : Node) (l : lexer)
    (hn : 12 * l.toks.length + 2 ≤ n + 1) : Uses 1 l.toks.length (funcCall (n + 1) id l) := by
  simp only [funcCall]
  refine Uses.seq (?_ : Uses 0 l.toks.length _) (fun rf h1 => ?_)
  · split
    · refine UsesL.seqL (getCurrent_uses l _ (by decide)) (fun l1 h1 => ?_)
      refine UsesL.seqL (getCurrent_uses l1 _ (by decide)) (fun l2 h2 => ?_)
      exact Uses.ret _ _ (by omega)
    · exact Uses.ret _ _ (by omega)
  · refine Uses.seq (?_ : Uses 1 rf.2.toks.length _) (fun a h2 => Uses.ret _ _ (by omega))
    cases hT : rf.2.look.Typ <;> simp only []
    case tknOBracket =>
      exact Uses.seq (ih.tblConstruct _ (by omega)) (fun r h3 => Uses.ret _ _ (by omega))
    case tknString =>
      exact UsesL.seqL (getCurrent_uses _ _ (by decide)) (fun l1 h3 => Uses.ret _ _ (by omega))
    case tknOParen =>
      refine UsesL.seqL (getCurrent_uses _ _ (by decide)) (fun l1 h3 => ?_)
      refine Uses.seq (ih.funcCallArgs _ l1 (by omega)) (fun r h4 => ?_)
      exact UsesL.seqL (getCurrent_uses _ _ (by decide)) (fun l2 h5 => Uses.ret _ _ (by omega))
    all_goals
      exact UsesL.seqL (getCurrent_uses _ _ (by decide)) (fun l1 h3 => Uses.ret _ _ (by omega))

theorem funcDeclBody_term_step (n : Nat) (ih : TermInv n) (hasSelf : Bool) (l : lexer)
    (hn : 12 * l.toks.length + 1 ≤ n + 1) :
    Uses 1 l.toks.length (funcDeclBody (n + 1) hasSelf l) := by
  simp only [funcDeclBody]
  refine UsesL.seqL (getCurrent_uses l _ (by decide)) (fun l1 h1 => ?_)
  refine Uses.seq (funcDeclParams_uses n _ l1 (by omega)) (fun r h2 => ?_)
  refine UsesL.seqL (getCurrent_uses r.2 _ (by decide)) (fun l2 h3 => ?_)
  exact Uses.seq (ih.block _ l2 (by omega)) (fun b h4 => Uses.ret _ _ (by omega))

theorem tblConstruct_term_step (n : Nat) (ih : TermInv n) (l : lexer)
    (hn : 12 * l.toks.length + 1 ≤ n + 1) : Uses 1 l.toks.length (tblConstruct (n + 1) l) := by
  simp only [tblConstruct]
  refine UsesL.seqL (getCurrent_uses l _ (by decide)) (fun l1 h1 => ?_)
  refine Uses.seq (ih.tblConstructLoop _ _ l1 (by omega)) (fun r h2 => ?_)
  exact UsesL.seqL (getCurrent_uses r.2 _ (by decide)) (fun l2 h3 => Uses.ret _ _ (by omega))

theorem tblConstructLoop_term_step (n : Nat) (ih : TermInv n) (keys vals : List Node)
    (l : lexer) (hn : 12 * l.toks.length + 6 ≤ n + 1) :
    Uses 0 l.toks.length (tblConstructLoop (n + 1) keys vals l) := by
  simp only [tblConstructLoop]
  split
  · refine Uses.seq (?_ : Uses 0 l.toks.length _) (fun ks h1 => ?_)
    · cases hT : l.look.Typ <;> simp only []
      case tknName =>
        split
        · exact Uses.ret _ _ (by omega)
        · refine UsesL.seqL (getCurrent_uses l _ (by decide)) (fun l1 h1 => ?_)
          exact UsesL.seqL (getCurrent_uses l1 _ (by decide))
            (fun l2 h2 => Uses.ret _ _ (by omega))
      case tknOIndex =>
        refine UsesL.seqL (getCurrent_uses l _ (by decide)) (fun l1 h1 => ?_)
        refine Uses.seq (ih.expression l1 (by omega)) (fun r h2 => ?_)
        refine UsesL.seqL (getCurrent_uses r.2 _ (by decide)) (fun l2 h3 => ?_)
        exact UsesL.seqL (getCurrent_uses l2 _ (by decide))
          (fun l3 h4 => Uses.ret _ _ (by omega))
      all_goals exact Uses.ret _ _ (by omega)
    · refine Uses.seq (ih.expression ks.2 (by omega)) (fun r h2 => ?_)
      split
      · exact Uses.ret _ _ (by omega)
      · refine UsesL.seqL (getCurrent_uses r.2 _ (by decide)) (fun l2 h3 => ?_)
        exact (ih.tblConstructLoop _ _ l2 (by omega)).weaken (by omega)
  · exact Uses.ret _ _ (by omega)

theorem expression_term_step (n : Nat) (ih : TermInv n) (l : lexer)
    (hn : 12 * l.toks.length + 5 ≤ n + 1) : Uses 1 l.toks.length (expression (n + 1) l) := by
  simp only [expression]
  exact ih.subexpr 0 l (by omega)

theorem tknToUnOp_ne_INVALID {t : tkn} {op : opTyp} (h : tknToUnOp t = some op) :
    t ≠ tknINVALID := by
  intro h1; rw [h1] at h; cases h

theorem tknToBinOp_ne_INVALID {t : tkn} {op : opTyp} (h : tknToBinOp t = some op) :
    t ≠ tknINVALID := by
  intro h1; rw [h1] at h; cases h

theorem skipComment_length_le (l : lexer) :
    (if l.look.Typ = tknComment then l.advance else l).toks.length ≤ l.toks.length := by
  split
  · exact l.advance_length_le
  · exact Nat.le_refl _

theorem subexpr_term_step (n : Nat) (ih : TermInv n) (limit : Nat) (l : lexer)
    (hn : 12 * l.toks.length + 4 ≤ n + 1) :
    Uses 1 l.toks.length (subexpr (n + 1) limit l) := by
  simp only [subexpr]
  have hs := skipComment_length_le l
  generalize (if l.look.Typ = tknComment then l.advance else l) = l0 at hs ⊢
  refine Uses.seq (?_ : Uses 1 l0.toks.length _) (fun r h1 => ?_)
  · cases hU : tknToUnOp l0.look.Typ with
    | none => exact ih.value l0 (by omega)
    | some op =>
      have ha := l0.advance_length (tknToUnOp_ne_INVALID hU)
      exact Uses.seq (ih.subexpr 12 l0.advance (by omega))
        (fun r h1 => Uses.ret _ _ (by omega))
  · have hs2 := skipComment_length_le r.2
    exact (ih.subexprLoop _ _ _ (by omega)).weaken (by omega)

theorem subexprLoop_term_step (n : Nat) (ih : TermInv n) (limit : Nat) (e1 : Node) (l : lexer)
    (hn : 12 * l.toks.length + 1 ≤ n + 1) :
    Uses 0 l.toks.length (subexprLoop (n + 1) limit e1 l) := by
  simp only [subexprLoop]
  cases hB : tknToBinOp l.look.Typ with
  | none => exact Uses.ret _ _ (by omega)
  | some op =>
    simp only []
    cases priorities[op]? with
    | none => exact Uses.panic _ _ _
    | some pr =>
      simp only []
      split
      · have ha := l.advance_length (tknToBinOp_ne_INVALID hB)
        refine Uses.seq (ih.subexpr _ l.advance (by omega)) (fun r h1 => ?_)
        exact (ih.subexprLoop _ _ _ (by omega)).weaken (by omega)
      · exact Uses.ret _ _ (by omega)

theorem value_term_step (n : Nat) (ih : TermInv n) (l : lexer)
    (hn : 12 * l.toks.length + 3 ≤ n + 1) : Uses 1 l.toks.length (value (n + 1) l) := by
  cases hT : l.look.Typ <;> simp only [value, hT]
  case tknOBracket => exact ih.tblConstruct l (by omega)
  case tknFunction =>
    refine UsesL.seqL (getCurrent_uses l _ (by decide)) (fun l1 h1 => ?_)
    exact (ih.funcDeclBody _ l1 (by omega)).weaken (by omega)
  case tknTrue =>
    exact UsesL.seqL (getCurrent_uses l _ (by decide)) (fun l1 h1 => Uses.ret _ _ (by omega))
  case tknFalse =>
    exact UsesL.seqL (getCurrent_uses l _ (by decide)) (fun l1 h1 => Uses.ret _ _ (by omega))
  case tknNil =>
    exact UsesL.seqL (getCurrent_uses l _ (by decide)) (fun l1 h1 => Uses.ret _ _ (by omega))
  case tknVariadic =>
    exact UsesL.seqL (getCurrent_uses l _ (by decide)) (fun l1 h1 => Uses.ret _ _ (by omega))
  case tknInt =>
    exact UsesL.seqL (getCurrent_uses l _ (by decide)) (fun l1 h1 => Uses.ret _ _ (by omega))
  case tknFloat =>
    exact UsesL.seqL (getCurrent_uses l _ (by decide)) (fun l1 h1 => Uses.ret _ _ (by omega))
  case tknString =>
    exact UsesL.seqL (getCurrent_uses l _ (by decide)) (fun l1 h1 => Uses.ret _ _ (by omega))
  case tknComment =>
    exact UsesL.seqL (getCurrent_uses l _ (by decide)) (fun l1 h1 => Uses.ret _ _ (by omega))
  all_goals exact ih.suffixedValue l (by omega)

theorem suffixedValue_term_step (n : Nat) (ih : TermInv n) (l : lexer)
    (hn : 12 * l.toks.length + 2 ≤ n + 1) :
    Uses 1 l.toks.length (suffixedValue (n + 1) l) := by
  simp only [suffixedValue]
  refine Uses.seq (ih.primaryValue l (by omega)) (fun r h1 => ?_)
  exact (ih.suffixedValueLoop _ _ (by omega)).weaken (by omega)

theorem suffixedValueLoop_term_step (n : Nat) (ih : TermInv n) (v : Node) (l : lexer)
    (hn : 12 * l.toks.length + 3 ≤ n + 1) :
    Uses 0 l.toks.length (suffixedValueLoop (n + 1) v l) := by
  simp only [suffixedValueLoop]
  split
  · cases hT : l.look.Typ <;> simp only []
    case tknOIndex =>
      refine UsesL.seqL (getCurrent_uses l _ (by decide)) (fun l1 h1 => ?_)
      refine Uses.seq (ih.expression l1 (by omega)) (fun r h2 => ?_)
      refine UsesL.seqL (getCurrent_uses r.2 _ (by decide)) (fun l2 h3 => ?_)
      exact (ih.suffixedValueLoop _ l2 (by omega)).weaken (by omega)
    case tknDot =>
      refine UsesL.seqL (getCurrent_uses l _ (by decide)) (fun l1 h1 => ?_)
      refine UsesL.seqL (getCurrent_uses l1 _ (by decide)) (fun l2 h2 => ?_)
      split
      · refine Uses.seq (ih.funcCall _ l2 (by omega)) (fun r h3 => ?_)
        exact (ih.suffixedValueLoop _ _ (by omega)).weaken (by omega)
      · exact (ih.suffixedValueLoop _ _ (by omega)).weaken (by omega)
    all_goals
      refine Uses.seq (ih.funcCall _ l (by omega)) (fun r h3 => ?_)
      exact (ih.suffixedValueLoop _ _ (by omega)).weaken (by omega)
  · exact Uses.ret _ _ (by omega)

theorem primaryValue_term_step (n : Nat) (ih : TermInv n) (l : lexer)
    (hn : 12 * l.toks.length + 1 ≤ n + 1) : Uses 1 l.toks.length (primaryValue (n + 1) l) := by
  cases hT : l.look.Typ <;> simp only [primaryValue, hT]
  case tknName =>
    exact UsesL.seqL (getCurrent_uses l _ (by decide)) (fun l1 h1 => Uses.ret _ _ (by omega))
  case tknOParen =>
    refine UsesL.seqL (getCurrent_uses l _ (by decide)) (fun l1 h1 => ?_)
    refine Uses.seq (ih.expression l1 (by omega)) (fun r h2 => ?_)
    exact UsesL.seqL (getCurrent_uses r.2 _ (by decide)) (fun l2 h3 => Uses.ret _ _ (by omega))
  all_goals
    exact UsesL.seqL (getCurrent_uses l _ (by decide)) (fun l1 h1 => Uses.panic _ _ _)

theorem funcDeclStat_term_step (n : Nat) (ih : TermInv n) (isLocal : Bool) (l : lexer)
    (hn : 12 * l.toks.length + 1 ≤ n + 1) :
    Uses 1 l.toks.length (funcDeclStat (n + 1) isLocal l) := by
  simp only [funcDeclStat]
  refine UsesL.seqL (getCurrent_uses l _ (by decide)) (fun l1 h1 => ?_)
  refine Uses.seq (?_ : Uses 1 l1.toks.length _) (fun r h2 => ?_)
  · split
    · exact UsesL.seqL (getCurrent_uses l1 _ (by decide))
        (fun l2 h2 => Uses.ret _ _ (by omega))
    · refine Uses.seq (ih.ident l1 (by omega)) (fun r h2 => ?_)
      split
      · refine UsesL.seqL (getCurrent_uses r.2 _ (by decide)) (fun l2 h3 => ?_)
        exact UsesL.seqL (getCurrent_uses l2 _ (by decide))
          (fun l3 h4 => Uses.ret _ _ (by omega))
      · exact Uses.ret _ _ (by omega)
  · exact Uses.seq (ih.funcDeclBody _ r.2 (by omega)) (fun b h3 => Uses.ret _ _ (by omega))

theorem block_term_step (n : Nat) (ih : TermInv n) (enders : List tkn) (l : lexer)
    (hn : 12 * l.toks.length + 9 ≤ n + 1) :
    Uses 0 l.toks.length (block (n + 1) enders l) := by
  simp only [block]
  refine Uses.seq (ih.blockLoop _ _ l (by omega)) (fun r h1 => ?_)
  exact UsesL.seqL (getCurrent_uses0 r.2 _) (fun l2 h2 => Uses.ret _ _ (by omega))

theorem blockLoop_term_step (n : Nat) (ih : TermInv n) (enders : List tkn) (rtn : List Node)
    (l : lexer) (hn : 12 * l.toks.length + 8 ≤ n + 1) :
    Uses 0 l.toks.length (blockLoop (n + 1) enders rtn l) := by
  simp only [blockLoop]
  split
  · refine Uses.seq (ih.statement l (by omega)) (fun r h1 => ?_)
    exact (ih.blockLoop _ _ _ (by omega)).weaken (by omega)
  · exact Uses.ret _ _ (by omega)

theorem ifLoop_term_step (n : Nat) (ih : TermInv n) (rnode : Node) (depth : Nat) (l : lexer)
    (hn : 12 * l.toks.length + 10 ≤ n + 1) :
    Uses 0 l.toks.length (ifLoop (n + 1) rnode depth l) := by
  cases hT : l.current.Typ <;> simp only [ifLoop, hT]
  case tknElse =>
    exact Uses.seq (ih.block _ l (by omega)) (fun r h1 => Uses.ret _ _ (by omega))
  case tknElseif =>
    refine Uses.seq (ih.expression l (by omega)) (fun r h1 => ?_)
    refine UsesL.seqL (getCurrent_uses r.2 _ (by decide)) (fun l1 h2 => ?_)
    refine Uses.seq (ih.block _ l1 (by omega)) (fun b h3 => ?_)
    exact (ih.ifLoop _ _ _ (by omega)).weaken (by omega)
  case tknEnd => exact Uses.ret _ _ (by omega)
  all_goals exact Uses.panic _ _ _

theorem forInit_term_step (n : Nat) (ih : TermInv n) (init : List Node) (l : lexer)
    (hn : 12 * l.toks.length + 6 ≤ n + 1) :
    Uses 1 l.toks.length (forInit (n + 1) init l) := by
  simp only [forInit]
  refine Uses.seq (ih.expression l (by omega)) (fun r h1 => ?_)
  split
  · exact Uses.ret _ _ (by omega)
  · refine UsesL.seqL (getCurrent_uses r.2 _ (by decide)) (fun l2 h2 => ?_)
    exact (ih.forInit _ l2 (by omega)).weaken (by omega)

theorem valuesLoop_term_step (n : Nat) (ih : TermInv n) (vals : List Node) (l : lexer)
    (hn : 12 * l.toks.length + 1 ≤ n + 1) :
    Uses 0 l.toks.length (valuesLoop (n + 1) vals l) := by
  simp only [valuesLoop]
  split
  · refine UsesL.seqL (getCurrent_uses l _ (by decide)) (fun l1 h1 => ?_)
    refine Uses.seq (ih.expression l1 (by omega)) (fun r h2 => ?_)
    exact (ih.valuesLoop _ _ (by omega)).weaken (by omega)
  · exact Uses.ret _ _ (by omega)

theorem returnItems_term_step (n : Nat) (ih : TermInv n) (items : List Node) (l : lexer)
    (hn : 12 * l.toks.length + 6 ≤ n + 1) :
    Uses 0 l.toks.length (returnItems (n + 1) items l) := by
  simp only [returnItems]
  split
  · refine Uses.seq (ih.expression l (by omega)) (fun r h1 => ?_)
    split
    · exact Uses.ret _ _ (by omega)
    · refine UsesL.seqL (getCurrent_uses r.2 _ (by decide)) (fun l2 h2 => ?_)
      exact (ih.returnItems _ l2 (by omega)).weaken (by omega)
  · exact Uses.ret _ _ (by omega)

theorem targetsLoop_term_step (n : Nat) (ih : TermInv n) (targets : List Node) (l : lexer)
    (hn : 12 * l.toks.length + 1 ≤ n + 1) :
    Uses 0 l.toks.length (targetsLoop (n + 1) targets l) := by
  simp only [targetsLoop]
  split
  · refine UsesL.seqL (getCurrent_uses l _ (by decide)) (fun l1 h1 => ?_)
    refine Uses.seq (ih.suffixedValue l1 (by omega)) (fun r h2 => ?_)
    exact (ih.targetsLoop _ _ (by omega)).weaken (by omega)
  · exact Uses.ret _ _ (by omega)

theorem statement_default_term (n : Nat) (ih : TermInv n) (l : lexer)
    (hn : 12 * l.toks.length + 7 ≤ n + 1) :
    Uses 1 l.toks.length (do
      let r ← suffixedValue n l
      match r.1 with
        | .FuncCall .. => pure (r.1, r.2)
        | _ => do
          let t ← targetsLoop n [r.1] r.2
          let l1 ← t.2.getCurrent [tknSet]
          let e ← expression n l1
          let v ← valuesLoop n [e.1] e.2
          pure (stmtInfo (.Assign {} false false t.1 v.1) r.2.current.Line, v.2)) := by
  refine Uses.seq (ih.suffixedValue l (by omega)) (fun id h1 => ?_)
  have htail : Uses 1 l.toks.length (do
          let t ← targetsLoop n [id.1] id.2
          let l1 ← t.2.getCurrent [tknSet]
          let e ← expression n l1
          let v ← valuesLoop n [e.1] e.2
          pure (stmtInfo (.Assign {} false false t.1 v.1) id.2.current.Line, v.2)) := by
    refine Uses.seq (ih.targetsLoop _ id.2 (by omega)) (fun ts h2 => ?_)
    refine UsesL.seqL (getCurrent_uses ts.2 _ (by decide)) (fun l1 h3 => ?_)
    refine Uses.seq (ih.expression l1 (by omega)) (fun e h4 => ?_)
    exact Uses.seq (ih.valuesLoop _ e.2 (by omega)) (fun vs h5 => Uses.ret _ _ (by omega))
  rcases id with ⟨id, l1⟩
  cases id <;> first | exact Uses.ret _ _ (by simpa using h1) | exact htail

theorem statement_term_step (n : Nat) (ih : TermInv n) (l : lexer)
    (hn : 12 * l.toks.length + 7 ≤ n + 1) : Uses 1 l.toks.length (statement (n + 1) l) := by
  cases hT : l.look.Typ <;> simp only [statement, hT]
  case tknUnnecessary =>
    exact UsesL.seqL (getCurrent_uses l _ (by decide)) (fun l1 h1 => Uses.ret _ _ (by omega))
  case tknIf =>
    refine UsesL.seqL (getCurrent_uses l _ (by decide)) (fun l1 h1 => ?_)
    refine Uses.seq (ih.expression l1 (by omega)) (fun r h2 => ?_)
    refine UsesL.seqL (getCurrent_uses r.2 _ (by decide)) (fun l2 h3 => ?_)
    refine Uses.seq (ih.block _ l2 (by omega)) (fun b h4 => ?_)
    exact (ih.ifLoop _ _ _ (by omega)).weaken (by omega)
  case tknComment =>
    exact UsesL.seqL (getCurrent_uses l _ (by decide)) (fun l1 h1 => Uses.ret _ _ (by omega))
  case tknWhile =>
    refine UsesL.seqL (getCurrent_uses l _ (by decide)) (fun l1 h1 => ?_)
    refine Uses.seq (ih.expression l1 (by omega)) (fun r h2 => ?_)
    refine UsesL.seqL (getCurrent_uses r.2 _ (by decide)) (fun l2 h3 => ?_)
    exact Uses.seq (ih.block _ l2 (by omega)) (fun b h4 => Uses.ret _ _ (by omega))
  case tknDo =>
    refine UsesL.seqL (getCurrent_uses l _ (by decide)) (fun l1 h1 => ?_)
    exact Uses.seq (ih.block _ l1 (by omega)) (fun b h4 => Uses.ret _ _ (by omega))
  case tknFor =>
    refine UsesL.seqL (getCurrent_uses l _ (by decide)) (fun l1 h1 => ?_)
    refine UsesL.seqL (getCurrent_uses l1 _ (by decide)) (fun l2 h2 => ?_)
    split
    · refine UsesL.seqL (getCurrent_uses l2 _ (by decide)) (fun l3 h3 => ?_)
      refine Uses.seq (ih.expression l3 (by omega)) (fun i h4 => ?_)
      refine UsesL.seqL (getCurrent_uses i.2 _ (by decide)) (fun l4 h5 => ?_)
      refine Uses.seq (ih.expression l4 (by omega)) (fun lim h6 => ?_)
      refine Uses.seq (?_ : Uses 0 lim.2.toks.length _) (fun s h7 => ?_)
      · split
        · refine UsesL.seqL (getCurrent_uses lim.2 _ (by decide)) (fun l5 h7 => ?_)
          exact (ih.expression l5 (by omega)).weaken (by omega)
        · exact Uses.ret _ _ (by omega)
      · refine UsesL.seqL (getCurrent_uses s.2 _ (by decide)) (fun l6 h8 => ?_)
        exact Uses.seq (ih.block _ l6 (by omega)) (fun b h9 => Uses.ret _ _ (by omega))
    · refine Uses.seq (forLocals_uses n _ l2 (by omega)) (fun ls h3 => ?_)
      refine UsesL.seqL (getCurrent_uses ls.2 _ (by decide)) (fun l3 h4 => ?_)
      refine Uses.seq (ih.forInit _ l3 (by omega)) (fun i h5 => ?_)
      refine UsesL.seqL (getCurrent_uses i.2 _ (by decide)) (fun l4 h6 => ?_)
      exact Uses.seq (ih.block _ l4 (by omega)) (fun b h7 => Uses.ret _ _ (by omega))
  case tknRepeat =>
    refine UsesL.seqL (getCurrent_uses l _ (by decide)) (fun l1 h1 => ?_)
    refine Uses.seq (ih.block _ l1 (by omega)) (fun b h2 => ?_)
    exact Uses.seq (ih.expression b.2 (by omega)) (fun r h3 => Uses.ret _ _ (by omega))
  case tknFunction => exact ih.funcDeclStat _ l (by omega)
  case tknLocal =>
    refine UsesL.seqL (getCurrent_uses l _ (by decide)) (fun l1 h1 => ?_)
    split
    · exact (ih.funcDeclStat _ l1 (by omega)).weaken (by omega)
    · refine Uses.seq (localTargets_uses n _ l1 (by omega)) (fun ts h2 => ?_)
      refine Uses.seq (?_ : Uses 0 ts.2.toks.length _) (fun vs h3 => Uses.ret _ _ (by omega))
      split
      · refine UsesL.seqL (getCurrent_uses ts.2 _ (by decide)) (fun l2 h3 => ?_)
        refine Uses.seq (ih.expression l2 (by omega)) (fun e h4 => ?_)
        exact (ih.valuesLoop _ e.2 (by omega)).weaken (by omega)
      · exact Uses.ret _ _ (by omega)
  case tknDblColon =>
    refine UsesL.seqL (getCurrent_uses l _ (by decide)) (fun l1 h1 => ?_)
    refine UsesL.seqL (getCurrent_uses l1 _ (by decide)) (fun l2 h2 => ?_)
    exact UsesL.seqL (getCurrent_uses l2 _ (by decide)) (fun l3 h3 => Uses.ret _ _ (by omega))
  case tknReturn =>
    refine UsesL.seqL (getCurrent_uses l _ (by decide)) (fun l1 h1 => ?_)
    exact Uses.seq (ih.returnItems _ l1 (by omega)) (fun r h2 => Uses.ret _ _ (by omega))
  case tknBreak =>
    exact UsesL.seqL (getCurrent_uses l _ (by decide)) (fun l1 h1 => Uses.ret _ _ (by omega))
  case tknContinue =>
    exact UsesL.seqL (getCurrent_uses l _ (by decide)) (fun l1 h1 => Uses.ret _ _ (by omega))
  case tknGoto =>
    refine UsesL.seqL (getCurrent_uses l _ (by decide)) (fun l1 h1 => ?_)
    exact UsesL.seqL (getCurrent_uses l1 _ (by decide)) (fun l2 h2 => Uses.ret _ _ (by omega))
  case tknOParen =>
    refine UsesL.seqL (getCurrent_uses l _ (by decide)) (fun l1 h1 => ?_)
    refine Uses.seq (ih.expression l1 (by omega)) (fun r h2 => ?_)
    refine UsesL.seqL (getCurrent_uses r.2 _ (by decide)) (fun l2 h3 => ?_)
    exact (ih.funcCall _ l2 (by omega)).weaken (by omega)
  all_goals exact statement_default_term n ih l hn

/-- With twelve units of fuel for each token left and a few more, no parsing function runs
out of fuel, and each one that returns has consumed tokens as `TermInv` says. -/
theorem termInv : ∀ n : Nat, TermInv n
  | 0 =>
    { ident := fun _ h => by omega, identLoop := fun _ _ h => by omega,
      funcCall := fun _ _ h => by omega, funcCallArgs := fun _ _ h => by omega,
      funcDeclBody := fun _ _ h => by omega, tblConstruct := fun _ h => by omega,
      tblConstructLoop := fun _ _ _ h => by omega, expression := fun _ h => by omega,
      subexpr := fun _ _ h => by omega, subexprLoop := fun _ _ _ h => by omega,
      value := fun _ h => by omega, suffixedValue := fun _ h => by omega,
      suffixedValueLoop := fun _ _ h => by omega, primaryValue := fun _ h => by omega,
      funcDeclStat := fun _ _ h => by omega, block := fun _ _ h => by omega,
      blockLoop := fun _ _ _ h => by omega, ifLoop := fun _ _ _ h => by omega,
      forInit := fun _ _ h => by omega, valuesLoop := fun _ _ h => by omega,
      returnItems := fun _ _ h => by omega, targetsLoop := fun _ _ h => by omega,
      statement := fun _ h => by omega }
  | n + 1 =>
    have ih := termInv n
    { ident := ident_term_step n ih
      identLoop := identLoop_term_step n ih
      funcCall := funcCall_term_step n ih
      funcCallArgs := funcCallArgs_term_step n ih
      funcDeclBody := funcDeclBody_term_step n ih
      tblConstruct := tblConstruct_term_step n ih
      tblConstructLoop := tblConstructLoop_term_step n ih
      expression := expression_term_step n ih
      subexpr := subexpr_term_step n ih
      subexprLoop := subexprLoop_term_step n ih
      value := value_term_step n ih
      suffixedValue := suffixedValue_term_step n ih
      suffixedValueLoop := suffixedValueLoop_term_step n ih
      primaryValue := primaryValue_term_step n ih
      funcDeclStat := funcDeclStat_term_step n ih
      block := block_term_step n ih
      blockLoop := blockLoop_term_step n ih
      ifLoop := ifLoop_term_step n ih
      forInit := forInit_term_step n ih
      valuesLoop := valuesLoop_term_step n ih
      returnItems := returnItems_term_step n ih
      targetsLoop := targetsLoop_term_step n ih
      statement := statement_term_step n ih }

/-- With twelve units of fuel for each token and eight more, the statement loop of `Parse`
does not run out of fuel. -/
theorem ParseLoop_terminates : ∀ (n : Nat) (blk : List Node) (l : lexer),
    12 * l.toks.length + 8 ≤ n → (ParseLoop n blk l).2 ≠ some .outOfFuel
  | 0, _, _, h => by omega
  | n + 1, blk, l, h => by
    simp only [ParseLoop]
    split
    · have hs := (termInv n).statement l (by omega)
      cases hst : statement n l with
      | error e =>
        simp only [ne_eq, Option.some.injEq]
        intro he
        exact hs.1 (by rw [hst, he])
      | ok r =>
        have := hs.2 r hst
        exact ParseLoop_terminates n _ r.2 (by omega)
    · simp

theorem funcCall_mono {n m : Nat} (hnm : n ≤ m) (id : Node) (l : lexer) (r : Parsed Node)
    (h : funcCall n id l = .ok r) : funcCall m id l = .ok r :=
  ExLe.of_le (fun k => funcCall k id l) (fun k => (monoInv k).funcCall id l) hnm r h

/-- A statement that is read consumes at least one token, whatever the fuel. -/
theorem statement_consumes (n : Nat) (l : lexer) (r : Parsed Node)
    (h : statement n l = .ok r) : r.2.toks.length < l.toks.length := by
  have h1 := statement_mono (Nat.le_max_left n (12 * l.toks.length + 7)) l r h
  have := ((termInv _).statement l (Nat.le_max_right n (12 * l.toks.length + 7))).2 r h1
  omega

/-- An expression that is read consumes at least one token. -/
theorem expression_consumes (n : Nat) (l : lexer) (r : Parsed Node)
    (h : expression n l = .ok r) : r.2.toks.length < l.toks.length := by
  have h1 := expression_mono (Nat.le_max_left n (12 * l.toks.length + 5)) l r h
  have := ((termInv _).expression l (Nat.le_max_right n (12 * l.toks.length + 5))).2 r h1
  omega

/-- A call that is read consumes at least one token. -/
theorem funcCall_consumes (n : Nat) (id : Node) (l : lexer) (r : Parsed Node)
    (h : funcCall n id l = .ok r) : r.2.toks.length < l.toks.length := by
  have h1 := funcCall_mono (Nat.le_max_left n (12 * l.toks.length + 2)) id l r h
  have := ((termInv _).funcCall id l (Nat.le_max_right n (12 * l.toks.length + 2))).2 r h1
  omega

/-- An operand with the operators that follow it, when read, consumes at least one
token. -/
theorem subexpr_consumes (n limit : Nat) (l : lexer) (r : Parsed Node)
    (h : subexpr n limit l = .ok r) : r.2.toks.length < l.toks.length := by
  have h1 := ExLe.of_le (fun k => subexpr k limit l) (fun k => (monoInv k).subexpr limit l)
    (Nat.le_max_left n (12 * l.toks.length + 4)) r h
  have := ((termInv _).subexpr limit l (Nat.le_max_right n (12 * l.toks.length + 4))).2 r h1
  omega

/-- A token that `getCurrent` accepts is consumed. -/
theorem getCurrent_consumes (l l1 : lexer) (ts : List tkn)
    (hts : ts.contains tknINVALID = false) (h : l.getCurrent ts = .ok l1) :
    l1.toks.length + 1 = l.toks.length := by
  rw [getCurrent_eq_ok] at h
  rw [h.2]
  refine l.advance_length (fun h1 => ?_)
  rw [h1, hts] at h
  exact absurd h.1 (by simp)

/-! ### Outcomes do not depend on the fuel, once there is enough -/

theorem Keeps.same {α : Type} (x : Except Err α) : Keeps x x := fun _ => rfl

theorem Keeps.ofOutOfFuel {α : Type} (y : Except Err α) : Keeps (.error .outOfFuel) y :=
  fun h => absurd rfl h

theorem Keeps.chain {α β : Type} {x y : Except Err α} {k k1 : α → Except Err β}
    (hx : Keeps x y) (hk : ∀ a : α, Keeps (k a) (k1 a)) : Keeps (x >>= k) (y >>= k1) := by
  intro h
  cases x with
  | error e =>
    have he : (Except.error e : Except Err α) ≠ .error .outOfFuel := by
      intro h1
      cases h1
      exact h rfl
    rw [hx he]
    rfl
  | ok a =>
    rw [hx (by intro h1; cases h1)]
    exact hk a h

theorem Keeps.cond {α : Type} {c : Prop} [Decidable c] {x y x1 y1 : Except Err α}
    (h1 : Keeps x x1) (h2 : Keeps y y1) :
    Keeps (if c then x else y) (if c then x1 else y1) := by
  split
  · exact h1
  · exact h2

/-- The parameter loop of `funcDeclBody` keeps its outcome with more fuel. -/
theorem funcDeclParams_keeps : ∀ (n : Nat) (params : List String) (l : lexer),
    Keeps (funcDeclParams n params l) (funcDeclParams (n + 1) params l)
  | 0, _, _ => Keeps.ofOutOfFuel _
  | n + 1, params, l => by
    simp only [funcDeclParams]
    refine Keeps.cond (Keeps.cond (Keeps.same _) ?_) (Keeps.same _)
    refine Keeps.chain (Keeps.same _) (fun l1 => ?_)
    refine Keeps.cond (Keeps.same _) ?_
    refine Keeps.chain (Keeps.same _) (fun l2 => ?_)
    exact Keeps.chain (Keeps.same _) (fun l3 => funcDeclParams_keeps n _ l3)

/-- The name loop of the generic `for` keeps its outcome with more fuel. -/
theorem forLocals_keeps : ∀ (n : Nat) (locals : List String) (l : lexer),
    Keeps (forLocals n locals l) (forLocals (n + 1) locals l)
  | 0, _, _ => Keeps.ofOutOfFuel _
  | n + 1, locals, l => by
    simp only [forLocals]
    refine Keeps.cond (Keeps.same _) ?_
    refine Keeps.chain (Keeps.same _) (fun l1 => ?_)
    exact Keeps.chain (Keeps.same _) (fun l2 => forLocals_keeps n _ l2)

/-- The target loop of `local` keeps its outcome with more fuel. -/
theorem localTargets_keeps : ∀ (n : Nat) (targets : List Node) (l : lexer),
    Keeps (localTargets n targets l) (localTargets (n + 1) targets l)
  | 0, _, _ => Keeps.ofOutOfFuel _
  | n + 1, targets, l => by
    simp only [localTargets]
    refine Keeps.cond ?_ (Keeps.same _)
    refine Keeps.chain (Keeps.same _) (fun l1 => ?_)
    refine Keeps.cond (Keeps.same _) ?_
    exact Keeps.chain (Keeps.same _) (fun l2 => localTargets_keeps n _ l2)

theorem ident_keeps_step (n : Nat) (ih : KeepsInv n) (l : lexer) :
    Keeps (ident (n + 1) l) (ident (n + 2) l) := by
  simp only [ident]
  exact Keeps.chain (Keeps.same _) (fun l1 => ih.identLoop _ l1)

theorem identLoop_keeps_step (n : Nat) (ih : KeepsInv n) (id : Node) (l : lexer) :
    Keeps (identLoop (n + 1) id l) (identLoop (n + 2) id l) := by
  simp only [identLoop]
  refine Keeps.cond ?_ (Keeps.same _)
  cases hT : l.look.Typ <;> simp only []
  case tknOIndex =>
    refine Keeps.chain (Keeps.same _) (fun l1 => ?_)
    refine Keeps.chain (ih.expression _) (fun r => ?_)
    exact Keeps.chain (Keeps.same _) (fun l2 => ih.identLoop _ l2)
  case tknDot =>
    refine Keeps.chain (Keeps.same _) (fun l1 => ?_)
    exact Keeps.chain (Keeps.same _) (fun l2 => ih.identLoop _ l2)
  all_goals exact Keeps.same _

theorem funcCallArgs_keeps_step (n : Nat) (ih : KeepsInv n) (args : List Node) (l : lexer) :
    Keeps (funcCallArgs (n + 1) args l) (funcCallArgs (n + 2) args l) := by
  simp only [funcCallArgs]
  refine Keeps.cond ?_ (Keeps.same _)
  refine Keeps.chain (ih.expression _) (fun r => ?_)
  refine Keeps.cond (Keeps.same _) ?_
  exact Keeps.chain (Keeps.same _) (fun l2 => ih.funcCallArgs _ l2)

theorem funcCall_keeps_step (n : Nat) (ih : KeepsInv n) (id : Node) (l : lexer) :
    Keeps (funcCall (n + 1) id l) (funcCall (n + 2) id l) := by
  simp only [funcCall]
  refine Keeps.chain (Keeps.same _) (fun rf => ?_)
  refine Keeps.chain ?_ (fun a => Keeps.same _)
  cases hT : rf.2.look.Typ <;> simp only []
  case tknOBracket => exact Keeps.chain (ih.tblConstruct _) (fun r => Keeps.same _)
  case tknOParen =>
    refine Keeps.chain (Keeps.same _) (fun l1 => ?_)
    exact Keeps.chain (ih.funcCallArgs _ _) (fun r => Keeps.same _)
  all_goals exact Keeps.same _

theorem funcDeclBody_keeps_step (n : Nat) (ih : KeepsInv n) (hasSelf : Bool) (l : lexer) :
    Keeps (funcDeclBody (n + 1) hasSelf l) (funcDeclBody (n + 2) hasSelf l) := by
  simp only [funcDeclBody]
  refine Keeps.chain (Keeps.same _) (fun l1 => ?_)
  refine Keeps.chain (funcDeclParams_keeps n _ _) (fun r => ?_)
  refine Keeps.chain (Keeps.same _) (fun l2 => ?_)
  exact Keeps.chain (ih.block _ _) (fun b => Keeps.same _)

theorem tblConstruct_keeps_step (n : Nat) (ih : KeepsInv n) (l : lexer) :
    Keeps (tblConstruct (n + 1) l) (tblConstruct (n + 2) l) := by
  simp only [tblConstruct]
  refine Keeps.chain (Keeps.same _) (fun l1 => ?_)
  exact Keeps.chain (ih.tblConstructLoop _ _ _) (fun r => Keeps.same _)

theorem tblConstructLoop_keeps_step (n : Nat) (ih : KeepsInv n) (keys vals : List Node)
    (l : lexer) :
    Keeps (tblConstructLoop (n + 1) keys vals l) (tblConstructLoop (n + 2) keys vals l) := by
  simp only [tblConstructLoop]
  refine Keeps.cond ?_ (Keeps.same _)
  refine Keeps.chain ?_ (fun ks => ?_)
  · cases hT : l.look.Typ <;> simp only []
    case tknOIndex =>
      refine Keeps.chain (Keeps.same _) (fun l1 => ?_)
      exact Keeps.chain (ih.expression _) (fun r => Keeps.same _)
    all_goals exact Keeps.same _
  · refine Keeps.chain (ih.expression _) (fun r => ?_)
    refine Keeps.cond (Keeps.same _) ?_
    exact Keeps.chain (Keeps.same _) (fun l2 => ih.tblConstructLoop _ _ l2)

theorem expression_keeps_step (n : Nat) (ih : KeepsInv n) (l : lexer) :
    Keeps (expression (n + 1) l) (expression (n + 2) l) := by
  simp only [expression]
  exact ih.subexpr 0 l

theorem subexpr_keeps_step (n : Nat) (ih : KeepsInv n) (limit : Nat) (l : lexer) :
    Keeps (subexpr (n + 1) limit l) (subexpr (n + 2) limit l) := by
  simp only [subexpr]
  refine Keeps.chain ?_ (fun r => ih.subexprLoop _ _ _)
  cases tknToUnOp (if l.look.Typ = tknComment then l.advance else l).look.Typ with
  | none => exact ih.value _
  | some op => exact Keeps.chain (ih.subexpr _ _) (fun r => Keeps.same _)

theorem subexprLoop_keeps_step (n : Nat) (ih : KeepsInv n) (limit : Nat) (e1 : Node)
    (l : lexer) :
    Keeps (subexprLoop (n + 1) limit e1 l) (subexprLoop (n + 2) limit e1 l) := by
  simp only [subexprLoop]
  cases tknToBinOp l.look.Typ with
  | none => exact Keeps.same _
  | some op =>
    simp only []
    cases priorities[op]? with
    | none => exact Keeps.same _
    | some pr =>
      simp only []
      refine Keeps.cond ?_ (Keeps.same _)
      exact Keeps.chain (ih.subexpr _ _) (fun r => ih.subexprLoop _ _ _)

theorem value_keeps_step (n : Nat) (ih : KeepsInv n) (l : lexer) :
    Keeps (value (n + 1) l) (value (n + 2) l) := by
  cases hT : l.look.Typ <;> simp only [value, hT]
  case tknOBracket => exact ih.tblConstruct l
  case tknFunction => exact Keeps.chain (Keeps.same _) (fun l1 => ih.funcDeclBody _ l1)
  case tknTrue => exact Keeps.same _
  case tknFalse => exact Keeps.same _
  case tknNil => exact Keeps.same _
  case tknVariadic => exact Keeps.same _
  case tknInt => exact Keeps.same _
  case tknFloat => exact Keeps.same _
  case tknString => exact Keeps.same _
  case tknComment => exact Keeps.same _
  all_goals exact ih.suffixedValue l

theorem suffixedValue_keeps_step (n : Nat) (ih : KeepsInv n) (l : lexer) :
    Keeps (suffixedValue (n + 1) l) (suffixedValue (n + 2) l) := by
  simp only [suffixedValue]
  exact Keeps.chain (ih.primaryValue _) (fun r => ih.suffixedValueLoop _ _)

theorem suffixedValueLoop_keeps_step (n : Nat) (ih : KeepsInv n) (v : Node) (l : lexer) :
    Keeps (suffixedValueLoop (n + 1) v l) (suffixedValueLoop (n + 2) v l) := by
  simp only [suffixedValueLoop]
  refine Keeps.cond ?_ (Keeps.same _)
  cases hT : l.look.Typ <;> simp only []
  case tknOIndex =>
    refine Keeps.chain (Keeps.same _) (fun l1 => ?_)
    refine Keeps.chain (ih.expression _) (fun r => ?_)
    exact Keeps.chain (Keeps.same _) (fun l2 => ih.suffixedValueLoop _ l2)
  case tknDot =>
    refine Keeps.chain (Keeps.same _) (fun l1 => ?_)
    refine Keeps.chain (Keeps.same _) (fun l2 => ?_)
    refine Keeps.cond ?_ (ih.suffixedValueLoop _ _)
    exact Keeps.chain (ih.funcCall _ _) (fun r => ih.suffixedValueLoop _ _)
  all_goals exact Keeps.chain (ih.funcCall _ _) (fun r => ih.suffixedValueLoop _ _)

theorem primaryValue_keeps_step (n : Nat) (ih : KeepsInv n) (l : lexer) :
    Keeps (primaryValue (n + 1) l) (primaryValue (n + 2) l) := by
  cases hT : l.look.Typ <;> simp only [primaryValue, hT]
  case tknOParen =>
    refine Keeps.chain (Keeps.same _) (fun l1 => ?_)
    exact Keeps.chain (ih.expression _) (fun r => Keeps.same _)
  all_goals exact Keeps.same _

theorem funcDeclStat_keeps_step (n : Nat) (ih : KeepsInv n) (isLocal : Bool) (l : lexer) :
    Keeps (funcDeclStat (n + 1) isLocal l) (funcDeclStat (n + 2) isLocal l) := by
  simp only [funcDeclStat]
  refine Keeps.chain (Keeps.same _) (fun l1 => ?_)
  refine Keeps.chain ?_ (fun r => Keeps.chain (ih.funcDeclBody _ _) (fun b => Keeps.same _))
  refine Keeps.cond (Keeps.same _) ?_
  exact Keeps.chain (ih.ident _) (fun r => Keeps.same _)

theorem block_keeps_step (n : Nat) (ih : KeepsInv n) (enders : List tkn) (l : lexer) :
    Keeps (block (n + 1) enders l) (block (n + 2) enders l) := by
  simp only [block]
  exact Keeps.chain (ih.blockLoop _ _ _) (fun r => Keeps.same _)

theorem blockLoop_keeps_step (n : Nat) (ih : KeepsInv n) (enders : List tkn) (rtn : List Node)
    (l : lexer) :
    Keeps (blockLoop (n + 1) enders rtn l) (blockLoop (n + 2) enders rtn l) := by
  simp only [blockLoop]
  refine Keeps.cond ?_ (Keeps.same _)
  exact Keeps.chain (ih.statement _) (fun r => ih.blockLoop _ _ _)

theorem ifLoop_keeps_step (n : Nat) (ih : KeepsInv n) (rnode : Node) (depth : Nat) (l : lexer) :
    Keeps (ifLoop (n + 1) rnode depth l) (ifLoop (n + 2) rnode depth l) := by
  cases hT : l.current.Typ <;> simp only [ifLoop, hT]
  case tknElse => exact Keeps.chain (ih.block _ _) (fun r => Keeps.same _)
  case tknElseif =>
    refine Keeps.chain (ih.expression _) (fun r => ?_)
    refine Keeps.chain (Keeps.same _) (fun l1 => ?_)
    exact Keeps.chain (ih.block _ _) (fun b => ih.ifLoop _ _ _)
  all_goals exact Keeps.same _

theorem forInit_keeps_step (n : Nat) (ih : KeepsInv n) (init : List Node) (l : lexer) :
    Keeps (forInit (n + 1) init l) (forInit (n + 2) init l) := by
  simp only [forInit]
  refine Keeps.chain (ih.expression _) (fun r => ?_)
  refine Keeps.cond (Keeps.same _) ?_
  exact Keeps.chain (Keeps.same _) (fun l2 => ih.forInit _ l2)

theorem valuesLoop_keeps_step (n : Nat) (ih : KeepsInv n) (vals : List Node) (l : lexer) :
    Keeps (valuesLoop (n + 1) vals l) (valuesLoop (n + 2) vals l) := by
  simp only [valuesLoop]
  refine Keeps.cond ?_ (Keeps.same _)
  refine Keeps.chain (Keeps.same _) (fun l1 => ?_)
  exact Keeps.chain (ih.expression _) (fun r => ih.valuesLoop _ _)

theorem returnItems_keeps_step (n : Nat) (ih : KeepsInv n) (items : List Node) (l : lexer) :
    Keeps (returnItems (n + 1) items l) (returnItems (n + 2) items l) := by
  simp only [returnItems]
  refine Keeps.cond ?_ (Keeps.same _)
  refine Keeps.chain (ih.expression _) (fun r => ?_)
  refine Keeps.cond (Keeps.same _) ?_
  exact Keeps.chain (Keeps.same _) (fun l2 => ih.returnItems _ l2)

theorem targetsLoop_keeps_step (n : Nat) (ih : KeepsInv n) (targets : List Node) (l : lexer) :
    Keeps (targetsLoop (n + 1) targets l) (targetsLoop (n + 2) targets l) := by
  simp only [targetsLoop]
  refine Keeps.cond ?_ (Keeps.same _)
  refine Keeps.chain (Keeps.same _) (fun l1 => ?_)
  exact Keeps.chain (ih.suffixedValue _) (fun r => ih.targetsLoop _ _)

theorem statement_keeps_step (n : Nat) (ih : KeepsInv n) (l : lexer) :
    Keeps (statement (n + 1) l) (statement (n + 2) l) := by
  cases hT : l.look.Typ <;> simp only [statement, hT]
  case tknUnnecessary => exact Keeps.same _
  case tknIf =>
    refine Keeps.chain (Keeps.same _) (fun l1 => ?_)
    refine Keeps.chain (ih.expression _) (fun r => ?_)
    refine Keeps.chain (Keeps.same _) (fun l2 => ?_)
    exact Keeps.chain (ih.block _ _) (fun b => ih.ifLoop _ _ _)
  case tknComment => exact Keeps.same _
  case tknWhile =>
    refine Keeps.chain (Keeps.same _) (fun l1 => ?_)
    refine Keeps.chain (ih.expression _) (fun r => ?_)
    refine Keeps.chain (Keeps.same _) (fun l2 => ?_)
    exact Keeps.chain (ih.block _ _) (fun b => Keeps.same _)
  case tknDo =>
    refine Keeps.chain (Keeps.same _) (fun l1 => ?_)
    exact Keeps.chain (ih.block _ _) (fun b => Keeps.same _)
  case tknFor =>
    refine Keeps.chain (Keeps.same _) (fun l1 => ?_)
    refine Keeps.chain (Keeps.same _) (fun l2 => ?_)
    refine Keeps.cond ?_ ?_
    · refine Keeps.chain (Keeps.same _) (fun l3 => ?_)
      refine Keeps.chain (ih.expression _) (fun i => ?_)
      refine Keeps.chain (Keeps.same _) (fun l4 => ?_)
      refine Keeps.chain (ih.expression _) (fun lim => ?_)
      refine Keeps.chain ?_ (fun s => ?_)
      · refine Keeps.cond ?_ (Keeps.same _)
        exact Keeps.chain (Keeps.same _) (fun l5 => ih.expression _)
      · refine Keeps.chain (Keeps.same _) (fun l6 => ?_)
        exact Keeps.chain (ih.block _ _) (fun b => Keeps.same _)
    · refine Keeps.chain (forLocals_keeps n _ _) (fun ls => ?_)
      refine Keeps.chain (Keeps.same _) (fun l3 => ?_)
      refine Keeps.chain (ih.forInit _ _) (fun i => ?_)
      refine Keeps.chain (Keeps.same _) (fun l4 => ?_)
      exact Keeps.chain (ih.block _ _) (fun b => Keeps.same _)
  case tknRepeat =>
    refine Keeps.chain (Keeps.same _) (fun l1 => ?_)
    refine Keeps.chain (ih.block _ _) (fun b => ?_)
    exact Keeps.chain (ih.expression _) (fun r => Keeps.same _)
  case tknFunction => exact ih.funcDeclStat _ _
  case tknLocal =>
    refine Keeps.chain (Keeps.same _) (fun l1 => ?_)
    refine Keeps.cond (ih.funcDeclStat _ _) ?_
    refine Keeps.chain (localTargets_keeps n _ _) (fun ts => ?_)
    refine Keeps.chain ?_ (fun vs => Keeps.same _)
    refine Keeps.cond ?_ (Keeps.same _)
    refine Keeps.chain (Keeps.same _) (fun l2 => ?_)
    exact Keeps.chain (ih.expression _) (fun e => ih.valuesLoop _ _)
  case tknDblColon => exact Keeps.same _
  case tknReturn =>
    refine Keeps.chain (Keeps.same _) (fun l1 => ?_)
    exact Keeps.chain (ih.returnItems _ _) (fun r => Keeps.same _)
  case tknBreak => exact Keeps.same _
  case tknContinue => exact Keeps.same _
  case tknGoto => exact Keeps.same _
  case tknOParen =>
    refine Keeps.chain (Keeps.same _) (fun l1 => ?_)
    refine Keeps.chain (ih.expression _) (fun r => ?_)
    exact Keeps.chain (Keeps.same _) (fun l2 => ih.funcCall _ _)
  all_goals
    refine Keeps.chain (ih.suffixedValue _) (fun id => ?_)
    cases id.1 <;> simp only []
    case FuncCall => exact Keeps.same _
    all_goals
      refine Keeps.chain (ih.targetsLoop _ _) (fun ts => ?_)
      refine Keeps.chain (Keeps.same _) (fun l1 => ?_)
      refine Keeps.chain (ih.expression _) (fun e => ?_)
      exact Keeps.chain (ih.valuesLoop _ _) (fun vs => Keeps.same _)

/-- Every parsing function keeps its outcome when it is given one more unit of fuel. -/
theorem keepsInv : ∀ n : Nat, KeepsInv n
  | 0 =>
    { ident := fun _ => Keeps.ofOutOfFuel _, identLoop := fun _ _ => Keeps.ofOutOfFuel _,
      funcCall := fun _ _ => Keeps.ofOutOfFuel _, funcCallArgs := fun _ _ => Keeps.ofOutOfFuel _,
      funcDeclBody := fun _ _ => Keeps.ofOutOfFuel _, tblConstruct := fun _ => Keeps.ofOutOfFuel _,
      tblConstructLoop := fun _ _ _ => Keeps.ofOutOfFuel _, expression := fun _ => Keeps.ofOutOfFuel _,
      subexpr := fun _ _ => Keeps.ofOutOfFuel _, subexprLoop := fun _ _ _ => Keeps.ofOutOfFuel _,
      value := fun _ => Keeps.ofOutOfFuel _, suffixedValue := fun _ => Keeps.ofOutOfFuel _,
      suffixedValueLoop := fun _ _ => Keeps.ofOutOfFuel _, primaryValue := fun _ => Keeps.ofOutOfFuel _,
      funcDeclStat := fun _ _ => Keeps.ofOutOfFuel _, block := fun _ _ => Keeps.ofOutOfFuel _,
      blockLoop := fun _ _ _ => Keeps.ofOutOfFuel _, ifLoop := fun _ _ _ => Keeps.ofOutOfFuel _,
      forInit := fun _ _ => Keeps.ofOutOfFuel _, valuesLoop := fun _ _ => Keeps.ofOutOfFuel _,
      returnItems := fun _ _ => Keeps.ofOutOfFuel _, targetsLoop := fun _ _ => Keeps.ofOutOfFuel _,
      statement := fun _ => Keeps.ofOutOfFuel _ }
  | n + 1 =>
    have ih := keepsInv n
    { ident := ident_keeps_step n ih
      identLoop := identLoop_keeps_step n ih
      funcCall := funcCall_keeps_step n ih
      funcCallArgs := funcCallArgs_keeps_step n ih
      funcDeclBody := funcDeclBody_keeps_step n ih
      tblConstruct := tblConstruct_keeps_step n ih
      tblConstructLoop := tblConstructLoop_keeps_step n ih
      expression := expression_keeps_step n ih
      subexpr := subexpr_keeps_step n ih
      subexprLoop := subexprLoop_keeps_step n ih
      value := value_keeps_step n ih
      suffixedValue := suffixedValue_keeps_step n ih
      suffixedValueLoop := suffixedValueLoop_keeps_step n ih
      primaryValue := primaryValue_keeps_step n ih
      funcDeclStat := funcDeclStat_keeps_step n ih
      block := block_keeps_step n ih
      blockLoop := blockLoop_keeps_step n ih
      ifLoop := ifLoop_keeps_step n ih
      forInit := forInit_keeps_step n ih
      valuesLoop := valuesLoop_keeps_step n ih
      returnItems := returnItems_keeps_step n ih
      targetsLoop := targetsLoop_keeps_step n ih
      statement := statement_keeps_step n ih }

/-- An outcome other than running out of fuel is the outcome with any larger fuel. -/
theorem Keeps.ofLe {α : Type} (f : Nat → Except Err α) (h : ∀ n, Keeps (f n) (f (n + 1)))
    {n m : Nat} (hnm : n ≤ m) : Keeps (f n) (f m) := by
  induction hnm with
  | refl => exact Keeps.same _
  | step _ ih =>
    intro hx
    have h1 := ih hx
    have h2 := h _ (by rw [h1]; exact hx)
    exact h2.trans h1

/-- The outcome of `statement`, a statement or an error of the parser, is the same with any
larger fuel. -/
theorem statement_keeps {n m : Nat} (hnm : n ≤ m) (l : lexer)
    (h : statement n l ≠ .error .outOfFuel) : statement m l = statement n l :=
  Keeps.ofLe (fun k => statement k l) (fun k => (keepsInv k).statement l) hnm h

/-- The outcome of the loop of `Parse`, the statements read and the error, is the same with
any larger fuel once the fuel does not run out. -/
theorem ParseLoop_keeps : ∀ (n : Nat) (blk : List Node) (l : lexer),
    (ParseLoop n blk l).2 ≠ some .outOfFuel →
    ∀ m : Nat, n ≤ m → ParseLoop m blk l = ParseLoop n blk l
  | 0, _, _, h, _, _ => absurd rfl h
  | n + 1, blk, l, h, 0, hm => by omega
  | n + 1, blk, l, h, m + 1, hm => by
    simp only [ParseLoop] at h ⊢
    split
    · rename_i hc
      simp only [hc, if_true] at h
      cases hst : statement n l with
      | error e =>
        rw [hst] at h
        have he : statement n l ≠ .error .outOfFuel := by
          rw [hst]
          intro h1
          cases h1
          exact h rfl
        rw [statement_keeps (by omega) l he, hst]
      | ok r =>
        rw [hst] at h
        have he : statement n l ≠ .error .outOfFuel := by
          rw [hst]
          intro h1
          cases h1
        rw [statement_keeps (by omega) l he, hst]
        exact ParseLoop_keeps n _ r.2 h m (by omega)
    · rfl

/-- With the fuel of the bound or more, the statements and the error returned by `Parse` do
not depend on the fuel. -/
theorem Parse_fuel_independent (fuel : Nat) (toks : List token) (line : Int)
    (hfuel : 12 * toks.length + 8 ≤ fuel) :
    Parse fuel toks line = Parse (12 * toks.length + 8) toks line :=
  ParseLoop_keeps _ [] (newLexer toks line)
    (ParseLoop_terminates _ [] (newLexer toks line) (Nat.le_refl _)) fuel hfuel

/-! ### C17: `Parse` terminates -/

/-- C17: with twelve units of fuel for each token of the stream and eight more, `Parse`
does not run out of fuel: it ends with a block and no error, or with an error of the
parser, and what it returns is the same for every such fuel. The reason is that whatever is read in one iteration of a loop consumes at least
one token: a statement (loops of `Parse` and `block`), an expression (loops of
`tblConstruct` and of the arguments in `funcCall`), a call or a token accepted by
`getCurrent` (loop of `suffixedValue`), a parameter name accepted by `getCurrent` (loop of
`funcDeclBody`), an operator and its operand (loop of `subexpr`). -/
theorem C17_parse_terminates (fuel : Nat) (toks : List token) (line : Int)
    (hfuel : 12 * toks.length + 8 ≤ fuel) :
    (Parse fuel toks line).2 ≠ some .outOfFuel ∧
    Parse fuel toks line = Parse (12 * toks.length + 8) toks line ∧
    (∀ (n : Nat) (l : lexer) (r : Parsed Node), statement n l = .ok r →
      r.2.toks.length < l.toks.length) ∧
    (∀ (n : Nat) (l : lexer) (r : Parsed Node), expression n l = .ok r →
      r.2.toks.length < l.toks.length) ∧
    (∀ (n : Nat) (id : Node) (l : lexer) (r : Parsed Node), funcCall n id l = .ok r →
      r.2.toks.length < l.toks.length) ∧
    (∀ (n limit : Nat) (l : lexer) (r : Parsed Node), subexpr n limit l = .ok r →
      r.2.toks.length < l.toks.length) ∧
    (∀ (l l1 : lexer) (ts : List tkn), ts.contains tknINVALID = false →
      l.getCurrent ts = .ok l1 → l1.toks.length + 1 = l.toks.length) ∧
    (∀ (n : Nat) (l : lexer), 12 * l.toks.length + 7 ≤ n →
      statement n l ≠ .error .outOfFuel) :=
  ⟨ParseLoop_terminates fuel [] (newLexer toks line) hfuel,
    Parse_fuel_independent fuel toks line hfuel, statement_consumes,
    expression_consumes, funcCall_consumes, subexpr_consumes, getCurrent_consumes,
    fun n l h => ((termInv n).statement l h).1⟩

/-- C17 at `if true then`: with the fuel of the bound, `Parse` does not run out of fuel. -/
theorem C17_parse_terminates_witness :
    12 * [(⟨"if", tknIf, 1⟩ : token), ⟨"true", tknTrue, 1⟩, ⟨"then", tknThen, 1⟩].length + 8
      ≤ 44 ∧
    (Parse 44 [⟨"if", tknIf, 1⟩, ⟨"true", tknTrue, 1⟩, ⟨"then", tknThen, 1⟩] 1).2 ≠
      some .outOfFuel :=
  ⟨by decide,
    (C17_parse_terminates 44 [⟨"if", tknIf, 1⟩, ⟨"true", tknTrue, 1⟩, ⟨"then", tknThen, 1⟩] 1
      (by decide)).1⟩

/-! ### Blocks and their terminators: what is read is balanced -/

theorem Post.result {α : Type} {Q : Parsed α → Prop} (a : α) (l : lexer) (h : Q (a, l)) :
    Post Q (pure (a, l) : Except Err (Parsed α)) := by
  intro r hr; cases hr; exact h

theorem PostL.resultL {Q : lexer → Prop} (l : lexer) (h : Q l) :
    PostL Q (pure l : Except Err lexer) := by
  intro r hr; cases hr; exact h

theorem Post.failure {α : Type} (Q : Parsed α → Prop) (e : Err) :
    Post Q (.error e : Except Err (Parsed α)) := by
  intro r hr; cases hr

theorem Post.andThen {α β : Type} {Q : Parsed α → Prop} {R : Parsed β → Prop}
    {x : Except Err (Parsed α)} {k : Parsed α → Except Err (Parsed β)} (hx : Post Q x)
    (hk : ∀ r : Parsed α, Q r → Post R (k r)) : Post R (x >>= k) := by
  cases x with
  | error e => intro r hr; cases hr
  | ok a => exact hk a (hx a rfl)

theorem PostL.andThenL {β : Type} {Q : lexer → Prop} {R : Parsed β → Prop}
    {x : Except Err lexer} {k : lexer → Except Err (Parsed β)} (hx : PostL Q x)
    (hk : ∀ l1 : lexer, Q l1 → Post R (k l1)) : Post R (x >>= k) := by
  cases x with
  | error e => intro r hr; cases hr
  | ok a => exact hk a (hx a rfl)

theorem PostL.andThenLL {Q R : lexer → Prop}
    {x : Except Err lexer} {k : lexer → Except Err lexer} (hx : PostL Q x)
    (hk : ∀ l1 : lexer, Q l1 → PostL R (k l1)) : PostL R (x >>= k) := by
  cases x with
  | error e => intro r hr; cases hr
  | ok a => exact hk a (hx a rfl)

theorem Post.imp {α : Type} {Q R : Parsed α → Prop} {x : Except Err (Parsed α)}
    (hx : Post Q x) (h : ∀ r, Q r → R r) : Post R x :=
  fun r hr => h r (hx r hr)

theorem balance_advance (l : lexer) (h : l.look.Typ ≠ tknINVALID) :
    balance l.toks = weight l.look.Typ + balance l.advance.toks := by
  cases l with
  | mk c toks =>
    cases toks with
    | nil => exact absurd rfl h
    | cons t rest =>
      have h1 : t.Typ ≠ tknINVALID := h
      simp [lexer.advance, lexer.look, balance, h1]

theorem balance_of_look (l : lexer) (h : l.look.Typ = tknINVALID) : balance l.toks = 0 := by
  cases l with
  | mk c toks =>
    cases toks with
    | nil => rfl
    | cons t rest =>
      have h1 : t.Typ = tknINVALID := h
      simp [balance, h1]

/-- A successful `getCurrent` for token kinds other than the end of the stream consumes the
token it makes current. -/
theorem getCurrent_balance (l : lexer) (ts : List tkn) (hts : ts.contains tknINVALID = false) :
    PostL (fun l1 => balance l.toks = balance l1.toks + weight l1.current.Typ ∧
      ts.contains l1.current.Typ = true) (l.getCurrent ts) := by
  intro l1 h
  rw [getCurrent_eq_ok] at h
  obtain ⟨hc, rfl⟩ := h
  have hne : l.look.Typ ≠ tknINVALID := by
    intro h1
    rw [h1, hts] at hc
    exact absurd hc (by simp)
  have := balance_advance l hne
  exact ⟨by have hcur : l.advance.current = l.look := rfl
            rw [hcur]; omega, hc⟩

/-- A successful `getCurrent` for token kinds that open or terminate no block. -/
theorem getCurrent_balance0 (l : lexer) (ts : List tkn) (hts : ts.contains tknINVALID = false)
    (hw : ∀ t ∈ ts, weight t = 0) :
    PostL (fun l1 => balance l.toks = balance l1.toks) (l.getCurrent ts) := by
  intro l1 h
  obtain ⟨h1, h2⟩ := getCurrent_balance l ts hts l1 h
  have := hw _ (by simpa using h2)
  omega

/-- A successful `getCurrent` for one token kind. -/
theorem getCurrent_balance1 (l : lexer) (t : tkn) (ht : t ≠ tknINVALID) :
    PostL (fun l1 => balance l.toks = balance l1.toks + weight t ∧ l1.current.Typ = t)
      (l.getCurrent [t]) := by
  intro l1 h
  obtain ⟨h1, h2⟩ := getCurrent_balance l [t] (by simpa using ht.symm) l1 h
  have h3 : l1.current.Typ = t := by simpa using h2
  rw [h3] at h1
  exact ⟨h1, h3⟩

theorem funcDeclParams_balance : ∀ (n : Nat) (params : List String) (l : lexer),
    Post (fun r => balance l.toks = balance r.2.toks) (funcDeclParams n params l)
  | 0, _, _ => Post.failure _ _
  | n + 1, params, l => by
    simp only [funcDeclParams]
    split
    · split
      · exact PostL.andThenL (getCurrent_balance0 l _ (by decide) (by decide))
          (fun l1 h1 => Post.result _ _ h1)
      · refine PostL.andThenL (getCurrent_balance0 l _ (by decide) (by decide)) (fun l1 h1 => ?_)
        split
        · exact Post.result _ _ h1
        · refine PostL.andThenL (getCurrent_balance0 l1 _ (by decide) (by decide))
            (fun l2 h2 => ?_)
          refine PostL.andThenL (?_ : PostL (fun l3 => balance l2.toks = balance l3.toks) _)
            (fun l3 h3 => ?_)
          · split
            · exact getCurrent_balance0 l2 _ (by decide) (by decide)
            · exact PostL.resultL _ rfl
          · exact (funcDeclParams_balance n _ l3).imp (fun r hr => by omega)
    · exact Post.result _ _ rfl

theorem forLocals_balance : ∀ (n : Nat) (locals : List String) (l : lexer),
    Post (fun r => balance l.toks = balance r.2.toks) (forLocals n locals l)
  | 0, _, _ => Post.failure _ _
  | n + 1, locals, l => by
    simp only [forLocals]
    split
    · exact Post.result _ _ rfl
    · refine PostL.andThenL (getCurrent_balance0 l _ (by decide) (by decide)) (fun l1 h1 => ?_)
      refine PostL.andThenL (getCurrent_balance0 l1 _ (by decide) (by decide)) (fun l2 h2 => ?_)
      exact (forLocals_balance n _ l2).imp (fun r hr => by omega)

theorem localTargets_balance : ∀ (n : Nat) (targets : List Node) (l : lexer),
    Post (fun r => balance l.toks = balance r.2.toks) (localTargets n targets l)
  | 0, _, _ => Post.failure _ _
  | n + 1, targets, l => by
    simp only [localTargets]
    split
    · refine PostL.andThenL (getCurrent_balance0 l _ (by decide) (by decide)) (fun l1 h1 => ?_)
      split
      · exact Post.result _ _ h1
      · refine PostL.andThenL (getCurrent_balance0 l1 _ (by decide) (by decide)) (fun l2 h2 => ?_)
        exact (localTargets_balance n _ l2).imp (fun r hr => by omega)
    · exact Post.result _ _ rfl

/-- A successful `getCurrent` for one token kind of known weight. -/
theorem getCurrent_balanceW (l : lexer) (t : tkn) (w : Int) (ht : t ≠ tknINVALID)
    (hw : weight t = w) :
    PostL (fun l1 => balance l.toks = balance l1.toks + w) (l.getCurrent [t]) := by
  intro l1 h
  obtain ⟨h1, -⟩ := getCurrent_balance1 l t ht l1 h
  omega

theorem tknToUnOp_weight {t : tkn} {op : opTyp} (h : tknToUnOp t = some op) : weight t = 0 := by
  cases t <;> first | rfl | (exact absurd h (by simp [tknToUnOp]))

theorem tknToBinOp_weight {t : tkn} {op : opTyp} (h : tknToBinOp t = some op) :
    weight t = 0 := by
  cases t <;> first | rfl | (exact absurd h (by simp [tknToBinOp]))

theorem skipComment_balance (l : lexer) :
    balance (if l.look.Typ = tknComment then l.advance else l).toks = balance l.toks := by
  split
  · rename_i h
    have h1 := balance_advance l (by rw [h]; decide)
    rw [h] at h1
    have : weight tknComment = 0 := rfl
    omega
  · rfl

theorem ident_bal_step (n : Nat) (ih : BalInv n) (l : lexer) :
    Post (fun r => balance l.toks = balance r.2.toks) (ident (n + 1) l) := by
  simp only [ident]
  refine PostL.andThenL (getCurrent_balance0 l _ (by decide) (by decide)) (fun l1 h1 => ?_)
  exact (ih.identLoop _ l1).imp (fun r hr => by omega)

theorem identLoop_bal_step (n : Nat) (ih : BalInv n) (id : Node) (l : lexer) :
    Post (fun r => balance l.toks = balance r.2.toks) (identLoop (n + 1) id l) := by
  simp only [identLoop]
  split
  · cases hT : l.look.Typ <;> simp only []
    case tknOIndex =>
      refine PostL.andThenL (getCurrent_balance0 l _ (by decide) (by decide)) (fun l1 h1 => ?_)
      refine Post.andThen (ih.expression l1) (fun r h2 => ?_)
      refine PostL.andThenL (getCurrent_balance0 r.2 _ (by decide) (by decide)) (fun l3 h3 => ?_)
      exact (ih.identLoop _ l3).imp (fun r hr => by omega)
    case tknDot =>
      refine PostL.andThenL (getCurrent_balance0 l _ (by decide) (by decide)) (fun l1 h1 => ?_)
      refine PostL.andThenL (getCurrent_balance0 l1 _ (by decide) (by decide)) (fun l2 h2 => ?_)
      exact (ih.identLoop _ l2).imp (fun r hr => by omega)
    all_goals exact Post.failure _ _
  · exact Post.result _ _ rfl

theorem funcCallArgs_bal_step (n : Nat) (ih : BalInv n) (args : List Node) (l : lexer) :
    Post (fun r => balance l.toks = balance r.2.toks) (funcCallArgs (n + 1) args l) := by
  simp only [funcCallArgs]
  split
  · refine Post.andThen (ih.expression l) (fun r h1 => ?_)
    split
    · exact Post.result _ _ h1
    · refine PostL.andThenL (getCurrent_balance0 r.2 _ (by decide) (by decide)) (fun l2 h2 => ?_)
      exact (ih.funcCallArgs _ l2).imp (fun r hr => by omega)
  · exact Post.result _ _ rfl

theorem funcCall_bal_step (n : Nat) (ih : BalInv n) (id : Node) (l : lexer) :
    Post (fun r => balance l.toks = balance r.2.toks) (funcCall (n + 1) id l) := by
  simp only [funcCall]
  refine Post.andThen (?_ : Post (fun r => balance l.toks = balance r.2.toks) _) (fun rf h1 => ?_)
  · split
    · refine PostL.andThenL (getCurrent_balance0 l _ (by decide) (by decide)) (fun l1 h1 => ?_)
      refine PostL.andThenL (getCurrent_balance0 l1 _ (by decide) (by decide)) (fun l2 h2 => ?_)
      exact Post.result _ _ (by dsimp only; omega)
    · exact Post.result _ _ rfl
  · refine Post.andThen (?_ : Post (fun r => balance rf.2.toks = balance r.2.toks) _)
      (fun a h2 => Post.result _ _ (by dsimp only; omega))
    cases hT : rf.2.look.Typ <;> simp only []
    case tknOBracket =>
      exact Post.andThen (ih.tblConstruct _) (fun r h3 => Post.result _ _ h3)
    case tknString =>
      exact PostL.andThenL (getCurrent_balance0 _ _ (by decide) (by decide))
        (fun l1 h3 => Post.result _ _ h3)
    case tknOParen =>
      refine PostL.andThenL (getCurrent_balance0 _ _ (by decide) (by decide)) (fun l1 h3 => ?_)
      refine Post.andThen (ih.funcCallArgs _ l1) (fun r h4 => ?_)
      exact PostL.andThenL (getCurrent_balance0 _ _ (by decide) (by decide))
        (fun l2 h5 => Post.result _ _ (by dsimp only; omega))
    all_goals
      exact PostL.andThenL (getCurrent_balance0 _ _ (by decide) (by decide))
        (fun l1 h3 => Post.result _ _ h3)

theorem block_end_balance (n : Nat) (ih : BalInv n) (l : lexer) :
    Post (fun r => balance l.toks = balance r.2.toks - 1) (block n [tknEnd] l) :=
  (ih.block [tknEnd] l (by decide)).imp (fun r hr => by
    have hc : r.2.current.Typ = tknEnd := by simpa using hr.2
    have h1 := hr.1
    rw [hc] at h1
    have : weight tknEnd = -1 := rfl
    omega)

theorem block_until_balance (n : Nat) (ih : BalInv n) (l : lexer) :
    Post (fun r => balance l.toks = balance r.2.toks - 1) (block n [tknUntil] l) :=
  (ih.block [tknUntil] l (by decide)).imp (fun r hr => by
    have hc : r.2.current.Typ = tknUntil := by simpa using hr.2
    have h1 := hr.1
    rw [hc] at h1
    have : weight tknUntil = -1 := rfl
    omega)

theorem funcDeclBody_bal_step (n : Nat) (ih : BalInv n) (hasSelf : Bool) (l : lexer) :
    Post (fun r => balance l.toks = balance r.2.toks - 1) (funcDeclBody (n + 1) hasSelf l) := by
  simp only [funcDeclBody]
  refine PostL.andThenL (getCurrent_balance0 l _ (by decide) (by decide)) (fun l1 h1 => ?_)
  refine Post.andThen (funcDeclParams_balance n _ l1) (fun r h2 => ?_)
  refine PostL.andThenL (getCurrent_balance0 r.2 _ (by decide) (by decide)) (fun l2 h3 => ?_)
  exact Post.andThen (block_end_balance n ih l2) (fun b h4 => Post.result _ _ (by dsimp only; omega))

theorem tblConstruct_bal_step (n : Nat) (ih : BalInv n) (l : lexer) :
    Post (fun r => balance l.toks = balance r.2.toks) (tblConstruct (n + 1) l) := by
  simp only [tblConstruct]
  refine PostL.andThenL (getCurrent_balance0 l _ (by decide) (by decide)) (fun l1 h1 => ?_)
  refine Post.andThen (ih.tblConstructLoop _ _ l1) (fun r h2 => ?_)
  exact PostL.andThenL (getCurrent_balance0 r.2 _ (by decide) (by decide))
    (fun l2 h3 => Post.result _ _ (by dsimp only; omega))

theorem tblConstructLoop_bal_step (n : Nat) (ih : BalInv n) (keys vals : List Node)
    (l : lexer) :
    Post (fun r => balance l.toks = balance r.2.toks)
      (tblConstructLoop (n + 1) keys vals l) := by
  simp only [tblConstructLoop]
  split
  · refine Post.andThen (?_ : Post (fun r => balance l.toks = balance r.2.toks) _)
      (fun ks h1 => ?_)
    · cases hT : l.look.Typ <;> simp only []
      case tknName =>
        split
        · exact Post.result _ _ rfl
        · refine PostL.andThenL (getCurrent_balance0 l _ (by decide) (by decide))
            (fun l1 h1 => ?_)
          exact PostL.andThenL (getCurrent_balance0 l1 _ (by decide) (by decide))
            (fun l2 h2 => Post.result _ _ (by dsimp only; omega))
      case tknOIndex =>
        refine PostL.andThenL (getCurrent_balance0 l _ (by decide) (by decide)) (fun l1 h1 => ?_)
        refine Post.andThen (ih.expression l1) (fun r h2 => ?_)
        refine PostL.andThenL (getCurrent_balance0 r.2 _ (by decide) (by decide))
          (fun l2 h3 => ?_)
        exact PostL.andThenL (getCurrent_balance0 l2 _ (by decide) (by decide))
          (fun l3 h4 => Post.result _ _ (by dsimp only; omega))
      all_goals exact Post.result _ _ rfl
    · refine Post.andThen (ih.expression ks.2) (fun r h2 => ?_)
      split
      · exact Post.result _ _ (by dsimp only; omega)
      · refine PostL.andThenL (getCurrent_balance0 r.2 _ (by decide) (by decide))
          (fun l2 h3 => ?_)
        exact (ih.tblConstructLoop _ _ l2).imp (fun r hr => by omega)
  · exact Post.result _ _ rfl

theorem expression_bal_step (n : Nat) (ih : BalInv n) (l : lexer) :
    Post (fun r => balance l.toks = balance r.2.toks) (expression (n + 1) l) := by
  simp only [expression]
  exact ih.subexpr 0 l

theorem subexpr_bal_step (n : Nat) (ih : BalInv n) (limit : Nat) (l : lexer) :
    Post (fun r => balance l.toks = balance r.2.toks) (subexpr (n + 1) limit l) := by
  simp only [subexpr]
  have hs := skipComment_balance l
  generalize (if l.look.Typ = tknComment then l.advance else l) = l0 at hs ⊢
  refine Post.andThen (?_ : Post (fun r => balance l0.toks = balance r.2.toks) _)
    (fun r h1 => ?_)
  · cases hU : tknToUnOp l0.look.Typ with
    | none => exact ih.value l0
    | some op =>
      have ha := balance_advance l0 (tknToUnOp_ne_INVALID hU)
      have hw := tknToUnOp_weight hU
      exact Post.andThen (ih.subexpr 12 l0.advance) (fun r h1 => Post.result _ _ (by dsimp only; omega))
  · have hs2 := skipComment_balance r.2
    exact (ih.subexprLoop _ _ _).imp (fun r1 hr => by omega)

theorem subexprLoop_bal_step (n : Nat) (ih : BalInv n) (limit : Nat) (e1 : Node) (l : lexer) :
    Post (fun r => balance l.toks = balance r.2.toks) (subexprLoop (n + 1) limit e1 l) := by
  simp only [subexprLoop]
  cases hB : tknToBinOp l.look.Typ with
  | none => exact Post.result _ _ rfl
  | some op =>
    simp only []
    cases priorities[op]? with
    | none => exact Post.failure _ _
    | some pr =>
      simp only []
      split
      · have ha := balance_advance l (tknToBinOp_ne_INVALID hB)
        have hw := tknToBinOp_weight hB
        refine Post.andThen (ih.subexpr _ l.advance) (fun r h1 => ?_)
        exact (ih.subexprLoop _ _ _).imp (fun r1 hr => by omega)
      · exact Post.result _ _ rfl

theorem value_bal_step (n : Nat) (ih : BalInv n) (l : lexer) :
    Post (fun r => balance l.toks = balance r.2.toks) (value (n + 1) l) := by
  cases hT : l.look.Typ <;> simp only [value, hT]
  case tknOBracket => exact ih.tblConstruct l
  case tknFunction =>
    refine PostL.andThenL (getCurrent_balanceW l _ 1 (by decide) rfl) (fun l1 h1 => ?_)
    exact (ih.funcDeclBody _ l1).imp (fun r hr => by omega)
  case tknTrue =>
    exact PostL.andThenL (getCurrent_balance0 l _ (by decide) (by decide))
      (fun l1 h1 => Post.result _ _ h1)
  case tknFalse =>
    exact PostL.andThenL (getCurrent_balance0 l _ (by decide) (by decide))
      (fun l1 h1 => Post.result _ _ h1)
  case tknNil =>
    exact PostL.andThenL (getCurrent_balance0 l _ (by decide) (by decide))
      (fun l1 h1 => Post.result _ _ h1)
  case tknVariadic =>
    exact PostL.andThenL (getCurrent_balance0 l _ (by decide) (by decide))
      (fun l1 h1 => Post.result _ _ h1)
  case tknInt =>
    exact PostL.andThenL (getCurrent_balance0 l _ (by decide) (by decide))
      (fun l1 h1 => Post.result _ _ h1)
  case tknFloat =>
    exact PostL.andThenL (getCurrent_balance0 l _ (by decide) (by decide))
      (fun l1 h1 => Post.result _ _ h1)
  case tknString =>
    exact PostL.andThenL (getCurrent_balance0 l _ (by decide) (by decide))
      (fun l1 h1 => Post.result _ _ h1)
  case tknComment =>
    exact PostL.andThenL (getCurrent_balance0 l _ (by decide) (by decide))
      (fun l1 h1 => Post.result _ _ h1)
  all_goals exact ih.suffixedValue l

theorem suffixedValue_bal_step (n : Nat) (ih : BalInv n) (l : lexer) :
    Post (fun r => balance l.toks = balance r.2.toks) (suffixedValue (n + 1) l) := by
  simp only [suffixedValue]
  refine Post.andThen (ih.primaryValue l) (fun r h1 => ?_)
  exact (ih.suffixedValueLoop _ _).imp (fun r1 hr => by omega)

theorem suffixedValueLoop_bal_step (n : Nat) (ih : BalInv n) (v : Node) (l : lexer) :
    Post (fun r => balance l.toks = balance r.2.toks) (suffixedValueLoop (n + 1) v l) := by
  simp only [suffixedValueLoop]
  split
  · cases hT : l.look.Typ <;> simp only []
    case tknOIndex =>
      refine PostL.andThenL (getCurrent_balance0 l _ (by decide) (by decide)) (fun l1 h1 => ?_)
      refine Post.andThen (ih.expression l1) (fun r h2 => ?_)
      refine PostL.andThenL (getCurrent_balance0 r.2 _ (by decide) (by decide)) (fun l2 h3 => ?_)
      exact (ih.suffixedValueLoop _ l2).imp (fun r1 hr => by omega)
    case tknDot =>
      refine PostL.andThenL (getCurrent_balance0 l _ (by decide) (by decide)) (fun l1 h1 => ?_)
      refine PostL.andThenL (getCurrent_balance0 l1 _ (by decide) (by decide)) (fun l2 h2 => ?_)
      split
      · refine Post.andThen (ih.funcCall _ l2) (fun r h3 => ?_)
        exact (ih.suffixedValueLoop _ _).imp (fun r1 hr => by omega)
      · exact (ih.suffixedValueLoop _ _).imp (fun r1 hr => by omega)
    all_goals
      refine Post.andThen (ih.funcCall _ l) (fun r h3 => ?_)
      exact (ih.suffixedValueLoop _ _).imp (fun r1 hr => by omega)
  · exact Post.result _ _ rfl

theorem primaryValue_bal_step (n : Nat) (ih : BalInv n) (l : lexer) :
    Post (fun r => balance l.toks = balance r.2.toks) (primaryValue (n + 1) l) := by
  cases hT : l.look.Typ <;> simp only [primaryValue, hT]
  case tknName =>
    exact PostL.andThenL (getCurrent_balance0 l _ (by decide) (by decide))
      (fun l1 h1 => Post.result _ _ h1)
  case tknOParen =>
    refine PostL.andThenL (getCurrent_balance0 l _ (by decide) (by decide)) (fun l1 h1 => ?_)
    refine Post.andThen (ih.expression l1) (fun r h2 => ?_)
    exact PostL.andThenL (getCurrent_balance0 r.2 _ (by decide) (by decide))
      (fun l2 h3 => Post.result _ _ (by dsimp only; omega))
  all_goals
    exact PostL.andThenL (getCurrent_balance0 l _ (by decide) (by decide))
      (fun l1 h1 => Post.failure _ _)

theorem funcDeclStat_bal_step (n : Nat) (ih : BalInv n) (isLocal : Bool) (l : lexer) :
    Post (fun r => balance l.toks = balance r.2.toks) (funcDeclStat (n + 1) isLocal l) := by
  simp only [funcDeclStat]
  refine PostL.andThenL (getCurrent_balanceW l _ 1 (by decide) rfl) (fun l1 h1 => ?_)
  refine Post.andThen (?_ : Post (fun r => balance l1.toks = balance r.2.toks) _)
    (fun r h2 => ?_)
  · split
    · exact PostL.andThenL (getCurrent_balance0 l1 _ (by decide) (by decide))
        (fun l2 h2 => Post.result _ _ h2)
    · refine Post.andThen (ih.ident l1) (fun r h2 => ?_)
      split
      · refine PostL.andThenL (getCurrent_balance0 r.2 _ (by decide) (by decide))
          (fun l2 h3 => ?_)
        exact PostL.andThenL (getCurrent_balance0 l2 _ (by decide) (by decide))
          (fun l3 h4 => Post.result _ _ (by dsimp only; omega))
      · exact Post.result _ _ h2
  · exact Post.andThen (ih.funcDeclBody _ r.2)
      (fun b h3 => Post.result _ _ (by dsimp only; omega))

theorem block_bal_step (n : Nat) (ih : BalInv n) (enders : List tkn) (l : lexer)
    (he : enders.contains tknINVALID = false) :
    Post (fun r => balance l.toks = balance r.2.toks + weight r.2.current.Typ ∧
      enders.contains r.2.current.Typ = true) (block (n + 1) enders l) := by
  simp only [block]
  refine Post.andThen (ih.blockLoop _ _ l) (fun r h1 => ?_)
  exact PostL.andThenL (getCurrent_balance r.2 _ he)
    (fun l2 h2 => Post.result _ _ ⟨by dsimp only; omega, h2.2⟩)

theorem blockLoop_bal_step (n : Nat) (ih : BalInv n) (enders : List tkn) (rtn : List Node)
    (l : lexer) :
    Post (fun r => balance l.toks = balance r.2.toks) (blockLoop (n + 1) enders rtn l) := by
  simp only [blockLoop]
  split
  · refine Post.andThen (ih.statement l) (fun r h1 => ?_)
    exact (ih.blockLoop _ _ _).imp (fun r1 hr => by omega)
  · exact Post.result _ _ rfl

theorem ifLoop_bal_step (n : Nat) (ih : BalInv n) (rnode : Node) (depth : Nat) (l : lexer) :
    Post (fun r => balance l.toks = balance r.2.toks - 1 - weight l.current.Typ)
      (ifLoop (n + 1) rnode depth l) := by
  cases hT : l.current.Typ <;> simp only [ifLoop, hT]
  case tknElse =>
    have hw : weight tknElse = 0 := rfl
    exact Post.andThen (block_end_balance n ih l)
      (fun r h1 => Post.result _ _ (by dsimp only; omega))
  case tknElseif =>
    have hw : weight tknElseif = 0 := rfl
    refine Post.andThen (ih.expression l) (fun r h1 => ?_)
    refine PostL.andThenL (getCurrent_balance0 r.2 _ (by decide) (by decide)) (fun l1 h2 => ?_)
    refine Post.andThen (ih.block _ l1 (by decide)) (fun b h3 => ?_)
    exact (ih.ifLoop _ _ _).imp (fun r1 hr => by omega)
  case tknEnd =>
    have hw : weight tknEnd = -1 := rfl
    exact Post.result _ _ (by dsimp only; omega)
  all_goals exact Post.failure _ _

theorem forInit_bal_step (n : Nat) (ih : BalInv n) (init : List Node) (l : lexer) :
    Post (fun r => balance l.toks = balance r.2.toks) (forInit (n + 1) init l) := by
  simp only [forInit]
  refine Post.andThen (ih.expression l) (fun r h1 => ?_)
  split
  · exact Post.result _ _ h1
  · refine PostL.andThenL (getCurrent_balance0 r.2 _ (by decide) (by decide)) (fun l2 h2 => ?_)
    exact (ih.forInit _ l2).imp (fun r1 hr => by omega)

theorem valuesLoop_bal_step (n : Nat) (ih : BalInv n) (vals : List Node) (l : lexer) :
    Post (fun r => balance l.toks = balance r.2.toks) (valuesLoop (n + 1) vals l) := by
  simp only [valuesLoop]
  split
  · refine PostL.andThenL (getCurrent_balance0 l _ (by decide) (by decide)) (fun l1 h1 => ?_)
    refine Post.andThen (ih.expression l1) (fun r h2 => ?_)
    exact (ih.valuesLoop _ _).imp (fun r1 hr => by omega)
  · exact Post.result _ _ rfl

theorem returnItems_bal_step (n : Nat) (ih : BalInv n) (items : List Node) (l : lexer) :
    Post (fun r => balance l.toks = balance r.2.toks) (returnItems (n + 1) items l) := by
  simp only [returnItems]
  split
  · refine Post.andThen (ih.expression l) (fun r h1 => ?_)
    split
    · exact Post.result _ _ h1
    · refine PostL.andThenL (getCurrent_balance0 r.2 _ (by decide) (by decide)) (fun l2 h2 => ?_)
      exact (ih.returnItems _ l2).imp (fun r1 hr => by omega)
  · exact Post.result _ _ rfl

theorem targetsLoop_bal_step (n : Nat) (ih : BalInv n) (targets : List Node) (l : lexer) :
    Post (fun r => balance l.toks = balance r.2.toks) (targetsLoop (n + 1) targets l) := by
  simp only [targetsLoop]
  split
  · refine PostL.andThenL (getCurrent_balance0 l _ (by decide) (by decide)) (fun l1 h1 => ?_)
    refine Post.andThen (ih.suffixedValue l1) (fun r h2 => ?_)
    exact (ih.targetsLoop _ _).imp (fun r1 hr => by omega)
  · exact Post.result _ _ rfl

theorem statement_default_bal (n : Nat) (ih : BalInv n) (l : lexer) :
    Post (fun r => balance l.toks = balance r.2.toks) (do
      let r ← suffixedValue n l
      match r.1 with
        | .FuncCall .. => pure (r.1, r.2)
        | _ => do
          let t ← targetsLoop n [r.1] r.2
          let l1 ← t.2.getCurrent [tknSet]
          let e ← expression n l1
          let v ← valuesLoop n [e.1] e.2
          pure (stmtInfo (.Assign {} false false t.1 v.1) r.2.current.Line, v.2)) := by
  refine Post.andThen (ih.suffixedValue l) (fun id h1 => ?_)
  have htail : Post (fun r => balance l.toks = balance r.2.toks) (do
          let t ← targetsLoop n [id.1] id.2
          let l1 ← t.2.getCurrent [tknSet]
          let e ← expression n l1
          let v ← valuesLoop n [e.1] e.2
          pure (stmtInfo (.Assign {} false false t.1 v.1) id.2.current.Line, v.2)) := by
    refine Post.andThen (ih.targetsLoop _ id.2) (fun ts h2 => ?_)
    refine PostL.andThenL (getCurrent_balance0 ts.2 _ (by decide) (by decide)) (fun l1 h3 => ?_)
    refine Post.andThen (ih.expression l1) (fun e h4 => ?_)
    exact Post.andThen (ih.valuesLoop _ e.2)
      (fun vs h5 => Post.result _ _ (by dsimp only; omega))
  rcases id with ⟨id, l1⟩
  cases id <;> first | exact Post.result _ _ h1 | exact htail

theorem statement_bal_step (n : Nat) (ih : BalInv n) (l : lexer) :
    Post (fun r => balance l.toks = balance r.2.toks) (statement (n + 1) l) := by
  cases hT : l.look.Typ <;> simp only [statement, hT]
  case tknUnnecessary =>
    exact PostL.andThenL (getCurrent_balance0 l _ (by decide) (by decide))
      (fun l1 h1 => Post.result _ _ h1)
  case tknIf =>
    refine PostL.andThenL (getCurrent_balanceW l _ 1 (by decide) rfl) (fun l1 h1 => ?_)
    refine Post.andThen (ih.expression l1) (fun r h2 => ?_)
    refine PostL.andThenL (getCurrent_balance0 r.2 _ (by decide) (by decide)) (fun l2 h3 => ?_)
    refine Post.andThen (ih.block _ l2 (by decide)) (fun b h4 => ?_)
    exact (ih.ifLoop _ _ _).imp (fun r1 hr => by omega)
  case tknComment =>
    exact PostL.andThenL (getCurrent_balance0 l _ (by decide) (by decide))
      (fun l1 h1 => Post.result _ _ h1)
  case tknWhile =>
    refine PostL.andThenL (getCurrent_balance0 l _ (by decide) (by decide)) (fun l1 h1 => ?_)
    refine Post.andThen (ih.expression l1) (fun r h2 => ?_)
    refine PostL.andThenL (getCurrent_balanceW r.2 _ 1 (by decide) rfl) (fun l2 h3 => ?_)
    exact Post.andThen (block_end_balance n ih l2)
      (fun b h4 => Post.result _ _ (by dsimp only; omega))
  case tknDo =>
    refine PostL.andThenL (getCurrent_balanceW l _ 1 (by decide) rfl) (fun l1 h1 => ?_)
    exact Post.andThen (block_end_balance n ih l1)
      (fun b h4 => Post.result _ _ (by dsimp only; omega))
  case tknFor =>
    refine PostL.andThenL (getCurrent_balance0 l _ (by decide) (by decide)) (fun l1 h1 => ?_)
    refine PostL.andThenL (getCurrent_balance0 l1 _ (by decide) (by decide)) (fun l2 h2 => ?_)
    split
    · refine PostL.andThenL (getCurrent_balance0 l2 _ (by decide) (by decide)) (fun l3 h3 => ?_)
      refine Post.andThen (ih.expression l3) (fun i h4 => ?_)
      refine PostL.andThenL (getCurrent_balance0 i.2 _ (by decide) (by decide)) (fun l4 h5 => ?_)
      refine Post.andThen (ih.expression l4) (fun lim h6 => ?_)
      refine Post.andThen (?_ : Post (fun r => balance lim.2.toks = balance r.2.toks) _)
        (fun s h7 => ?_)
      · split
        · refine PostL.andThenL (getCurrent_balance0 lim.2 _ (by decide) (by decide))
            (fun l5 h7 => ?_)
          exact (ih.expression l5).imp (fun r1 hr => by omega)
        · exact Post.result _ _ rfl
      · refine PostL.andThenL (getCurrent_balanceW s.2 _ 1 (by decide) rfl) (fun l6 h8 => ?_)
        exact Post.andThen (block_end_balance n ih l6)
          (fun b h9 => Post.result _ _ (by dsimp only; omega))
    · refine Post.andThen (forLocals_balance n _ l2) (fun ls h3 => ?_)
      refine PostL.andThenL (getCurrent_balance0 ls.2 _ (by decide) (by decide)) (fun l3 h4 => ?_)
      refine Post.andThen (ih.forInit _ l3) (fun i h5 => ?_)
      refine PostL.andThenL (getCurrent_balanceW i.2 _ 1 (by decide) rfl) (fun l4 h6 => ?_)
      exact Post.andThen (block_end_balance n ih l4)
        (fun b h7 => Post.result _ _ (by dsimp only; omega))
  case tknRepeat =>
    refine PostL.andThenL (getCurrent_balanceW l _ 1 (by decide) rfl) (fun l1 h1 => ?_)
    refine Post.andThen (block_until_balance n ih l1) (fun b h2 => ?_)
    exact Post.andThen (ih.expression b.2) (fun r h3 => Post.result _ _ (by dsimp only; omega))
  case tknFunction => exact ih.funcDeclStat _ l
  case tknLocal =>
    refine PostL.andThenL (getCurrent_balance0 l _ (by decide) (by decide)) (fun l1 h1 => ?_)
    split
    · exact (ih.funcDeclStat _ l1).imp (fun r1 hr => by omega)
    · refine Post.andThen (localTargets_balance n _ l1) (fun ts h2 => ?_)
      refine Post.andThen (?_ : Post (fun r => balance ts.2.toks = balance r.2.toks) _)
        (fun vs h3 => Post.result _ _ (by dsimp only; omega))
      split
      · refine PostL.andThenL (getCurrent_balance0 ts.2 _ (by decide) (by decide))
          (fun l2 h3 => ?_)
        refine Post.andThen (ih.expression l2) (fun e h4 => ?_)
        exact (ih.valuesLoop _ e.2).imp (fun r1 hr => by omega)
      · exact Post.result _ _ rfl
  case tknDblColon =>
    refine PostL.andThenL (getCurrent_balance0 l _ (by decide) (by decide)) (fun l1 h1 => ?_)
    refine PostL.andThenL (getCurrent_balance0 l1 _ (by decide) (by decide)) (fun l2 h2 => ?_)
    exact PostL.andThenL (getCurrent_balance0 l2 _ (by decide) (by decide))
      (fun l3 h3 => Post.result _ _ (by dsimp only; omega))
  case tknReturn =>
    refine PostL.andThenL (getCurrent_balance0 l _ (by decide) (by decide)) (fun l1 h1 => ?_)
    exact Post.andThen (ih.returnItems _ l1)
      (fun r h2 => Post.result _ _ (by dsimp only; omega))
  case tknBreak =>
    exact PostL.andThenL (getCurrent_balance0 l _ (by decide) (by decide))
      (fun l1 h1 => Post.result _ _ h1)
  case tknContinue =>
    exact PostL.andThenL (getCurrent_balance0 l _ (by decide) (by decide))
      (fun l1 h1 => Post.result _ _ h1)
  case tknGoto =>
    refine PostL.andThenL (getCurrent_balance0 l _ (by decide) (by decide)) (fun l1 h1 => ?_)
    exact PostL.andThenL (getCurrent_balance0 l1 _ (by decide) (by decide))
      (fun l2 h2 => Post.result _ _ (by dsimp only; omega))
  case tknOParen =>
    refine PostL.andThenL (getCurrent_balance0 l _ (by decide) (by decide)) (fun l1 h1 => ?_)
    refine Post.andThen (ih.expression l1) (fun r h2 => ?_)
    refine PostL.andThenL (getCurrent_balance0 r.2 _ (by decide) (by decide)) (fun l2 h3 => ?_)
    exact (ih.funcCall _ l2).imp (fun r1 hr => by omega)
  all_goals exact statement_default_bal n ih l

/-- What a parsing function reads has as many block openers as terminators, as `BalInv`
says. -/
theorem balInv : ∀ n : Nat, BalInv n
  | 0 =>
    { ident := fun _ => Post.failure _ _, identLoop := fun _ _ => Post.failure _ _,
      funcCall := fun _ _ => Post.failure _ _, funcCallArgs := fun _ _ => Post.failure _ _,
      funcDeclBody := fun _ _ => Post.failure _ _, tblConstruct := fun _ => Post.failure _ _,
      tblConstructLoop := fun _ _ _ => Post.failure _ _, expression := fun _ => Post.failure _ _,
      subexpr := fun _ _ => Post.failure _ _, subexprLoop := fun _ _ _ => Post.failure _ _,
      value := fun _ => Post.failure _ _, suffixedValue := fun _ => Post.failure _ _,
      suffixedValueLoop := fun _ _ => Post.failure _ _, primaryValue := fun _ => Post.failure _ _,
      funcDeclStat := fun _ _ => Post.failure _ _, block := fun _ _ _ => Post.failure _ _,
      blockLoop := fun _ _ _ => Post.failure _ _, ifLoop := fun _ _ _ => Post.failure _ _,
      forInit := fun _ _ => Post.failure _ _, valuesLoop := fun _ _ => Post.failure _ _,
      returnItems := fun _ _ => Post.failure _ _, targetsLoop := fun _ _ => Post.failure _ _,
      statement := fun _ => Post.failure _ _ }
  | n + 1 =>
    have ih := balInv n
    { ident := ident_bal_step n ih
      identLoop := identLoop_bal_step n ih
      funcCall := funcCall_bal_step n ih
      funcCallArgs := funcCallArgs_bal_step n ih
      funcDeclBody := funcDeclBody_bal_step n ih
      tblConstruct := tblConstruct_bal_step n ih
      tblConstructLoop := tblConstructLoop_bal_step n ih
      expression := expression_bal_step n ih
      subexpr := subexpr_bal_step n ih
      subexprLoop := subexprLoop_bal_step n ih
      value := value_bal_step n ih
      suffixedValue := suffixedValue_bal_step n ih
      suffixedValueLoop := suffixedValueLoop_bal_step n ih
      primaryValue := primaryValue_bal_step n ih
      funcDeclStat := funcDeclStat_bal_step n ih
      block := block_bal_step n ih
      blockLoop := blockLoop_bal_step n ih
      ifLoop := ifLoop_bal_step n ih
      forInit := forInit_bal_step n ih
      valuesLoop := valuesLoop_bal_step n ih
      returnItems := returnItems_bal_step n ih
      targetsLoop := targetsLoop_bal_step n ih
      statement := statement_bal_step n ih }

/-- When the statement loop of `Parse` ends without an error, the tokens had as many block
openers as terminators. -/
theorem ParseLoop_balance : ∀ (n : Nat) (blk b : List Node) (l : lexer),
    ParseLoop n blk l = (b, none) → balance l.toks = 0
  | 0, _, _, _, h => by simp [ParseLoop] at h
  | n + 1, blk, b, l, h => by
    simp only [ParseLoop] at h
    split at h
    · cases hst : statement n l with
      | error e => rw [hst] at h; simp at h
      | ok r =>
        rw [hst] at h
        have h1 := (balInv n).statement l r hst
        have h2 := ParseLoop_balance n _ b r.2 h
        simp only at h1
        omega
    · rename_i hl
      have : l.look.Typ = tknINVALID := by
        simp only [Bool.not_eq_true, Bool.not_eq_false] at hl
        have := (checkLook_single l tknINVALID).1 (by simpa using hl)
        exact this
      exact balance_of_look l this

/-- A block whose statements run to the end of the stream fails: the terminator is
expected and not found. -/
theorem block_at_end (n : Nat) (enders : List tkn) (l l1 : lexer) (rtn : List Node)
    (he : enders.contains tknINVALID = false)
    (hloop : blockLoop n enders [] l = .ok (rtn, l1)) (hend : l1.look.Typ = tknINVALID) :
    block (n + 1) enders l = .error (.tokenExpected l1.look enders) := by
  simp only [block, hloop, ok_bind, lexer.getCurrent]
  have hc : l1.advance.current = l1.look := rfl
  rw [hc, hend, he]
  rfl

/-! ### C16: a block that is not terminated is an error -/

/-- C16: a block whose statements run to the end of the stream fails with the error of the
missing terminator, whatever opened it (`block` is what reads the statements after `then`,
`else`, `do`, `repeat` and a parameter list), and a block that is read has consumed one of
its terminators. For the whole stream: when it has more block openers (`if`, `do`,
`repeat`, `function`) than terminators (`end`, `until`), or fewer, `Parse` does not return
a nil error, and with the fuel of the termination bound the error is one of the parser. -/
theorem C16_unterminated_block (fuel : Nat) (toks : List token) (line : Int)
    (h : balance toks ≠ 0) :
    (Parse fuel toks line).2 ≠ none ∧
    (12 * toks.length + 8 ≤ fuel →
      ∃ e, (Parse fuel toks line).2 = some e ∧ e ≠ .outOfFuel) ∧
    (∀ (n : Nat) (enders : List tkn) (l l1 : lexer) (rtn : List Node),
      enders.contains tknINVALID = false → blockLoop n enders [] l = .ok (rtn, l1) →
      l1.look.Typ = tknINVALID →
      block (n + 1) enders l = .error (.tokenExpected l1.look enders)) ∧
    (∀ (n : Nat) (enders : List tkn) (l : lexer) (r : Parsed (List Node)),
      enders.contains tknINVALID = false → block n enders l = .ok r →
      enders.contains r.2.current.Typ = true) := by
  have h1 : (Parse fuel toks line).2 ≠ none := by
    intro hn
    have hp : Parse fuel toks line = ((Parse fuel toks line).1, none) := by
      rw [← hn]
    exact h (ParseLoop_balance fuel [] _ (newLexer toks line) hp)
  refine ⟨h1, fun hf => ?_, fun n enders l l1 rtn he hl hend => block_at_end n enders l l1 rtn he hl hend,
    fun n enders l r he hr => ((balInv n).block enders l he r hr).2⟩
  cases he : (Parse fuel toks line).2 with
  | none => exact absurd he h1
  | some e =>
    refine ⟨e, rfl, fun h2 => ?_⟩
    rw [h2] at he
    exact ParseLoop_terminates fuel [] (newLexer toks line) hf he

/-- C16 at `if true then` with no `end`: one opener and no terminator, and `Parse` returns
the error of the missing `else`, `elseif` or `end`. -/
theorem C16_unterminated_block_witness :
    balance [⟨"if", tknIf, 1⟩, ⟨"true", tknTrue, 1⟩, ⟨"then", tknThen, 1⟩] ≠ 0 ∧
    (Parse 44 [⟨"if", tknIf, 1⟩, ⟨"true", tknTrue, 1⟩, ⟨"then", tknThen, 1⟩] 1).2 ≠ none ∧
    Parse 44 [⟨"if", tknIf, 1⟩, ⟨"true", tknTrue, 1⟩, ⟨"then", tknThen, 1⟩] 1 =
      ([], some (.tokenExpected eofToken [tknElse, tknElseif, tknEnd])) :=
  ⟨by decide,
    (C16_unterminated_block 44 [⟨"if", tknIf, 1⟩, ⟨"true", tknTrue, 1⟩, ⟨"then", tknThen, 1⟩] 1
      (by decide)).1, rfl⟩

/-! ### C18: a statement that starts with `(` -/

/-- A call that is read is a `FuncCall` node with the line of the token before it. -/
theorem funcCall_isFuncCall (n : Nat) (id : Node) (l : lexer) (r : Parsed Node)
    (h : funcCall n id l = .ok r) :
    ∃ rcv f args, r.1 = .FuncCall ⟨FuncCallNode, l.current.Line⟩ rcv f args := by
  cases n with
  | zero => cases h
  | succ n =>
    simp only [funcCall, bind_eq_ok] at h
    obtain ⟨rf, -, a, -, h3⟩ := h
    rw [pure_eq_ok] at h3
    subst h3
    exact ⟨rf.1.1, rf.1.2, a.1, rfl⟩

/-- The call of `funcCall` fails when no argument list follows: the next token is none of
`{`, a string, `(` and `:`. -/
theorem funcCall_no_args (n : Nat) (id : Node) (l : lexer)
    (h : [tknOBracket, tknString, tknOParen, tknColon].contains l.look.Typ = false) :
    funcCall (n + 1) id l = .error (.tokenExpected l.look [tknOBracket, tknString, tknOParen]) := by
  have hc : l.checkLook [tknColon] = false := by
    cases hT : l.look.Typ <;> simp_all [lexer.checkLook]
  simp only [funcCall, hc, Bool.false_eq_true, if_false, pure_bind]
  cases hT : l.look.Typ <;> simp_all [lexer.getCurrent, lexer.advance]

/-- The call of `funcCall` fails when `:` is not followed by a name. -/
theorem funcCall_colon_no_name (n : Nat) (id : Node) (l : lexer)
    (h1 : l.look.Typ = tknColon) (h2 : l.exlook.Typ ≠ tknName) :
    funcCall (n + 1) id l = .error (.tokenExpected l.exlook [tknName]) := by
  have hc : l.checkLook [tknColon] = true := (checkLook_single l tknColon).2 h1
  have hg : l.getCurrent [tknColon] = .ok l.advance := by
    rw [getCurrent_eq_ok]; exact ⟨by simpa [lexer.checkLook] using hc, rfl⟩
  have hg2 : l.advance.getCurrent [tknName] = .error (.tokenExpected l.exlook [tknName]) := by
    simp only [lexer.getCurrent]
    have hcur : l.advance.advance.current = l.exlook := rfl
    rw [hcur]
    simp [h2]
  simp only [funcCall, hc, if_true, hg, ok_bind, hg2, error_bind]

/-- The statement `(f)()` is read as a call of `f` with no receiver and no argument. -/
theorem paren_call_statement (c : token) (lp f rp lp2 rp2 : String) (a b d e g : Int)
    (rest : List token) :
    statement 7 ⟨c, ⟨lp, tknOParen, a⟩ :: ⟨f, tknName, b⟩ :: ⟨rp, tknCParen, d⟩ ::
        ⟨lp2, tknOParen, e⟩ :: ⟨rp2, tknCParen, g⟩ :: rest⟩ =
      .ok (.FuncCall ⟨FuncCallNode, d⟩ .nil (.ConstIdent ⟨ConstIdentNode, b⟩ f) [],
        ⟨⟨rp2, tknCParen, g⟩, rest⟩) := by
  rfl

/-- C18: a statement whose first token is `(`, when it is read, is a `FuncCall` node, and
with enough fuel it is read or fails with an error of the parser. The statement `(f)()` is
read as the call of `f` with no receiver and no argument. When the parenthesised
expression is followed by none of `{`, a string, `(` and `:`, or by `:` and no name, the
statement fails with the error of the missing token. -/
theorem C18_paren_statement (n : Nat) (l : lexer) (h : l.look.Typ = tknOParen) :
    (∀ r : Parsed Node, statement n l = .ok r →
      ∃ b rcv f args, r.1 = .FuncCall b rcv f args) ∧
    (12 * l.toks.length + 7 ≤ n → statement n l ≠ .error .outOfFuel) ∧
    (∀ (e : Parsed Node), expression n l.advance = .ok e → e.2.look.Typ = tknCParen →
      [tknOBracket, tknString, tknOParen, tknColon].contains e.2.advance.look.Typ = false →
      statement (n + 1) l =
        .error (.tokenExpected e.2.advance.look [tknOBracket, tknString, tknOParen])) ∧
    (∀ (e : Parsed Node), expression n l.advance = .ok e → e.2.look.Typ = tknCParen →
      e.2.advance.look.Typ = tknColon → e.2.advance.exlook.Typ ≠ tknName →
      statement (n + 1) l = .error (.tokenExpected e.2.advance.exlook [tknName])) ∧
    (∀ (c : token) (lp f rp lp2 rp2 : String) (a b d e g : Int) (rest : List token),
      statement 7 ⟨c, ⟨lp, tknOParen, a⟩ :: ⟨f, tknName, b⟩ :: ⟨rp, tknCParen, d⟩ ::
          ⟨lp2, tknOParen, e⟩ :: ⟨rp2, tknCParen, g⟩ :: rest⟩ =
        .ok (.FuncCall ⟨FuncCallNode, d⟩ .nil (.ConstIdent ⟨ConstIdentNode, b⟩ f) [],
          ⟨⟨rp2, tknCParen, g⟩, rest⟩)) := by
  have hg : l.getCurrent [tknOParen] = .ok l.advance := by
    rw [getCurrent_eq_ok]; exact ⟨by simp [h], rfl⟩
  refine ⟨fun r hr => ?_, fun hn => ((termInv n).statement l hn).1, fun e he hc hno => ?_,
    fun e he hc h1 h2 => ?_, paren_call_statement⟩
  · cases n with
    | zero => cases hr
    | succ n =>
      simp only [statement, h, hg, ok_bind, bind_eq_ok] at hr
      obtain ⟨e, -, l2, -, hf⟩ := hr
      obtain ⟨rcv, f, args, hfc⟩ := funcCall_isFuncCall n e.1 l2 r hf
      exact ⟨_, rcv, f, args, hfc⟩
  · have hg2 : e.2.getCurrent [tknCParen] = .ok e.2.advance := by
      rw [getCurrent_eq_ok]; exact ⟨by simp [hc], rfl⟩
    cases n with
    | zero => cases he
    | succ n =>
      simp only [statement, h, hg, ok_bind, he, hg2]
      exact funcCall_no_args n e.1 e.2.advance hno
  · have hg2 : e.2.getCurrent [tknCParen] = .ok e.2.advance := by
      rw [getCurrent_eq_ok]; exact ⟨by simp [hc], rfl⟩
    cases n with
    | zero => cases he
    | succ n =>
      simp only [statement, h, hg, ok_bind, he, hg2]
      exact funcCall_colon_no_name n e.1 e.2.advance h1 h2


/-- C18 at `(f)()` and at `(f)`: the first is read as a call, the second fails because no
argument list follows. -/
theorem C18_paren_statement_witness :
    (lexer.mk eofToken [⟨"(", tknOParen, 1⟩, ⟨"f", tknName, 1⟩, ⟨")", tknCParen, 1⟩]).look.Typ =
      tknOParen ∧
    statement 7 ⟨eofToken, [⟨"(", tknOParen, 1⟩, ⟨"f", tknName, 1⟩, ⟨")", tknCParen, 1⟩]⟩ =
      .error (.tokenExpected eofToken [tknOBracket, tknString, tknOParen]) ∧
    statement 7 ⟨eofToken, [⟨"(", tknOParen, 1⟩, ⟨"f", tknName, 1⟩, ⟨")", tknCParen, 1⟩,
        ⟨"(", tknOParen, 1⟩, ⟨")", tknCParen, 1⟩]⟩ =
      .ok (.FuncCall ⟨FuncCallNode, 1⟩ .nil (.ConstIdent ⟨ConstIdentNode, 1⟩ "f") [],
        ⟨⟨")", tknCParen, 1⟩, []⟩) :=
  ⟨rfl,
    (C18_paren_statement 6
      ⟨eofToken, [⟨"(", tknOParen, 1⟩, ⟨"f", tknName, 1⟩, ⟨")", tknCParen, 1⟩]⟩ rfl).2.2.1
      (.ConstIdent ⟨ConstIdentNode, 1⟩ "f", ⟨⟨"f", tknName, 1⟩, [⟨")", tknCParen, 1⟩]⟩)
      rfl rfl rfl,
    rfl⟩

/-! ### C19: receiver, function and arguments of a call -/

theorem checkLook_false_single (l : lexer) (t : tkn) :
    l.checkLook [t] = false ↔ l.look.Typ ≠ t := by
  have := checkLook_single l t
  constructor
  · intro h h1; rw [this.2 h1] at h; cases h
  · intro h; cases hc : l.checkLook [t]
    · rfl
    · exact absurd (this.1 hc) h

/-- The argument loop of `funcCall` appends the expressions it reads, in order. -/
theorem funcCallArgs_read : ∀ (n : Nat) (acc : List Node) (l : lexer) (r : Parsed (List Node)),
    funcCallArgs n acc l = .ok r → ∃ es, r.1 = acc ++ es ∧ ArgsRead l es r.2
  | 0, _, _, _, h => by cases h
  | n + 1, acc, l, r, h => by
    simp only [funcCallArgs] at h
    by_cases hc : l.checkLook [tknCParen] = true
    · simp only [hc, Bool.not_true, Bool.false_eq_true, if_false, pure_eq_ok] at h
      subst h
      exact ⟨[], (by simp), .none l ((checkLook_single l _).1 hc)⟩
    · have hc1 : l.checkLook [tknCParen] = false := by simpa using hc
      simp only [hc1, Bool.not_false, if_true, bind_eq_ok] at h
      obtain ⟨e, he, h⟩ := h
      by_cases hs : e.2.checkLook [tknSeperator] = true
      · simp only [hs, Bool.not_true, Bool.false_eq_true, if_false, bind_eq_ok,
          getCurrent_eq_ok] at h
        obtain ⟨l2, ⟨-, rfl⟩, h⟩ := h
        obtain ⟨es, h1, h2⟩ := funcCallArgs_read n _ _ r h
        exact ⟨e.1 :: es, (by simp [h1]),
          .more n l e.2 r.2 e.1 es ((checkLook_false_single l _).1 hc1) he
            ((checkLook_single _ _).1 hs) h2⟩
      · have hs1 : e.2.checkLook [tknSeperator] = false := by simpa using hs
        simp only [hs1, Bool.not_false, if_true, pure_eq_ok] at h
        subst h
        exact ⟨[e.1], rfl,
          .last n l e.2 e.1 ((checkLook_false_single l _).1 hc1) he
            ((checkLook_false_single _ _).1 hs1)⟩

/-- A table constructor that is read is a `TableConstructor` node. -/
theorem tblConstruct_isTable (n : Nat) (l : lexer) (r : Parsed Node)
    (h : tblConstruct n l = .ok r) :
    ∃ ks vs, r.1 = .TableConstructor ⟨TableConstructorNode, l.look.Line⟩ ks vs := by
  cases n with
  | zero => cases h
  | succ n =>
    simp only [tblConstruct, bind_eq_ok, getCurrent_eq_ok] at h
    obtain ⟨l1, ⟨-, rfl⟩, kv, -, l2, -, h3⟩ := h
    rw [pure_eq_ok] at h3
    subst h3
    exact ⟨kv.1.1, kv.1.2, rfl⟩

/-- The arguments of a call: a table constructor, a string, or a parenthesised list. -/
theorem funcCall_args (n : Nat) (l1 : lexer) (a : Parsed (List Node))
    (h : (match l1.look.Typ with
      | tknOBracket => do
        let (t, l) ← tblConstruct n l1
        pure ([t], l)
      | tknString => do
        let l ← l1.getCurrent [tknString]
        pure ([exprInfo (.ConstString {} l.current.Lexeme) l.current.Line], l)
      | tknOParen => do
        let l ← l1.getCurrent [tknOParen]
        let (args, l) ← funcCallArgs n [] l
        let l ← l.getCurrent [tknCParen]
        pure (args, l)
      | _ => do
        let l ← l1.getCurrent [tknOBracket, tknString, tknOParen]
        pure ([], l) : Except Err (Parsed (List Node))) = .ok a) :
    (l1.look.Typ = tknOBracket ∧
      ∃ ks vs, tblConstruct n l1 =
          .ok (.TableConstructor ⟨TableConstructorNode, l1.look.Line⟩ ks vs, a.2) ∧
        a.1 = [.TableConstructor ⟨TableConstructorNode, l1.look.Line⟩ ks vs]) ∨
    (l1.look.Typ = tknString ∧
      a.1 = [.ConstString ⟨ConstStringNode, l1.look.Line⟩ l1.look.Lexeme] ∧
      a.2 = l1.advance) ∨
    (l1.look.Typ = tknOParen ∧
      ∃ l2, ArgsRead l1.advance a.1 l2 ∧ l2.look.Typ = tknCParen ∧ a.2 = l2.advance) := by
  cases hT : l1.look.Typ <;> simp only [hT] at h
  case tknOBracket =>
    simp only [bind_eq_ok] at h
    obtain ⟨t, ht, h2⟩ := h
    rw [pure_eq_ok] at h2
    subst h2
    obtain ⟨ks, vs, hk⟩ := tblConstruct_isTable n l1 t ht
    refine Or.inl ⟨rfl, ks, vs, ?_, ?_⟩
    · rw [ht, ← hk]
    · simp only [hk]
  case tknString =>
    simp only [bind_eq_ok, getCurrent_eq_ok] at h
    obtain ⟨l2, ⟨-, rfl⟩, h2⟩ := h
    rw [pure_eq_ok] at h2
    subst h2
    exact Or.inr (Or.inl ⟨rfl, rfl, rfl⟩)
  case tknOParen =>
    simp only [bind_eq_ok, getCurrent_eq_ok] at h
    obtain ⟨l2, ⟨-, rfl⟩, args, hargs, l3, ⟨hcp, rfl⟩, h2⟩ := h
    rw [pure_eq_ok] at h2
    subst h2
    obtain ⟨es, h1, h3⟩ := funcCallArgs_read n [] _ args hargs
    simp only [List.nil_append] at h1
    refine Or.inr (Or.inr ⟨rfl, args.2, ?_, ?_, rfl⟩)
    · rw [h1]; exact h3
    · simpa using hcp
  all_goals
    simp only [bind_eq_ok, getCurrent_eq_ok] at h
    obtain ⟨l2, ⟨hc, -⟩, -⟩ := h
    rw [hT] at hc
    exact absurd hc (by decide)

/-- C19: a call read by `funcCall` after the expression `e` is a `FuncCall` node. When the
next tokens are `:` and a name `m`, its receiver is `e` and its function is the
`ConstString` of `m`; otherwise it has no receiver and its function is `e`. Its arguments
are, in source order: the one table constructor of the `{...}` form, the one `ConstString`
of the string form, or the expressions written between `(` and `)` with commas between.
More fuel gives the same call. -/
theorem C19_funcCall_parts (n : Nat) (e : Node) (l : lexer) (r : Parsed Node)
    (h : funcCall (n + 1) e l = .ok r) :
    ∃ (rcv f : Node) (args : List Node) (l1 : lexer),
      r.1 = .FuncCall ⟨FuncCallNode, l.current.Line⟩ rcv f args ∧
      ((l.look.Typ = tknColon ∧ l.exlook.Typ = tknName ∧ rcv = e ∧
          f = .ConstString ⟨ConstStringNode, l.exlook.Line⟩ l.exlook.Lexeme ∧
          l1 = l.advance.advance) ∨
        (l.look.Typ ≠ tknColon ∧ rcv = .nil ∧ f = e ∧ l1 = l)) ∧
      ((l1.look.Typ = tknOBracket ∧
          ∃ ks vs, tblConstruct n l1 =
              .ok (.TableConstructor ⟨TableConstructorNode, l1.look.Line⟩ ks vs, r.2) ∧
            args = [.TableConstructor ⟨TableConstructorNode, l1.look.Line⟩ ks vs]) ∨
        (l1.look.Typ = tknString ∧
          args = [.ConstString ⟨ConstStringNode, l1.look.Line⟩ l1.look.Lexeme] ∧
          r.2 = l1.advance) ∨
        (l1.look.Typ = tknOParen ∧
          ∃ l2, ArgsRead l1.advance args l2 ∧ l2.look.Typ = tknCParen ∧
            r.2 = l2.advance)) ∧
      ∀ m : Nat, n + 1 ≤ m → funcCall m e l = .ok r := by
  have hmono : ∀ m : Nat, n + 1 ≤ m → funcCall m e l = .ok r :=
    fun m hm => funcCall_mono hm e l r h
  simp only [funcCall, bind_eq_ok] at h
  obtain ⟨rf, hrf, a, ha, h3⟩ := h
  rw [pure_eq_ok] at h3
  subst h3
  have hargs := funcCall_args n rf.2 a ha
  refine ⟨rf.1.1, rf.1.2, a.1, rf.2, rfl, ?_, hargs, hmono⟩
  by_cases hc : l.checkLook [tknColon] = true
  · simp only [hc, if_true, bind_eq_ok, getCurrent_eq_ok] at hrf
    obtain ⟨l1, ⟨-, rfl⟩, l2, ⟨hn, rfl⟩, h4⟩ := hrf
    rw [pure_eq_ok] at h4
    subst h4
    exact Or.inl ⟨(checkLook_single l _).1 hc, (by simpa using hn), rfl, rfl, rfl⟩
  · have hc1 : l.checkLook [tknColon] = false := by simpa using hc
    simp only [hc1, Bool.false_eq_true, if_false, pure_eq_ok] at hrf
    subst hrf
    exact Or.inr ⟨(checkLook_false_single l _).1 hc1, rfl, rfl, rfl⟩

/-- C19 at `o:m(1, 2)`: the receiver is `o`, the function the string `m`, the arguments
`1` and `2`. -/
theorem C19_funcCall_parts_witness :
    funcCall 9 (.ConstIdent ⟨ConstIdentNode, 1⟩ "o") callLexer = .ok callResult ∧
    ∃ (rcv f : Node) (args : List Node) (l1 : lexer),
      callResult.1 = .FuncCall ⟨FuncCallNode, callLexer.current.Line⟩ rcv f args ∧
      ((callLexer.look.Typ = tknColon ∧ callLexer.exlook.Typ = tknName ∧
          rcv = .ConstIdent ⟨ConstIdentNode, 1⟩ "o" ∧
          f = .ConstString ⟨ConstStringNode, callLexer.exlook.Line⟩ callLexer.exlook.Lexeme ∧
          l1 = callLexer.advance.advance) ∨
        (callLexer.look.Typ ≠ tknColon ∧ rcv = .nil ∧
          f = .ConstIdent ⟨ConstIdentNode, 1⟩ "o" ∧ l1 = callLexer)) ∧
      ((l1.look.Typ = tknOBracket ∧
          ∃ ks vs, tblConstruct 8 l1 =
              .ok (.TableConstructor ⟨TableConstructorNode, l1.look.Line⟩ ks vs,
                callResult.2) ∧
            args = [.TableConstructor ⟨TableConstructorNode, l1.look.Line⟩ ks vs]) ∨
        (l1.look.Typ = tknString ∧
          args = [.ConstString ⟨ConstStringNode, l1.look.Line⟩ l1.look.Lexeme] ∧
          callResult.2 = l1.advance) ∨
        (l1.look.Typ = tknOParen ∧
          ∃ l2, ArgsRead l1.advance args l2 ∧ l2.look.Typ = tknCParen ∧
            callResult.2 = l2.advance)) ∧
      ∀ m : Nat, 8 + 1 ≤ m →
        funcCall m (.ConstIdent ⟨ConstIdentNode, 1⟩ "o") callLexer = .ok callResult :=
  ⟨rfl, C19_funcCall_parts 8 (.ConstIdent ⟨ConstIdentNode, 1⟩ "o") callLexer callResult rfl⟩

/-! ### Expressions are never nil -/

theorem Post.any {α : Type} (x : Except Err (Parsed α)) : Post (fun _ => True) x :=
  fun _ _ => trivial

theorem PostL.anyL (x : Except Err lexer) : PostL (fun _ => True) x :=
  fun _ _ => trivial

theorem exprInfo_isNil (n : Node) (line : Int) : (exprInfo n line).isNil = n.isNil := by
  cases n <;> rfl

theorem funcCall_ne_nil (n : Nat) (id : Node) (l : lexer) :
    Post (fun r => r.1.isNil = false) (funcCall n id l) := by
  intro r h
  obtain ⟨rcv, f, args, hr⟩ := funcCall_isFuncCall n id l r h
  simp only [hr, Node.isNil]

theorem tblConstruct_ne_nil (n : Nat) (l : lexer) :
    Post (fun r => r.1.isNil = false) (tblConstruct n l) := by
  intro r h
  obtain ⟨ks, vs, hr⟩ := tblConstruct_isTable n l r h
  simp only [hr, Node.isNil]

theorem funcDeclBody_ne_nil (n : Nat) (hasSelf : Bool) (l : lexer) :
    Post (fun r => r.1.isNil = false) (funcDeclBody n hasSelf l) := by
  cases n with
  | zero => exact Post.failure _ _
  | succ n =>
    simp only [funcDeclBody]
    refine PostL.andThenL (PostL.anyL _) (fun l1 _ => ?_)
    refine Post.andThen (Post.any _) (fun r _ => ?_)
    refine PostL.andThenL (PostL.anyL _) (fun l2 _ => ?_)
    exact Post.andThen (Post.any _) (fun b _ => Post.result _ _ rfl)

theorem primaryValue_ne_nil (n : Nat) (l : lexer) :
    Post (fun r => r.1.isNil = false) (primaryValue n l) := by
  cases n with
  | zero => exact Post.failure _ _
  | succ n =>
    cases hT : l.look.Typ <;> simp only [primaryValue, hT]
    case tknName => exact PostL.andThenL (PostL.anyL _) (fun l1 _ => Post.result _ _ rfl)
    case tknOParen =>
      refine PostL.andThenL (PostL.anyL _) (fun l1 _ => ?_)
      refine Post.andThen (Post.any _) (fun r _ => ?_)
      exact PostL.andThenL (PostL.anyL _) (fun l2 _ => Post.result _ _ rfl)
    all_goals exact PostL.andThenL (PostL.anyL _) (fun l1 _ => Post.failure _ _)

theorem nonNilInv : ∀ n : Nat, NonNilInv n
  | 0 =>
    { expression := fun _ => Post.failure _ _, subexpr := fun _ _ => Post.failure _ _,
      subexprLoop := fun _ _ _ _ => Post.failure _ _, value := fun _ => Post.failure _ _,
      suffixedValue := fun _ => Post.failure _ _,
      suffixedValueLoop := fun _ _ _ => Post.failure _ _ }
  | n + 1 =>
    have ih := nonNilInv n
    { expression := fun l => by
        simp only [expression]
        exact ih.subexpr 0 l
      subexpr := fun limit l => by
        simp only [subexpr]
        refine Post.andThen (?_ : Post (fun r => r.1.isNil = false) _)
          (fun r h1 => ih.subexprLoop _ _ _ h1)
        cases tknToUnOp (if l.look.Typ = tknComment then l.advance else l).look.Typ with
        | none => exact ih.value _
        | some op => exact Post.andThen (Post.any _) (fun r _ => Post.result _ _ rfl)
      subexprLoop := fun limit e1 l he => by
        simp only [subexprLoop]
        cases tknToBinOp l.look.Typ with
        | none => exact Post.result _ _ he
        | some op =>
          simp only []
          cases priorities[op]? with
          | none => exact Post.failure _ _
          | some pr =>
            simp only []
            split
            · exact Post.andThen (Post.any _) (fun r _ => ih.subexprLoop _ _ _ rfl)
            · exact Post.result _ _ he
      value := fun l => by
        cases hT : l.look.Typ <;> simp only [value, hT]
        case tknOBracket => exact tblConstruct_ne_nil n l
        case tknFunction =>
          exact PostL.andThenL (PostL.anyL _) (fun l1 _ => funcDeclBody_ne_nil n _ l1)
        case tknTrue => exact PostL.andThenL (PostL.anyL _) (fun l1 _ => Post.result _ _ rfl)
        case tknFalse => exact PostL.andThenL (PostL.anyL _) (fun l1 _ => Post.result _ _ rfl)
        case tknNil => exact PostL.andThenL (PostL.anyL _) (fun l1 _ => Post.result _ _ rfl)
        case tknVariadic => exact PostL.andThenL (PostL.anyL _) (fun l1 _ => Post.result _ _ rfl)
        case tknInt => exact PostL.andThenL (PostL.anyL _) (fun l1 _ => Post.result _ _ rfl)
        case tknFloat => exact PostL.andThenL (PostL.anyL _) (fun l1 _ => Post.result _ _ rfl)
        case tknString => exact PostL.andThenL (PostL.anyL _) (fun l1 _ => Post.result _ _ rfl)
        case tknComment => exact PostL.andThenL (PostL.anyL _) (fun l1 _ => Post.result _ _ rfl)
        all_goals exact ih.suffixedValue l
      suffixedValue := fun l => by
        simp only [suffixedValue]
        exact Post.andThen (primaryValue_ne_nil n l) (fun r h1 => ih.suffixedValueLoop _ _ h1)
      suffixedValueLoop := fun v l hv => by
        simp only [suffixedValueLoop]
        split
        · cases hT : l.look.Typ <;> simp only []
          case tknOIndex =>
            refine PostL.andThenL (PostL.anyL _) (fun l1 _ => ?_)
            refine Post.andThen (Post.any _) (fun r _ => ?_)
            exact PostL.andThenL (PostL.anyL _) (fun l2 _ => ih.suffixedValueLoop _ _ rfl)
          case tknDot =>
            refine PostL.andThenL (PostL.anyL _) (fun l1 _ => ?_)
            refine PostL.andThenL (PostL.anyL _) (fun l2 _ => ?_)
            split
            · exact Post.andThen (funcCall_ne_nil n _ _)
                (fun r h1 => ih.suffixedValueLoop _ _ h1)
            · exact ih.suffixedValueLoop _ _ rfl
          all_goals
            exact Post.andThen (funcCall_ne_nil n _ _) (fun r h1 => ih.suffixedValueLoop _ _ h1)
        · exact Post.result _ _ hv }

/-- An expression that is read is a node, not the nil interface. -/
theorem expression_ne_nil (n : Nat) (l : lexer) (e : Node) (l1 : lexer)
    (h : expression n l = .ok (e, l1)) : e ≠ .nil := by
  have := (nonNilInv n).expression l (e, l1) h
  intro he
  rw [he] at this
  cases this

/-! ### C20: keys and values of a table constructor -/

/-- The key part of one entry of a table constructor, and the state before its value. -/
theorem tblConstruct_key (n : Nat) (keys : List Node) (l : lexer) (ks : Parsed (List Node))
    (h : (match l.look.Typ with
        | tknName =>
          if l.exlook.Typ ≠ tknSet then pure (keys ++ [Node.nil], l)
          else do
            let l ← l.getCurrent [tknName]
            let keys := keys ++ [exprInfo (.ConstString {} l.current.Lexeme) l.current.Line]
            let l ← l.getCurrent [tknSet]
            pure (keys, l)
        | tknOIndex => do
          let l ← l.getCurrent [tknOIndex]
          let (k, l) ← expression n l
          let keys := keys ++ [k]
          let l ← l.getCurrent [tknCIndex]
          let l ← l.getCurrent [tknSet]
          pure (keys, l)
        | _ => pure (keys ++ [Node.nil], l) : Except Err (Parsed (List Node))) = .ok ks) :
    (l.look.Typ = tknName ∧ l.exlook.Typ = tknSet ∧
      ks = (keys ++ [.ConstString ⟨ConstStringNode, l.look.Line⟩ l.look.Lexeme],
        l.advance.advance)) ∨
    (l.look.Typ = tknOIndex ∧ ∃ k l1, expression n l.advance = .ok (k, l1) ∧
      l1.look.Typ = tknCIndex ∧ l1.advance.look.Typ = tknSet ∧
      ks = (keys ++ [k], l1.advance.advance)) ∨
    (l.look.Typ ≠ tknOIndex ∧ ¬ (l.look.Typ = tknName ∧ l.exlook.Typ = tknSet) ∧
      ks = (keys ++ [.nil], l)) := by
  cases hT : l.look.Typ <;> simp only [hT] at h
  case tknName =>
    by_cases hx : l.exlook.Typ = tknSet
    · simp only [hx, ne_eq, not_true_eq_false, if_false, bind_eq_ok, getCurrent_eq_ok] at h
      obtain ⟨l1, ⟨-, rfl⟩, l2, ⟨-, rfl⟩, h2⟩ := h
      rw [pure_eq_ok] at h2
      subst h2
      exact Or.inl ⟨rfl, hx, rfl⟩
    · simp only [ne_eq, hx, not_false_eq_true, if_true, pure_eq_ok] at h
      subst h
      exact Or.inr (Or.inr ⟨(by decide), (fun hh => hx hh.2), rfl⟩)
  case tknOIndex =>
    simp only [bind_eq_ok, getCurrent_eq_ok] at h
    obtain ⟨l1, ⟨-, rfl⟩, k, hk, l2, ⟨hc, rfl⟩, l3, ⟨hs, rfl⟩, h2⟩ := h
    rw [pure_eq_ok] at h2
    subst h2
    exact Or.inr (Or.inl ⟨rfl, k.1, k.2, hk, (by simpa using hc), (by simpa using hs), rfl⟩)
  all_goals
    rw [pure_eq_ok] at h
    subst h
    exact Or.inr (Or.inr ⟨(by decide), (fun hh => by cases hh.1), rfl⟩)

/-- The entry loop of `tblConstruct` appends one key and one value for each entry it
reads, in order. -/
theorem tblConstructLoop_read : ∀ (n : Nat) (keys vals : List Node) (l : lexer)
    (r : Parsed (List Node × List Node)), tblConstructLoop n keys vals l = .ok r →
    ∃ es : List (Node × Node), r.1.1 = keys ++ es.map Prod.fst ∧
      r.1.2 = vals ++ es.map Prod.snd ∧ EntriesRead l es r.2
  | 0, _, _, _, _, h => by cases h
  | n + 1, keys, vals, l, r, h => by
    simp only [tblConstructLoop] at h
    by_cases hc : l.checkLook [tknCBracket] = true
    · simp only [hc, Bool.not_true, Bool.false_eq_true, if_false, pure_eq_ok] at h
      subst h
      exact ⟨[], (by simp), (by simp), .none l ((checkLook_single l _).1 hc)⟩
    · have hc1 : l.checkLook [tknCBracket] = false := by simpa using hc
      have hne := (checkLook_false_single l _).1 hc1
      simp only [hc1, Bool.not_false, if_true, bind_eq_ok] at h
      obtain ⟨ks, hks, v, hv, h⟩ := h
      have hentry : ∃ k, ks.1 = keys ++ [k] ∧ EntryRead l k v.1 v.2 := by
        rcases tblConstruct_key n keys l ks hks with ⟨h1, h2, rfl⟩ | ⟨h1, k, l1, hk, h2, h3, rfl⟩ |
          ⟨h1, h2, rfl⟩
        · exact ⟨_, rfl, .named n l v.2 v.1 h1 h2 hv⟩
        · exact ⟨k, rfl, .bracket n n l l1 v.2 k v.1 h1 hk h2 h3 hv⟩
        · exact ⟨.nil, rfl, .bare n l v.2 v.1 h1 h2 hv⟩
      obtain ⟨k, hk1, hk2⟩ := hentry
      by_cases hs : v.2.checkLook [tknSeperator, tknUnnecessary] = true
      · simp only [hs, Bool.not_true, Bool.false_eq_true, if_false, bind_eq_ok,
          getCurrent_eq_ok] at h
        obtain ⟨l2, ⟨-, rfl⟩, h⟩ := h
        obtain ⟨es, h1, h2, h3⟩ := tblConstructLoop_read n _ _ _ r h
        refine ⟨(k, v.1) :: es, ?_, ?_, .more l v.2 r.2 k v.1 es hne hk2 hs h3⟩
        · rw [h1, hk1]; simp
        · rw [h2]; simp
      · have hs1 : v.2.checkLook [tknSeperator, tknUnnecessary] = false := by simpa using hs
        simp only [hs1, Bool.not_false, if_true, pure_eq_ok] at h
        subst h
        exact ⟨[(k, v.1)], (by simp [hk1]), (by simp), .last l v.2 k v.1 hne hk2 hs1⟩

/-- The key of an entry is absent exactly when the entry is a bare expression. -/
theorem EntryRead.key_nil_iff {l l1 : lexer} {k v : Node} (h : EntryRead l k v l1) :
    k = .nil ↔ (l.look.Typ ≠ tknOIndex ∧ ¬ (l.look.Typ = tknName ∧ l.exlook.Typ = tknSet)) := by
  cases h with
  | named n _ _ _ h1 h2 hv =>
    constructor
    · intro hk; cases hk
    · intro hh; exact absurd ⟨h1, h2⟩ hh.2
  | bracket n m _ l1 _ _ _ h1 hk h2 h3 hv =>
    constructor
    · intro hn; exact absurd hn (expression_ne_nil n _ _ _ hk)
    · intro hh; exact absurd h1 hh.1
  | bare n _ _ _ h1 h2 hv => exact ⟨fun _ => ⟨h1, h2⟩, fun _ => rfl⟩

/-- C20: a table constructor that is read is a `TableConstructor` node whose keys and
values are the keys and the values of the entries read between `{` and `}`, in source
order: both lists have one element for each entry. The key of an entry is absent exactly
when the entry is a bare expression; it is the `ConstString` of the name for `name = expr`
and the bracketed expression for `[expr] = expr`. The entries are separated by `,` or `;`,
and a separator before `}` is let through. More fuel gives the same table constructor. -/
theorem C20_table_constructor (n : Nat) (l : lexer) (r : Parsed Node)
    (h : tblConstruct (n + 1) l = .ok r) :
    ∃ (es : List (Node × Node)) (l2 : lexer),
      EntriesRead l.advance es l2 ∧ l2.look.Typ = tknCBracket ∧ r.2 = l2.advance ∧
      r.1 = .TableConstructor ⟨TableConstructorNode, l.look.Line⟩
        (es.map Prod.fst) (es.map Prod.snd) ∧
      (es.map Prod.fst).length = es.length ∧ (es.map Prod.snd).length = es.length ∧
      (∀ (l3 l4 : lexer) (k v : Node), EntryRead l3 k v l4 →
        (k = .nil ↔
          (l3.look.Typ ≠ tknOIndex ∧ ¬ (l3.look.Typ = tknName ∧ l3.exlook.Typ = tknSet)))) ∧
      ∀ m : Nat, n + 1 ≤ m → tblConstruct m l = .ok r := by
  have hmono : ∀ m : Nat, n + 1 ≤ m → tblConstruct m l = .ok r :=
    fun m hm => ExLe.of_le (fun k => tblConstruct k l) (fun k => (monoInv k).tblConstruct l)
      hm r h
  simp only [tblConstruct, bind_eq_ok, getCurrent_eq_ok] at h
  obtain ⟨l1, ⟨-, rfl⟩, kv, hkv, l3, ⟨hc, rfl⟩, h3⟩ := h
  rw [pure_eq_ok] at h3
  subst h3
  obtain ⟨es, h1, h2, hes⟩ := tblConstructLoop_read n [] [] _ kv hkv
  simp only [List.nil_append] at h1 h2
  refine ⟨es, kv.2, hes, (by simpa using hc), rfl, ?_, (by simp), (by simp),
    (fun l3 l4 k v he => he.key_nil_iff), hmono⟩
  show exprInfo (.TableConstructor {} kv.1.1 kv.1.2) l.advance.current.Line = _
  rw [h1, h2]
  rfl

/-- C20 at `{1, x = 2; [3] = 4,}`: three entries, the keys are none, the string `x` and
the expression `3`, the values `1`, `2` and `4`; the separators are `,` and `;` and the
last one is followed by `}`. -/
theorem C20_table_constructor_witness :
    tblConstruct 9 tableLexer = .ok tableResult ∧
    ∃ (es : List (Node × Node)) (l2 : lexer),
      EntriesRead tableLexer.advance es l2 ∧ l2.look.Typ = tknCBracket ∧
      tableResult.2 = l2.advance ∧
      tableResult.1 = .TableConstructor ⟨TableConstructorNode, tableLexer.look.Line⟩
        (es.map Prod.fst) (es.map Prod.snd) ∧
      (es.map Prod.fst).length = es.length ∧ (es.map Prod.snd).length = es.length ∧
      (∀ (l3 l4 : lexer) (k v : Node), EntryRead l3 k v l4 →
        (k = .nil ↔
          (l3.look.Typ ≠ tknOIndex ∧ ¬ (l3.look.Typ = tknName ∧ l3.exlook.Typ = tknSet)))) ∧
      ∀ m : Nat, 8 + 1 ≤ m → tblConstruct m tableLexer = .ok tableResult :=
  ⟨rfl, C20_table_constructor 8 tableLexer tableResult rfl⟩

/-! ### The kinds of the nodes that the parser returns -/

theorem kindedList_append (xs ys : List Node) :
    kindedList (xs ++ ys) = (kindedList xs && kindedList ys) := by
  induction xs with
  | nil => simp [kindedList]
  | cons x xs ih => simp [kindedList, ih, Bool.and_assoc]

theorem kindedList_snoc {xs : List Node} {x : Node} (h1 : kindedList xs = true)
    (h2 : x.kinded = true) : kindedList (xs ++ [x]) = true := by
  simp [kindedList_append, kindedList, h1, h2]

theorem kindedList_single {x : Node} (h : x.kinded = true) : kindedList [x] = true := by
  simp [kindedList, h]

theorem setThen_kinded {node : Node} {thn : List Node} (h1 : node.kinded = true)
    (h2 : kindedList thn = true) : (setThen node thn).kinded = true := by
  cases node <;> simp_all [setThen, Node.kinded]

theorem setElse_kinded {node : Node} {els : List Node} (h1 : node.kinded = true)
    (h2 : kindedList els = true) : (setElse node els).kinded = true := by
  cases node <;> simp_all [setElse, Node.kinded]

theorem setElseAt_kinded : ∀ (d : Nat) (node : Node) (els : List Node),
    node.kinded = true → kindedList els = true → (setElseAt d node els).kinded = true
  | 0, node, els, h1, h2 => by simpa [setElseAt] using setElse_kinded h1 h2
  | d + 1, node, els, h1, h2 => by
    cases node
    case If b c t e =>
      match e with
      | [] => simpa [setElseAt] using h1
      | [x] =>
        simp only [Node.kinded, kindedList, Bool.and_eq_true, Bool.and_true] at h1
        have := setElseAt_kinded d x els h1.2 h2
        simp [setElseAt, Node.kinded, kindedList, h1.1, this]
      | x :: y :: ys => simpa [setElseAt] using h1
    all_goals simpa [setElseAt] using h1

theorem ifNode_kinded {cond : Node} {thn : List Node} (line : Int) (h1 : cond.kinded = true)
    (h2 : kindedList thn = true) :
    (setThen (stmtInfo (.If {} cond [] []) line) thn).kinded = true := by
  simp [setThen, stmtInfo, Node.setBase, Node.kinded, kindedList, h1, h2]

theorem localTargets_kinded : ∀ (n : Nat) (targets : List Node) (l : lexer),
    kindedList targets = true → Post (fun r => kindedList r.1 = true) (localTargets n targets l)
  | 0, _, _, _ => Post.failure _ _
  | n + 1, targets, l, h => by
    simp only [localTargets]
    split
    · refine PostL.andThenL (PostL.anyL _) (fun l1 _ => ?_)
      have h1 : kindedList
          (targets ++ [exprInfo (.ConstIdent {} l1.current.Lexeme) l1.current.Line]) = true :=
        kindedList_snoc h rfl
      split
      · exact Post.result _ _ h1
      · exact PostL.andThenL (PostL.anyL _) (fun l2 _ => localTargets_kinded n _ l2 h1)
    · exact Post.result _ _ h

theorem ident_kind_step (n : Nat) (ih : KindInv n) (l : lexer) :
    Post (fun r => r.1.kinded = true) (ident (n + 1) l) := by
  simp only [ident]
  exact PostL.andThenL (PostL.anyL _) (fun l1 _ => ih.identLoop _ l1 rfl)

theorem accessor_kinded {o k : Node} (line : Int) (h1 : o.kinded = true)
    (h2 : k.kinded = true) : (exprInfo (.TableAccessor {} o k) line).kinded = true := by
  simp [exprInfo, Node.setBase, Node.kinded, h1, h2]

theorem identLoop_kind_step (n : Nat) (ih : KindInv n) (id : Node) (l : lexer)
    (hid : id.kinded = true) :
    Post (fun r => r.1.kinded = true) (identLoop (n + 1) id l) := by
  simp only [identLoop]
  split
  · cases hT : l.look.Typ <;> simp only []
    case tknOIndex =>
      refine PostL.andThenL (PostL.anyL _) (fun l1 _ => ?_)
      refine Post.andThen (ih.expression l1) (fun r h2 => ?_)
      exact PostL.andThenL (PostL.anyL _)
        (fun l3 _ => ih.identLoop _ l3 (accessor_kinded _ hid h2))
    case tknDot =>
      refine PostL.andThenL (PostL.anyL _) (fun l1 _ => ?_)
      exact PostL.andThenL (PostL.anyL _)
        (fun l2 _ => ih.identLoop _ l2 (accessor_kinded _ hid rfl))
    all_goals exact Post.failure _ _
  · exact Post.result _ _ hid

theorem funcCallArgs_kind_step (n : Nat) (ih : KindInv n) (args : List Node) (l : lexer)
    (ha : kindedList args = true) :
    Post (fun r => kindedList r.1 = true) (funcCallArgs (n + 1) args l) := by
  simp only [funcCallArgs]
  split
  · refine Post.andThen (ih.expression l) (fun r h1 => ?_)
    split
    · exact Post.result _ _ (kindedList_snoc ha h1)
    · exact PostL.andThenL (PostL.anyL _)
        (fun l2 _ => ih.funcCallArgs _ l2 (kindedList_snoc ha h1))
  · exact Post.result _ _ ha

theorem call_kinded {r f : Node} {args : List Node} (line : Int) (h1 : r.kinded = true)
    (h2 : f.kinded = true) (h3 : kindedList args = true) :
    (exprInfo (.FuncCall {} r f args) line).kinded = true := by
  simp [exprInfo, Node.setBase, Node.kinded, h1, h2, h3]

theorem funcCall_kind_step (n : Nat) (ih : KindInv n) (id : Node) (l : lexer)
    (hid : id.kinded = true) :
    Post (fun r => r.1.kinded = true) (funcCall (n + 1) id l) := by
  simp only [funcCall]
  refine Post.andThen
    (?_ : Post (fun r => r.1.1.kinded = true ∧ r.1.2.kinded = true) _) (fun rf h1 => ?_)
  · split
    · refine PostL.andThenL (PostL.anyL _) (fun l1 _ => ?_)
      exact PostL.andThenL (PostL.anyL _) (fun l2 _ => Post.result _ _ ⟨hid, rfl⟩)
    · exact Post.result _ _ ⟨rfl, hid⟩
  · refine Post.andThen (?_ : Post (fun r => kindedList r.1 = true) _)
      (fun a h2 => Post.result _ _ (call_kinded _ h1.1 h1.2 h2))
    cases hT : rf.2.look.Typ <;> simp only []
    case tknOBracket =>
      exact Post.andThen (ih.tblConstruct _) (fun r h3 => Post.result _ _ (kindedList_single h3))
    case tknString =>
      exact PostL.andThenL (PostL.anyL _) (fun l1 _ => Post.result _ _ rfl)
    case tknOParen =>
      refine PostL.andThenL (PostL.anyL _) (fun l1 _ => ?_)
      refine Post.andThen (ih.funcCallArgs _ l1 rfl) (fun r h4 => ?_)
      exact PostL.andThenL (PostL.anyL _) (fun l2 _ => Post.result _ _ h4)
    all_goals exact PostL.andThenL (PostL.anyL _) (fun l1 _ => Post.result _ _ rfl)

theorem funcDeclBody_kind_step (n : Nat) (ih : KindInv n) (hasSelf : Bool) (l : lexer) :
    Post (fun r => r.1.kinded = true) (funcDeclBody (n + 1) hasSelf l) := by
  simp only [funcDeclBody]
  refine PostL.andThenL (PostL.anyL _) (fun l1 _ => ?_)
  refine Post.andThen (Post.any _) (fun r _ => ?_)
  refine PostL.andThenL (PostL.anyL _) (fun l2 _ => ?_)
  exact Post.andThen (ih.block _ l2) (fun b h4 => Post.result _ _ (by
    simp [exprInfo, Node.setBase, Node.kinded, h4]))

theorem tblConstruct_kind_step (n : Nat) (ih : KindInv n) (l : lexer) :
    Post (fun r => r.1.kinded = true) (tblConstruct (n + 1) l) := by
  simp only [tblConstruct]
  refine PostL.andThenL (PostL.anyL _) (fun l1 _ => ?_)
  refine Post.andThen (ih.tblConstructLoop _ _ l1 rfl rfl) (fun r h2 => ?_)
  exact PostL.andThenL (PostL.anyL _) (fun l2 _ => Post.result _ _ (by
    simp [exprInfo, Node.setBase, Node.kinded, h2.1, h2.2]))

theorem tblConstructLoop_kind_step (n : Nat) (ih : KindInv n) (keys vals : List Node)
    (l : lexer) (hk : kindedList keys = true) (hv : kindedList vals = true) :
    Post (fun r => kindedList r.1.1 = true ∧ kindedList r.1.2 = true)
      (tblConstructLoop (n + 1) keys vals l) := by
  simp only [tblConstructLoop]
  split
  · refine Post.andThen (?_ : Post (fun r => kindedList r.1 = true) _) (fun ks h1 => ?_)
    · cases hT : l.look.Typ <;> simp only []
      case tknName =>
        split
        · exact Post.result _ _ (kindedList_snoc hk rfl)
        · refine PostL.andThenL (PostL.anyL _) (fun l1 _ => ?_)
          exact PostL.andThenL (PostL.anyL _) (fun l2 _ => Post.result _ _ (kindedList_snoc hk rfl))
      case tknOIndex =>
        refine PostL.andThenL (PostL.anyL _) (fun l1 _ => ?_)
        refine Post.andThen (ih.expression l1) (fun r h2 => ?_)
        refine PostL.andThenL (PostL.anyL _) (fun l2 _ => ?_)
        exact PostL.andThenL (PostL.anyL _) (fun l3 _ => Post.result _ _ (kindedList_snoc hk h2))
      all_goals exact Post.result _ _ (kindedList_snoc hk rfl)
    · refine Post.andThen (ih.expression ks.2) (fun r h2 => ?_)
      split
      · exact Post.result _ _ ⟨h1, kindedList_snoc hv h2⟩
      · exact PostL.andThenL (PostL.anyL _)
          (fun l2 _ => ih.tblConstructLoop _ _ l2 h1 (kindedList_snoc hv h2))
  · exact Post.result _ _ ⟨hk, hv⟩

theorem expression_kind_step (n : Nat) (ih : KindInv n) (l : lexer) :
    Post (fun r => r.1.kinded = true) (expression (n + 1) l) := by
  simp only [expression]
  exact ih.subexpr 0 l

theorem operator_kinded {a b : Node} (op : opTyp) (line : Int) (h1 : a.kinded = true)
    (h2 : b.kinded = true) : (exprInfo (.Operator {} op a b) line).kinded = true := by
  simp [exprInfo, Node.setBase, Node.kinded, h1, h2]

theorem subexpr_kind_step (n : Nat) (ih : KindInv n) (limit : Nat) (l : lexer) :
    Post (fun r => r.1.kinded = true) (subexpr (n + 1) limit l) := by
  simp only [subexpr]
  refine Post.andThen (?_ : Post (fun r => r.1.kinded = true) _)
    (fun r h1 => ih.subexprLoop _ _ _ h1)
  cases tknToUnOp (if l.look.Typ = tknComment then l.advance else l).look.Typ with
  | none => exact ih.value _
  | some op =>
    exact Post.andThen (ih.subexpr 12 _) (fun r h1 => Post.result _ _ (operator_kinded _ _ rfl h1))

theorem subexprLoop_kind_step (n : Nat) (ih : KindInv n) (limit : Nat) (e1 : Node) (l : lexer)
    (he : e1.kinded = true) :
    Post (fun r => r.1.kinded = true) (subexprLoop (n + 1) limit e1 l) := by
  simp only [subexprLoop]
  cases tknToBinOp l.look.Typ with
  | none => exact Post.result _ _ he
  | some op =>
    simp only []
    cases priorities[op]? with
    | none => exact Post.failure _ _
    | some pr =>
      simp only []
      split
      · exact Post.andThen (ih.subexpr _ _)
          (fun r h1 => ih.subexprLoop _ _ _ (operator_kinded _ _ he h1))
      · exact Post.result _ _ he

theorem value_kind_step (n : Nat) (ih : KindInv n) (l : lexer) :
    Post (fun r => r.1.kinded = true) (value (n + 1) l) := by
  cases hT : l.look.Typ <;> simp only [value, hT]
  case tknOBracket => exact ih.tblConstruct l
  case tknFunction => exact PostL.andThenL (PostL.anyL _) (fun l1 _ => ih.funcDeclBody _ l1)
  case tknTrue => exact PostL.andThenL (PostL.anyL _) (fun l1 _ => Post.result _ _ rfl)
  case tknFalse => exact PostL.andThenL (PostL.anyL _) (fun l1 _ => Post.result _ _ rfl)
  case tknNil => exact PostL.andThenL (PostL.anyL _) (fun l1 _ => Post.result _ _ rfl)
  case tknVariadic => exact PostL.andThenL (PostL.anyL _) (fun l1 _ => Post.result _ _ rfl)
  case tknInt => exact PostL.andThenL (PostL.anyL _) (fun l1 _ => Post.result _ _ rfl)
  case tknFloat => exact PostL.andThenL (PostL.anyL _) (fun l1 _ => Post.result _ _ rfl)
  case tknString => exact PostL.andThenL (PostL.anyL _) (fun l1 _ => Post.result _ _ rfl)
  case tknComment => exact PostL.andThenL (PostL.anyL _) (fun l1 _ => Post.result _ _ rfl)
  all_goals exact ih.suffixedValue l

theorem suffixedValue_kind_step (n : Nat) (ih : KindInv n) (l : lexer) :
    Post (fun r => r.1.kinded = true) (suffixedValue (n + 1) l) := by
  simp only [suffixedValue]
  exact Post.andThen (ih.primaryValue l) (fun r h1 => ih.suffixedValueLoop _ _ h1)

theorem suffixedValueLoop_kind_step (n : Nat) (ih : KindInv n) (v : Node) (l : lexer)
    (hv : v.kinded = true) :
    Post (fun r => r.1.kinded = true) (suffixedValueLoop (n + 1) v l) := by
  simp only [suffixedValueLoop]
  split
  · cases hT : l.look.Typ <;> simp only []
    case tknOIndex =>
      refine PostL.andThenL (PostL.anyL _) (fun l1 _ => ?_)
      refine Post.andThen (ih.expression l1) (fun r h2 => ?_)
      exact PostL.andThenL (PostL.anyL _)
        (fun l2 _ => ih.suffixedValueLoop _ l2 (accessor_kinded _ hv h2))
    case tknDot =>
      refine PostL.andThenL (PostL.anyL _) (fun l1 _ => ?_)
      refine PostL.andThenL (PostL.anyL _) (fun l2 _ => ?_)
      split
      · exact Post.andThen (ih.funcCall _ l2 (accessor_kinded _ hv rfl))
          (fun r h3 => ih.suffixedValueLoop _ _ h3)
      · exact ih.suffixedValueLoop _ _ (accessor_kinded _ hv rfl)
    all_goals
      exact Post.andThen (ih.funcCall _ l hv) (fun r h3 => ih.suffixedValueLoop _ _ h3)
  · exact Post.result _ _ hv

theorem primaryValue_kind_step (n : Nat) (ih : KindInv n) (l : lexer) :
    Post (fun r => r.1.kinded = true) (primaryValue (n + 1) l) := by
  cases hT : l.look.Typ <;> simp only [primaryValue, hT]
  case tknName => exact PostL.andThenL (PostL.anyL _) (fun l1 _ => Post.result _ _ rfl)
  case tknOParen =>
    refine PostL.andThenL (PostL.anyL _) (fun l1 _ => ?_)
    refine Post.andThen (ih.expression l1) (fun r h2 => ?_)
    exact PostL.andThenL (PostL.anyL _) (fun l2 _ => Post.result _ _ (by
      simp [exprInfo, Node.setBase, Node.kinded, h2]))
  all_goals exact PostL.andThenL (PostL.anyL _) (fun l1 _ => Post.failure _ _)

theorem assign_kinded {ts vs : List Node} (ld lf : Bool) (line : Int)
    (h1 : kindedList ts = true) (h2 : kindedList vs = true) :
    (stmtInfo (.Assign {} ld lf ts vs) line).kinded = true := by
  simp [stmtInfo, Node.setBase, Node.kinded, h1, h2]

theorem funcDeclStat_kind_step (n : Nat) (ih : KindInv n) (isLocal : Bool) (l : lexer) :
    Post (fun r => r.1.kinded = true) (funcDeclStat (n + 1) isLocal l) := by
  simp only [funcDeclStat]
  refine PostL.andThenL (PostL.anyL _) (fun l1 _ => ?_)
  refine Post.andThen (?_ : Post (fun r => r.1.1.kinded = true) _) (fun r h2 => ?_)
  · split
    · exact PostL.andThenL (PostL.anyL _) (fun l2 _ => Post.result _ _ rfl)
    · refine Post.andThen (ih.ident l1) (fun r h2 => ?_)
      split
      · refine PostL.andThenL (PostL.anyL _) (fun l2 _ => ?_)
        exact PostL.andThenL (PostL.anyL _)
          (fun l3 _ => Post.result _ _ (accessor_kinded _ h2 rfl))
      · exact Post.result _ _ h2
  · exact Post.andThen (ih.funcDeclBody _ r.2)
      (fun b h3 => Post.result _ _
        (assign_kinded _ _ _ (kindedList_single h2) (kindedList_single h3)))

theorem block_kind_step (n : Nat) (ih : KindInv n) (enders : List tkn) (l : lexer) :
    Post (fun r => kindedList r.1 = true) (block (n + 1) enders l) := by
  simp only [block]
  refine Post.andThen (ih.blockLoop _ _ l rfl) (fun r h1 => ?_)
  exact PostL.andThenL (PostL.anyL _) (fun l2 _ => Post.result _ _ h1)

theorem blockLoop_kind_step (n : Nat) (ih : KindInv n) (enders : List tkn) (rtn : List Node)
    (l : lexer) (hr : kindedList rtn = true) :
    Post (fun r => kindedList r.1 = true) (blockLoop (n + 1) enders rtn l) := by
  simp only [blockLoop]
  split
  · exact Post.andThen (ih.statement l) (fun r h1 => ih.blockLoop _ _ _ (kindedList_snoc hr h1))
  · exact Post.result _ _ hr

theorem ifLoop_kind_step (n : Nat) (ih : KindInv n) (rnode : Node) (depth : Nat) (l : lexer)
    (hr : rnode.kinded = true) :
    Post (fun r => r.1.kinded = true) (ifLoop (n + 1) rnode depth l) := by
  cases hT : l.current.Typ <;> simp only [ifLoop, hT]
  case tknElse =>
    exact Post.andThen (ih.block _ l)
      (fun r h1 => Post.result _ _ (setElseAt_kinded _ _ _ hr h1))
  case tknElseif =>
    refine Post.andThen (ih.expression l) (fun r h1 => ?_)
    refine PostL.andThenL (PostL.anyL _) (fun l1 _ => ?_)
    refine Post.andThen (ih.block _ l1) (fun b h3 => ?_)
    exact ih.ifLoop _ _ _
      (setElseAt_kinded _ _ _ hr (kindedList_single (ifNode_kinded _ h1 h3)))
  case tknEnd => exact Post.result _ _ hr
  all_goals exact Post.failure _ _

theorem forInit_kind_step (n : Nat) (ih : KindInv n) (init : List Node) (l : lexer)
    (hi : kindedList init = true) :
    Post (fun r => kindedList r.1 = true) (forInit (n + 1) init l) := by
  simp only [forInit]
  refine Post.andThen (ih.expression l) (fun r h1 => ?_)
  split
  · exact Post.result _ _ (kindedList_snoc hi h1)
  · exact PostL.andThenL (PostL.anyL _) (fun l2 _ => ih.forInit _ l2 (kindedList_snoc hi h1))

theorem valuesLoop_kind_step (n : Nat) (ih : KindInv n) (vals : List Node) (l : lexer)
    (hv : kindedList vals = true) :
    Post (fun r => kindedList r.1 = true) (valuesLoop (n + 1) vals l) := by
  simp only [valuesLoop]
  split
  · refine PostL.andThenL (PostL.anyL _) (fun l1 _ => ?_)
    exact Post.andThen (ih.expression l1)
      (fun r h2 => ih.valuesLoop _ _ (kindedList_snoc hv h2))
  · exact Post.result _ _ hv

theorem returnItems_kind_step (n : Nat) (ih : KindInv n) (items : List Node) (l : lexer)
    (hi : kindedList items = true) :
    Post (fun r => kindedList r.1 = true) (returnItems (n + 1) items l) := by
  simp only [returnItems]
  split
  · refine Post.andThen (ih.expression l) (fun r h1 => ?_)
    split
    · exact Post.result _ _ (kindedList_snoc hi h1)
    · exact PostL.andThenL (PostL.anyL _)
        (fun l2 _ => ih.returnItems _ l2 (kindedList_snoc hi h1))
  · exact Post.result _ _ hi

theorem targetsLoop_kind_step (n : Nat) (ih : KindInv n) (targets : List Node) (l : lexer)
    (ht : kindedList targets = true) :
    Post (fun r => kindedList r.1 = true) (targetsLoop (n + 1) targets l) := by
  simp only [targetsLoop]
  split
  · refine PostL.andThenL (PostL.anyL _) (fun l1 _ => ?_)
    exact Post.andThen (ih.suffixedValue l1)
      (fun r h2 => ih.targetsLoop _ _ (kindedList_snoc ht h2))
  · exact Post.result _ _ ht

theorem statement_default_kind (n : Nat) (ih : KindInv n) (l : lexer) :
    Post (fun r => r.1.kinded = true) (do
      let r ← suffixedValue n l
      match r.1 with
        | .FuncCall .. => pure (r.1, r.2)
        | _ => do
          let t ← targetsLoop n [r.1] r.2
          let l1 ← t.2.getCurrent [tknSet]
          let e ← expression n l1
          let v ← valuesLoop n [e.1] e.2
          pure (stmtInfo (.Assign {} false false t.1 v.1) r.2.current.Line, v.2)) := by
  refine Post.andThen (ih.suffixedValue l) (fun id h1 => ?_)
  have htail : Post (fun r => r.1.kinded = true) (do
          let t ← targetsLoop n [id.1] id.2
          let l1 ← t.2.getCurrent [tknSet]
          let e ← expression n l1
          let v ← valuesLoop n [e.1] e.2
          pure (stmtInfo (.Assign {} false false t.1 v.1) id.2.current.Line, v.2)) := by
    refine Post.andThen (ih.targetsLoop _ id.2 (kindedList_single h1)) (fun ts h2 => ?_)
    refine PostL.andThenL (PostL.anyL _) (fun l1 _ => ?_)
    refine Post.andThen (ih.expression l1) (fun e h4 => ?_)
    exact Post.andThen (ih.valuesLoop _ e.2 (kindedList_single h4))
      (fun vs h5 => Post.result _ _ (assign_kinded _ _ _ h2 h5))
  rcases id with ⟨id, l1⟩
  cases id <;> first | exact Post.result _ _ h1 | exact htail

theorem statement_kind_step (n : Nat) (ih : KindInv n) (l : lexer) :
    Post (fun r => r.1.kinded = true) (statement (n + 1) l) := by
  cases hT : l.look.Typ <;> simp only [statement, hT]
  case tknUnnecessary => exact PostL.andThenL (PostL.anyL _) (fun l1 _ => Post.result _ _ rfl)
  case tknIf =>
    refine PostL.andThenL (PostL.anyL _) (fun l1 _ => ?_)
    refine Post.andThen (ih.expression l1) (fun r h2 => ?_)
    refine PostL.andThenL (PostL.anyL _) (fun l2 _ => ?_)
    refine Post.andThen (ih.block _ l2) (fun b h4 => ?_)
    exact ih.ifLoop _ _ _ (ifNode_kinded _ h2 h4)
  case tknComment => exact PostL.andThenL (PostL.anyL _) (fun l1 _ => Post.result _ _ rfl)
  case tknWhile =>
    refine PostL.andThenL (PostL.anyL _) (fun l1 _ => ?_)
    refine Post.andThen (ih.expression l1) (fun r h2 => ?_)
    refine PostL.andThenL (PostL.anyL _) (fun l2 _ => ?_)
    exact Post.andThen (ih.block _ l2) (fun b h4 => Post.result _ _ (by
      simp [stmtInfo, Node.setBase, Node.kinded, h2, h4]))
  case tknDo =>
    refine PostL.andThenL (PostL.anyL _) (fun l1 _ => ?_)
    exact Post.andThen (ih.block _ l1) (fun b h4 => Post.result _ _ (by
      simp [stmtInfo, Node.setBase, Node.kinded, h4]))
  case tknFor =>
    refine PostL.andThenL (PostL.anyL _) (fun l1 _ => ?_)
    refine PostL.andThenL (PostL.anyL _) (fun l2 _ => ?_)
    split
    · refine PostL.andThenL (PostL.anyL _) (fun l3 _ => ?_)
      refine Post.andThen (ih.expression l3) (fun i h4 => ?_)
      refine PostL.andThenL (PostL.anyL _) (fun l4 _ => ?_)
      refine Post.andThen (ih.expression l4) (fun lim h6 => ?_)
      refine Post.andThen (?_ : Post (fun r => r.1.kinded = true) _) (fun s h7 => ?_)
      · split
        · exact PostL.andThenL (PostL.anyL _) (fun l5 _ => ih.expression l5)
        · exact Post.result _ _ rfl
      · refine PostL.andThenL (PostL.anyL _) (fun l6 _ => ?_)
        exact Post.andThen (ih.block _ l6) (fun b h9 => Post.result _ _ (by
          simp [stmtInfo, Node.setBase, Node.kinded, h4, h6, h7, h9]))
    · refine Post.andThen (Post.any _) (fun ls _ => ?_)
      refine PostL.andThenL (PostL.anyL _) (fun l3 _ => ?_)
      refine Post.andThen (ih.forInit _ l3 rfl) (fun i h5 => ?_)
      refine PostL.andThenL (PostL.anyL _) (fun l4 _ => ?_)
      exact Post.andThen (ih.block _ l4) (fun b h7 => Post.result _ _ (by
        simp [stmtInfo, Node.setBase, Node.kinded, h5, h7]))
  case tknRepeat =>
    refine PostL.andThenL (PostL.anyL _) (fun l1 _ => ?_)
    refine Post.andThen (ih.block _ l1) (fun b h2 => ?_)
    exact Post.andThen (ih.expression b.2) (fun r h3 => Post.result _ _ (by
      simp [stmtInfo, Node.setBase, Node.kinded, h2, h3]))
  case tknFunction => exact ih.funcDeclStat _ l
  case tknLocal =>
    refine PostL.andThenL (PostL.anyL _) (fun l1 _ => ?_)
    split
    · exact ih.funcDeclStat _ l1
    · refine Post.andThen (localTargets_kinded n _ l1 rfl) (fun ts h2 => ?_)
      refine Post.andThen (?_ : Post (fun r => kindedList r.1 = true) _)
        (fun vs h3 => Post.result _ _ (assign_kinded _ _ _ h2 h3))
      split
      · refine PostL.andThenL (PostL.anyL _) (fun l2 _ => ?_)
        exact Post.andThen (ih.expression l2)
          (fun e h4 => ih.valuesLoop _ e.2 (kindedList_single h4))
      · exact Post.result _ _ rfl
  case tknDblColon =>
    refine PostL.andThenL (PostL.anyL _) (fun l1 _ => ?_)
    refine PostL.andThenL (PostL.anyL _) (fun l2 _ => ?_)
    exact PostL.andThenL (PostL.anyL _) (fun l3 _ => Post.result _ _ rfl)
  case tknReturn =>
    refine PostL.andThenL (PostL.anyL _) (fun l1 _ => ?_)
    exact Post.andThen (ih.returnItems _ l1 rfl) (fun r h2 => Post.result _ _ (by
      simp [stmtInfo, Node.setBase, Node.kinded, h2]))
  case tknBreak => exact PostL.andThenL (PostL.anyL _) (fun l1 _ => Post.result _ _ rfl)
  case tknContinue => exact PostL.andThenL (PostL.anyL _) (fun l1 _ => Post.result _ _ rfl)
  case tknGoto =>
    refine PostL.andThenL (PostL.anyL _) (fun l1 _ => ?_)
    exact PostL.andThenL (PostL.anyL _) (fun l2 _ => Post.result _ _ rfl)
  case tknOParen =>
    refine PostL.andThenL (PostL.anyL _) (fun l1 _ => ?_)
    refine Post.andThen (ih.expression l1) (fun r h2 => ?_)
    exact PostL.andThenL (PostL.anyL _) (fun l2 _ => ih.funcCall _ l2 h2)
  all_goals exact statement_default_kind n ih l

/-- Every node that a parsing function returns is kinded, as `KindInv` says. -/
theorem kindInv : ∀ n : Nat, KindInv n
  | 0 =>
    { ident := fun _ => Post.failure _ _, identLoop := fun _ _ _ => Post.failure _ _,
      funcCall := fun _ _ _ => Post.failure _ _, funcCallArgs := fun _ _ _ => Post.failure _ _,
      funcDeclBody := fun _ _ => Post.failure _ _, tblConstruct := fun _ => Post.failure _ _,
      tblConstructLoop := fun _ _ _ _ _ => Post.failure _ _,
      expression := fun _ => Post.failure _ _,
      subexpr := fun _ _ => Post.failure _ _, subexprLoop := fun _ _ _ _ => Post.failure _ _,
      value := fun _ => Post.failure _ _, suffixedValue := fun _ => Post.failure _ _,
      suffixedValueLoop := fun _ _ _ => Post.failure _ _,
      primaryValue := fun _ => Post.failure _ _,
      funcDeclStat := fun _ _ => Post.failure _ _, block := fun _ _ => Post.failure _ _,
      blockLoop := fun _ _ _ _ => Post.failure _ _, ifLoop := fun _ _ _ _ => Post.failure _ _,
      forInit := fun _ _ _ => Post.failure _ _, valuesLoop := fun _ _ _ => Post.failure _ _,
      returnItems := fun _ _ _ => Post.failure _ _, targetsLoop := fun _ _ _ => Post.failure _ _,
      statement := fun _ => Post.failure _ _ }
  | n + 1 =>
    have ih := kindInv n
    { ident := ident_kind_step n ih
      identLoop := identLoop_kind_step n ih
      funcCall := funcCall_kind_step n ih
      funcCallArgs := funcCallArgs_kind_step n ih
      funcDeclBody := funcDeclBody_kind_step n ih
      tblConstruct := tblConstruct_kind_step n ih
      tblConstructLoop := tblConstructLoop_kind_step n ih
      expression := expression_kind_step n ih
      subexpr := subexpr_kind_step n ih
      subexprLoop := subexprLoop_kind_step n ih
      value := value_kind_step n ih
      suffixedValue := suffixedValue_kind_step n ih
      suffixedValueLoop := suffixedValueLoop_kind_step n ih
      primaryValue := primaryValue_kind_step n ih
      funcDeclStat := funcDeclStat_kind_step n ih
      block := block_kind_step n ih
      blockLoop := blockLoop_kind_step n ih
      ifLoop := ifLoop_kind_step n ih
      forInit := forInit_kind_step n ih
      valuesLoop := valuesLoop_kind_step n ih
      returnItems := returnItems_kind_step n ih
      targetsLoop := targetsLoop_kind_step n ih
      statement := statement_kind_step n ih }

/-- The statements that `Parse` returns, with or without an error, are kinded. -/
theorem ParseLoop_kinded : ∀ (n : Nat) (blk : List Node) (l : lexer),
    kindedList blk = true → kindedList (ParseLoop n blk l).1 = true
  | 0, _, _, h => h
  | n + 1, blk, l, h => by
    simp only [ParseLoop]
    split
    · cases hst : statement n l with
      | error e => exact h
      | ok r =>
        exact ParseLoop_kinded n _ r.2 (kindedList_snoc h ((kindInv n).statement l r hst))
    · exact h

theorem kindedList_mem {xs : List Node} (h : kindedList xs = true) {c : Node} (hc : c ∈ xs) :
    c.kinded = true := by
  induction xs with
  | nil => cases hc
  | cons x xs ih =>
    simp only [kindedList, Bool.and_eq_true] at h
    rcases List.mem_cons.1 hc with rfl | hc
    · exact h.1
    · exact ih h.2 hc

/-- What `kinded` says of a node and of its children. -/
theorem Node.kinded_iff (n : Node) (h : n.kinded = true) (hn : n.isNil = false) :
    ((∃ b t, n = .Comment b t ∧ n.GetKind = some ErrNode) ∨
      (n.GetKind = n.variantKind ∧ n.GetKind ≠ some ErrNode)) ∧
    ∀ c ∈ n.children, c.kinded = true := by
  cases n
  case nil => cases hn
  case Comment b t =>
    simp only [Node.kinded, decide_eq_true_eq] at h
    exact ⟨Or.inl ⟨b, t, rfl, by simp [Node.GetKind, Node.base, h]⟩, by simp [Node.children]⟩
  case FuncCall b r f args =>
    simp only [Node.kinded, Bool.and_eq_true, decide_eq_true_eq] at h
    refine ⟨Or.inr (by simp [Node.GetKind, Node.base, Node.variantKind, h.1.1.1]), ?_⟩
    intro c hc
    cases r <;> simp only [Node.children, List.mem_cons] at hc <;>
      first
        | (rcases hc with rfl | hc
           · exact h.1.2
           · exact kindedList_mem h.2 hc)
        | (rcases hc with rfl | rfl | hc
           · exact h.1.1.2
           · exact h.1.2
           · exact kindedList_mem h.2 hc)
  all_goals
    simp only [Node.kinded, Bool.and_eq_true, decide_eq_true_eq] at h
    refine ⟨Or.inr (by simp [Node.GetKind, Node.base, Node.variantKind, h]), ?_⟩
    intro c hc
    simp only [Node.children, List.mem_cons, List.mem_append, List.mem_singleton,
      List.not_mem_nil, or_false] at hc
  case Assign b ld lf ts vs =>
    rcases hc with hc | hc
    · exact kindedList_mem h.1.2 hc
    · exact kindedList_mem h.2 hc
  case DoBlock b blk => exact kindedList_mem h.2 hc
  case If b x t e =>
    rcases hc with rfl | hc | hc
    · exact h.1.1.2
    · exact kindedList_mem h.1.2 hc
    · exact kindedList_mem h.2 hc
  case WhileLoop b x blk =>
    rcases hc with rfl | hc
    · exact h.1.2
    · exact kindedList_mem h.2 hc
  case RepeatUntilLoop b x blk =>
    rcases hc with hc | rfl
    · exact kindedList_mem h.2 hc
    · exact h.1.2
  case ForLoopNumeric b x i lim st blk =>
    rcases hc with rfl | rfl | rfl | hc
    · exact h.1.1.1.2
    · exact h.1.1.2
    · exact h.1.2
    · exact kindedList_mem h.2 hc
  case ForLoopGeneric b x i blk =>
    rcases hc with hc | hc
    · exact kindedList_mem h.1.2 hc
    · exact kindedList_mem h.2 hc
  case Return b items => exact kindedList_mem h.2 hc
  case Operator b op l r =>
    rcases hc with rfl | rfl
    · exact h.1.2
    · exact h.2
  case FuncDecl b x y z blk => exact kindedList_mem h.2 hc
  case TableConstructor b ks vs =>
    rcases hc with hc | hc
    · exact kindedList_mem h.1.2 hc
    · exact kindedList_mem h.2 hc
  case TableAccessor b o k =>
    rcases hc with rfl | rfl
    · exact h.1.2
    · exact h.2
  case Parens b i => subst hc; exact h.2

/-! ### C15: the kind of the nodes -/

/-- A statement of one of the ten variants of the type switch of `stmtInfo` leaves it with
the kind constant of its variant. -/
theorem stmtInfo_GetKind (n : Node) (line : Int) (h : n.isStmtVariant = true) :
    (stmtInfo n line).GetKind = n.variantKind ∧ (stmtInfo n line).GetKind ≠ some ErrNode := by
  cases n <;> simp [Node.isStmtVariant] at h <;>
    simp [stmtInfo, Node.setBase, Node.GetKind, Node.base, Node.variantKind]

/-- An expression of one of the thirteen variants of the type switch of `exprInfo` leaves
it with the kind constant of its variant. -/
theorem exprInfo_GetKind (n : Node) (line : Int) (h : n.isExprVariant = true) :
    (exprInfo n line).GetKind = n.variantKind ∧ (exprInfo n line).GetKind ≠ some ErrNode := by
  cases n <;> simp [Node.isExprVariant] at h <;>
    simp [exprInfo, Node.setBase, Node.GetKind, Node.base, Node.variantKind]

/-- In a block returned by `Parse` every node, at any depth, has the kind constant of its
variant, but for the `Comment` nodes, whose kind is `ErrNode`: `stmtInfo` gives each of the
ten statement variants of its type switch, and `exprInfo` each of the thirteen expression
variants of its own, the kind constant of the variant, and neither has a case for a
`Comment`. -/
theorem parsed_nodes_kinded :
    (∀ (n : Node) (line : Int), n.isStmtVariant = true →
      (stmtInfo n line).GetKind = n.variantKind ∧ (stmtInfo n line).GetKind ≠ some ErrNode) ∧
    (∀ (n : Node) (line : Int), n.isExprVariant = true →
      (exprInfo n line).GetKind = n.variantKind ∧ (exprInfo n line).GetKind ≠ some ErrNode) ∧
    (∀ (fuel : Nat) (toks : List token) (line : Int),
      kindedList (Parse fuel toks line).1 = true) ∧
    (∀ n : Node, n.kinded = true → n.isNil = false →
      ((∃ b t, n = .Comment b t ∧ n.GetKind = some ErrNode) ∨
        (n.GetKind = n.variantKind ∧ n.GetKind ≠ some ErrNode)) ∧
      ∀ c ∈ n.children, c.kinded = true) :=
  ⟨stmtInfo_GetKind, exprInfo_GetKind,
    fun fuel toks line => ParseLoop_kinded fuel [] (newLexer toks line) rfl,
    Node.kinded_iff⟩

/-- C15, at a comment: neither type switch has a case for a `Comment`, so `stmtInfo` and
`exprInfo` leave it with the zero kind `ErrNode`; the source `-- c` parses, as a statement
and as an expression, to a `Comment` whose `GetKind` is `ErrNode`. So it is not the case
that no node of a block returned by a successful `Parse` has the kind `ErrNode`. -/
theorem C15_comment_kind_is_ErrNode :
    (∀ (b : nodeBase) (t : String) (line : Int),
      (stmtInfo (.Comment b t) line).GetKind = some ErrNode ∧
      (exprInfo (.Comment b t) line).GetKind = some ErrNode) ∧
    Parse 5 [⟨"c", tknComment, 1⟩] 1 = ([.Comment ⟨ErrNode, 1⟩ "c"], none) ∧
    value 5 ⟨eofToken, [⟨"c", tknComment, 1⟩]⟩ =
      .ok (.Comment ⟨ErrNode, 1⟩ "c", ⟨⟨"c", tknComment, 1⟩, []⟩) ∧
    (Node.Comment ⟨ErrNode, 1⟩ "c").GetKind = some ErrNode ∧
    ¬ (∀ (fuel : Nat) (toks : List token) (line : Int) (blk : List Node),
        Parse fuel toks line = (blk, none) → ∀ s ∈ blk, s.GetKind ≠ some ErrNode) :=
  ⟨fun _ _ _ => ⟨rfl, rfl⟩, rfl, rfl, rfl,
    fun h => h 5 [⟨"c", tknComment, 1⟩] 1 [.Comment ⟨ErrNode, 1⟩ "c"] rfl
      (.Comment ⟨ErrNode, 1⟩ "c") (List.mem_singleton.2 rfl) rfl⟩

/-! ### C21: comments in an operator expression -/

theorem tblConstruct_current (n : Nat) (c1 c2 : token) (toks : List token) :
    tblConstruct n ⟨c1, toks⟩ = tblConstruct n ⟨c2, toks⟩ := by
  cases n with
  | zero => rfl
  | succ n =>
    have hg : (lexer.mk c1 toks).getCurrent [tknOBracket] =
        (lexer.mk c2 toks).getCurrent [tknOBracket] := rfl
    simp only [tblConstruct, hg]

theorem primaryValue_current (n : Nat) (c1 c2 : token) (toks : List token) :
    primaryValue n ⟨c1, toks⟩ = primaryValue n ⟨c2, toks⟩ := by
  cases n with
  | zero => rfl
  | succ n => simp only [primaryValue, lexer.look, lexer.getCurrent, lexer.advance]

theorem suffixedValue_current (n : Nat) (c1 c2 : token) (toks : List token) :
    suffixedValue n ⟨c1, toks⟩ = suffixedValue n ⟨c2, toks⟩ := by
  cases n with
  | zero => rfl
  | succ n => simp only [suffixedValue, primaryValue_current n c1 c2 toks]

/-- What `value` reads does not depend on the current token. -/
theorem value_current (n : Nat) (c1 c2 : token) (toks : List token) :
    value n ⟨c1, toks⟩ = value n ⟨c2, toks⟩ := by
  cases n with
  | zero => rfl
  | succ n =>
    have hl : (lexer.mk c1 toks).look = (lexer.mk c2 toks).look := rfl
    have hg : ∀ ts : List tkn, (lexer.mk c1 toks).getCurrent ts =
        (lexer.mk c2 toks).getCurrent ts := fun _ => rfl
    simp only [value, hl, hg, tblConstruct_current n c1 c2 toks,
      suffixedValue_current n c1 c2 toks]

/-- What `subexpr` reads does not depend on the current token. -/
theorem subexpr_current (n limit : Nat) (c1 c2 : token) (toks : List token) :
    subexpr n limit ⟨c1, toks⟩ = subexpr n limit ⟨c2, toks⟩ := by
  cases n with
  | zero => rfl
  | succ n =>
    have hl : (lexer.mk c1 toks).look = (lexer.mk c2 toks).look := rfl
    have ha : (lexer.mk c1 toks).advance = (lexer.mk c2 toks).advance := rfl
    by_cases hc : (lexer.mk c2 toks).look.Typ = tknComment
    · simp only [subexpr, hl, hc, if_true, ha]
    · simp only [subexpr, hl, hc, if_false, ha, value_current n c1 c2 toks]

/-- One comment in front of an operand is skipped: `subexpr` reads what it reads without
the comment, when the token after the comment is not a comment as well. -/
theorem subexpr_leading_comment (n limit : Nat) (c cm : token) (toks : List token)
    (hcm : cm.Typ = tknComment) (hnext : (toks.headD eofToken).Typ ≠ tknComment) :
    subexpr n limit ⟨c, cm :: toks⟩ = subexpr n limit ⟨c, toks⟩ := by
  cases n with
  | zero => rfl
  | succ n =>
    rw [← subexpr_current (n + 1) limit cm c toks]
    have h1 : (lexer.mk c (cm :: toks)).look.Typ = tknComment := hcm
    have h2 : (lexer.mk cm toks).look.Typ ≠ tknComment := hnext
    have ha : (lexer.mk c (cm :: toks)).advance = ⟨cm, toks⟩ := rfl
    simp only [subexpr, h1, h2, if_true, if_false, ha]

/-- The second of two comments in front of an operand is not skipped: it is read as the
operand. -/
theorem subexpr_second_comment (n limit : Nat) (c cm1 cm2 : token) (toks : List token)
    (h1 : cm1.Typ = tknComment) (h2 : cm2.Typ = tknComment) :
    subexpr (n + 2) limit ⟨c, cm1 :: cm2 :: toks⟩ =
      subexprLoop (n + 1) limit (.Comment ⟨ErrNode, cm2.Line⟩ cm2.Lexeme)
        (if (toks.headD eofToken).Typ = tknComment then ⟨toks.headD eofToken, toks.tail⟩
          else ⟨cm2, toks⟩) := by
  have hl1 : (lexer.mk c (cm1 :: cm2 :: toks)).look.Typ = tknComment := h1
  have ha : (lexer.mk c (cm1 :: cm2 :: toks)).advance = ⟨cm1, cm2 :: toks⟩ := rfl
  have hl2 : (lexer.mk cm1 (cm2 :: toks)).look.Typ = tknComment := h2
  have hg : (lexer.mk cm1 (cm2 :: toks)).getCurrent [tknComment] = .ok ⟨cm2, toks⟩ :=
    getCurrent_cons _ _ _ _ (by rw [h2]; rfl)
  simp only [subexpr, hl1, if_true, ha, hl2, tknToUnOp, value, hg, ok_bind]
  rfl

/-- The operator loop of `subexpr` reads the same expression and leaves the same tokens
whatever the current token is. -/
theorem subexprLoop_current (n limit : Nat) (e : Node) (c1 c2 : token) (toks : List token) :
    (subexprLoop n limit e ⟨c1, toks⟩).map (fun r => (r.1, r.2.toks)) =
      (subexprLoop n limit e ⟨c2, toks⟩).map (fun r => (r.1, r.2.toks)) := by
  cases n with
  | zero => rfl
  | succ n =>
    have hl : (lexer.mk c1 toks).look = (lexer.mk c2 toks).look := rfl
    have ha : (lexer.mk c1 toks).advance = (lexer.mk c2 toks).advance := rfl
    simp only [subexprLoop, hl, ha]
    cases tknToBinOp (lexer.mk c2 toks).look.Typ with
    | none => rfl
    | some op =>
      simp only
      cases priorities[op]? with
      | none => rfl
      | some pr =>
        simp only
        split
        · rfl
        · rfl

/-- One comment between an operand and the binary operator that follows is skipped: the
same expression is read and the same tokens are left. -/
theorem subexpr_trailing_comment (k m limit : Nat) (cur : token) (ta : List token) (ea : Node)
    (la cm o : token) (rest : List token) (op : opTyp) (ha : IsOperand k ta ea la)
    (hm : k + 1 ≤ m) (hcm : cm.Typ = tknComment) (ho : tknToBinOp o.Typ = some op) :
    (subexpr m limit ⟨cur, ta ++ cm :: o :: rest⟩).map (fun r => (r.1, r.2.toks)) =
      (subexpr m limit ⟨cur, ta ++ o :: rest⟩).map (fun r => (r.1, r.2.toks)) := by
  rw [subexpr_operand_binop k m limit cur ta ea la o rest op ha hm ho]
  obtain ⟨n, rfl⟩ : ∃ n, m = n + 1 := ⟨m - 1, by omega⟩
  obtain ⟨hne, hnc, hnu, hv⟩ := ha
  have hlook : (lexer.mk cur (ta ++ cm :: o :: rest)).look = ta.headD eofToken :=
    headD_append_of_ne_nil ta _ hne
  have hval : value n ⟨cur, ta ++ cm :: o :: rest⟩ = .ok (ea, ⟨la, cm :: o :: rest⟩) :=
    value_mono (by omega) _ _ (hv cur (cm :: o :: rest) (by simp [hcm, isSuffix]))
  have h3 : (lexer.mk la (cm :: o :: rest)).look.Typ = tknComment := hcm
  have ha : (lexer.mk la (cm :: o :: rest)).advance = ⟨cm, o :: rest⟩ := rfl
  rw [subexpr_value n limit _ (by rw [hlook]; exact hnc) (by rw [hlook]; exact hnu), hval]
  simp only [Except.bind, h3, if_true, ha, Nat.add_sub_cancel]
  exact subexprLoop_current n limit ea cm la (o :: rest)

/-- C21, at `x = 1 + -- a` / `-- b` / `2`: with the one comment `-- a` the statement is read
as without it, but with two comments the second is read as the right operand, the
expression ends there and `Parse` fails at the `2`; in front of an operand the second
comment is the expression, and between an operand and `+` it ends the expression. -/
theorem C21_second_comment_is_operand :
    Parse 80 oneCommentTokens 1 = Parse 80 noCommentTokens 1 ∧
    Parse 80 noCommentTokens 1 =
      ([.Assign ⟨AssignNode, 1⟩ false false [.ConstIdent ⟨ConstIdentNode, 1⟩ "x"]
          [.Operator ⟨OpNode, 1⟩ OpAdd (.ConstInt ⟨ConstIntNode, 1⟩ "1")
            (.ConstInt ⟨ConstIntNode, 3⟩ "2")]], none) ∧
    Parse 92 twoCommentTokens 1 =
      ([.Assign ⟨AssignNode, 1⟩ false false [.ConstIdent ⟨ConstIdentNode, 1⟩ "x"]
          [.Operator ⟨OpNode, 1⟩ OpAdd (.ConstInt ⟨ConstIntNode, 1⟩ "1")
            (.Comment ⟨ErrNode, 2⟩ "-- b")]],
        some (.tokenExpected ⟨"2", tknInt, 3⟩ [tknName, tknOParen])) ∧
    expression 41 ⟨eofToken, [⟨"-- a", tknComment, 1⟩, ⟨"-- b", tknComment, 2⟩,
        ⟨"2", tknInt, 3⟩]⟩ =
      .ok (.Comment ⟨ErrNode, 2⟩ "-- b", ⟨⟨"-- b", tknComment, 2⟩, [⟨"2", tknInt, 3⟩]⟩) ∧
    expression 41 ⟨eofToken, [⟨"-- a", tknComment, 1⟩, ⟨"2", tknInt, 3⟩]⟩ =
      .ok (.ConstInt ⟨ConstIntNode, 3⟩ "2", ⟨⟨"2", tknInt, 3⟩, []⟩) ∧
    expression 65 ⟨eofToken, [⟨"1", tknInt, 1⟩, ⟨"-- a", tknComment, 1⟩,
        ⟨"-- b", tknComment, 2⟩, ⟨"+", tknAdd, 3⟩, ⟨"2", tknInt, 3⟩]⟩ =
      .ok (.ConstInt ⟨ConstIntNode, 1⟩ "1",
        ⟨⟨"-- a", tknComment, 1⟩,
          [⟨"-- b", tknComment, 2⟩, ⟨"+", tknAdd, 3⟩, ⟨"2", tknInt, 3⟩]⟩) :=
  ⟨rfl, rfl, rfl, rfl, rfl, rfl⟩

/-! ### C22: the parameter list of a function -/

theorem lexer.toks_of_look (l : lexer) (h : l.look.Typ ≠ tknINVALID) :
    l.toks = l.look :: l.advance.toks := by
  cases l with
  | mk c toks =>
    cases toks with
    | nil => exact absurd rfl h
    | cons t rest => rfl

/-- The flag of a written parameter list says whether its last token is `...`. -/
theorem paramList_variadic : ∀ (ptoks : List token) (names : List String) (v : Bool),
    paramList ptoks = some (names, v) →
    (v = true ↔ (ptoks.getLast?.map fun t => t.Typ) = some tknVariadic)
  | [], names, v, h => by
    simp only [paramList, Option.some.injEq, Prod.mk.injEq] at h
    simp [← h.2]
  | [t], names, v, h => by
    simp only [paramList] at h
    by_cases h1 : t.Typ = tknName
    · simp only [h1, if_true, Option.some.injEq, Prod.mk.injEq] at h
      simp [← h.2, h1]
    · by_cases h2 : t.Typ = tknVariadic
      · rw [if_neg h1, if_pos h2] at h
        simp only [Option.some.injEq, Prod.mk.injEq] at h
        simp [← h.2, h2]
      · simp [h1, h2] at h
  | t :: s :: rest, names, v, h => by
    simp only [paramList] at h
    by_cases h1 : t.Typ = tknName ∧ s.Typ = tknSeperator ∧ rest ≠ []
    · simp only [h1, ne_eq, not_false_eq_true, and_self, if_true, Option.map_eq_some',
        Prod.mk.injEq] at h
      obtain ⟨⟨ns, v1⟩, hrec, -, rfl⟩ := h
      have ih := paramList_variadic rest ns v1 hrec
      obtain ⟨u, us, hu⟩ := List.exists_cons_of_ne_nil h1.2.2
      rw [ih, hu]
      simp [List.getLast?_cons_cons]
    · simp [h1] at h

/-- The names of a written parameter list are the lexemes of its name tokens, in source
order. -/
theorem paramList_names : ∀ (ptoks : List token) (names : List String) (v : Bool),
    paramList ptoks = some (names, v) →
    names = (ptoks.filter fun t => t.Typ = tknName).map fun t => t.Lexeme
  | [], names, v, h => by
    simp only [paramList, Option.some.injEq, Prod.mk.injEq] at h
    simp [← h.1]
  | [t], names, v, h => by
    simp only [paramList] at h
    by_cases h1 : t.Typ = tknName
    · simp only [h1, if_true, Option.some.injEq, Prod.mk.injEq] at h
      simp [← h.1, h1]
    · by_cases h2 : t.Typ = tknVariadic
      · rw [if_neg h1, if_pos h2] at h
        simp only [Option.some.injEq, Prod.mk.injEq] at h
        simp [← h.1, h2]
      · simp [h1, h2] at h
  | t :: s :: rest, names, v, h => by
    simp only [paramList] at h
    by_cases h1 : t.Typ = tknName ∧ s.Typ = tknSeperator ∧ rest ≠ []
    · simp only [h1, ne_eq, not_false_eq_true, and_self, if_true, Option.map_eq_some',
        Prod.mk.injEq] at h
      obtain ⟨⟨ns, v1⟩, hrec, rfl, -⟩ := h
      have ih := paramList_names rest ns v1 hrec
      simp [h1.1, h1.2.1, ← ih]
    · simp [h1] at h

/-- Whatever the parameter loop reads is a written parameter list. -/
theorem funcDeclParams_inv : ∀ (n : Nat) (acc : List String) (l : lexer)
    (r : Parsed (List String × Bool)), funcDeclParams n acc l = .ok r →
    ∃ (ptoks : List token) (names : List String),
      paramList ptoks = some (names, r.1.2) ∧ l.toks = ptoks ++ r.2.toks ∧
      r.1.1 = acc ++ names ∧ (l.checkLook [tknName, tknVariadic] = true → ptoks ≠ [])
  | 0, _, _, _, h => by simp [funcDeclParams] at h
  | n + 1, acc, l, r, h => by
    simp only [funcDeclParams] at h
    by_cases h1 : l.checkLook [tknName, tknVariadic] = true
    · have hne : l.look.Typ ≠ tknINVALID := by
        intro h0
        simp [lexer.checkLook, h0] at h1
      have htoks := l.toks_of_look hne
      simp only [h1, if_true] at h
      by_cases h2 : l.checkLook [tknVariadic] = true
      · simp only [h2, if_true, bind_eq_ok, getCurrent_eq_ok, pure_eq_ok] at h
        obtain ⟨l1, ⟨-, rfl⟩, rfl⟩ := h
        have ht : l.look.Typ = tknVariadic := (checkLook_single l _).1 h2
        exact ⟨[l.look], [], by simp [paramList, ht], htoks, by simp, fun _ => by simp⟩
      · have ht : l.look.Typ = tknName := by
          have h3 : l.look.Typ ≠ tknVariadic := fun h4 => h2 ((checkLook_single l _).2 h4)
          simp only [lexer.checkLook, List.contains_cons, List.contains_nil, Bool.or_false,
            Bool.or_eq_true, beq_iff_eq] at h1
          rcases h1 with h1 | h1
          · exact h1
          · exact absurd h1 h3
        simp only [h2, Bool.false_eq_true, if_false, bind_eq_ok, getCurrent_eq_ok] at h
        obtain ⟨l1, ⟨-, rfl⟩, h⟩ := h
        have hcur : l.advance.current = l.look := rfl
        by_cases h3 : l.advance.checkLook [tknSeperator] = true
        · simp only [h3, Bool.not_true, Bool.false_eq_true, if_false, bind_eq_ok,
            getCurrent_eq_ok] at h
          obtain ⟨l2, ⟨-, rfl⟩, l3, h4, h⟩ := h
          have hs : l.advance.look.Typ = tknSeperator := (checkLook_single _ _).1 h3
          have htoks2 := l.advance.toks_of_look (by rw [hs]; decide)
          by_cases h5 : l.advance.advance.checkLook [tknName, tknVariadic] = true
          · simp only [h5, Bool.not_true, Bool.false_eq_true, if_false, pure_eq_ok] at h4
            subst h4
            obtain ⟨ptoks, names, hp, ht2, hr, hne2⟩ := funcDeclParams_inv n _ _ r h
            refine ⟨l.look :: l.advance.look :: ptoks, l.look.Lexeme :: names, ?_, ?_, ?_,
              fun _ => by simp⟩
            · simp only [paramList, ht, hs, hne2 h5, ne_eq, not_false_eq_true, and_self, if_true,
                hp, Option.map_some']
            · rw [htoks, htoks2, ht2]
              rfl
            · rw [hr, hcur]
              simp
          · simp only [h5, Bool.not_false, if_true, getCurrent_eq_ok] at h4
            exact absurd h4.1 h5
        · simp only [h3, Bool.not_false, if_true, pure_eq_ok] at h
          subst h
          exact ⟨[l.look], [l.look.Lexeme], by simp [paramList, ht], htoks, by rw [hcur],
            fun _ => by simp⟩
    · simp only [h1, Bool.false_eq_true, if_false, pure_eq_ok] at h
      subst h
      exact ⟨[], [], rfl, rfl, by simp, fun h2 => absurd h2 h1⟩

/-- Whatever `funcDeclBody` reads: `(`, a written parameter list, `)` and a block up to
`end`. -/
theorem funcDeclBody_inv (n : Nat) (hasSelf : Bool) (l : lexer) (r : Parsed Node)
    (h : funcDeclBody (n + 1) hasSelf l = .ok r) :
    ∃ (ptoks : List token) (names : List String) (v : Bool) (blk : List Node) (l2 : lexer),
      l.look.Typ = tknOParen ∧ l.advance.toks = ptoks ++ l2.toks ∧
      l2.look.Typ = tknCParen ∧ paramList ptoks = some (names, v) ∧
      block n [tknEnd] l2.advance = .ok (blk, r.2) ∧
      r.1 = .FuncDecl ⟨FuncDeclNode, l.look.Line⟩
        ((if hasSelf then ["self"] else []) ++ names) v "" blk := by
  simp only [funcDeclBody, bind_eq_ok, getCurrent_eq_ok, pure_eq_ok] at h
  obtain ⟨l1, ⟨ho, rfl⟩, ⟨⟨ps, v⟩, l2⟩, hparams, l3, ⟨hc, rfl⟩, ⟨blk, l4⟩, hblk, rfl⟩ := h
  obtain ⟨ptoks, names, hp, ht, hr, -⟩ := funcDeclParams_inv n _ _ _ hparams
  simp only at hp ht hr hblk
  refine ⟨ptoks, names, v, blk, l2, ?_, ht, ?_, hp, hblk, ?_⟩
  · simpa using ho
  · simpa using hc
  · simp only [hr]
    rfl

/-- A written parameter list that ends in `...` is read up to the `...`, whatever
follows. -/
theorem funcDeclParams_variadic : ∀ (ptoks : List token) (names : List String) (n : Nat)
    (acc : List String) (c : token) (rest : List token),
    paramList ptoks = some (names, true) → ptoks.length ≤ n →
    ∃ c1 : token, funcDeclParams n acc ⟨c, ptoks ++ rest⟩ = .ok ((acc ++ names, true), ⟨c1, rest⟩)
  | [], names, n, acc, c, rest, hp, hn => by
    simp [paramList] at hp
  | [t], names, 0, acc, c, rest, hp, hn => by simp at hn
  | [t], names, n + 1, acc, c, rest, hp, hn => by
    simp only [paramList] at hp
    by_cases ht : t.Typ = tknName
    · simp [ht] at hp
    · by_cases hv : t.Typ = tknVariadic
      · rw [if_neg ht, if_pos hv] at hp
        simp only [Option.some.injEq, Prod.mk.injEq, and_true] at hp
        subst hp
        have h1 : (lexer.mk c ([t] ++ rest)).checkLook [tknName, tknVariadic] = true := by
          simp [lexer.checkLook, lexer.look, hv]
        have h2 : (lexer.mk c ([t] ++ rest)).checkLook [tknVariadic] = true := by
          simp [lexer.checkLook, lexer.look, hv]
        have g : (lexer.mk c ([t] ++ rest)).getCurrent [tknVariadic] = .ok ⟨t, rest⟩ :=
          getCurrent_cons _ _ _ _ (by rw [hv]; rfl)
        refine ⟨t, ?_⟩
        simp only [funcDeclParams, h1, h2, g, ok_bind, if_true, List.append_nil]
        rfl
      · simp [ht, hv] at hp
  | t :: s :: more, names, 0, acc, c, rest, hp, hn => by simp at hn
  | t :: s :: more, names, n + 1, acc, c, rest, hp, hn => by
    simp only [paramList] at hp
    by_cases hc : t.Typ = tknName ∧ s.Typ = tknSeperator ∧ more ≠ []
    · obtain ⟨ht, hs, hne⟩ := hc
      simp only [ht, hs, hne, ne_eq, not_false_eq_true, and_self, if_true, Option.map_eq_some',
        Prod.mk.injEq] at hp
      obtain ⟨⟨ns, v1⟩, hrec, rfl, rfl⟩ := hp
      have h1 : (lexer.mk c ((t :: s :: more) ++ rest)).checkLook [tknName, tknVariadic]
          = true := by simp [lexer.checkLook, lexer.look, ht]
      have h2 : (lexer.mk c ((t :: s :: more) ++ rest)).checkLook [tknVariadic] = false := by
        simp [lexer.checkLook, lexer.look, ht]
      have g : (lexer.mk c ((t :: s :: more) ++ rest)).getCurrent [tknName] =
          .ok ⟨t, s :: (more ++ rest)⟩ := getCurrent_cons _ _ _ _ (by rw [ht]; rfl)
      have h3 : (lexer.mk t (s :: (more ++ rest))).checkLook [tknSeperator] = true := by
        simp [lexer.checkLook, lexer.look, hs]
      have g2 : (lexer.mk t (s :: (more ++ rest))).getCurrent [tknSeperator] =
          .ok ⟨s, more ++ rest⟩ := getCurrent_cons _ _ _ _ (by rw [hs]; rfl)
      have h4 : (lexer.mk s (more ++ rest)).checkLook [tknName, tknVariadic] = true :=
        paramList_head more (ns, true) rest hrec hne
      obtain ⟨c1, hr⟩ := funcDeclParams_variadic more ns n (acc ++ [t.Lexeme]) s rest hrec
        (by simp only [List.length_cons] at hn; omega)
      refine ⟨c1, ?_⟩
      simp only [funcDeclParams, h1, h2, g, ok_bind, h3, if_true, Bool.not_true, g2, h4,
        Bool.false_eq_true, if_false, pure_bind, hr]
      simp
    · simp [hc] at hp

/-- After a written parameter list that does not end in `...`, a comma that is not
followed by a name or `...` stops the parameter loop with an error. -/
theorem funcDeclParams_comma : ∀ (ptoks : List token) (names : List String) (n : Nat)
    (acc : List String) (c s x : token) (rest : List token),
    paramList ptoks = some (names, false) → ptoks ≠ [] → ptoks.length ≤ n →
    s.Typ = tknSeperator → [tknName, tknVariadic].contains x.Typ = false →
    funcDeclParams n acc ⟨c, ptoks ++ s :: x :: rest⟩ =
      .error (.tokenExpected x [tknName, tknVariadic])
  | [], names, n, acc, c, s, x, rest, hp, hne, hn, hs, hx => absurd rfl hne
  | [t], names, 0, acc, c, s, x, rest, hp, hne, hn, hs, hx => by simp at hn
  | [t], names, n + 1, acc, c, s, x, rest, hp, hne, hn, hs, hx => by
    simp only [paramList] at hp
    by_cases ht : t.Typ = tknName
    · have h1 : (lexer.mk c ([t] ++ s :: x :: rest)).checkLook [tknName, tknVariadic] = true := by
        simp [lexer.checkLook, lexer.look, ht]
      have h2 : (lexer.mk c ([t] ++ s :: x :: rest)).checkLook [tknVariadic] = false := by
        simp [lexer.checkLook, lexer.look, ht]
      have g : (lexer.mk c ([t] ++ s :: x :: rest)).getCurrent [tknName] =
          .ok ⟨t, s :: x :: rest⟩ := getCurrent_cons _ _ _ _ (by rw [ht]; rfl)
      have h3 : (lexer.mk t (s :: x :: rest)).checkLook [tknSeperator] = true := by
        simp [lexer.checkLook, lexer.look, hs]
      have g2 : (lexer.mk t (s :: x :: rest)).getCurrent [tknSeperator] =
          .ok ⟨s, x :: rest⟩ := getCurrent_cons _ _ _ _ (by rw [hs]; rfl)
      have h4 : (lexer.mk s (x :: rest)).checkLook [tknName, tknVariadic] = false := hx
      have g3 : (lexer.mk s (x :: rest)).getCurrent [tknName, tknVariadic] =
          .error (.tokenExpected x [tknName, tknVariadic]) := by
        simp only [lexer.getCurrent, lexer.advance, lexer.look, List.headD_cons, hx,
          Bool.false_eq_true, if_false]
      simp only [funcDeclParams, h1, h2, g, ok_bind, h3, if_true, Bool.not_true, g2, h4,
        Bool.false_eq_true, if_false, Bool.not_false, g3, error_bind]
    · by_cases hv : t.Typ = tknVariadic
      · rw [if_neg ht, if_pos hv] at hp
        simp at hp
      · simp [ht, hv] at hp
  | t :: u :: more, names, 0, acc, c, s, x, rest, hp, hne, hn, hs, hx => by simp at hn
  | t :: u :: more, names, n + 1, acc, c, s, x, rest, hp, hne, hn, hs, hx => by
    simp only [paramList] at hp
    by_cases hc : t.Typ = tknName ∧ u.Typ = tknSeperator ∧ more ≠ []
    · obtain ⟨ht, hu, hne2⟩ := hc
      simp only [ht, hu, hne2, ne_eq, not_false_eq_true, and_self, if_true, Option.map_eq_some',
        Prod.mk.injEq] at hp
      obtain ⟨⟨ns, v1⟩, hrec, rfl, rfl⟩ := hp
      have h1 : (lexer.mk c ((t :: u :: more) ++ s :: x :: rest)).checkLook
          [tknName, tknVariadic] = true := by simp [lexer.checkLook, lexer.look, ht]
      have h2 : (lexer.mk c ((t :: u :: more) ++ s :: x :: rest)).checkLook [tknVariadic]
          = false := by simp [lexer.checkLook, lexer.look, ht]
      have g : (lexer.mk c ((t :: u :: more) ++ s :: x :: rest)).getCurrent [tknName] =
          .ok ⟨t, u :: (more ++ s :: x :: rest)⟩ := getCurrent_cons _ _ _ _ (by rw [ht]; rfl)
      have h3 : (lexer.mk t (u :: (more ++ s :: x :: rest))).checkLook [tknSeperator] = true := by
        simp [lexer.checkLook, lexer.look, hu]
      have g2 : (lexer.mk t (u :: (more ++ s :: x :: rest))).getCurrent [tknSeperator] =
          .ok ⟨u, more ++ s :: x :: rest⟩ := getCurrent_cons _ _ _ _ (by rw [hu]; rfl)
      have h4 : (lexer.mk u (more ++ s :: x :: rest)).checkLook [tknName, tknVariadic] = true :=
        paramList_head more (ns, false) (s :: x :: rest) hrec hne2
      have hr := funcDeclParams_comma more ns n (acc ++ [t.Lexeme]) u s x rest hrec hne2
        (by simp only [List.length_cons] at hn; omega) hs hx
      simp only [funcDeclParams, h1, h2, g, ok_bind, h3, if_true, Bool.not_true, g2, h4,
        Bool.false_eq_true, if_false, pure_bind, hr]
    · simp [hc] at hp

/-- A `...` followed by anything other than `)` makes `funcDeclBody` fail. -/
theorem funcDeclBody_variadic_not_last (n : Nat) (hasSelf : Bool) (c op x : token)
    (ptoks rest : List token) (names : List String) (hop : op.Typ = tknOParen)
    (hp : paramList ptoks = some (names, true)) (hn : ptoks.length ≤ n)
    (hx : x.Typ ≠ tknCParen) :
    funcDeclBody (n + 1) hasSelf ⟨c, op :: (ptoks ++ x :: rest)⟩ =
      .error (.tokenExpected x [tknCParen]) := by
  have g1 : (lexer.mk c (op :: (ptoks ++ x :: rest))).getCurrent [tknOParen] =
      .ok ⟨op, ptoks ++ x :: rest⟩ := getCurrent_cons _ _ _ _ (by rw [hop]; rfl)
  obtain ⟨c1, hr⟩ := funcDeclParams_variadic ptoks names n (if hasSelf then ["self"] else [])
    op (x :: rest) hp hn
  have g2 : (lexer.mk c1 (x :: rest)).getCurrent [tknCParen] =
      .error (.tokenExpected x [tknCParen]) := by
    have : [tknCParen].contains x.Typ = false := by simp [hx]
    simp only [lexer.getCurrent, lexer.advance, lexer.look, List.headD_cons, this,
      Bool.false_eq_true, if_false]
  simp only [funcDeclBody, g1, ok_bind, hr, g2, error_bind]

/-- A comma that is not followed by a name or `...` makes `funcDeclBody` fail. -/
theorem funcDeclBody_comma (n : Nat) (hasSelf : Bool) (c op s x : token)
    (ptoks rest : List token) (names : List String) (hop : op.Typ = tknOParen)
    (hp : paramList ptoks = some (names, false)) (hne : ptoks ≠ []) (hn : ptoks.length ≤ n)
    (hs : s.Typ = tknSeperator) (hx : [tknName, tknVariadic].contains x.Typ = false) :
    funcDeclBody (n + 1) hasSelf ⟨c, op :: (ptoks ++ s :: x :: rest)⟩ =
      .error (.tokenExpected x [tknName, tknVariadic]) := by
  have g1 : (lexer.mk c (op :: (ptoks ++ s :: x :: rest))).getCurrent [tknOParen] =
      .ok ⟨op, ptoks ++ s :: x :: rest⟩ := getCurrent_cons _ _ _ _ (by rw [hop]; rfl)
  have hr := funcDeclParams_comma ptoks names n (if hasSelf then ["self"] else [])
    op s x rest hp hne hn hs hx
  simp only [funcDeclBody, g1, ok_bind, hr, error_bind]

/-- C22: what `funcDeclBody` reads is `(`, a written parameter list, `)` and a block; the
FuncDecl has as Params the names of the list in source order, after "self" when it is
injected, and IsVariadic is true exactly when the last token of the list is `...`. A
`...` followed by anything other than `)` and a comma not followed by a name or `...`
make `funcDeclBody` fail with the error of the expected token. -/
theorem C22_funcDeclBody_params (n : Nat) (hasSelf : Bool) (l : lexer) (r : Parsed Node)
    (h : funcDeclBody (n + 1) hasSelf l = .ok r) :
    (∃ (ptoks : List token) (names : List String) (v : Bool) (blk : List Node) (l2 : lexer),
      l.look.Typ = tknOParen ∧ l.advance.toks = ptoks ++ l2.toks ∧
      l2.look.Typ = tknCParen ∧ paramList ptoks = some (names, v) ∧
      names = ((ptoks.filter fun t => t.Typ = tknName).map fun t => t.Lexeme) ∧
      (v = true ↔ (ptoks.getLast?.map fun t => t.Typ) = some tknVariadic) ∧
      block n [tknEnd] l2.advance = .ok (blk, r.2) ∧
      r.1 = .FuncDecl ⟨FuncDeclNode, l.look.Line⟩
        ((if hasSelf then ["self"] else []) ++ names) v "" blk) ∧
    (∀ m : Nat, n + 1 ≤ m → funcDeclBody m hasSelf l = .ok r) ∧
    (∀ (k : Nat) (self : Bool) (c op x : token) (ptoks rest : List token)
      (names : List String), op.Typ = tknOParen → paramList ptoks = some (names, true) →
      ptoks.length ≤ k → x.Typ ≠ tknCParen →
      funcDeclBody (k + 1) self ⟨c, op :: (ptoks ++ x :: rest)⟩ =
        .error (.tokenExpected x [tknCParen])) ∧
    (∀ (k : Nat) (self : Bool) (c op s x : token) (ptoks rest : List token)
      (names : List String), op.Typ = tknOParen → paramList ptoks = some (names, false) →
      ptoks ≠ [] → ptoks.length ≤ k → s.Typ = tknSeperator →
      [tknName, tknVariadic].contains x.Typ = false →
      funcDeclBody (k + 1) self ⟨c, op :: (ptoks ++ s :: x :: rest)⟩ =
        .error (.tokenExpected x [tknName, tknVariadic])) := by
  refine ⟨?_, fun m hm => funcDeclBody_mono hm hasSelf l r h, ?_, ?_⟩
  · obtain ⟨ptoks, names, v, blk, l2, h1, h2, h3, h4, h5, h6⟩ := funcDeclBody_inv n hasSelf l r h
    exact ⟨ptoks, names, v, blk, l2, h1, h2, h3, h4, paramList_names ptoks names v h4,
      paramList_variadic ptoks names v h4, h5, h6⟩
  · intro k self c op x ptoks rest names hop hp hk hx
    exact funcDeclBody_variadic_not_last k self c op x ptoks rest names hop hp hk hx
  · intro k self c op s x ptoks rest names hop hp hne hk hs hx
    exact funcDeclBody_comma k self c op s x ptoks rest names hop hp hne hk hs hx

/-- C22 at `(a, ...) end` after "self": the parameters are "self" and "a", the function is
variadic. -/
theorem C22_funcDeclBody_params_witness :
    funcDeclBody 4 true ⟨eofToken, variadicBodyTokens⟩ =
      .ok (.FuncDecl ⟨FuncDeclNode, 1⟩ ["self", "a"] true "" [], ⟨⟨"end", tknEnd, 1⟩, []⟩) ∧
    (∀ m : Nat, 3 + 1 ≤ m → funcDeclBody m true ⟨eofToken, variadicBodyTokens⟩ =
      .ok (.FuncDecl ⟨FuncDeclNode, 1⟩ ["self", "a"] true "" [], ⟨⟨"end", tknEnd, 1⟩, []⟩)) :=
  ⟨rfl, (C22_funcDeclBody_params 3 true ⟨eofToken, variadicBodyTokens⟩ _ rfl).2.1⟩

/-! ### C23: the items of a `return` -/

/-- The item loop of `return` reads the items as the specification has them. -/
theorem returnItems_read : ∀ (n : Nat) (acc : List Node) (l : lexer) (r : Parsed (List Node)),
    returnItems n acc l = .ok r → ∃ es, r.1 = acc ++ es ∧ ItemsRead l es r.2
  | 0, _, _, _, h => by cases h
  | n + 1, acc, l, r, h => by
    simp only [returnItems] at h
    have hce : l.checkLook [tknEnd, tknElse, tknElseif, tknUntil, tknUnnecessary, tknINVALID] =
        returnEnders.contains l.look.Typ := rfl
    rw [hce] at h
    by_cases hc : returnEnders.contains l.look.Typ = true
    · simp only [hc, Bool.not_true, Bool.false_eq_true, if_false, pure_eq_ok] at h
      subst h
      exact ⟨[], (by simp), .none l hc⟩
    · have hc1 : returnEnders.contains l.look.Typ = false := by simpa using hc
      simp only [hc1, Bool.not_false, if_true, bind_eq_ok] at h
      obtain ⟨e, he, h⟩ := h
      by_cases hs : e.2.checkLook [tknSeperator] = true
      · simp only [hs, Bool.not_true, Bool.false_eq_true, if_false, bind_eq_ok,
          getCurrent_eq_ok] at h
        obtain ⟨l2, ⟨-, rfl⟩, h⟩ := h
        obtain ⟨es, h1, h2⟩ := returnItems_read n _ _ r h
        exact ⟨e.1 :: es, (by simp [h1]),
          .more n l e.2 r.2 e.1 es hc1 he ((checkLook_single _ _).1 hs) h2⟩
      · have hs1 : e.2.checkLook [tknSeperator] = false := by simpa using hs
        simp only [hs1, Bool.not_false, if_true, pure_eq_ok] at h
        subst h
        exact ⟨[e.1], rfl, .last n l e.2 e.1 hc1 he ((checkLook_false_single _ _).1 hs1)⟩

/-- No item is read exactly when the first token ends the items. -/
theorem ItemsRead.nil_iff {l l1 : lexer} {es : List Node} (h : ItemsRead l es l1) :
    es = [] ↔ returnEnders.contains l.look.Typ = true := by
  cases h with
  | none _ h => exact ⟨fun _ => h, fun _ => rfl⟩
  | last n _ _ e h he hs =>
    exact ⟨(fun h1 => by cases h1), fun h1 => by rw [h] at h1; cases h1⟩
  | more n _ l1 _ e es h he hs hrest =>
    exact ⟨(fun h1 => by cases h1), fun h1 => by rw [h] at h1; cases h1⟩

/-- No item of a `return` is absent. -/
theorem ItemsRead.items_ne_nil {l l1 : lexer} {es : List Node} (h : ItemsRead l es l1) :
    ∀ e ∈ es, e ≠ .nil := by
  induction h with
  | none _ _ => intro e he; cases he
  | last k _ _ e _ he _ =>
    intro x hx
    rw [List.mem_singleton] at hx
    subst hx
    exact expression_ne_nil k _ _ _ he
  | more k _ _ _ e es _ he _ _ ih =>
    intro x hx
    rcases List.mem_cons.1 hx with rfl | hx
    · exact expression_ne_nil k _ _ _ he
    · exact ih x hx

/-- C23: a `return` statement that is read is a Return node whose Items are the
expressions read in source order from the token after `return`, separated by commas,
one item for each expression; Items is empty exactly when the token after `return` is
`end`, `else`, `elseif`, `until`, `;` or the end of the stream. -/
theorem C23_return_items (n : Nat) (l : lexer) (r : Parsed Node)
    (hret : l.look.Typ = tknReturn) (h : statement (n + 1) l = .ok r) :
    ∃ items : List Node,
      r.1 = .Return ⟨ReturnNode, l.look.Line⟩ items ∧
      ItemsRead l.advance items r.2 ∧
      (items = [] ↔ returnEnders.contains l.advance.look.Typ = true) ∧
      (∀ e ∈ items, e ≠ .nil) ∧
      (∀ m : Nat, n + 1 ≤ m → statement m l = .ok r) := by
  have hmono := fun (m : Nat) (hm : n + 1 ≤ m) => statement_mono hm l r h
  simp only [statement, hret, bind_eq_ok, getCurrent_eq_ok, pure_eq_ok] at h
  obtain ⟨l1, ⟨-, rfl⟩, ⟨items, l2⟩, hitems, rfl⟩ := h
  obtain ⟨es, h1, h2⟩ := returnItems_read n [] _ _ hitems
  simp only [List.nil_append] at h1
  subst h1
  exact ⟨items, rfl, h2, h2.nil_iff, h2.items_ne_nil, hmono⟩

/-- C23 at `return 1, 2`: the items are the two expressions, in order. -/
theorem C23_return_items_witness :
    statement 6 ⟨eofToken, returnTokens⟩ =
      .ok (.Return ⟨ReturnNode, 1⟩
        [.ConstInt ⟨ConstIntNode, 1⟩ "1", .ConstInt ⟨ConstIntNode, 1⟩ "2"],
        ⟨⟨"2", tknInt, 1⟩, []⟩) ∧
    ∃ items : List Node,
      Node.Return ⟨ReturnNode, 1⟩
        [.ConstInt ⟨ConstIntNode, 1⟩ "1", .ConstInt ⟨ConstIntNode, 1⟩ "2"] =
        .Return ⟨ReturnNode, (lexer.mk eofToken returnTokens).look.Line⟩ items ∧
      ItemsRead (lexer.mk eofToken returnTokens).advance items ⟨⟨"2", tknInt, 1⟩, []⟩ ∧
      (items = [] ↔
        returnEnders.contains (lexer.mk eofToken returnTokens).advance.look.Typ = true) ∧
      (∀ e ∈ items, e ≠ .nil) ∧
      (∀ m : Nat, 5 + 1 ≤ m → statement m ⟨eofToken, returnTokens⟩ =
        .ok (.Return ⟨ReturnNode, 1⟩
          [.ConstInt ⟨ConstIntNode, 1⟩ "1", .ConstInt ⟨ConstIntNode, 1⟩ "2"],
          ⟨⟨"2", tknInt, 1⟩, []⟩)) :=
  ⟨rfl, C23_return_items 5 ⟨eofToken, returnTokens⟩ _ rfl rfl⟩

/-! ### C24: the parenthesised prefix of a call statement -/

/-- The call built by `funcCall` has the prefix it is given as its function, or as its
receiver when `:` follows. -/
theorem funcCall_callee (n : Nat) (id : Node) (l : lexer) (r : Parsed Node)
    (h : funcCall n id l = .ok r) :
    ∃ args, (l.look.Typ ≠ tknColon ∧ r.1 = .FuncCall ⟨FuncCallNode, l.current.Line⟩ .nil id args) ∨
      (l.look.Typ = tknColon ∧ r.1 = .FuncCall ⟨FuncCallNode, l.current.Line⟩ id
        (.ConstString ⟨ConstStringNode, l.exlook.Line⟩ l.exlook.Lexeme) args) := by
  cases n with
  | zero => cases h
  | succ n =>
    simp only [funcCall, bind_eq_ok] at h
    obtain ⟨rf, hrf, a, -, h3⟩ := h
    rw [pure_eq_ok] at h3
    subst h3
    by_cases hc : l.checkLook [tknColon] = true
    · simp only [hc, if_true, bind_eq_ok, getCurrent_eq_ok, pure_eq_ok] at hrf
      obtain ⟨l1, ⟨-, rfl⟩, l2, ⟨-, rfl⟩, rfl⟩ := hrf
      exact ⟨a.1, .inr ⟨(checkLook_single l _).1 hc, rfl⟩⟩
    · simp only [hc, Bool.false_eq_true, if_false, pure_eq_ok] at hrf
      subst hrf
      exact ⟨a.1, .inl ⟨fun h1 => hc ((checkLook_single l _).2 h1), rfl⟩⟩

/-- A statement that starts with `(`: the call has the expression between the parentheses
as its function or receiver, where `primaryValue` reads the same tokens as the Parens
node of that expression. -/
theorem paren_statement_bare (n : Nat) (l : lexer) (r : Parsed Node)
    (h : l.look.Typ = tknOParen) (hs : statement (n + 1) l = .ok r) :
    ∃ (e : Node) (l1 : lexer) (args : List Node),
      expression n l.advance = .ok (e, l1) ∧ l1.look.Typ = tknCParen ∧
      primaryValue (n + 1) l = .ok (.Parens ⟨ParensNode, l.look.Line⟩ e, l1.advance) ∧
      ((l1.advance.look.Typ ≠ tknColon ∧
          r.1 = .FuncCall ⟨FuncCallNode, l1.look.Line⟩ .nil e args) ∨
        (l1.advance.look.Typ = tknColon ∧
          r.1 = .FuncCall ⟨FuncCallNode, l1.look.Line⟩ e
            (.ConstString ⟨ConstStringNode, l1.advance.exlook.Line⟩ l1.advance.exlook.Lexeme)
            args)) := by
  have hg : l.getCurrent [tknOParen] = .ok l.advance := by
    rw [getCurrent_eq_ok]; exact ⟨by simp [h], rfl⟩
  simp only [statement, h, hg, ok_bind, bind_eq_ok, getCurrent_eq_ok] at hs
  obtain ⟨⟨e, l1⟩, he, l2, ⟨hc, rfl⟩, hf⟩ := hs
  have hc1 : l1.look.Typ = tknCParen := by simpa using hc
  have hg2 : l1.getCurrent [tknCParen] = .ok l1.advance := by
    rw [getCurrent_eq_ok]; exact ⟨hc, rfl⟩
  obtain ⟨args, hr⟩ := funcCall_callee n e l1.advance r hf
  refine ⟨e, l1, args, he, hc1, ?_, hr⟩
  simp only [primaryValue, h, hg, ok_bind, he, hg2]
  rfl

/-- C24, at `(f)()`, `(a):m()` and `(a).m()`: at statement position the call has the bare
name as its function or receiver, with no Parens node, where the expression parser
builds the Parens node for the same tokens; and the statement `(a).m()`, which the
expression parser reads as a call, is refused. -/
theorem C24_paren_statement_drops_parens :
    statement 65 ⟨eofToken, parenCallTokens⟩ =
      .ok (.FuncCall ⟨FuncCallNode, 1⟩ .nil (.ConstIdent ⟨ConstIdentNode, 1⟩ "f") [],
        ⟨⟨")", tknCParen, 1⟩, []⟩) ∧
    expression 65 ⟨eofToken, parenCallTokens⟩ =
      .ok (.FuncCall ⟨FuncCallNode, 1⟩ .nil
        (.Parens ⟨ParensNode, 1⟩ (.ConstIdent ⟨ConstIdentNode, 1⟩ "f")) [],
        ⟨⟨")", tknCParen, 1⟩, []⟩) ∧
    statement 89 ⟨eofToken, parenMethodTokens⟩ =
      .ok (.FuncCall ⟨FuncCallNode, 1⟩ (.ConstIdent ⟨ConstIdentNode, 1⟩ "a")
        (.ConstString ⟨ConstStringNode, 1⟩ "m") [], ⟨⟨")", tknCParen, 1⟩, []⟩) ∧
    expression 89 ⟨eofToken, parenMethodTokens⟩ =
      .ok (.FuncCall ⟨FuncCallNode, 1⟩
        (.Parens ⟨ParensNode, 1⟩ (.ConstIdent ⟨ConstIdentNode, 1⟩ "a"))
        (.ConstString ⟨ConstStringNode, 1⟩ "m") [], ⟨⟨")", tknCParen, 1⟩, []⟩) ∧
    statement 89 ⟨eofToken, parenFieldCallTokens⟩ =
      .error (.tokenExpected ⟨".", tknDot, 1⟩ [tknOBracket, tknString, tknOParen]) ∧
    expression 89 ⟨eofToken, parenFieldCallTokens⟩ =
      .ok (.FuncCall ⟨FuncCallNode, 1⟩ .nil
        (.TableAccessor ⟨TableAccessorNode, 1⟩
          (.Parens ⟨ParensNode, 1⟩ (.ConstIdent ⟨ConstIdentNode, 1⟩ "a"))
          (.ConstString ⟨ConstStringNode, 1⟩ "m")) [], ⟨⟨")", tknCParen, 1⟩, []⟩) :=
  ⟨rfl, rfl, rfl, rfl, rfl, rfl⟩

/-! ### C25: the targets of a local declaration -/

/-- The targets read by the loop of the `local` case are names, and there is none exactly
when the loop starts at `=`. -/
theorem localTargets_inv : ∀ (n : Nat) (acc : List Node) (l : lexer) (r : Parsed (List Node)),
    localTargets n acc l = .ok r →
    ∃ ts, r.1 = acc ++ ts ∧
      (∀ t ∈ ts, ∃ (line : Int) (v : String), t = .ConstIdent ⟨ConstIdentNode, line⟩ v) ∧
      (ts = [] ↔ l.look.Typ = tknSet)
  | 0, _, _, _, h => by cases h
  | n + 1, acc, l, r, h => by
    simp only [localTargets] at h
    by_cases hc : l.checkLook [tknSet] = true
    · simp only [hc, Bool.not_true, Bool.false_eq_true, if_false, pure_eq_ok] at h
      subst h
      exact ⟨[], (by simp), (fun t ht => by cases ht),
        ⟨fun _ => (checkLook_single l _).1 hc, fun _ => rfl⟩⟩
    · have hc1 : l.checkLook [tknSet] = false := by simpa using hc
      have hne : l.look.Typ ≠ tknSet := (checkLook_false_single l _).1 hc1
      simp only [hc1, Bool.not_false, if_true, bind_eq_ok, getCurrent_eq_ok] at h
      obtain ⟨l1, ⟨-, rfl⟩, h⟩ := h
      by_cases hs : l.advance.checkLook [tknSeperator] = true
      · simp only [hs, Bool.not_true, Bool.false_eq_true, if_false, bind_eq_ok,
          getCurrent_eq_ok] at h
        obtain ⟨l2, ⟨-, rfl⟩, h⟩ := h
        obtain ⟨ts, h1, h2, -⟩ := localTargets_inv n _ _ r h
        refine ⟨.ConstIdent ⟨ConstIdentNode, l.look.Line⟩ l.look.Lexeme :: ts,
          (by rw [h1]; simp [exprInfo, Node.setBase, lexer.advance]), ?_,
          ⟨(fun h3 => by cases h3), fun h3 => absurd h3 hne⟩⟩
        intro t ht
        rcases List.mem_cons.1 ht with rfl | ht
        · exact ⟨_, _, rfl⟩
        · exact h2 t ht
      · have hs1 : l.advance.checkLook [tknSeperator] = false := by simpa using hs
        simp only [hs1, Bool.not_false, if_true, pure_eq_ok] at h
        subst h
        refine ⟨[.ConstIdent ⟨ConstIdentNode, l.look.Line⟩ l.look.Lexeme], rfl, ?_,
          ⟨(fun h3 => by cases h3), fun h3 => absurd h3 hne⟩⟩
        intro t ht
        rw [List.mem_singleton] at ht
        exact ⟨_, _, ht⟩

/-- A local declaration that is read: every target is a name, and there is no target
exactly when `=` follows `local` directly. -/
theorem local_statement_targets (n : Nat) (l : lexer) (r : Parsed Node)
    (h : l.look.Typ = tknLocal) (hf : l.advance.look.Typ ≠ tknFunction)
    (hs : statement (n + 1) l = .ok r) :
    ∃ ts vs, r.1 = .Assign ⟨AssignNode, l.look.Line⟩ true false ts vs ∧
      (∀ t ∈ ts, ∃ (line : Int) (v : String), t = .ConstIdent ⟨ConstIdentNode, line⟩ v) ∧
      (ts = [] ↔ l.advance.look.Typ = tknSet) := by
  have hg : l.getCurrent [tknLocal] = .ok l.advance := by
    rw [getCurrent_eq_ok]; exact ⟨by simp [h], rfl⟩
  have hc : l.advance.checkLook [tknFunction] = false := (checkLook_false_single _ _).2 hf
  simp only [statement, h, hg, ok_bind, hc, Bool.false_eq_true, if_false, bind_eq_ok,
    pure_eq_ok] at hs
  obtain ⟨⟨ts, l1⟩, hts, ⟨vs, l2⟩, -, rfl⟩ := hs
  obtain ⟨ts1, h1, h2, h3⟩ := localTargets_inv n [] _ _ hts
  simp only [List.nil_append] at h1
  subst h1
  exact ⟨ts, vs, rfl, h2, h3⟩

/-- C25, at `local = 1`: the statement is read as a local declaration with no target and
the value 1, and `Parse` returns it with no error. -/
theorem C25_local_without_name_accepted :
    statement 43 ⟨eofToken, localNoNameTokens⟩ =
      .ok (.Assign ⟨AssignNode, 1⟩ true false [] [.ConstInt ⟨ConstIntNode, 1⟩ "1"],
        ⟨⟨"1", tknInt, 1⟩, []⟩) ∧
    Parse 44 localNoNameTokens 1 =
      ([.Assign ⟨AssignNode, 1⟩ true false [] [.ConstInt ⟨ConstIntNode, 1⟩ "1"]], none) :=
  ⟨rfl, rfl⟩

/-! ### C26: the targets of a plain assignment -/

/-- The suffix loop turns a name, a table access or a call into a table access or a call,
or returns it. -/
theorem suffixedValueLoop_shape : ∀ (n : Nat) (v : Node) (l : lexer),
    (v.isAssignable || v.isCall) = true →
    Post (fun r => (r.1.isAssignable || r.1.isCall) = true) (suffixedValueLoop n v l)
  | 0, _, _, _ => Post.failure _ _
  | n + 1, v, l, hv => by
    have hcall : ∀ (id : Node) (l1 : lexer),
        Post (fun r => (r.1.isAssignable || r.1.isCall) = true) (funcCall n id l1) := by
      intro id l1 r hr
      obtain ⟨rcv, f, args, h⟩ := funcCall_isFuncCall n id l1 r hr
      rw [h]
      rfl
    simp only [suffixedValueLoop]
    split
    · cases hT : l.look.Typ <;> simp only []
      case tknOIndex =>
        refine PostL.andThenL (PostL.anyL _) (fun l1 _ => ?_)
        refine Post.andThen (Post.any _) (fun r _ => ?_)
        exact PostL.andThenL (PostL.anyL _)
          (fun l2 _ => suffixedValueLoop_shape n _ l2 rfl)
      case tknDot =>
        refine PostL.andThenL (PostL.anyL _) (fun l1 _ => ?_)
        refine PostL.andThenL (PostL.anyL _) (fun l2 _ => ?_)
        split
        · exact Post.andThen (hcall _ l2) (fun r h3 => suffixedValueLoop_shape n _ _ h3)
        · exact suffixedValueLoop_shape n _ _ rfl
      all_goals
        exact Post.andThen (hcall _ l) (fun r h3 => suffixedValueLoop_shape n _ _ h3)
    · exact Post.result _ _ hv

/-- A suffixed value that starts with a name is a name, a table access or a call. -/
theorem suffixedValue_shape (n : Nat) (l : lexer) (h : l.look.Typ = tknName) :
    Post (fun r => (r.1.isAssignable || r.1.isCall) = true) (suffixedValue n l) := by
  cases n with
  | zero => exact Post.failure _ _
  | succ n =>
    simp only [suffixedValue]
    cases n with
    | zero => exact Post.andThen (Post.failure (fun _ => False) _) (fun r hr => hr.elim)
    | succ n =>
      simp only [primaryValue, h]
      refine Post.andThen (?_ : Post (fun r => (r.1.isAssignable || r.1.isCall) = true) _)
        (fun r hr => suffixedValueLoop_shape _ _ _ hr)
      exact PostL.andThenL (PostL.anyL _) (fun l1 _ => Post.result _ _ rfl)

/-- The loop that reads further targets keeps the targets it is given in front. -/
theorem targetsLoop_front : ∀ (n : Nat) (acc : List Node) (l : lexer),
    Post (fun r => ∃ ts, r.1 = acc ++ ts) (targetsLoop n acc l)
  | 0, _, _ => Post.failure _ _
  | n + 1, acc, l => by
    simp only [targetsLoop]
    split
    · refine PostL.andThenL (PostL.anyL _) (fun l1 _ => ?_)
      refine Post.andThen (Post.any _) (fun t _ => ?_)
      refine (targetsLoop_front n _ _).imp (fun r hr => ?_)
      obtain ⟨ts, h⟩ := hr
      exact ⟨t.1 :: ts, by rw [h]; simp⟩
    · exact Post.result _ _ ⟨[], by simp⟩

/-- A statement that starts with a name is a call or a plain assignment whose first
target is a name or a table access. -/
theorem name_statement_first_target (n : Nat) (l : lexer) (r : Parsed Node)
    (h : l.look.Typ = tknName) (hs : statement n l = .ok r) :
    r.1.isCall = true ∨
      ∃ b t ts vs, r.1 = .Assign b false false (t :: ts) vs ∧ t.isAssignable = true := by
  cases n with
  | zero => cases hs
  | succ n =>
    simp only [statement, h, bind_eq_ok] at hs
    obtain ⟨⟨id, l1⟩, hid, hs⟩ := hs
    have hshape := suffixedValue_shape n l h _ hid
    simp only at hs hshape
    cases id
    case FuncCall b rc f args =>
      simp only [pure_eq_ok] at hs
      subst hs
      exact .inl rfl
    case ConstIdent b v =>
      simp only [bind_eq_ok, pure_eq_ok] at hs
      obtain ⟨⟨ts, l2⟩, hts, l3, -, e, -, vs, -, rfl⟩ := hs
      obtain ⟨ts1, h1⟩ := targetsLoop_front n _ _ _ hts
      simp only [List.singleton_append] at h1
      subst h1
      exact .inr ⟨_, _, ts1, vs.1, rfl, rfl⟩
    case TableAccessor b o k =>
      simp only [bind_eq_ok, pure_eq_ok] at hs
      obtain ⟨⟨ts, l2⟩, hts, l3, -, e, -, vs, -, rfl⟩ := hs
      obtain ⟨ts1, h1⟩ := targetsLoop_front n _ _ _ hts
      simp only [List.singleton_append] at h1
      subst h1
      exact .inr ⟨_, _, ts1, vs.1, rfl, rfl⟩
    all_goals simp [Node.isAssignable, Node.isCall] at hshape

/-- C26, at `a, f() = 1` and `a, (b) = 1`: the assignment is read with the call, or the
parenthesised expression, as its second target and `Parse` returns it with no error,
where `f() = 1` and `(b) = 1` are refused. -/
theorem C26_call_target_accepted :
    Parse 92 callTargetTokens 1 =
      ([.Assign ⟨AssignNode, 1⟩ false false
          [.ConstIdent ⟨ConstIdentNode, 1⟩ "a",
            .FuncCall ⟨FuncCallNode, 1⟩ .nil (.ConstIdent ⟨ConstIdentNode, 1⟩ "f") []]
          [.ConstInt ⟨ConstIntNode, 1⟩ "1"]], none) ∧
    Parse 92 parenTargetTokens 1 =
      ([.Assign ⟨AssignNode, 1⟩ false false
          [.ConstIdent ⟨ConstIdentNode, 1⟩ "a",
            .Parens ⟨ParensNode, 1⟩ (.ConstIdent ⟨ConstIdentNode, 1⟩ "b")]
          [.ConstInt ⟨ConstIntNode, 1⟩ "1"]], none) ∧
    (Parse 68 callFirstTargetTokens 1).2 =
      some (.tokenExpected ⟨"=", tknSet, 1⟩ [tknName, tknOParen]) ∧
    (Parse 68 parenFirstTargetTokens 1).2 =
      some (.tokenExpected ⟨"=", tknSet, 1⟩ [tknOBracket, tknString, tknOParen]) :=
  ⟨rfl, rfl, rfl, rfl⟩

/-! ### C27: `Walk` on what the parser returns -/

theorem Node.covered_eq (n : Node) : n.covered = (n.hasCase && coveredList n.children) := by
  cases n
  case FuncCall b r f args =>
    cases r <;>
      simp [Node.covered, Node.hasCase, Node.children, coveredList, coveredList_append,
        Bool.and_assoc]
  all_goals
    simp [Node.covered, Node.hasCase, Node.children, coveredList, coveredList_append,
      Bool.and_assoc]

theorem WalkList_isPanic {σ γ : Type} (V : Visitor σ γ) (ns : List Node)
    (h : ∀ c ∈ ns, ∀ v g, (Walk V v c g).isPanic = !c.covered) :
    ∀ v g, (WalkList V v ns g).isPanic = !coveredList ns := by
  induction ns with
  | nil => intro v g; simp [WalkList_nil, coveredList, WalkRes.isPanic]
  | cons x xs ih =>
    intro v g
    have hx := h x (List.mem_cons_self _ _) v g
    have hxs := ih (fun c hc => h c (List.mem_cons_of_mem _ hc)) v
    rw [WalkList_cons]
    cases hw : Walk V v x g with
    | done g1 =>
      rw [hw] at hx
      have hc : x.covered = true := by simpa [WalkRes.isPanic] using hx
      simp [WalkRes.done_bind, hxs, coveredList, hc]
    | panic g1 =>
      rw [hw] at hx
      have hc : x.covered = false := by simpa [WalkRes.isPanic] using hx
      simp [WalkRes.panic_bind, coveredList, hc, WalkRes.isPanic]

theorem Walk_isPanic_aux {σ γ : Type} (V : Visitor σ γ)
    (hV : ∀ v n g, (V.Visit v n g).1 ≠ none) :
    ∀ (k : Nat) (n : Node), sizeOf n < k → ∀ v g, (Walk V v n g).isPanic = !n.covered := by
  intro k
  induction k with
  | zero => intro n h; omega
  | succ k ih =>
    intro n hk v g
    have hch : ∀ c ∈ n.children, ∀ v g, (Walk V v c g).isPanic = !c.covered := by
      intro c hcm
      have := n.sizeOf_children c hcm
      exact ih c (by omega)
    have hl := WalkList_isPanic V n.children hch
    rw [Walk_eq, n.covered_eq]
    rcases hvis : V.Visit v n g with ⟨_ | w, g1⟩
    · exact absurd (by rw [hvis]) (hV v n g)
    · simp only
      by_cases hc : n.hasCase = true
      · simp only [hc, if_true, Bool.true_and]
        rw [← hl w g1]
        cases WalkList V w n.children g1 with
        | done g2 => simp [WalkRes.done_bind, WalkRes.isPanic]
        | panic g2 => simp [WalkRes.panic_bind, WalkRes.isPanic]
      · have hc1 : n.hasCase = false := by simpa using hc
        simp [hc1, WalkRes.isPanic]

/-- For a visitor that never returns nil, `Walk` reaches the panic of the default branch
exactly on the trees that hold a Comment or an absent child other than the receiver of
a call. -/
theorem Walk_isPanic {σ γ : Type} (V : Visitor σ γ) (hV : ∀ v n g, (V.Visit v n g).1 ≠ none)
    (v : σ) (n : Node) (g : γ) : (Walk V v n g).isPanic = !n.covered :=
  Walk_isPanic_aux V hV (sizeOf n + 1) n (by omega) v g

/-- C27, at the sources `-- c`, `x = - 2` and `x = \x7b 1 \x7d`: `Parse` returns one
statement and no error, and for every visitor that never returns nil the walk of that
statement reaches the panic of the default branch; in general such a walk panics exactly
when the tree holds a Comment or an absent child other than the receiver of a call. -/
theorem C27_walk_panics_on_parser_output {σ γ : Type} (V : Visitor σ γ)
    (hV : ∀ v n g, (V.Visit v n g).1 ≠ none) (v : σ) (g : γ) :
    (∀ n : Node, (Walk V v n g).isPanic = !n.covered) ∧
    Parse 20 [⟨"-- c", tknComment, 1⟩] 1 = ([.Comment ⟨ErrNode, 1⟩ "-- c"], none) ∧
    (Walk V v (.Comment ⟨ErrNode, 1⟩ "-- c") g).isPanic = true ∧
    Parse 56 unaryAssignTokens 1 =
      ([.Assign ⟨AssignNode, 1⟩ false false [.ConstIdent ⟨ConstIdentNode, 1⟩ "x"]
          [.Operator ⟨OpNode, 1⟩ OpUMinus .nil (.ConstInt ⟨ConstIntNode, 1⟩ "2")]], none) ∧
    (Walk V v (.Assign ⟨AssignNode, 1⟩ false false [.ConstIdent ⟨ConstIdentNode, 1⟩ "x"]
        [.Operator ⟨OpNode, 1⟩ OpUMinus .nil (.ConstInt ⟨ConstIntNode, 1⟩ "2")]) g).isPanic
      = true ∧
    Parse 68 tableAssignTokens 1 =
      ([.Assign ⟨AssignNode, 1⟩ false false [.ConstIdent ⟨ConstIdentNode, 1⟩ "x"]
          [.TableConstructor ⟨TableConstructorNode, 1⟩ [.nil]
            [.ConstInt ⟨ConstIntNode, 1⟩ "1"]]], none) ∧
    (Walk V v (.Assign ⟨AssignNode, 1⟩ false false [.ConstIdent ⟨ConstIdentNode, 1⟩ "x"]
        [.TableConstructor ⟨TableConstructorNode, 1⟩ [.nil]
          [.ConstInt ⟨ConstIntNode, 1⟩ "1"]]) g).isPanic = true := by
  refine ⟨fun n => Walk_isPanic V hV v n g, rfl, ?_, rfl, ?_, rfl, ?_⟩
  · rw [Walk_isPanic V hV]; rfl
  · rw [Walk_isPanic V hV]; rfl
  · rw [Walk_isPanic V hV]; rfl

/-- C27 for the visitor that returns itself and records its calls: it never returns nil, and
its walk of the Comment statement panics. -/
theorem C27_walk_panics_on_parser_output_witness :
    (∀ (v : Unit) (n : Node) (g : List Node), (recorder.Visit v n g).1 ≠ none) ∧
    (Walk recorder () (.Comment ⟨ErrNode, 1⟩ "-- c") []).isPanic = true :=
  ⟨(fun _ _ _ h => nomatch h),
    (C27_walk_panics_on_parser_output recorder (fun _ _ _ h => nomatch h) () []).2.2.1⟩

/-! ### C28: `insert` and `remove` -/

theorem copyWithin_shift (b : List Node) (x : Node) (k : Nat) (hk : k < b.length) :
    copyWithin (b ++ [x]) (k + 1) k = b.take (k + 1) ++ b.drop k := by
  have h1 : min ((b ++ [x]).length - (k + 1)) ((b ++ [x]).length - k) = b.length - k := by
    simp only [List.length_append, List.length_singleton]
    omega
  simp only [copyWithin, h1]
  have h2 : k + 1 + (b.length - k) = (b ++ [x]).length := by
    simp only [List.length_append, List.length_singleton]
    omega
  rw [h2, List.drop_length, List.append_nil, List.take_append_of_le_length (by omega),
    List.drop_append_of_le_length (by omega),
    List.take_append_of_le_length (by simp only [List.length_drop]; omega)]
  congr 1
  exact List.take_of_length_le (by simp only [List.length_drop]; omega)

/-- With a valid index `insert` puts the statement in front of the element at that index. -/
theorem insert_valid (b : List Node) (k : Nat) (s : Node) (hk : k < b.length) :
    ast.insert b (k : Int) s = b.take k ++ s :: b.drop k := by
  have h : ¬ ((k : Int) < 0 ∨ (k : Int) ≥ (b.length : Int)) := by omega
  have hl : (List.take k b).length = k := by simp only [List.length_take]; omega
  simp only [ast.insert, h, if_false, Int.toNat_ofNat, copyWithin_shift b .nil k hk]
  rw [List.take_succ, List.getElem?_eq_getElem hk]
  simp only [Option.toList, List.append_assoc, List.singleton_append]
  rw [List.set_append_right _ _ (by omega), hl, Nat.sub_self, List.set_cons_zero]

/-- With an invalid index `insert` appends the statement. -/
theorem insert_invalid (b : List Node) (i : Int) (s : Node)
    (h : i < 0 ∨ (b.length : Int) ≤ i) : ast.insert b i s = b ++ [s] := by
  have h1 : i < 0 ∨ i ≥ (b.length : Int) := h
  simp only [ast.insert, h1, if_true]

/-- With an invalid index `remove` returns its block. -/
theorem remove_invalid (b : List Node) (i : Int) (h : i < 0 ∨ (b.length : Int) ≤ i) :
    remove b i = b := by
  have h1 : i < 0 ∨ i ≥ (b.length : Int) := h
  simp only [remove, h1, if_true]

/-- With a valid index `remove` drops the element at that index. -/
theorem remove_valid (b : List Node) (k : Nat) (hk : k < b.length) :
    remove b (k : Int) = b.take k ++ b.drop (k + 1) := by
  have h : ¬ ((k : Int) < 0 ∨ (k : Int) ≥ (b.length : Int)) := by omega
  simp only [remove, h, if_false, Int.toNat_ofNat]
  split
  · rename_i h1
    have : k + 1 = b.length := by omega
    rw [this, List.drop_length, List.append_nil]
  · rfl

theorem take_drop_succ_insert (b : List Node) (k : Nat) (s : Node) (hk : k ≤ b.length) :
    (b.take k ++ s :: b.drop k).take k ++ (b.take k ++ s :: b.drop k).drop (k + 1) = b := by
  have hl : (List.take k b).length = k := by simp only [List.length_take]; omega
  rw [List.take_append_of_le_length (by omega), List.take_of_length_le (by omega),
    List.drop_append_eq_append_drop, List.drop_of_length_le (by omega), hl]
  simp only [Nat.add_sub_cancel_left, List.drop_succ_cons, List.drop_zero, List.nil_append,
    List.take_append_drop]

/-- C28: `insert` returns a block one longer, with the statement in front of the element at a
valid index, the elements before it unchanged and the others one place later, or at
the end for an invalid index; `remove` at the index of the statement gives the block
back, and `remove` with an invalid index returns its block. -/
theorem C28_insert_remove (b : List Node) (at_ : Int) (s : Node) :
    (ast.insert b at_ s).length = b.length + 1 ∧
    (0 ≤ at_ → at_ < (b.length : Int) →
      ast.insert b at_ s = b.take at_.toNat ++ s :: b.drop at_.toNat ∧
      (ast.insert b at_ s)[at_.toNat]? = some s ∧
      (∀ i : Nat, i < at_.toNat → (ast.insert b at_ s)[i]? = b[i]?) ∧
      (∀ i : Nat, at_.toNat ≤ i → (ast.insert b at_ s)[i + 1]? = b[i]?)) ∧
    (at_ < 0 ∨ (b.length : Int) ≤ at_ →
      ast.insert b at_ s = b ++ [s] ∧ (ast.insert b at_ s)[b.length]? = some s) ∧
    remove (ast.insert b at_ s) (insertedAt b at_) = b ∧
    (∀ i : Int, i < 0 ∨ (b.length : Int) ≤ i → remove b i = b) := by
  have hvalid : 0 ≤ at_ → at_ < (b.length : Int) →
      ast.insert b at_ s = b.take at_.toNat ++ s :: b.drop at_.toNat := by
    intro h0 h1
    obtain ⟨k, rfl⟩ := Int.eq_ofNat_of_zero_le h0
    exact insert_valid b k s (by omega)
  refine ⟨?_, ?_, ?_, ?_, remove_invalid b⟩
  · by_cases h : 0 ≤ at_ ∧ at_ < (b.length : Int)
    · rw [hvalid h.1 h.2]
      simp only [List.length_append, List.length_take, List.length_cons, List.length_drop]
      omega
    · rw [insert_invalid b at_ s (by omega)]
      simp
  · intro h0 h1
    obtain ⟨k, rfl⟩ := Int.eq_ofNat_of_zero_le h0
    have hk : k < b.length := by omega
    have hl : (List.take k b).length = k := by simp only [List.length_take]; omega
    rw [hvalid h0 h1]
    simp only [Int.toNat_ofNat]
    refine ⟨trivial, ?_, ?_, ?_⟩
    · rw [List.getElem?_append_right (by omega), hl, Nat.sub_self]
      simp
    · intro i hi
      rw [List.getElem?_append_left (by omega), List.getElem?_take_of_lt hi]
    · intro i hi
      rw [List.getElem?_append_right (by omega), hl]
      have : i + 1 - k = (i - k) + 1 := by omega
      rw [this, List.getElem?_cons_succ, List.getElem?_drop]
      congr 1
      omega
  · intro h
    rw [insert_invalid b at_ s h]
    exact ⟨rfl, by simp⟩
  · by_cases h : 0 ≤ at_ ∧ at_ < (b.length : Int)
    · obtain ⟨k, rfl⟩ := Int.eq_ofNat_of_zero_le h.1
      have hk : k < b.length := by omega
      have hlen : k < (b.take k ++ s :: b.drop k).length := by
        simp only [List.length_append, List.length_take, List.length_cons, List.length_drop]
        omega
      simp only [insertedAt, h, and_self, if_true]
      rw [insert_valid b k s hk, remove_valid _ k hlen]
      exact take_drop_succ_insert b k s (by omega)
    · simp only [insertedAt, h, if_false]
      rw [insert_invalid b at_ s (by omega)]
      have hlen : b.length < (b ++ [s]).length := by simp
      rw [remove_valid _ b.length hlen]
      simp

/-- C28 on a block of two statements: the statement inserted at index 1 is removed again. -/
theorem C28_insert_remove_witness :
    ast.insert [.ConstNil {}, .ConstVariadic {}] 1 (.Comment {} "c") =
      [.ConstNil {}, .Comment {} "c", .ConstVariadic {}] ∧
    remove [.ConstNil {}, .Comment {} "c", .ConstVariadic {}] 1 =
      [.ConstNil {}, .ConstVariadic {}] ∧
    ast.insert [.ConstNil {}, .ConstVariadic {}] 7 (.Comment {} "c") =
      [.ConstNil {}, .ConstVariadic {}, .Comment {} "c"] ∧
    remove (ast.insert [.ConstNil {}, .ConstVariadic {}] 1 (.Comment {} "c"))
      (insertedAt [.ConstNil {}, .ConstVariadic {}] 1) = [.ConstNil {}, .ConstVariadic {}] :=
  ⟨rfl, rfl, rfl,
    (C28_insert_remove [.ConstNil {}, .ConstVariadic {}] 1 (.Comment {} "c")).2.2.2.1⟩

end ast
